import Mathlib

/-!
# node-scaling: the dispatcher and its worker pool

A shallow embedding of `src/lib/dispatcher.js` and `src/lib/worker-node.js`.

JavaScript objects have identity, so `WorkerNode` objects live in a heap (a list
indexed by address) and the registry `Dispatcher.nodes` (a JS `Map`, which keeps
insertion order and has unique keys) is an association list from worker id to
address.  Readings of `Date.now()` and of `Math.random()` are inputs of the
operations that perform them, and `config.scaling.maxNodes`, which is not part of
the sources, is a field of the dispatcher state.  The diagnostic `logs` buffer,
console output and the field `taskQueue` are not modelled: no operation reads
them.
-/

namespace NodeScaling

/-! ## Data model -/

deriving instance DecidableEq for Except

/-- The two values ever assigned to `WorkerNode.status`. -/
inductive Status where
  | idle
  | busy
  deriving DecidableEq, Repr

/-- A task object as the dispatcher and the workers read it. -/
structure Task where
  id : Option Nat
  nodeType : Option String
  tool : Option String
  instruction : String
  input : Option String
  context : Option String
  options : Option String
  originalIndex : Option Nat
  deriving DecidableEq, Repr

/-- What a tool call resolves to: an object that may carry its own `success`
flag, and the rest of it. -/
structure ToolValue where
  success : Option Bool
  data : String
  deriving DecidableEq, Repr

/-- The value bound to `result` in `WorkerNode.execute`: what the tool returned,
or the object `{ response }` built by `executeLLM`. -/
inductive Payload where
  | tool (value : ToolValue)
  | response (text : String)
  deriving DecidableEq, Repr

/-- The object returned by `WorkerNode.execute`: `result` is present on the
success path and `error` on the failure path. -/
structure TaskResult where
  nodeId : String
  nodeType : String
  taskId : Option Nat
  success : Bool
  result : Option Payload
  error : Option String
  durationMs : Int
  deriving DecidableEq, Repr

/-- The own properties that `initializeTools` puts on `this.tools`. -/
def initializeTools (nodeType : String) : List String :=
  if nodeType = "search" then ["web_search"]
  else if nodeType = "fetch" then ["web_fetch"]
  else if nodeType = "analyze" then ["analyze"]
  else if nodeType = "extract" then ["extract"]
  else if nodeType = "synthesize" then ["synthesize"]
  else []

/-- The mutable fields of a `WorkerNode` object. -/
structure WorkerNode where
  id : String
  nodeType : String
  status : Status
  currentTask : Option Task
  completedTasks : Nat
  totalDuration : Int
  tools : List String
  deriving DecidableEq, Repr

/-- The constructor `new WorkerNode(id, nodeType)`. -/
def WorkerNode.new (id nodeType : String) : WorkerNode :=
  { id := id, nodeType := nodeType, status := Status.idle, currentTask := none,
    completedTasks := 0, totalDuration := 0, tools := initializeTools nodeType }

/-! ## The registry: a JS `Map` from id to worker object -/

/-- The call `Map.prototype.set`: an existing key keeps its position and
gets the new value, a new key is appended. -/
def mapSet : List (String × Nat) → String → Nat → List (String × Nat)
  | [], k, v => [(k, v)]
  | (k', v') :: rest, k, v =>
    if k' = k then (k, v) :: rest else (k', v') :: mapSet rest k v

/-- The call `Map.prototype.delete`. -/
def mapDelete (m : List (String × Nat)) (k : String) : List (String × Nat) :=
  m.filter (fun e => decide (e.1 ≠ k))

/-- The state of a `Dispatcher` together with the worker objects it has
constructed. `heap[r]` is the worker object at address `r`. -/
structure Dispatcher where
  heap : List WorkerNode
  nodes : List (String × Nat)
  results : List (Nat × TaskResult)
  nextTaskId : Nat
  maxNodes : Nat
  deriving DecidableEq, Repr

/-- The constructor `new Dispatcher()`, with `config.scaling.maxNodes` given. -/
def Dispatcher.new (maxNodes : Nat) : Dispatcher :=
  { heap := [], nodes := [], results := [], nextTaskId := 1, maxNodes := maxNodes }

/-- Test `node.status === 'idle'` on the object at address `r`. -/
def isIdle (heap : List WorkerNode) (r : Nat) : Bool :=
  match heap[r]? with
  | some w => decide (w.status = Status.idle)
  | none => false

/-- Test `node.status === 'idle' && node.nodeType === nodeType`. -/
def isIdleOfType (heap : List WorkerNode) (nodeType : String) (r : Nat) : Bool :=
  match heap[r]? with
  | some w => decide (w.status = Status.idle) && decide (w.nodeType = nodeType)
  | none => false

/-- Test `node.status === 'busy'` on the object at address `r`. -/
def isBusy (heap : List WorkerNode) (r : Nat) : Bool :=
  match heap[r]? with
  | some w => decide (w.status = Status.busy)
  | none => false

/-- The state after `new WorkerNode(id, nodeType)` and `nodes.set(id, node)`
on the registry `m`. -/
def Dispatcher.register (d : Dispatcher) (m : List (String × Nat)) (id nodeType : String) :
    Dispatcher :=
  { d with heap := d.heap ++ [WorkerNode.new id nodeType], nodes := mapSet m id d.heap.length }

/-- The id template of `getOrCreateNode`; `rnd` is the value of
`Math.random().toString(36).substr(2, 4)`. -/
def mkId (nodeType : String) (now : Nat) (rnd : String) : String :=
  nodeType ++ "-" ++ toString now ++ "-" ++ rnd

/-- The message of the error thrown by `getOrCreateNode`. -/
def noAvailableNodes (maxNodes : Nat) : String :=
  "No available nodes (all " ++ toString maxNodes ++ " busy)"

/-- The method `Dispatcher.getOrCreateNode(nodeType)`. Returns the state after
the call and either the address of the returned worker or the thrown message. -/
def getOrCreateNode (d : Dispatcher) (nodeType : String) (now : Nat) (rnd : String) :
    Dispatcher × Except String Nat :=
  match d.nodes.find? (fun e => isIdleOfType d.heap nodeType e.2) with
  | some e => (d, Except.ok e.2)
  | none =>
    if d.nodes.length < d.maxNodes then
      (d.register d.nodes (mkId nodeType now rnd) nodeType, Except.ok d.heap.length)
    else
      match d.nodes.find? (fun e => isIdle d.heap e.2) with
      | some e =>
        (d.register (mapDelete d.nodes e.1) (mkId nodeType now rnd) nodeType,
          Except.ok d.heap.length)
      | none => (d, Except.error (noAvailableNodes d.maxNodes))

/-- Well-formed state: registry keys are unique (it is a `Map`), distinct
keys hold distinct objects, every entry refers to an allocated object, and every
worker object carries the tool table its constructor gave it. -/
def Dispatcher.WF (d : Dispatcher) : Prop :=
  (d.nodes.map Prod.fst).Nodup ∧ (d.nodes.map Prod.snd).Nodup ∧
    (∀ e ∈ d.nodes, e.2 < d.heap.length) ∧
    ∀ w ∈ d.heap, w.tools = initializeTools w.nodeType

instance (d : Dispatcher) : Decidable d.WF := by
  unfold Dispatcher.WF; infer_instance

/-- The counts reported by `Dispatcher.getStatus`. -/
structure PoolStatus where
  totalNodes : Nat
  maxNodes : Nat
  idle : Nat
  busy : Nat
  deriving DecidableEq, Repr

/-- The method `Dispatcher.getStatus` (without the `byType` table). -/
def getStatus (d : Dispatcher) : PoolStatus :=
  { totalNodes := d.nodes.length, maxNodes := d.maxNodes,
    idle := (d.nodes.filter (fun e => isIdle d.heap e.2)).length,
    busy := (d.nodes.filter (fun e => isBusy d.heap e.2)).length }

/-! ## WorkerNode.execute -/

/-- The collaborators of a worker, which are not part of the sources and are
taken as parameters: the system prompt configured for a class, the tool
functions, and the completion client. As in the collaborator contracts of the
spec, a call either resolves to a value or fails with an error, which carries a
message. The task is passed along so that outcomes may differ from task to
task. -/
structure Env where
  systemPrompt : String → String
  invokeTool : String → Task → Except String ToolValue
  complete : Task → String → Except String String

/-- Property names every object literal inherits from `Object.prototype`; the
lookup `this.tools[name]` finds them too. -/
def objectPrototypeKeys : List String :=
  ["constructor", "__defineGetter__", "__defineSetter__", "hasOwnProperty",
   "__lookupGetter__", "__lookupSetter__", "isPrototypeOf", "propertyIsEnumerable",
   "toString", "valueOf", "__proto__", "toLocaleString"]

/-- Truthiness of an optional string field. -/
def truthy : Option String → Bool
  | some s => decide (s ≠ "")
  | none => false

/-- Test `this.tools[name]` for a non-empty `name`. -/
def WorkerNode.toolsLookup (w : WorkerNode) (name : String) : Bool :=
  decide (name ∈ w.tools) || decide (name ∈ objectPrototypeKeys)

/-- The condition `task.tool && this.tools[task.tool]` of `execute`. -/
def WorkerNode.hasTool (w : WorkerNode) (task : Task) : Bool :=
  match task.tool with
  | some name => decide (name ≠ "") && w.toolsLookup name
  | none => false

/-- The method `WorkerNode.executeTool`. -/
def WorkerNode.executeTool (env : Env) (w : WorkerNode) (toolName : String) (task : Task) :
    Except String ToolValue :=
  if w.toolsLookup toolName then env.invokeTool toolName task
  else Except.error ("Tool '" ++ toolName ++ "' not available on " ++ w.nodeType ++ " node")

/-- The prompt composed by `executeLLM` (for a string `input`). -/
def executeLLMPrompt (systemPrompt : String) (task : Task) : String :=
  systemPrompt ++ "\n\nTask: " ++ task.instruction ++ "\n\n"
    ++ (if truthy task.context then "Context:\n" ++ task.context.getD "" else "") ++ "\n"
    ++ (if truthy task.input then "Input:\n" ++ task.input.getD "" else "")
    ++ "\n\nProvide a focused, high-quality response."

/-- The method `WorkerNode.executeLLM`. -/
def WorkerNode.executeLLM (env : Env) (w : WorkerNode) (task : Task) : Except String Payload :=
  match env.complete task (executeLLMPrompt (env.systemPrompt w.nodeType) task) with
  | Except.ok text => Except.ok (Payload.response text)
  | Except.error msg => Except.error msg

/-- The body of the `try` block of `execute` up to the binding of `result`. -/
def WorkerNode.collaborate (env : Env) (w : WorkerNode) (task : Task) : Except String Payload :=
  if w.hasTool task then
    match w.executeTool env (task.tool.getD "") task with
    | Except.ok v => Except.ok (Payload.tool v)
    | Except.error msg => Except.error msg
  else w.executeLLM env task

/-- The part of `execute` that runs before the collaborator is awaited. -/
def WorkerNode.executeBegin (w : WorkerNode) (task : Task) : WorkerNode :=
  { w with status := Status.busy, currentTask := some task }

/-- The part of `execute` that runs once the collaborator has settled with
`outcome`: the rest of the `try` block, or the `catch` block. -/
def WorkerNode.executeEnd (w : WorkerNode) (task : Task) (startTime now : Nat)
    (outcome : Except String Payload) : WorkerNode × TaskResult :=
  let duration : Int := (now : Int) - (startTime : Int)
  match outcome with
  | Except.ok result =>
    ({ w with completedTasks := w.completedTasks + 1,
              totalDuration := w.totalDuration + duration,
              status := Status.idle, currentTask := none },
     { nodeId := w.id, nodeType := w.nodeType, taskId := task.id, success := true,
       result := some result, error := none, durationMs := duration })
  | Except.error message =>
    ({ w with status := Status.idle, currentTask := none },
     { nodeId := w.id, nodeType := w.nodeType, taskId := task.id, success := false,
       result := none, error := some message, durationMs := duration })

/-- The method `WorkerNode.execute(task)` run from start (clock `startTime`) to
its return (clock `now`) with nothing interleaved. -/
def WorkerNode.execute (env : Env) (w : WorkerNode) (task : Task) (startTime now : Nat) :
    WorkerNode × TaskResult :=
  let busy := w.executeBegin task
  busy.executeEnd task startTime now (busy.collaborate env task)

/-! ## Acquisitions interleaved with task starts and completions -/

/-- What can happen to a pool: an acquisition, the start of `execute` on some
worker object, or the return of `execute` on some worker object. -/
inductive PoolEvent where
  | acquire (nodeType : String) (now : Nat) (rnd : String)
  | start (node : Nat) (task : Task)
  | finish (node : Nat) (task : Task) (startTime now : Nat) (outcome : Except String Payload)

/-- Replace the object at address `r`. -/
def heapUpdate (heap : List WorkerNode) (r : Nat) (f : WorkerNode → WorkerNode) :
    List WorkerNode :=
  match heap[r]? with
  | some w => heap.set r (f w)
  | none => heap

/-- The effect of one pool event on the dispatcher state. -/
def Dispatcher.apply (d : Dispatcher) : PoolEvent → Dispatcher
  | PoolEvent.acquire nodeType now rnd => (getOrCreateNode d nodeType now rnd).1
  | PoolEvent.start node task =>
    { d with heap := heapUpdate d.heap node (fun w => w.executeBegin task) }
  | PoolEvent.finish node task startTime now outcome =>
    let f := fun (w : WorkerNode) => (w.executeEnd task startTime now outcome).1
    { d with heap := heapUpdate d.heap node f }

/-- The state after a sequence of pool events. -/
def Dispatcher.applyAll (d : Dispatcher) (evs : List PoolEvent) : Dispatcher :=
  evs.foldl Dispatcher.apply d

/-- The number of worker objects whose status is busy, whether the registry
still holds them or not. -/
def busyWorkers (d : Dispatcher) : Nat :=
  (d.heap.filter (fun w => decide (w.status = Status.busy))).length

/-! ## executeParallel

`executeParallel` is an async function: between two of its synchronous
stretches the continuations of the in-flight `execute` calls may run. A run is a
sequence of events, each one synchronous stretch:

* `next`: `executeNext` resumes and runs until it suspends again;
* `settle i`: the collaborator awaited by the i-th in-flight `execute`
  settles and `execute` runs to its `return`;
* `deliver i`: the wrapper around the i-th in-flight `execute` resumes,
  stores the result and leaves the `executing` set.

All `Date.now()` readings of one stretch are the same value. The locals
`tasksByType`, `typeCount` and `nodesPerType` are computed and never read, and are
left out.
-/

/-- The expression `task.nodeType || 'analyze'`. -/
def Task.nodeTypeOr (task : Task) : String :=
  match task.nodeType with
  | some s => if s = "" then "analyze" else s
  | none => "analyze"

/-- The object `{ ...t, originalIndex: i, id }` built for `pending`. -/
def Task.tag (t : Task) (i id : Nat) : Task :=
  { t with originalIndex := some i, id := some id }

/-- The list `tasks.map((t, i) => ({ ...t, originalIndex: i, id: this.nextTaskId++ }))`,
for the tasks from index `i` on when the counter stands at `id`. -/
def tagTasks : List Task → Nat → Nat → List Task
  | [], _, _ => []
  | t :: ts, i, id => t.tag i id :: tagTasks ts (i + 1) (id + 1)

/-- The outcome of one pass through the loop of `waitForNode`. -/
inductive Waited where
  | resolved (node : Nat)
  | sleeping
  | timedOut (msg : String)

/-- One pass through the loop of `waitForNode(nodeType)` (with the default
`timeoutMs = 30000`), entered at clock `start` and now at clock `now`. -/
def waitForNode (d : Dispatcher) (nodeType : String) (start now : Nat) (rnd : String) :
    Dispatcher × Waited :=
  if now - start < 30000 then
    let r := getOrCreateNode d nodeType now rnd
    match r.2 with
    | Except.ok node => (r.1, Waited.resolved node)
    | Except.error _ => (r.1, Waited.sleeping)
  else (d, Waited.timedOut ("Timeout waiting for " ++ nodeType ++ " node"))

/-- A member of the `executing` set: a started `execute` call, with its Task
Result once `execute` has returned. -/
structure InFlight where
  task : Task
  node : Nat
  startTime : Nat
  settled : Option TaskResult
  deriving DecidableEq, Repr

/-- Where `executeNext` is suspended. -/
inductive Ctl where
  | ready
  | acquired (task : Task) (node : Nat)
  | waiting (task : Task) (start : Nat)
  | done
  | raised (msg : String) (task : Task)
  deriving DecidableEq, Repr

/-- The task that `executeNext` has shifted from `pending` and not yet started:
the one it holds a worker for, waits for a worker for, or gave up on. -/
def Ctl.held : Ctl → Option Task
  | Ctl.ready => none
  | Ctl.acquired task _ => some task
  | Ctl.waiting task _ => some task
  | Ctl.done => none
  | Ctl.raised _ task => some task

/-- The state of one `executeParallel` call. `ready` is the suspension at
`Promise.race` (and the state before the first stretch); `acquired` is the
suspension at `await this.waitForNode(...)` once it has resolved; `waiting` is
the sleep inside `waitForNode`; `raised` is the rejection of `executeNext` by
the error `waitForNode` threw for `task`. -/
structure Batch where
  disp : Dispatcher
  startTime : Nat
  pending : List Task
  executing : List InFlight
  results : List (Option TaskResult)
  ctl : Ctl
  deriving DecidableEq, Repr

/-- The state set up by `executeParallel(tasks)` before `executeNext` runs. -/
def Batch.init (d : Dispatcher) (tasks : List Task) (now : Nat) : Batch :=
  { disp := { d with nextTaskId := d.nextTaskId + tasks.length },
    startTime := now,
    pending := tagTasks tasks 0 d.nextTaskId,
    executing := [],
    results := List.replicate tasks.length none,
    ctl := Ctl.ready }

/-- The assignment `results[i] = v` on a JS array with holes. -/
def arraySet (a : List (Option TaskResult)) (i : Nat) (v : TaskResult) :
    List (Option TaskResult) :=
  if i < a.length then a.set i (some v)
  else a ++ List.replicate (i - a.length) none ++ [some v]

/-- The wrapper started for `task` on `node`: `execute` runs up to its first
`await` and the promise joins `executing`; `executeNext` is back in its loop. -/
def Batch.startExecute (b : Batch) (task : Task) (node : Nat) (now : Nat) : Batch :=
  let heap := heapUpdate b.disp.heap node (fun w => w.executeBegin task)
  let fl : InFlight := { task := task, node := node, startTime := now, settled := none }
  { b with disp := { b.disp with heap := heap }, executing := b.executing ++ [fl],
           ctl := Ctl.ready }

/-- Where `executeNext` stands after a pass of `waitForNode` for `task`: it
holds the resolved node, sleeps inside `waitForNode`, or has thrown. -/
def Waited.toCtl (task : Task) (start : Nat) : Waited → Ctl
  | Waited.resolved node => Ctl.acquired task node
  | Waited.sleeping => Ctl.waiting task start
  | Waited.timedOut msg => Ctl.raised msg task

/-- The loop of `executeNext` from its head to its next suspension. -/
def Batch.head (b : Batch) (now : Nat) (rnd : String) : Batch :=
  match b.pending with
  | [] =>
    if b.executing.isEmpty then { b with ctl := Ctl.done } else { b with ctl := Ctl.ready }
  | task :: rest =>
    if b.executing.length < b.disp.maxNodes then
      let r := waitForNode b.disp task.nodeTypeOr now now rnd
      { b with disp := r.1, pending := rest, ctl := r.2.toCtl task now }
    else { b with ctl := Ctl.ready }

/-- One synchronous stretch of `executeNext`. -/
def Batch.executeNext (b : Batch) (now : Nat) (rnd : String) : Batch :=
  match b.ctl with
  | Ctl.ready => b.head now rnd
  | Ctl.acquired task node => (b.startExecute task node now).head now rnd
  | Ctl.waiting task start =>
    let r := waitForNode b.disp task.nodeTypeOr start now rnd
    { b with disp := r.1, ctl := r.2.toCtl task start }
  | Ctl.done => b
  | Ctl.raised _ _ => b

/-- The writes of a returning `execute`: the worker object at `fl.node`
becomes `out.1` and the i-th in-flight call holds the Task Result `out.2`. -/
def Batch.settleWith (b : Batch) (i : Nat) (fl : InFlight) (out : WorkerNode × TaskResult) :
    Batch :=
  { b with disp := { b.disp with heap := b.disp.heap.set fl.node out.1 },
           executing := b.executing.set i { fl with settled := some out.2 } }

/-- The i-th in-flight `execute` runs from its `await` to its `return`. -/
def Batch.settle (env : Env) (b : Batch) (i : Nat) (now : Nat) : Batch :=
  match b.executing[i]? with
  | some fl =>
    match fl.settled with
    | some _ => b
    | none =>
      match b.disp.heap[fl.node]? with
      | some w =>
        b.settleWith i fl (w.executeEnd fl.task fl.startTime now (w.collaborate env fl.task))
      | none => b
  | none => b

/-- The wrapper of the i-th in-flight `execute` resumes:
`results[task.originalIndex] = result; executing.delete(promise)`. -/
def Batch.deliver (b : Batch) (i : Nat) : Batch :=
  match b.executing[i]? with
  | some fl =>
    match fl.settled with
    | some res =>
      let results :=
        match fl.task.originalIndex with
        | some idx => arraySet b.results idx res
        | none => b.results
      { b with results := results, executing := b.executing.eraseIdx i }
    | none => b
  | none => b

/-- The events of a run. -/
inductive BatchEvent where
  | next (now : Nat) (rnd : String)
  | settle (i : Nat) (now : Nat)
  | deliver (i : Nat)
  deriving DecidableEq, Repr

/-- The effect of one event. An event that cannot occur in the state (no such
in-flight call, or `executeNext` has returned) leaves it unchanged. -/
def Batch.step (env : Env) (b : Batch) : BatchEvent → Batch
  | BatchEvent.next now rnd => b.executeNext now rnd
  | BatchEvent.settle i now => b.settle env i now
  | BatchEvent.deliver i => b.deliver i

/-- The state after a sequence of events. -/
def Batch.run (env : Env) (b : Batch) (evs : List BatchEvent) : Batch :=
  evs.foldl (Batch.step env) b

/-- The object returned by `executeParallel` (without `parallelEfficiency`). -/
structure BatchResult where
  success : Bool
  results : List (Option TaskResult)
  totalDurationMs : Int
  deriving DecidableEq, Repr

/-- The callback `r => r?.success` of `every`, which skips holes. -/
def succeeded : Option TaskResult → Bool
  | some r => r.success
  | none => true

/-- The return value computed once `executeNext` has returned, at clock `now`. -/
def Batch.summary (b : Batch) (now : Nat) : BatchResult :=
  { success := b.results.all succeeded,
    results := b.results,
    totalDurationMs := (now : Int) - (b.startTime : Int) }

/-! ### Scheduling

Which events can occur in a state, and a driver that lets a schedule choose
among them until none is left. -/

/-- Whether `executeNext` can run: it has not returned or thrown and it is not
blocked at `Promise.race` with nothing to admit. -/
def Batch.nextEnabled (b : Batch) : Bool :=
  match b.ctl with
  | Ctl.ready =>
    !((b.pending.isEmpty || decide (b.disp.maxNodes ≤ b.executing.length))
      && !b.executing.isEmpty)
  | Ctl.acquired _ _ => true
  | Ctl.waiting _ _ => true
  | Ctl.done => false
  | Ctl.raised _ _ => false

/-- Whether the i-th in-flight call is still awaiting its collaborator. -/
def Batch.canSettle (b : Batch) (i : Nat) : Bool :=
  match b.executing[i]? with
  | some fl => fl.settled.isNone && (b.disp.heap[fl.node]?).isSome
  | none => false

/-- Whether the i-th in-flight call has returned and awaits delivery. -/
def Batch.canDeliver (b : Batch) (i : Nat) : Bool :=
  match b.executing[i]? with
  | some fl => fl.settled.isSome
  | none => false

/-- A kind of event, the clock and random readings left open. -/
inductive Move where
  | next
  | settle (i : Nat)
  | deliver (i : Nat)
  deriving DecidableEq, Repr

/-- The events that can occur in a state. -/
def Batch.moves (b : Batch) : List Move :=
  (if b.nextEnabled then [Move.next] else [])
    ++ ((List.range b.executing.length).filter b.canSettle).map Move.settle
    ++ ((List.range b.executing.length).filter b.canDeliver).map Move.deliver

/-- The event of a move at given readings. -/
def Move.toEvent (now : Nat) (rnd : String) : Move → BatchEvent
  | Move.next => BatchEvent.next now rnd
  | Move.settle i => BatchEvent.settle i now
  | Move.deliver i => BatchEvent.deliver i

/-- A schedule resolves all nondeterminism of a run: at step `n` it picks
which of the possible events occurs, and gives the clock and random readings. -/
structure Schedule where
  pick : Nat → Nat
  clock : Nat → Nat
  random : Nat → String

/-- Run under a schedule for at most `fuel` events, from step number `n`. -/
def Batch.drive (env : Env) (s : Schedule) : Nat → Nat → Batch → Batch
  | 0, _, b => b
  | fuel + 1, n, b =>
    match b.moves with
    | [] => b
    | m :: ms =>
      let mv := (m :: ms).getD (s.pick n % (ms.length + 1)) m
      Batch.drive env s fuel (n + 1) (b.step env (mv.toEvent (s.clock n) (s.random n)))

/-- How an `executeParallel` call stands. -/
inductive Outcome where
  | returned (d : Dispatcher) (r : BatchResult)
  | threw (msg : String)
  | running
  deriving DecidableEq, Repr

/-- The call `executeParallel(tasks)` at clock `s.clock 0` under schedule `s`,
observed after at most `fuel` events; `finish` is the clock when it returns. -/
def executeParallel (env : Env) (s : Schedule) (fuel : Nat) (finish : Nat) (d : Dispatcher)
    (tasks : List Task) : Outcome :=
  let b := Batch.drive env s fuel 1 (Batch.init d tasks (s.clock 0))
  match b.ctl with
  | Ctl.done => Outcome.returned b.disp (b.summary finish)
  | Ctl.raised msg _ => Outcome.threw msg
  | _ => Outcome.running

/-! ### What a run must deliver -/

/-- The class-`analyze` collaborators used in the examples: the completion
call fails with `boom` for the instruction `bad` and succeeds otherwise. -/
def envBoom : Env :=
  { systemPrompt := fun _ => "You are a worker.",
    invokeTool := fun _ _ => Except.error "tool down",
    complete := fun t _ =>
      if t.instruction = "bad" then Except.error "boom" else Except.ok "fine" }

/-- The collaborator outcome of executing `task` on a worker of its class. -/
def taskOutcome (env : Env) (task : Task) : Except String Payload :=
  (WorkerNode.new "" task.nodeTypeOr).collaborate env task

/-- Whether the collaborator call of `task` fails. -/
def taskFails (env : Env) (task : Task) : Bool :=
  match taskOutcome env task with
  | Except.ok _ => false
  | Except.error _ => true

/-- The payload of a successful outcome. -/
def payloadOf : Except String Payload → Option Payload
  | Except.ok p => some p
  | Except.error _ => none

/-- The message of a failed outcome. -/
def messageOf : Except String Payload → Option String
  | Except.ok _ => none
  | Except.error m => some m

/-- The Task Result `r` reports the execution of `task` on a worker of the
task's class: it carries the task's id, that class, and the outcome of the
task's collaborator call. -/
def TaskResult.isFor (env : Env) (task : Task) (r : TaskResult) : Prop :=
  r.taskId = task.id ∧ r.nodeType = task.nodeTypeOr ∧
  r.success = !taskFails env task ∧
  r.result = payloadOf (taskOutcome env task) ∧
  r.error = messageOf (taskOutcome env task)

/-- Every task of the list carries its position as `originalIndex`. -/
def Indexed (tagged : List Task) : Prop :=
  ∀ (j : Nat) (t : Task), tagged[j]? = some t → t.originalIndex = some j

/-- Slot `i` of the results array has been written. -/
def Batch.filled (b : Batch) (i : Nat) : Prop :=
  ∃ r, b.results[i]? = some (some r)

/-- The bookkeeping invariant of an `executeParallel` run over the tagged task
list `tagged`, on any well-formed pool. The first `k` tasks have left
`pending`; each of them is in exactly one place: held by `executeNext`, in
flight, or delivered into its slot of the results array, and a written slot
holds the Task Result of its task. -/
structure Batch.Core (env : Env) (tagged : List Task) (b : Batch) : Prop where
  wf : b.disp.WF
  typed : ∀ fl ∈ b.executing,
    ∃ w, b.disp.heap[fl.node]? = some w ∧ w.nodeType = fl.task.nodeTypeOr
  acquiredTyped : ∀ task node, b.ctl = Ctl.acquired task node →
    ∃ w, b.disp.heap[node]? = some w ∧ w.nodeType = task.nodeTypeOr
  finished : b.ctl = Ctl.done → b.pending = [] ∧ b.executing = []
  len : b.results.length = tagged.length
  inTagged : ∀ fl ∈ b.executing, fl.task ∈ tagged
  heldTagged : ∀ t, b.ctl.held = some t → t ∈ tagged
  stored : ∀ (i : Nat) (r : TaskResult), b.results[i]? = some (some r) →
    ∃ t, tagged[i]? = some t ∧ r.isFor env t
  settledFor : ∀ fl ∈ b.executing, ∀ r, fl.settled = some r → r.isFor env fl.task
  admitted : ∃ k, k ≤ tagged.length ∧ b.pending = tagged.drop k ∧
    (∀ fl ∈ b.executing, ∀ i, fl.task.originalIndex = some i → i < k) ∧
    (∀ t i, b.ctl.held = some t → t.originalIndex = some i → i < k) ∧
    (∀ i, k ≤ i → ¬ b.filled i)
  distinct : (b.executing.map (fun fl => fl.task.originalIndex)).Nodup
  heldFresh : ∀ t, b.ctl.held = some t →
    ∀ fl ∈ b.executing, fl.task.originalIndex ≠ t.originalIndex
  inflightFree : ∀ fl ∈ b.executing, ∀ i, fl.task.originalIndex = some i → ¬ b.filled i
  heldFree : ∀ t i, b.ctl.held = some t → t.originalIndex = some i → ¬ b.filled i

/-- Slot `i` of the batch is accounted for: its result is stored, or its task
is in flight, or its task holds the worker just acquired. -/
def Batch.accounted (b : Batch) (i : Nat) : Prop :=
  b.filled i ∨
  (∃ fl ∈ b.executing, fl.task.originalIndex = some i) ∨
  (∃ task node, b.ctl = Ctl.acquired task node ∧ task.originalIndex = some i)

/-- The invariant of an `executeParallel` run on a pool that no other caller
uses and that held no busy worker when the run began: besides the bookkeeping,
every busy registered worker is held by an in-flight call that has not returned,
so that acquisition never fails, and every task that has left `pending` is
accounted for. -/
structure Batch.Inv (env : Env) (tagged : List Task) (b : Batch) : Prop where
  core : b.Core env tagged
  held : ∀ e ∈ b.disp.nodes, isBusy b.disp.heap e.2 = true →
    ∃ fl ∈ b.executing, fl.node = e.2 ∧ fl.settled = none
  bound : b.executing.length ≤ b.disp.maxNodes
  acquired : ∀ task node, b.ctl = Ctl.acquired task node →
    b.executing.length < b.disp.maxNodes
  notWaiting : ∀ task start, b.ctl ≠ Ctl.waiting task start
  notRaised : ∀ msg task, b.ctl ≠ Ctl.raised msg task
  split : ∃ k, k ≤ tagged.length ∧ b.pending = tagged.drop k ∧
    ∀ i, i < k → b.accounted i

/-- The task at index `i` is somewhere in the run: its Task Result is stored,
its execution is in flight, or `executeNext` holds it. -/
def Batch.tracked (b : Batch) (i : Nat) : Prop :=
  b.filled i ∨ (∃ fl ∈ b.executing, fl.task.originalIndex = some i) ∨
  (∃ t, b.ctl.held = some t ∧ t.originalIndex = some i)

/-- No task is lost: the tasks that have left `pending` are tracked. -/
def Batch.Tracked (tagged : List Task) (b : Batch) : Prop :=
  ∃ k, k ≤ tagged.length ∧ b.pending = tagged.drop k ∧ ∀ i, i < k → b.tracked i

/-- The execution of the task at index `i` has completed: `execute` has
returned for it, and its Task Result is stored in the results array or waits
in its wrapper to be stored. -/
def Batch.completed (b : Batch) (i : Nat) : Prop :=
  b.filled i ∨ ∃ fl ∈ b.executing, fl.task.originalIndex = some i ∧ ∃ r, fl.settled = some r

instance (b : Batch) (i : Nat) : Decidable (b.filled i) :=
  match h : b.results[i]? with
  | some (some r) => isTrue ⟨r, h⟩
  | some none => isFalse (fun ⟨r, hr⟩ => by rw [h] at hr; cases hr)
  | none => isFalse (fun ⟨r, hr⟩ => by rw [h] at hr; cases hr)

instance (fl : InFlight) : Decidable (∃ r, fl.settled = some r) :=
  decidable_of_iff (fl.settled.isSome = true) Option.isSome_iff_exists

instance (b : Batch) (i : Nat) : Decidable (b.completed i) := by
  unfold Batch.completed; infer_instance

/-- A run in which every task execution has completed: nothing is pending,
every in-flight call has returned, and `executeNext` is at `Promise.race` or
has returned. -/
structure Batch.Finishing (env : Env) (tagged : List Task) (b : Batch) : Prop where
  core : b.Core env tagged
  noPending : b.pending = []
  settled : ∀ fl ∈ b.executing, ∃ r, fl.settled = some r
  ctl : b.ctl = Ctl.ready ∨ b.ctl = Ctl.done
  all : ∀ i, i < tagged.length → b.completed i

/-- The concurrency bound of a run: at most `maxNodes` calls are in flight,
and fewer while `executeNext` holds or waits for a worker to start one more. -/
def Batch.Bounded (b : Batch) : Prop :=
  b.executing.length ≤ b.disp.maxNodes ∧
  (∀ task node, b.ctl = Ctl.acquired task node → b.executing.length < b.disp.maxNodes) ∧
  (∀ task start, b.ctl = Ctl.waiting task start → b.executing.length < b.disp.maxNodes)

/-- The weight of an in-flight call: two events to go before it settles, one
once it has. -/
def InFlight.weight (fl : InFlight) : Nat :=
  if fl.settled.isNone then 2 else 1

/-- The weight of the suspension point of `executeNext`. -/
def Ctl.weight : Ctl → Nat
  | Ctl.ready => 1
  | Ctl.acquired _ _ => 4
  | Ctl.waiting _ _ => 0
  | Ctl.done => 0
  | Ctl.raised _ _ => 0

/-- A bound on the number of events a run can still take. -/
def Batch.measure (b : Batch) : Nat :=
  4 * b.pending.length + b.ctl.weight + (b.executing.map InFlight.weight).sum

/-- The only error `executeNext` has been rejected with is the one thrown by
`waitForNode` when its deadline has passed. -/
def Batch.RaisedByTimeout (b : Batch) : Prop :=
  ∀ msg task, b.ctl = Ctl.raised msg task →
    msg = "Timeout waiting for " ++ task.nodeTypeOr ++ " node"

/-- The results array holds one Task Result per task of `tasks`, with
`success = false` exactly at the indices of the tasks whose collaborator call
fails, where the result carries the error message, and `success = true`
elsewhere. -/
def Contained (env : Env) (d : Dispatcher) (tasks : List Task)
    (results : List (Option TaskResult)) : Prop :=
  results.length = tasks.length ∧
  ∀ (i : Nat) (t : Task), tasks[i]? = some t →
    ∃ tr, results[i]? = some (some tr) ∧
      (tr.success = false ↔ taskFails env (t.tag i (d.nextTaskId + i)) = true) ∧
      (tr.success = true ↔ taskFails env (t.tag i (d.nextTaskId + i)) = false) ∧
      tr.error = messageOf (taskOutcome env (t.tag i (d.nextTaskId + i)))

/-- The results array holds one Task Result per task of `tasks`, the i-th
being the one produced for the i-th task, whose `taskId` is the id that
`executeParallel` assigned to that task (`d.nextTaskId + i`). -/
def InOrder (env : Env) (d : Dispatcher) (tasks : List Task)
    (results : List (Option TaskResult)) : Prop :=
  results.length = tasks.length ∧
  ∀ (i : Nat) (t : Task), tasks[i]? = some t →
    ∃ tr, results[i]? = some (some tr) ∧ tr.isFor env (t.tag i (d.nextTaskId + i)) ∧
      tr.taskId = some (d.nextTaskId + i)

/-! ### One task per worker -/

/-- Whether the in-flight call `fl` is an `execute` that has not returned and
runs on the worker object at address `node`. -/
def InFlight.runsOn (node : Nat) (fl : InFlight) : Bool :=
  fl.settled.isNone && decide (fl.node = node)

/-- The `execute` calls of the run that have not returned and run on the worker
object at address `node`. -/
def Batch.running (b : Batch) (node : Nat) : List InFlight :=
  b.executing.filter (InFlight.runsOn node)

/-- No worker executes two tasks: at most one unreturned `execute` runs on any
worker object, the worker of an unreturned `execute` is busy with that call's
task, and the worker `executeNext` has acquired and not yet started is idle. -/
structure Batch.Exclusive (b : Batch) : Prop where
  single : ∀ node, (b.running node).length ≤ 1
  busy : ∀ fl ∈ b.executing, fl.settled = none →
    ∃ w, b.disp.heap[fl.node]? = some w ∧ w.status = Status.busy ∧
      w.currentTask = some fl.task
  idle : ∀ task node, b.ctl = Ctl.acquired task node → isIdle b.disp.heap node = true

/-! ## executeTask -/

/-- The expression `task.id || next` (an id of `0` is falsy). -/
def idOr (id : Option Nat) (next : Nat) : Nat :=
  match id with
  | some n => if n = 0 then next else n
  | none => next

/-- The counter `nextTaskId` after `task.id = task.id || this.nextTaskId++`. -/
def idCounter (id : Option Nat) (next : Nat) : Nat :=
  match id with
  | some n => if n = 0 then next + 1 else next
  | none => next + 1

/-- The call `Map.prototype.set` on `Dispatcher.results`. -/
def resultsSet : List (Nat × TaskResult) → Nat → TaskResult → List (Nat × TaskResult)
  | [], k, v => [(k, v)]
  | (k', v') :: rest, k, v =>
    if k' = k then (k, v) :: rest else (k', v') :: resultsSet rest k v

/-- The loop of `waitForNode`, entered at clock `start`, with nothing
interleaved between its passes; `passes` gives the clock and random readings of
the successive passes, and the loop is still asleep when they run out. -/
def waitLoop (d : Dispatcher) (nodeType : String) (start : Nat) :
    List (Nat × String) → Dispatcher × Waited
  | [] => (d, Waited.sleeping)
  | (now, rnd) :: rest =>
    match waitForNode d nodeType start now rnd with
    | (d', Waited.sleeping) => waitLoop d' nodeType start rest
    | (d', Waited.resolved node) => (d', Waited.resolved node)
    | (d', Waited.timedOut msg) => (d', Waited.timedOut msg)

/-- How an `executeTask` call stands: it has returned the Task Result `r`,
having left the caller's task object as `task`, or thrown, or is still waiting
for a worker. -/
inductive TaskOutcome where
  | returned (d : Dispatcher) (task : Task) (r : TaskResult)
  | threw (msg : String)
  | running
  deriving DecidableEq, Repr

/-- The method `Dispatcher.executeTask(task)` with nothing interleaved:
`waitForNode` is entered at clock `start` and makes the given passes, `execute`
begins at clock `began` and returns at clock `ended`. -/
def executeTask (env : Env) (d : Dispatcher) (task : Task) (start : Nat)
    (passes : List (Nat × String)) (began ended : Nat) : TaskOutcome :=
  match waitLoop d task.nodeTypeOr start passes with
  | (d1, Waited.resolved node) =>
    let id := idOr task.id d1.nextTaskId
    let task1 := { task with id := some id }
    match d1.heap[node]? with
    | some w =>
      let out := w.execute env task1 began ended
      TaskOutcome.returned
        { d1 with heap := d1.heap.set node out.1, nextTaskId := idCounter task.id d1.nextTaskId,
                  results := resultsSet d1.results id out.2 }
        task1 out.2
    | none => TaskOutcome.running
  | (_, Waited.timedOut msg) => TaskOutcome.threw msg
  | (_, Waited.sleeping) => TaskOutcome.running

/-! ## orchestrate

`orchestrate` runs the phases one after the other; each non-empty phase is one
`executeParallel` call, which is awaited. The run of the i-th phase's batch is
given by `runs i`: its schedule, the number of events it is observed for, and
the clock when it returns. Builder functions are functions of the list of the
Phase Results pushed so far. The field `parallelEfficiency` of a Phase Result
and the field `nodeStats` of the value returned are left out.

The loop carries a trace, which is not part of the program: it records every
invocation of a builder function with its argument, every call of
`executeParallel` with its task list, and every push on `phaseResults`.
-/

/-- An element of `phaseResults`. -/
structure PhaseResult where
  phase : String
  success : Bool
  results : List (Option TaskResult)
  totalDurationMs : Int
  deriving DecidableEq, Repr

/-- The property `tasks` of a phase: absent, an array, or a function. -/
inductive PhaseTasks where
  | absent
  | static (tasks : List Task)
  | builder (build : List PhaseResult → Option (List Task))

/-- A phase object as `orchestrate` reads it. -/
structure Phase where
  name : String
  tasks : PhaseTasks
  required : Option Bool

/-- The value of the local `tasks` after
`let tasks = phase.tasks; if (typeof tasks === 'function') tasks = tasks(phaseResults)`. -/
def PhaseTasks.resolve : PhaseTasks → List PhaseResult → Option (List Task)
  | PhaseTasks.absent, _ => none
  | PhaseTasks.static tasks, _ => some tasks
  | PhaseTasks.builder build, prior => build prior

/-- The test `!tasks || tasks.length === 0`. -/
def noTasks : Option (List Task) → Bool
  | none => true
  | some tasks => tasks.isEmpty

/-- What the trace records. -/
inductive OrchEvent where
  | built (i : Nat) (prior : List PhaseResult)
  | batch (i : Nat) (tasks : List Task)
  | pushed (i : Nat) (r : PhaseResult)
  deriving DecidableEq, Repr

/-- The trace entry of resolving the task list of phase `i`: one invocation of
the builder if `tasks` is a function, nothing otherwise. -/
def PhaseTasks.buildEvents : PhaseTasks → Nat → List PhaseResult → List OrchEvent
  | PhaseTasks.builder _, i, prior => [OrchEvent.built i prior]
  | PhaseTasks.absent, _, _ => []
  | PhaseTasks.static _, _, _ => []

/-- How the `executeParallel` call of one phase proceeds. -/
structure Run where
  schedule : Schedule
  fuel : Nat
  finish : Nat

/-- The state of an `orchestrate` call between two statements of its loop. -/
structure Orch where
  disp : Dispatcher
  phaseResults : List PhaseResult
  trace : List OrchEvent
  deriving DecidableEq, Repr

/-- How the loop of `orchestrate` stands. -/
inductive OrchStatus where
  | finished
  | threw (msg : String)
  | running
  deriving DecidableEq, Repr

/-- The object pushed for a phase without tasks. -/
def emptyPhaseResult (name : String) : PhaseResult :=
  { phase := name, success := true, results := [], totalDurationMs := 0 }

/-- The object `{ phase: phase.name, ...phaseResult }`. -/
def PhaseResult.ofBatch (name : String) (r : BatchResult) : PhaseResult :=
  { phase := name, success := r.success, results := r.results,
    totalDurationMs := r.totalDurationMs }

/-- The statement `phaseResults.push(r)` in the iteration for phase `i`. -/
def Orch.push (o : Orch) (i : Nat) (r : PhaseResult) : Orch :=
  { o with phaseResults := o.phaseResults ++ [r], trace := o.trace ++ [OrchEvent.pushed i r] }

/-- The state before the loop of `orchestrate`. -/
def Orch.init (d : Dispatcher) : Orch :=
  { disp := d, phaseResults := [], trace := [] }

/-- The loop `for (let i = 0; i < phases.length; i++)` of `orchestrate`, from
index `i` on, over the phases that remain. When the batch of a phase throws or
is still running, the loop stops in the state in which the batch was called. -/
def orchestrateLoop (env : Env) (runs : Nat → Run) :
    List Phase → Nat → Orch → Orch × OrchStatus
  | [], _, o => (o, OrchStatus.finished)
  | phase :: rest, i, o =>
    let tasks := phase.tasks.resolve o.phaseResults
    let o1 := { o with trace := o.trace ++ phase.tasks.buildEvents i o.phaseResults }
    if noTasks tasks then
      orchestrateLoop env runs rest (i + 1) (o1.push i (emptyPhaseResult phase.name))
    else
      let o2 := { o1 with trace := o1.trace ++ [OrchEvent.batch i (tasks.getD [])] }
      match executeParallel env (runs i).schedule (runs i).fuel (runs i).finish o.disp
          (tasks.getD []) with
      | Outcome.returned d r =>
        orchestrateLoop env runs rest (i + 1)
          (Orch.push { o2 with disp := d } i (PhaseResult.ofBatch phase.name r))
      | Outcome.threw msg => (o2, OrchStatus.threw msg)
      | Outcome.running => (o2, OrchStatus.running)

/-- The loop of `orchestrate(phases)` on the dispatcher state `d`: the state it
ends in and how it ended. -/
def orchestrateRun (env : Env) (runs : Nat → Run) (d : Dispatcher) (phases : List Phase) :
    Orch × OrchStatus :=
  orchestrateLoop env runs phases 0 (Orch.init d)

/-- The callback `r => r?.success` of `some`. -/
def truthySuccess : Option TaskResult → Bool
  | some r => r.success
  | none => false

/-- The callback `p => p.success || p.results?.some(r => r?.success)`. -/
def phaseOk (p : PhaseResult) : Bool :=
  p.success || p.results.any truthySuccess

/-- The object returned by `orchestrate` (without `nodeStats`). -/
structure OrchResult where
  success : Bool
  phases : List PhaseResult
  totalDurationMs : Int
  deriving DecidableEq, Repr

/-- How an `orchestrate` call stands. -/
inductive OrchOutcome where
  | returned (d : Dispatcher) (r : OrchResult)
  | threw (msg : String)
  | running
  deriving DecidableEq, Repr

/-- The call `orchestrate(phases)` made at clock `start`; `finish` is the clock
when its loop has ended. -/
def orchestrate (env : Env) (runs : Nat → Run) (start finish : Nat) (d : Dispatcher)
    (phases : List Phase) : OrchOutcome :=
  match orchestrateRun env runs d phases with
  | (o, OrchStatus.finished) =>
    OrchOutcome.returned o.disp
      { success := o.phaseResults.all phaseOk, phases := o.phaseResults,
        totalDurationMs := (finish : Int) - (start : Int) }
  | (_, OrchStatus.threw msg) => OrchOutcome.threw msg
  | (_, OrchStatus.running) => OrchOutcome.running

/-- The number of phases that have been started when the loop stands at
`(o, st)`: those whose result was pushed, and the one whose batch threw or is
still running. -/
def startedPhases (o : Orch) (st : OrchStatus) : Nat :=
  match st with
  | OrchStatus.finished => o.phaseResults.length
  | OrchStatus.threw _ => o.phaseResults.length + 1
  | OrchStatus.running => o.phaseResults.length + 1

/-- The Phase Results pushed by the events of a trace, in order. -/
def pushedOf : List OrchEvent → List PhaseResult
  | [] => []
  | OrchEvent.pushed _ r :: rest => r :: pushedOf rest
  | OrchEvent.built _ _ :: rest => pushedOf rest
  | OrchEvent.batch _ _ :: rest => pushedOf rest

/-- Whether a trace entry is an invocation of the builder of phase `i`. -/
def OrchEvent.isBuilt (i : Nat) : OrchEvent → Bool
  | OrchEvent.built j _ => decide (j = i)
  | OrchEvent.batch _ _ => false
  | OrchEvent.pushed _ _ => false

/-- Whether the property `tasks` of a phase is a function. -/
def PhaseTasks.isBuilder : PhaseTasks → Bool
  | PhaseTasks.builder _ => true
  | PhaseTasks.absent => false
  | PhaseTasks.static _ => false

/-- The trace entry of the `executeParallel` call of phase `i`, made when the
resolved task list is not empty. -/
def batchEvents (i : Nat) (tasks : Option (List Task)) : List OrchEvent :=
  if noTasks tasks then [] else [OrchEvent.batch i (tasks.getD [])]

/-- The trace entries of the iteration for phase `i`, entered with the Phase
Results `prior`; `rs` holds the Phase Result the iteration pushed, and is empty
while the batch of the phase has not returned. -/
def phaseEvents (i : Nat) (phase : Phase) (prior : List PhaseResult)
    (rs : List PhaseResult) : List OrchEvent :=
  phase.tasks.buildEvents i prior ++ batchEvents i (phase.tasks.resolve prior)
    ++ rs.map (OrchEvent.pushed i)

/-- What the state of an `orchestrate` call over `phases` satisfies when `m`
phases have been started: the Phase Results pushed are those of the first phases
in order, each with the `success` flag of its batch; a started phase without
tasks has the empty Phase Result; a builder was invoked only for a started
phase, once, with the Phase Results pushed before it; and `executeParallel` was
called exactly for the started phases with tasks, on their resolved list. -/
structure Orch.Sound (phases : List Phase) (o : Orch) (m : Nat) : Prop where
  started : o.phaseResults.length ≤ m ∧ m ≤ o.phaseResults.length + 1 ∧ m ≤ phases.length
  pushed : pushedOf o.trace = o.phaseResults
  named : o.phaseResults.map (fun p => p.phase) =
    (phases.take o.phaseResults.length).map (fun ph => ph.name)
  flags : ∀ p ∈ o.phaseResults, p.success = p.results.all succeeded
  empties : ∀ (j : Nat) (ph : Phase), phases[j]? = some ph → j < m →
    noTasks (ph.tasks.resolve (o.phaseResults.take j)) = true →
      o.phaseResults[j]? = some (emptyPhaseResult ph.name)
  builds : ∀ (j : Nat) (prior : List PhaseResult), OrchEvent.built j prior ∈ o.trace →
    j < m ∧ prior = o.phaseResults.take j ∧
      ∃ ph f, phases[j]? = some ph ∧ ph.tasks = PhaseTasks.builder f
  order : ∀ (n j : Nat) (prior : List PhaseResult),
    o.trace[n]? = some (OrchEvent.built j prior) → pushedOf (o.trace.take n) = prior
  builtOnce : ∀ (j : Nat) (ph : Phase), phases[j]? = some ph →
    o.trace.countP (OrchEvent.isBuilt j) = if j < m ∧ ph.tasks.isBuilder = true then 1 else 0
  batched : ∀ (j : Nat) (tasks : List Task), OrchEvent.batch j tasks ∈ o.trace →
    j < m ∧ ∃ ph, phases[j]? = some ph ∧
      noTasks (ph.tasks.resolve (o.phaseResults.take j)) = false ∧
      ph.tasks.resolve (o.phaseResults.take j) = some tasks
  batches : ∀ (j : Nat) (ph : Phase) (tasks : List Task), phases[j]? = some ph → j < m →
    noTasks (ph.tasks.resolve (o.phaseResults.take j)) = false →
    ph.tasks.resolve (o.phaseResults.take j) = some tasks →
      OrchEvent.batch j tasks ∈ o.trace

/-! ### The tasks a run starts -/

/-- The tasks on which the event `ev`, occurring in state `b`, starts `execute`:
a stretch of `executeNext` that resumes with a worker acquired for a task starts
that task; nothing else starts a task. -/
def Batch.startedBy (b : Batch) : BatchEvent → List Task
  | BatchEvent.next _ _ =>
    match b.ctl with
    | Ctl.acquired task _ => [task]
    | _ => []
  | BatchEvent.settle _ _ => []
  | BatchEvent.deliver _ => []

/-- The tasks started, in order, by the run that `Batch.drive` makes. -/
def Batch.driveStarts (env : Env) (s : Schedule) : Nat → Nat → Batch → List Task
  | 0, _, _ => []
  | fuel + 1, n, b =>
    match b.moves with
    | [] => []
    | m :: ms =>
      let mv := (m :: ms).getD (s.pick n % (ms.length + 1)) m
      b.startedBy (mv.toEvent (s.clock n) (s.random n)) ++
        Batch.driveStarts env s fuel (n + 1) (b.step env (mv.toEvent (s.clock n) (s.random n)))

/-! ## Sequences of execute calls on one worker -/

/-- What can happen to one worker object: `execute(task)` is called and runs up
to its `await`, or an `execute` call that began at clock `startTime` resumes at
clock `now` with the outcome of its collaborator call and returns. -/
inductive WorkerStep where
  | begin (task : Task)
  | finish (task : Task) (startTime now : Nat) (outcome : Except String Payload)

/-- The effect of one step on the worker, with the Task Result returned, if the
step is a return. -/
def WorkerNode.step (w : WorkerNode) : WorkerStep → WorkerNode × Option TaskResult
  | WorkerStep.begin task => (w.executeBegin task, none)
  | WorkerStep.finish task startTime now outcome =>
    let out := w.executeEnd task startTime now outcome
    (out.1, some out.2)

/-- The worker after a sequence of steps, with the Task Results returned, in
the order of return. -/
def WorkerNode.steps (w : WorkerNode) : List WorkerStep → WorkerNode × List TaskResult
  | [] => (w, [])
  | st :: rest =>
    let r := w.step st
    let rs := r.1.steps rest
    (rs.1, r.2.toList ++ rs.2)

/-- A sequence of `execute` calls, each awaited before the next is made; a call
is given by its task and the clock readings at its start and at its return. -/
def WorkerNode.executeAll (env : Env) (w : WorkerNode) :
    List (Task × Nat × Nat) → WorkerNode × List TaskResult
  | [] => (w, [])
  | (task, startTime, now) :: rest =>
    let r := w.execute env task startTime now
    let rs := WorkerNode.executeAll env r.1 rest
    (rs.1, r.2 :: rs.2)

/-- The number of Task Results with `success = true`. -/
def successes (rs : List TaskResult) : Nat :=
  (rs.filter (fun r => r.success)).length

/-! ## SwarmClient._injectContext -/

/-- The method `SwarmClient._injectContext(prompts, context)`; `context` is a
string or null. -/
def injectContext (prompts : List String) (context : Option String) : List String :=
  if truthy context then prompts.map (fun p => context.getD "" ++ "\n\n" ++ p) else prompts

/-! ## SwarmDaemon.warmUp -/

/-- The array `types` of `warmUp`. -/
def warmTypes : List String := ["search", "fetch", "analyze"]

/-- The inner loop of `warmUp` for one type, from iteration `i` on with `n`
iterations to go: `getOrCreateNode(type)` is called, and the loop is left when
it throws. `readings i` gives the clock and random readings of iteration `i`. -/
def warmLoop (d : Dispatcher) (type : String) (readings : Nat → Nat × String) :
    Nat → Nat → Dispatcher
  | _, 0 => d
  | i, n + 1 =>
    match getOrCreateNode d type (readings i).1 (readings i).2 with
    | (d1, Except.ok _) => warmLoop d1 type readings (i + 1) n
    | (d1, Except.error _) => d1

/-- The value `Math.ceil(this.warmWorkers / types.length)`. -/
def workersPerType (warmWorkers : Nat) : Nat :=
  (warmWorkers + warmTypes.length - 1) / warmTypes.length

/-- The dispatcher that the pre-creation loops of `SwarmDaemon.warmUp` leave,
for a new dispatcher with `config.scaling.maxNodes = maxNodes`. -/
def warmUp (maxNodes warmWorkers : Nat) (readings : String → Nat → Nat × String) :
    Dispatcher :=
  warmTypes.foldl
    (fun d type => warmLoop d type (readings type) 0 (workersPerType warmWorkers))
    (Dispatcher.new maxNodes)

/-- The number of registered workers of class `c`. -/
def classCount (d : Dispatcher) (c : String) : Nat :=
  (d.nodes.filter
    (fun e => match d.heap[e.2]? with
      | some w => decide (w.nodeType = c)
      | none => false)).length

/-! ## JS numbers: the quotient of two integers

`totalDuration / completedTasks` and `sum / duration` divide two integers in
IEEE-754 binary64 arithmetic.  A finite double is written `z / 2 ^ p` with an
integer `z`; the quotient is exact arithmetic on integers followed by one
rounding to 53 significant bits, ties to even.  The integers are taken as the
JS numbers hold them, which is exact below `2 ^ 53`; the two zeros are not told
apart. -/

/-- The number of doublings that take `a` to `t` or beyond, `fuel` at most. -/
def doublings (t : Nat) : Nat → Nat → Nat
  | 0, _ => 0
  | fuel + 1, a => if t ≤ a then 0 else doublings t fuel (2 * a) + 1

/-- The double nearest to `a / b` for natural numbers `a` and `0 < b` below
`2 ^ 53`, as the pair `(m, p)` that stands for `m / 2 ^ p`: `p` is the least
exponent with `2 ^ 52 ≤ a * 2 ^ p / b`, so that the quotient has 53 significant
bits before the point, and `m` is `a * 2 ^ p / b` rounded to the nearest
integer, ties to even. -/
def fdiv (a b : Nat) : Nat × Nat :=
  let p := doublings (2 ^ 52 * b) 105 a
  let q := a * 2 ^ p / b
  let r := a * 2 ^ p % b
  (if 2 * r < b then q else if b < 2 * r then q + 1 else if q % 2 = 0 then q else q + 1, p)

/-- The JS expression `a / b` for integers `a` and `b ≠ 0`: the sign of the
quotient and the double nearest to its magnitude, as `(z, p)` for `z / 2 ^ p`. -/
def jsDiv (a b : Int) : Int × Nat :=
  ((if (a < 0) = (b < 0) then 1 else -1) * ((fdiv a.natAbs b.natAbs).1 : Int),
    (fdiv a.natAbs b.natAbs).2)

/-- `Math.round(x)` for the double `x = z / 2 ^ p`: the integer nearest to `x`,
the larger one of two, which is the floor of `x + 1/2`. -/
def mathRound (x : Int × Nat) : Int :=
  (2 * x.1 + 2 ^ x.2) / 2 ^ (x.2 + 1)

/-- The hundredths that `x.toFixed(2)` prints for the double `x = z / 2 ^ p`:
the integer `n` with `n / 100` nearest to the magnitude of `x`, the larger one
of two. -/
def toFixedHundredths (x : Int × Nat) : Nat :=
  (200 * x.1.natAbs + 2 ^ x.2) / 2 ^ (x.2 + 1)

/-! ## WorkerNode.getStats -/

/-- The object returned by `WorkerNode.getStats`. -/
structure WorkerStats where
  id : String
  type : String
  status : Status
  completedTasks : Nat
  avgDurationMs : Int
  deriving DecidableEq, Repr

/-- The method `WorkerNode.getStats`. -/
def WorkerNode.getStats (w : WorkerNode) : WorkerStats :=
  { id := w.id, type := w.nodeType, status := w.status, completedTasks := w.completedTasks,
    avgDurationMs :=
      if w.completedTasks > 0 then mathRound (jsDiv w.totalDuration w.completedTasks) else 0 }

/-! ## The property parallelEfficiency of what executeParallel returns -/

/-- The values `parallelEfficiency` takes: the number `0`, or the string that
`toFixed(2)` returns, which is `Infinity`, `-Infinity` or `NaN` for a number
that is not finite and else a sign and a decimal with two digits after the
point, held here as its hundredths. -/
inductive Efficiency where
  | zero
  | fixed (negative : Bool) (hundredths : Nat)
  | infinity (negative : Bool)
  | nan
  deriving DecidableEq, Repr

/-- Two decimal digits. -/
def pad2 (k : Nat) : String :=
  if k < 10 then "0" ++ toString k else toString k

/-- The JS value as printed. -/
def Efficiency.text : Efficiency → String
  | Efficiency.zero => "0"
  | Efficiency.fixed negative n =>
    (if negative then "-" else "") ++ toString (n / 100) ++ "." ++ pad2 (n % 100)
  | Efficiency.infinity negative => if negative then "-Infinity" else "Infinity"
  | Efficiency.nan => "NaN"

/-- The expression `r?.durationMs || 0`. -/
def durationOr0 : Option TaskResult → Int
  | some r => r.durationMs
  | none => 0

/-- The call `results.reduce((sum, r) => sum + (r?.durationMs || 0), 0)`. -/
def durationSum (results : List (Option TaskResult)) : Int :=
  results.foldl (fun sum r => sum + durationOr0 r) 0

/-- The expression
`results.length > 0 ? (results.reduce(...) / duration).toFixed(2) : 0`. -/
def efficiency (results : List (Option TaskResult)) (duration : Int) : Efficiency :=
  if results.length > 0 then
    if duration = 0 then
      if durationSum results = 0 then Efficiency.nan
      else Efficiency.infinity (decide (durationSum results < 0))
    else
      Efficiency.fixed (decide ((jsDiv (durationSum results) duration).1 < 0))
        (toFixedHundredths (jsDiv (durationSum results) duration))
  else Efficiency.zero

/-- The property `parallelEfficiency` of the object `executeParallel` returns,
which the source computes from `results` and `duration`, the values of the
properties `results` and `totalDurationMs`. -/
def BatchResult.parallelEfficiency (r : BatchResult) : Efficiency :=
  efficiency r.results r.totalDurationMs

/-! ## SwarmClient._stream

The response body arrives as a sequence of chunks, each a `Buffer` (a list of
bytes).  `chunk.toString()` decodes each chunk on its own as UTF-8, and
`JSON.parse` is a parameter `parse` that returns `none` where `JSON.parse`
throws.  A text is a list of characters; a character outside the Basic
Multilingual Plane is one `Char` here and two code units in JS, which `split`
and `trim` treat alike. -/

/-- The character U+FFFD that the decoder puts in place of ill-formed input. -/
def replacementChar : Char := Char.ofNat 0xFFFD

/-- State of the UTF-8 decoder inside one `Buffer.toString()` call: the number
of continuation bytes needed and seen, the code point so far, and the range the
next byte must lie in. -/
structure Utf8State where
  needed : Nat
  seen : Nat
  codePoint : Nat
  lower : Nat
  upper : Nat
  deriving DecidableEq, Repr

/-- The decoder between two characters. -/
def Utf8State.start : Utf8State :=
  { needed := 0, seen := 0, codePoint := 0, lower := 0x80, upper := 0xBF }

/-- A lead byte, or a byte met where a lead byte is expected. -/
def utf8Lead (byte : Nat) : Utf8State × List Char :=
  if byte ≤ 0x7F then (Utf8State.start, [Char.ofNat byte])
  else if 0xC2 ≤ byte ∧ byte ≤ 0xDF then
    ({ needed := 1, seen := 0, codePoint := byte % 32, lower := 0x80, upper := 0xBF }, [])
  else if 0xE0 ≤ byte ∧ byte ≤ 0xEF then
    ({ needed := 2, seen := 0, codePoint := byte % 16,
       lower := if byte = 0xE0 then 0xA0 else 0x80,
       upper := if byte = 0xED then 0x9F else 0xBF }, [])
  else if 0xF0 ≤ byte ∧ byte ≤ 0xF4 then
    ({ needed := 3, seen := 0, codePoint := byte % 8,
       lower := if byte = 0xF0 then 0x90 else 0x80,
       upper := if byte = 0xF4 then 0x8F else 0xBF }, [])
  else (Utf8State.start, [replacementChar])

/-- One byte through the decoder: the new state and the characters put out.  A
byte that cannot continue the sequence under way ends it with U+FFFD and is
read again as a lead byte. -/
def utf8Step (st : Utf8State) (byte : Nat) : Utf8State × List Char :=
  if st.needed = 0 then utf8Lead byte
  else if byte < st.lower ∨ st.upper < byte then
    ((utf8Lead byte).1, replacementChar :: (utf8Lead byte).2)
  else if st.seen + 1 = st.needed then
    (Utf8State.start, [Char.ofNat (st.codePoint * 64 + byte % 64)])
  else
    ({ st with seen := st.seen + 1, codePoint := st.codePoint * 64 + byte % 64,
               lower := 0x80, upper := 0xBF }, [])

/-- The decoder run over the bytes of one buffer; a sequence cut short by the
end of the buffer gives U+FFFD. -/
def utf8Run : Utf8State → List Nat → List Char
  | st, [] => if st.needed = 0 then [] else [replacementChar]
  | st, byte :: rest => (utf8Step st byte).2 ++ utf8Run (utf8Step st byte).1 rest

/-- `Buffer.prototype.toString()`: the bytes of one buffer decoded as UTF-8. -/
def bufferToString (bytes : List Nat) : List Char :=
  utf8Run Utf8State.start bytes

/-- Put `c` in front of the first piece. -/
def consHead (c : Char) : List (List Char) → List (List Char)
  | [] => [[c]]
  | l :: ls => (c :: l) :: ls

/-- `text.split('\n')`: the pieces between the newlines, one more than there
are newlines. -/
def splitNl : List Char → List (List Char)
  | [] => [[]]
  | c :: cs => if c = '\n' then [] :: splitNl cs else consHead c (splitNl cs)

/-- White space and line terminators, the characters `trim` removes. -/
def isJsSpace (c : Char) : Bool :=
  decide (c.toNat ∈ [0x09, 0x0A, 0x0B, 0x0C, 0x0D, 0x20, 0xA0, 0x1680, 0x2028, 0x2029,
    0x202F, 0x205F, 0x3000, 0xFEFF]) || (decide (0x2000 ≤ c.toNat) && decide (c.toNat ≤ 0x200A))

/-- The test `line.trim()`: the trimmed line is a non-empty string. -/
def trimTruthy (line : List Char) : Bool :=
  line.any (fun c => !isJsSpace c)

/-- The body `if (line.trim()) { try { yield JSON.parse(line) } catch {} }`: the
values yielded for one line. -/
def yieldLine {α : Type} (parse : List Char → Option α) (line : List Char) : List α :=
  if trimTruthy line then (parse line).toList else []

/-- One round of the `for await` loop of `_stream`, on the pair of `buffer` and
the values yielded so far: `lines.pop()` takes the last piece as the new
buffer and the other pieces are handled in order. -/
def streamChunk {α : Type} (decode : List Nat → List Char) (parse : List Char → Option α)
    (st : List Char × List α) (chunk : List Nat) : List Char × List α :=
  let buffer := st.1 ++ decode chunk
  let lines := splitNl buffer
  (lines.getLastD [], st.2 ++ (lines.dropLast.map (yieldLine parse)).flatten)

/-- The values `_stream` yields for a response body that arrives in `chunks`. -/
def stream {α : Type} (decode : List Nat → List Char) (parse : List Char → Option α)
    (chunks : List (List Nat)) : List α :=
  let st := chunks.foldl (streamChunk decode parse) ([], [])
  st.2 ++ yieldLine parse st.1

/-- The events of a text as the specification words them: the parsed value of
each non-blank line of the whole text, split on the newline character, that
parses as JSON, in order. -/
def streamSpec {α : Type} (parse : List Char → Option α) (text : List Char) : List α :=
  ((splitNl text).filter trimTruthy).filterMap parse

/-! ## SwarmDaemon.buildResearchPhases: the classic Search and Fetch phases -/

/-- The fields of a research task that say what it works on and for which
subject: `nodeType`, `tool`, `input`, `metadata.subject` and `label`.  The last
two are `subjects[i]`, which is `undefined` past the end of `subjects`. -/
structure ResearchTask where
  nodeType : String
  tool : String
  input : String
  subject : Option String
  label : Option String
  deriving DecidableEq, Repr

/-- What the Fetch builder reads of one element `r` of `prev[0].results`:
`r.success`, and the `url` of `r.result.results[0]` where
`r.result?.results?.[0]` is truthy. -/
structure SearchOutcome where
  success : Bool
  firstUrl : Option String
  deriving DecidableEq, Repr

/-- The task list of the phase `Search`: one task per subject, in order. -/
def searchTasks (subjects : List String) (topic : String) : List ResearchTask :=
  subjects.map (fun subject =>
    { nodeType := "search", tool := "web_search", input := subject ++ " " ++ topic,
      subject := some subject, label := some subject })

/-- The callback `r => r.success && r.result?.results?.[0]` of `filter`. -/
def hasFirstHit (r : SearchOutcome) : Bool :=
  r.success && r.firstUrl.isSome

/-- The callback of `map` in the Fetch builder; `i` is the index in the array
that `map` runs over. -/
def fetchTask (subjects : List String) (i : Nat) (r : SearchOutcome) : ResearchTask :=
  { nodeType := "fetch", tool := "web_fetch", input := r.firstUrl.getD "",
    subject := subjects[i]?, label := subjects[i]? }

/-- The function `tasks` of the phase `Fetch`, applied to the results of the
phase `Search`, which `executeParallel` returns in the order of the Search
tasks: `filter`, then `map` over what `filter` kept. -/
def fetchTasks (subjects : List String) (searchResults : List SearchOutcome) :
    List ResearchTask :=
  ((searchResults.filter hasFirstHit).enum).map (fun p => fetchTask subjects p.1 p.2)

/-! ## SwarmClient.recallContext and the context event of SwarmClient.parallel -/

/-- A recalled memory as the template literal of `recallContext` prints it. -/
structure Memory where
  type : String
  trigger : String
  content : String
  deriving DecidableEq, Repr

/-- The parsed BrainDB response: `result.ok` and `result.results`. -/
structure RecallResult where
  ok : Bool
  results : Option (List Memory)
  deriving DecidableEq, Repr

/-- The line of the memory at index `i`. -/
def formatMemory (i : Nat) (m : Memory) : String :=
  toString (i + 1) ++ ". [" ++ m.type ++ "] " ++ m.trigger ++ ": " ++ m.content

/-- The call `lines.join('\n')`. -/
def joinNl : List String → String
  | [] => ""
  | [a] => a
  | a :: b :: rest => a ++ "\n" ++ joinNl (b :: rest)

/-- What `recallContext` returns once the response is parsed: `null` unless the
recall succeeded with at least one memory, else the context block. -/
def recallContext (result : RecallResult) : Option String :=
  match result.results with
  | none => none
  | some results =>
    if !result.ok || results.length = 0 then none
    else
      some ("<context source=\"braindb\" count=\"" ++ toString results.length ++
        "\">\nRelevant memories from knowledge graph:\n" ++
        joinNl (results.enum.map (fun p => formatMemory p.1 p.2)) ++ "\n</context>")

/-- The number of matches of `/\n/g` in `s`. -/
def newlineCount (s : String) : Nat :=
  s.toList.count '\n'

/-- The expression `(ctx.match(/\n/g) || []).length - 2`. -/
def memoryCount (ctx : String) : Int :=
  (newlineCount ctx : Int) - 2

/-- The `memoryCount` of the context event that `parallel` yields with
`options.context` set, if it yields one (`if (ctx)`). -/
def contextEvent (result : RecallResult) : Option Int :=
  match recallContext result with
  | none => none
  | some ctx => if ctx ≠ "" then some (memoryCount ctx) else none

/-! ## Concrete pools, tasks and schedules used as examples -/

/-- A task with only an instruction and a class. -/
def Task.simple (nodeType instruction : String) : Task :=
  { id := none, nodeType := some nodeType, tool := none, instruction := instruction,
    input := none, context := none, options := none, originalIndex := none }

/-- A pool with `maxNodes = 2` holding an idle worker of class `A` and an
idle worker of class `B`, built by two acquisitions on a new dispatcher. -/
def poolAB : Dispatcher :=
  (Dispatcher.new 2).applyAll
    [PoolEvent.acquire "A" 1700000000101 "x7qa",
     PoolEvent.acquire "B" 1700000000102 "m2pd"]

/-- A pool with `maxNodes = 2` whose only worker, of class `analyze`, was
created at clock 1700000000123 with random suffix `k3f9` and is executing a
task. -/
def poolBusy : Dispatcher :=
  (Dispatcher.new 2).applyAll
    [PoolEvent.acquire "analyze" 1700000000123 "k3f9",
     PoolEvent.start 0 (Task.simple "analyze" "first")]

/-- A full pool with `maxNodes = 2`: an idle worker of class `search` and a
busy worker of class `analyze` created at clock 1700000000123 with random
suffix `k3f9`. -/
def poolFull : Dispatcher :=
  (Dispatcher.new 2).applyAll
    [PoolEvent.acquire "search" 1700000000101 "x7qa",
     PoolEvent.acquire "analyze" 1700000000123 "k3f9",
     PoolEvent.start 1 (Task.simple "analyze" "first")]

/-- A full pool with `maxNodes = 1` whose only worker is busy. -/
def poolSaturated : Dispatcher :=
  (Dispatcher.new 1).applyAll
    [PoolEvent.acquire "analyze" 1700000000123 "k3f9",
     PoolEvent.start 0 (Task.simple "analyze" "first")]

/-- Five tasks of which the third always fails under `envBoom`. -/
def tasks5 : List Task :=
  [Task.simple "analyze" "first", Task.simple "analyze" "second", Task.simple "analyze" "bad",
   Task.simple "search" "fourth", Task.simple "analyze" "fifth"]

/-- A schedule that lets the events of a run come in a mixed order. -/
def mixedSchedule : Schedule :=
  { pick := fun n => 3 * n + 1,
    clock := fun n => 1700000000000 + 7 * n,
    random := fun _ => "k3f9" }

/-- The `success` flags of a results array, slot by slot. -/
def flagsOf (results : List (Option TaskResult)) : List (Option Bool) :=
  results.map (fun o => o.map (fun x => x.success))

/-- The `success` flags of the results array of a returned call. -/
def successFlags : Outcome → List (Option Bool)
  | Outcome.returned _ r => flagsOf r.results
  | Outcome.threw _ => []
  | Outcome.running => []

/-- Two `analyze` tasks, the first of which fails under `envBoom`. -/
def tasksBadGood : List Task :=
  [Task.simple "analyze" "bad", Task.simple "analyze" "good"]

/-- A schedule in which the first in-flight call settles and is delivered
while `executeNext` sleeps in `waitForNode`, and the clock has passed the 30 s
deadline when `executeNext` wakes up. -/
def lateSchedule : Schedule :=
  { pick := fun n => [0, 0, 1, 1, 0].getD (n - 1) 0,
    clock := fun n => if n < 5 then 1700000001000 + n else 1700000040000,
    random := fun _ => "z9z9" }

/-- A schedule for a batch of two tasks on a pool with room for one more
worker. The call is made at clock `T = 1700000001000`. At `T + 1` `executeNext`
acquires a worker for the first task, at `T + 2` it starts it and enters
`waitForNode` for the second; its retries (of which those at `T + 102` and
`T + 29902` are shown) find no worker; the first task's collaborator call
returns at `T + 29990` and its result is stored; the retry at `T + 30002` is
past the deadline. -/
def slowSchedule : Schedule :=
  { pick := fun n => [0, 0, 0, 0, 1, 1, 0].getD (n - 1) 0,
    clock := fun n =>
      [1700000001000, 1700000001001, 1700000001002, 1700000001102, 1700000030902,
       1700000030990, 1700000030990].getD n 1700000031002,
    random := fun _ => "z9z9" }

/-- On a pool with `maxNodes = 1`: an acquisition, the start of a task on the
worker it created, and a second acquisition while that worker is busy. -/
def saturatingEvents : List PoolEvent :=
  [PoolEvent.acquire "analyze" 1700000000123 "k3f9",
   PoolEvent.start 0 (Task.simple "analyze" "first"),
   PoolEvent.acquire "search" 1700000000200 "c8wt"]

/-- On a pool with `maxNodes = 1`: a `search` worker is acquired, an `analyze`
worker is acquired, which evicts the idle `search` worker, and then a task is
started on each of the two workers acquired. -/
def evictingEvents : List PoolEvent :=
  [PoolEvent.acquire "search" 1700000000101 "x7qa",
   PoolEvent.acquire "analyze" 1700000000123 "k3f9",
   PoolEvent.start 0 (Task.simple "search" "first"),
   PoolEvent.start 1 (Task.simple "analyze" "second")]

/-- A pool with `maxNodes = 4` holding an idle worker of class `A`, an idle
worker of class `B` and a busy worker of class `analyze` created at clock
1700000000123 with random suffix `k3f9`. -/
def poolThree : Dispatcher :=
  (Dispatcher.new 4).applyAll
    [PoolEvent.acquire "A" 1700000000101 "x7qa",
     PoolEvent.acquire "B" 1700000000102 "m2pd",
     PoolEvent.acquire "analyze" 1700000000123 "k3f9",
     PoolEvent.start 2 (Task.simple "analyze" "first")]

/-- Collaborators whose `web_search` tool resolves, without throwing, to an
object that reports `success: false`. -/
def envToolFails : Env :=
  { systemPrompt := fun _ => "You are a worker.",
    invokeTool := fun _ _ => Except.ok { success := some false, data := "no results" },
    complete := fun _ _ => Except.ok "fine" }

/-- A `search` task that names the tool `web_search`. -/
def searchTask : Task :=
  { id := none, nodeType := some "search", tool := some "web_search", instruction := "find",
    input := some "query", context := none, options := none, originalIndex := none }

/-- A task submitted with the identifier 42. -/
def taskWithId : Task :=
  { id := some 42, nodeType := some "analyze", tool := none, instruction := "good",
    input := none, context := none, options := none, originalIndex := none }

/-- Every batch runs under the mixed schedule and is observed for 21 events. -/
def mixedRuns : Nat → Run :=
  fun _ => { schedule := mixedSchedule, fuel := 21, finish := 1700000009000 }

/-- Three phases: a static list of two tasks of which the first fails, a
builder that returns no task, and a builder that returns one task if it was
handed two Phase Results. -/
def phases3 : List Phase :=
  [{ name := "gather", tasks := PhaseTasks.static tasksBadGood, required := some false },
   { name := "filter", tasks := PhaseTasks.builder (fun _ => some []), required := none },
   { name := "report",
     tasks := PhaseTasks.builder
       (fun prior => if prior.length = 2 then some [Task.simple "analyze" "good"] else none),
     required := none }]

/-- The `taskId` fields of the results array of a returned call, slot by slot. -/
def taskIdsOf : Outcome → List (Option (Option Nat))
  | Outcome.returned _ r => r.results.map (fun o => o.map (fun x => x.taskId))
  | Outcome.threw _ => []
  | Outcome.running => []

/-- The `taskId` of the Task Result of a returned `executeTask` call. -/
def taskIdOf : TaskOutcome → Option (Option Nat)
  | TaskOutcome.returned _ _ r => some r.taskId
  | TaskOutcome.threw _ => none
  | TaskOutcome.running => none

/-- The name, `success` flag and Task Result flags of each Phase Result of a
returned `orchestrate` call. -/
def phaseFlags : OrchOutcome → List (String × Bool × List (Option Bool))
  | OrchOutcome.returned _ r => r.phases.map (fun p => (p.phase, p.success, flagsOf p.results))
  | OrchOutcome.threw _ => []
  | OrchOutcome.running => []

/-- The overall `success` flag of a returned `orchestrate` call. -/
def overallSuccess : OrchOutcome → Option Bool
  | OrchOutcome.returned _ r => some r.success
  | OrchOutcome.threw _ => none
  | OrchOutcome.running => none

/-- Clock and random readings for the warm-up calls: a new millisecond and the
same random suffix at every call. -/
def warmReadings : String → Nat → Nat × String :=
  fun type i => (1700000000000 + 10 * type.length + i, "k3f9")

/-- The object a call has returned, if it has returned. -/
def returnedResult : Outcome → Option BatchResult
  | Outcome.returned _ r => some r
  | Outcome.threw _ => none
  | Outcome.running => none

/-- A schedule whose clock stands still: every event of the run falls in the
millisecond in which the call is made. -/
def instantSchedule : Schedule :=
  { pick := fun n => 3 * n + 1,
    clock := fun _ => 1700000000000,
    random := fun _ => "k3f9" }

/-- A worker that has completed two tasks in 25 ms. -/
def workerTwoDone : WorkerNode :=
  { id := "analyze-1700000000001-k3f9", nodeType := "analyze", status := Status.idle,
    currentTask := none, completedTasks := 2, totalDuration := 25,
    tools := initializeTools "analyze" }

/-- What the batch of five tasks returns under `mixedSchedule` when it returns
at clock 1700000000150. -/
def mixedResult : BatchResult :=
  (returnedResult
    (executeParallel envBoom mixedSchedule 21 1700000000150 (Dispatcher.new 3) tasks5)).getD
    { success := true, results := [], totalDurationMs := 0 }

/-- The double quote character. -/
def quote : Char := Char.ofNat 0x22

/-- The bytes of the line `"é"` followed by a newline. -/
def accentBody : List Nat := [0x22, 0xC3, 0xA9, 0x22, 0x0A]

/-- The same bytes in two chunks, the boundary inside the two-byte character. -/
def accentChunks : List (List Nat) := [[0x22, 0xC3], [0xA9, 0x22, 0x0A]]

/-- Search results for the subjects `A` and `B`: the search for `A` failed and
the search for `B` found a page. -/
def searchAB : List SearchOutcome :=
  [{ success := false, firstUrl := none },
   { success := true, firstUrl := some "https://b.example/page" }]

/-- A recall result with one memory whose content has two lines. -/
def recallTwoLines : RecallResult :=
  { ok := true,
    results := some [{ type := "note", trigger := "deploy", content := "step one\nstep two" }] }


/-! ## Lemmas on the registry operations -/

theorem mapSet_of_not_mem (m : List (String × Nat)) (k : String) (v : Nat)
    (h : k ∉ m.map Prod.fst) : mapSet m k v = m ++ [(k, v)] := by
  induction m with
  | nil => rfl
  | cons e rest ih =>
    obtain ⟨k', v'⟩ := e
    simp only [List.map_cons, List.mem_cons, not_or] at h
    have hne : ¬ k' = k := fun hk => h.1 hk.symm
    simp [mapSet, hne, ih h.2]

theorem length_mapSet_le (m : List (String × Nat)) (k : String) (v : Nat) :
    (mapSet m k v).length ≤ m.length + 1 := by
  induction m with
  | nil => simp [mapSet]
  | cons e rest ih =>
    obtain ⟨k', v'⟩ := e
    by_cases hk : k' = k
    · simp [mapSet, hk]
    · simp [mapSet, hk]; omega

theorem mem_mapSet_of_ne (m : List (String × Nat)) (k : String) (v : Nat)
    (e : String × Nat) (he : e ∈ m) (hne : e.1 ≠ k) : e ∈ mapSet m k v := by
  induction m with
  | nil => cases he
  | cons e' rest ih =>
    obtain ⟨k', v'⟩ := e'
    by_cases hk : k' = k
    · simp only [mapSet, hk, if_true]
      rcases List.mem_cons.mp he with h | h
      · subst h; exact absurd hk hne
      · exact List.mem_cons_of_mem _ h
    · simp only [mapSet, hk, if_false]
      rcases List.mem_cons.mp he with h | h
      · subst h; exact List.mem_cons_self _ _
      · exact List.mem_cons_of_mem _ (ih h)

theorem mem_mapSet (m : List (String × Nat)) (k : String) (v : Nat)
    (e : String × Nat) (he : e ∈ mapSet m k v) : e = (k, v) ∨ e ∈ m := by
  induction m with
  | nil => simp [mapSet] at he; exact Or.inl he
  | cons e' rest ih =>
    obtain ⟨k', v'⟩ := e'
    by_cases hk : k' = k
    · simp only [mapSet, hk, if_true] at he
      rcases List.mem_cons.mp he with h | h
      · exact Or.inl h
      · exact Or.inr (List.mem_cons_of_mem _ h)
    · simp only [mapSet, hk, if_false] at he
      rcases List.mem_cons.mp he with h | h
      · exact Or.inr (h ▸ List.mem_cons_self _ _)
      · rcases ih h with h' | h'
        · exact Or.inl h'
        · exact Or.inr (List.mem_cons_of_mem _ h')

theorem mem_mapDelete (m : List (String × Nat)) (k : String) (e : String × Nat) :
    e ∈ mapDelete m k ↔ e ∈ m ∧ e.1 ≠ k := by
  simp [mapDelete]

theorem length_mapDelete_lt (m : List (String × Nat)) (e : String × Nat) (he : e ∈ m) :
    (mapDelete m e.1).length < m.length := by
  induction m with
  | nil => cases he
  | cons e' rest ih =>
    by_cases hk : e'.1 = e.1
    · have : (mapDelete (e' :: rest) e.1) = mapDelete rest e.1 := by
        simp [mapDelete, hk]
      rw [this]
      have := List.length_filter_le (fun x : String × Nat => decide (x.1 ≠ e.1)) rest
      simp only [mapDelete, List.length_cons]
      omega
    · have hmem : e ∈ rest := by
        rcases List.mem_cons.mp he with h | h
        · exact absurd (by rw [h]) hk
        · exact h
      have : (mapDelete (e' :: rest) e.1) = e' :: mapDelete rest e.1 := by
        simp [mapDelete, hk]
      rw [this]
      simp only [List.length_cons]
      have := ih hmem
      omega

theorem mapDelete_eq_erase (m : List (String × Nat)) (e : String × Nat) (he : e ∈ m)
    (hnd : (m.map Prod.fst).Nodup) : mapDelete m e.1 = m.erase e := by
  induction m with
  | nil => cases he
  | cons e' rest ih =>
    simp only [List.map_cons, List.nodup_cons] at hnd
    by_cases hk : e' = e
    · subst hk
      have hall : ∀ x ∈ rest, x.1 ≠ e'.1 := by
        intro x hx hxe
        exact hnd.1 (hxe ▸ List.mem_map_of_mem Prod.fst hx)
      have : mapDelete rest e'.1 = rest := by
        unfold mapDelete
        exact List.filter_eq_self.mpr (fun x hx => by simpa using hall x hx)
      simp [mapDelete] at this ⊢
      exact this
    · have hmem : e ∈ rest := by
        rcases List.mem_cons.mp he with h | h
        · exact absurd h.symm hk
        · exact h
      have hne : e'.1 ≠ e.1 := by
        intro hxe
        exact hnd.1 (hxe ▸ List.mem_map_of_mem Prod.fst hmem)
      have h1 : mapDelete (e' :: rest) e.1 = e' :: mapDelete rest e.1 := by
        simp [mapDelete, hne]
      rw [h1, ih hmem hnd.2, List.erase_cons_tail]
      simpa using hk

/-! ## getOrCreateNode -/

theorem isIdle_of_isIdleOfType (heap : List WorkerNode) (c : String) (r : Nat)
    (h : isIdleOfType heap c r = true) : isIdle heap r = true := by
  unfold isIdleOfType at h
  unfold isIdle
  cases hw : heap[r]? with
  | none => simp [hw] at h
  | some w => simp [hw] at h ⊢; exact h.1

theorem isIdle_iff (heap : List WorkerNode) (r : Nat) :
    isIdle heap r = true ↔ ∃ w, heap[r]? = some w ∧ w.status = Status.idle := by
  unfold isIdle
  cases hw : heap[r]? with
  | none => simp
  | some w => simp

theorem isBusy_iff (heap : List WorkerNode) (r : Nat) :
    isBusy heap r = true ↔ ∃ w, heap[r]? = some w ∧ w.status = Status.busy := by
  unfold isBusy
  cases hw : heap[r]? with
  | none => simp
  | some w => simp

theorem isIdleOfType_iff (heap : List WorkerNode) (c : String) (r : Nat) :
    isIdleOfType heap c r = true ↔
      ∃ w, heap[r]? = some w ∧ w.status = Status.idle ∧ w.nodeType = c := by
  unfold isIdleOfType
  cases hw : heap[r]? with
  | none => simp
  | some w => simp

/-- The three ways `getOrCreateNode` can go, and the state each leaves. -/
theorem getOrCreateNode_cases (d : Dispatcher) (c : String) (now : Nat) (rnd : String) :
    (∃ e ∈ d.nodes, isIdleOfType d.heap c e.2 = true ∧
        getOrCreateNode d c now rnd = (d, Except.ok e.2)) ∨
    ((∀ e ∈ d.nodes, isIdleOfType d.heap c e.2 = false) ∧ d.nodes.length < d.maxNodes ∧
        getOrCreateNode d c now rnd =
          (d.register d.nodes (mkId c now rnd) c, Except.ok d.heap.length)) ∨
    ((∀ e ∈ d.nodes, isIdleOfType d.heap c e.2 = false) ∧ d.maxNodes ≤ d.nodes.length ∧
        ∃ e ∈ d.nodes, isIdle d.heap e.2 = true ∧
          d.nodes.find? (fun x => isIdle d.heap x.2) = some e ∧
          getOrCreateNode d c now rnd =
            (d.register (mapDelete d.nodes e.1) (mkId c now rnd) c, Except.ok d.heap.length)) ∨
    ((∀ e ∈ d.nodes, isIdle d.heap e.2 = false) ∧ d.maxNodes ≤ d.nodes.length ∧
        getOrCreateNode d c now rnd = (d, Except.error (noAvailableNodes d.maxNodes))) := by
  cases hf : d.nodes.find? (fun e => isIdleOfType d.heap c e.2) with
  | some e =>
    left
    have hp : isIdleOfType d.heap c e.2 = true :=
      List.find?_some (p := fun x : String × Nat => isIdleOfType d.heap c x.2) hf
    exact ⟨e, List.mem_of_find?_eq_some hf, hp, by simp [getOrCreateNode, hf]⟩
  | none =>
    right
    have hnone : ∀ e ∈ d.nodes, isIdleOfType d.heap c e.2 = false := by
      intro e he
      have := List.find?_eq_none.mp hf e he
      simpa using this
    by_cases hlt : d.nodes.length < d.maxNodes
    · left
      exact ⟨hnone, hlt, by simp [getOrCreateNode, hf, hlt]⟩
    · right
      cases hg : d.nodes.find? (fun e => isIdle d.heap e.2) with
      | some e =>
        left
        have hp : isIdle d.heap e.2 = true :=
          List.find?_some (p := fun x : String × Nat => isIdle d.heap x.2) hg
        exact ⟨hnone, Nat.le_of_not_lt hlt, e, List.mem_of_find?_eq_some hg,
          hp, rfl, by simp [getOrCreateNode, hf, hlt, hg]⟩
      | none =>
        right
        refine ⟨?_, Nat.le_of_not_lt hlt, by simp [getOrCreateNode, hf, hlt, hg]⟩
        intro e he
        have := List.find?_eq_none.mp hg e he
        simpa using this

/-- C4. Reuse before creation: when the registry holds an idle worker of class
`c`, `getOrCreateNode c` returns a registered idle worker of class `c` and
leaves the whole state (registry and worker objects) as it was: nothing is
created and nothing is evicted. -/
theorem getOrCreateNode_reuses_idle (d : Dispatcher) (c : String) (now : Nat) (rnd : String)
    (h : ∃ e ∈ d.nodes, isIdleOfType d.heap c e.2 = true) :
    ∃ e ∈ d.nodes, isIdleOfType d.heap c e.2 = true ∧
      getOrCreateNode d c now rnd = (d, Except.ok e.2) := by
  obtain ⟨e, he, hid⟩ := h
  rcases getOrCreateNode_cases d c now rnd with h1 | h2 | h3 | h4
  · exact h1
  · rw [h2.1 e he] at hid; cases hid
  · rw [h3.1 e he] at hid; cases hid
  · have hi := isIdle_of_isIdleOfType _ _ _ hid
    rw [h4.1 e he] at hi; cases hi

/-- Witness for C4: with idle workers of classes `A` and `B` registered,
acquiring class `B` returns the registered worker and changes nothing. -/
theorem getOrCreateNode_reuses_idle_witness :
    ∃ e ∈ poolAB.nodes, isIdleOfType poolAB.heap "B" e.2 = true ∧
      getOrCreateNode poolAB "B" 1700000000200 "c8wt" = (poolAB, Except.ok e.2) :=
  getOrCreateNode_reuses_idle poolAB "B" 1700000000200 "c8wt"
    ⟨("B-1700000000102-m2pd", 1), by decide, by decide⟩

/-- C7. NoCapacity: `getOrCreateNode c` throws if and only if the registry
holds at least `maxNodes` workers and none of them is idle; the error is
"No available nodes" and the state is left as it was. -/
theorem getOrCreateNode_throws_iff (d : Dispatcher) (c : String) (now : Nat) (rnd : String) :
    ((∃ msg, (getOrCreateNode d c now rnd).2 = Except.error msg) ↔
      (d.maxNodes ≤ d.nodes.length ∧ ∀ e ∈ d.nodes, isIdle d.heap e.2 = false)) ∧
    (∀ msg, (getOrCreateNode d c now rnd).2 = Except.error msg →
      msg = noAvailableNodes d.maxNodes ∧ (getOrCreateNode d c now rnd).1 = d) := by
  rcases getOrCreateNode_cases d c now rnd with h1 | h2 | h3 | h4
  · obtain ⟨e, he, hid, heq⟩ := h1
    have hi := isIdle_of_isIdleOfType _ _ _ hid
    rw [heq]
    refine ⟨⟨fun ⟨msg, hm⟩ => (by cases hm), fun ⟨_, hall⟩ => ?_⟩,
      fun msg hm => (by cases hm)⟩
    rw [hall e he] at hi; cases hi
  · obtain ⟨_, hlt, heq⟩ := h2
    rw [heq]
    refine ⟨⟨fun ⟨msg, hm⟩ => (by cases hm), fun ⟨hge, _⟩ => ?_⟩,
      fun msg hm => (by cases hm)⟩
    omega
  · obtain ⟨_, _, e, he, hi, _, heq⟩ := h3
    rw [heq]
    refine ⟨⟨fun ⟨msg, hm⟩ => (by cases hm), fun ⟨_, hall⟩ => ?_⟩,
      fun msg hm => (by cases hm)⟩
    rw [hall e he] at hi; cases hi
  · obtain ⟨hall, hge, heq⟩ := h4
    rw [heq]
    refine ⟨⟨fun _ => ⟨hge, hall⟩, fun _ => ⟨_, rfl⟩⟩, fun msg hm => ?_⟩
    simp only [Except.error.injEq] at hm
    exact ⟨hm.symm, rfl⟩

/-- C8 (as amended). Creation below capacity: with fewer than `maxNodes`
workers registered, none of them idle of class `c`, and a generated id that is
not yet a key of the registry, `getOrCreateNode c` allocates one new idle worker
of class `c`, appends it to the registry and returns it; every earlier entry and
every earlier worker object is kept, so the registry grows by exactly one. -/
theorem getOrCreateNode_creates (d : Dispatcher) (c : String) (now : Nat) (rnd : String)
    (hlt : d.nodes.length < d.maxNodes)
    (hnone : ∀ e ∈ d.nodes, isIdleOfType d.heap c e.2 = false)
    (hfresh : mkId c now rnd ∉ d.nodes.map Prod.fst) :
    (getOrCreateNode d c now rnd).2 = Except.ok d.heap.length ∧
    (getOrCreateNode d c now rnd).1.nodes = d.nodes ++ [(mkId c now rnd, d.heap.length)] ∧
    (getOrCreateNode d c now rnd).1.heap = d.heap ++ [WorkerNode.new (mkId c now rnd) c] ∧
    (∃ w, (getOrCreateNode d c now rnd).1.heap[d.heap.length]? = some w ∧
      w.status = Status.idle ∧ w.nodeType = c ∧ w.id = mkId c now rnd) ∧
    (∀ e ∈ d.nodes, e ∈ (getOrCreateNode d c now rnd).1.nodes) ∧
    (∀ (r : Nat) (w : WorkerNode), d.heap[r]? = some w →
      (getOrCreateNode d c now rnd).1.heap[r]? = some w) ∧
    (getOrCreateNode d c now rnd).1.nodes.length = d.nodes.length + 1 := by
  rcases getOrCreateNode_cases d c now rnd with h1 | h2 | h3 | h4
  · obtain ⟨e, he, hid, _⟩ := h1
    rw [hnone e he] at hid; cases hid
  · obtain ⟨_, _, heq⟩ := h2
    rw [heq]
    unfold Dispatcher.register
    rw [mapSet_of_not_mem _ _ _ hfresh]
    refine ⟨rfl, rfl, rfl, ⟨WorkerNode.new (mkId c now rnd) c, by simp, rfl, rfl, rfl⟩,
      fun e he => by simp [he], fun r w hw => ?_, by simp⟩
    have hr : r < d.heap.length := (List.getElem?_eq_some.mp hw).1
    simp [List.getElem?_append_left hr, hw]
  · omega
  · omega

/-- Witness for C8: a pool below its capacity of 4 that holds idle workers of
the classes `A` and `B` and a busy worker of class `analyze`. An acquisition of
class `analyze` at a later clock value creates a fourth worker, idle and of
class `analyze`, and returns it; the three earlier entries and worker objects
are kept. -/
theorem getOrCreateNode_creates_witness :
    poolThree.nodes =
      [("A-1700000000101-x7qa", 0), ("B-1700000000102-m2pd", 1),
       ("analyze-1700000000123-k3f9", 2)] ∧
    poolThree.heap.map (fun w => (w.nodeType, w.status)) =
      [("A", Status.idle), ("B", Status.idle), ("analyze", Status.busy)] ∧
    poolThree.maxNodes = 4 ∧
    (getOrCreateNode poolThree "analyze" 1700000000200 "c8wt").1.nodes =
      [("A-1700000000101-x7qa", 0), ("B-1700000000102-m2pd", 1),
       ("analyze-1700000000123-k3f9", 2), ("analyze-1700000000200-c8wt", 3)] ∧
    ((getOrCreateNode poolThree "analyze" 1700000000200 "c8wt").2 = Except.ok poolThree.heap.length ∧
      (getOrCreateNode poolThree "analyze" 1700000000200 "c8wt").1.nodes =
        poolThree.nodes ++ [(mkId "analyze" 1700000000200 "c8wt", poolThree.heap.length)] ∧
      (getOrCreateNode poolThree "analyze" 1700000000200 "c8wt").1.heap =
        poolThree.heap ++ [WorkerNode.new (mkId "analyze" 1700000000200 "c8wt") "analyze"] ∧
      (∃ w, (getOrCreateNode poolThree "analyze" 1700000000200 "c8wt").1.heap[
            poolThree.heap.length]? = some w ∧
        w.status = Status.idle ∧ w.nodeType = "analyze" ∧
        w.id = mkId "analyze" 1700000000200 "c8wt") ∧
      (∀ e ∈ poolThree.nodes,
        e ∈ (getOrCreateNode poolThree "analyze" 1700000000200 "c8wt").1.nodes) ∧
      (∀ (r : Nat) (w : WorkerNode), poolThree.heap[r]? = some w →
        (getOrCreateNode poolThree "analyze" 1700000000200 "c8wt").1.heap[r]? = some w) ∧
      (getOrCreateNode poolThree "analyze" 1700000000200 "c8wt").1.nodes.length =
        poolThree.nodes.length + 1) :=
  ⟨by decide, by decide, by decide, by decide,
    getOrCreateNode_creates poolThree "analyze" 1700000000200 "c8wt" (by decide) (by decide)
      (by decide)⟩

/-- Counterexample to C8 as stated: the pool holds one busy `analyze` worker
created at clock 1700000000123 with suffix `k3f9`, below its capacity of 2. A second
acquisition of class `analyze` that draws the same clock value and the same
suffix generates the same id, so `Map.set` replaces the busy worker's entry:
the registry does not grow and the earlier worker is no longer registered. -/
theorem getOrCreateNode_creates_collision :
    poolBusy.WF ∧ poolBusy.nodes.length < poolBusy.maxNodes ∧
    (∀ e ∈ poolBusy.nodes, isIdleOfType poolBusy.heap "analyze" e.2 = false) ∧
    ("analyze-1700000000123-k3f9", 0) ∈ poolBusy.nodes ∧
    ¬ ((getOrCreateNode poolBusy "analyze" 1700000000123 "k3f9").1.nodes.length =
        poolBusy.nodes.length + 1) ∧
    ("analyze-1700000000123-k3f9", 0) ∉
      (getOrCreateNode poolBusy "analyze" 1700000000123 "k3f9").1.nodes := by
  decide

theorem not_idle_and_busy (heap : List WorkerNode) (r : Nat) (hi : isIdle heap r = true)
    (hb : isBusy heap r = true) : False := by
  obtain ⟨w, hw, hs⟩ := (isIdle_iff heap r).mp hi
  obtain ⟨w', hw', hs'⟩ := (isBusy_iff heap r).mp hb
  rw [hw] at hw'
  cases hw'
  rw [hs] at hs'
  cases hs'

theorem getElem?_append_singleton_of_some (heap : List WorkerNode) (x : WorkerNode) (r : Nat)
    (w : WorkerNode) (hw : heap[r]? = some w) : (heap ++ [x])[r]? = some w := by
  have hr : r < heap.length := (List.getElem?_eq_some.mp hw).1
  simp [List.getElem?_append_left hr, hw]

/-- C5 (as amended). Recycling at capacity: in a well-formed pool holding exactly
`maxNodes` workers, none idle of class `c` but at least one idle, and with a
generated id that is not yet a key of the registry, `getOrCreateNode c` removes
exactly one entry, that of an idle worker of another class, appends one new
worker of class `c` and returns it; every other entry survives and the registry
keeps its size. -/
theorem getOrCreateNode_recycles (d : Dispatcher) (c : String) (now : Nat) (rnd : String)
    (hwf : d.WF) (hfull : d.nodes.length = d.maxNodes)
    (hnone : ∀ e ∈ d.nodes, isIdleOfType d.heap c e.2 = false)
    (hidle : ∃ e ∈ d.nodes, isIdle d.heap e.2 = true)
    (hfresh : mkId c now rnd ∉ d.nodes.map Prod.fst) :
    ∃ e ∈ d.nodes, ∃ w, d.heap[e.2]? = some w ∧ w.status = Status.idle ∧
      w.nodeType ≠ c ∧
      (getOrCreateNode d c now rnd).2 = Except.ok d.heap.length ∧
      (getOrCreateNode d c now rnd).1.nodes =
        d.nodes.erase e ++ [(mkId c now rnd, d.heap.length)] ∧
      (getOrCreateNode d c now rnd).1.heap = d.heap ++ [WorkerNode.new (mkId c now rnd) c] ∧
      e ∉ (getOrCreateNode d c now rnd).1.nodes ∧
      (∀ x ∈ d.nodes, x ≠ e → x ∈ (getOrCreateNode d c now rnd).1.nodes) ∧
      (getOrCreateNode d c now rnd).1.nodes.length = d.nodes.length := by
  obtain ⟨e0, he0, hi0⟩ := hidle
  rcases getOrCreateNode_cases d c now rnd with h1 | h2 | h3 | h4
  · obtain ⟨e, he, hid, _⟩ := h1
    rw [hnone e he] at hid; cases hid
  · omega
  · obtain ⟨_, _, e, he, hi, _, heq⟩ := h3
    obtain ⟨w, hw, hs⟩ := (isIdle_iff _ _).mp hi
    have hty : w.nodeType ≠ c := by
      intro hc
      have := (isIdleOfType_iff d.heap c e.2).mpr ⟨w, hw, hs, hc⟩
      rw [hnone e he] at this; cases this
    have hdel : mapDelete d.nodes e.1 = d.nodes.erase e := mapDelete_eq_erase _ _ he hwf.1
    have hfresh' : mkId c now rnd ∉ (d.nodes.erase e).map Prod.fst := by
      intro hm
      obtain ⟨x, hx, hxk⟩ := List.mem_map.mp hm
      exact hfresh (List.mem_map.mpr ⟨x, List.mem_of_mem_erase hx, hxk⟩)
    have hnd : d.nodes.Nodup := List.Nodup.of_map _ hwf.1
    have hne : e ∉ d.nodes.erase e := fun hm => (List.Nodup.mem_erase_iff hnd).mp hm |>.1 rfl
    have hek : e.1 ≠ mkId c now rnd := by
      intro hk
      exact hfresh (hk ▸ List.mem_map_of_mem Prod.fst he)
    rw [heq, hdel]
    unfold Dispatcher.register
    rw [mapSet_of_not_mem _ _ _ hfresh']
    refine ⟨e, he, w, hw, hs, hty, rfl, rfl, rfl, ?_, ?_, ?_⟩
    · simp only [List.mem_append, List.mem_singleton, not_or]
      exact ⟨hne, fun h => hek (by rw [h])⟩
    · intro x hx hxe
      simp only [List.mem_append, List.mem_singleton]
      exact Or.inl ((List.Nodup.mem_erase_iff hnd).mpr ⟨hxe, hx⟩)
    · have hpos : 0 < d.nodes.length := List.length_pos_of_mem he
      simp only [List.length_append, List.length_erase_of_mem he, List.length_singleton]
      omega
  · obtain ⟨hall, _, _⟩ := h4
    rw [hall e0 he0] at hi0; cases hi0

/-- Witness for C5: `maxNodes = 2` with idle workers of classes `A` and `B`;
acquiring class `C` evicts the worker of class `A`, keeps the one of class `B`
and registers a new worker of class `C`. -/
theorem getOrCreateNode_recycles_witness :
    (getOrCreateNode poolAB "C" 1700000000200 "c8wt").1.nodes =
      [("B-1700000000102-m2pd", 1), ("C-1700000000200-c8wt", 2)] ∧
    ∃ e ∈ poolAB.nodes, ∃ w, poolAB.heap[e.2]? = some w ∧ w.status = Status.idle ∧
      w.nodeType ≠ "C" ∧
      (getOrCreateNode poolAB "C" 1700000000200 "c8wt").2 = Except.ok poolAB.heap.length ∧
      (getOrCreateNode poolAB "C" 1700000000200 "c8wt").1.nodes =
        poolAB.nodes.erase e ++ [(mkId "C" 1700000000200 "c8wt", poolAB.heap.length)] ∧
      (getOrCreateNode poolAB "C" 1700000000200 "c8wt").1.heap =
        poolAB.heap ++ [WorkerNode.new (mkId "C" 1700000000200 "c8wt") "C"] ∧
      e ∉ (getOrCreateNode poolAB "C" 1700000000200 "c8wt").1.nodes ∧
      (∀ x ∈ poolAB.nodes, x ≠ e →
        x ∈ (getOrCreateNode poolAB "C" 1700000000200 "c8wt").1.nodes) ∧
      (getOrCreateNode poolAB "C" 1700000000200 "c8wt").1.nodes.length = poolAB.nodes.length :=
  ⟨by decide,
    getOrCreateNode_recycles poolAB "C" 1700000000200 "c8wt" (by decide) (by decide)
      (by decide) ⟨("A-1700000000101-x7qa", 0), by decide, by decide⟩ (by decide)⟩

/-- Counterexample to C5 as stated: the pool is full (`maxNodes = 2`) with an
idle `search` worker and a busy `analyze` worker whose id is
`analyze-1700000000123-k3f9`. An acquisition of class `analyze` that generates
that same id evicts the idle worker and then overwrites the busy worker's
entry: two workers leave the registry and its size drops from 2 to 1. -/
theorem getOrCreateNode_recycles_collision :
    poolFull.WF ∧ poolFull.nodes.length = poolFull.maxNodes ∧
    (∀ e ∈ poolFull.nodes, isIdleOfType poolFull.heap "analyze" e.2 = false) ∧
    (∃ e ∈ poolFull.nodes, isIdle poolFull.heap e.2 = true) ∧
    poolFull.nodes = [("search-1700000000101-x7qa", 0), ("analyze-1700000000123-k3f9", 1)] ∧
    (getOrCreateNode poolFull "analyze" 1700000000123 "k3f9").1.nodes =
      [("analyze-1700000000123-k3f9", 2)] ∧
    ¬ ((getOrCreateNode poolFull "analyze" 1700000000123 "k3f9").1.nodes.length =
        poolFull.nodes.length) := by
  decide

/-- C6 (as amended). A busy worker is never evicted: in a well-formed pool,
every registered worker that is busy before `getOrCreateNode` is still
registered under the same id, and its object is untouched, after the call
(whether it returned or threw), provided the id generated by the call differs
from that worker's id. -/
theorem getOrCreateNode_keeps_busy (d : Dispatcher) (c : String) (now : Nat) (rnd : String)
    (hwf : d.WF) (e : String × Nat) (he : e ∈ d.nodes) (hb : isBusy d.heap e.2 = true)
    (hfresh : mkId c now rnd ≠ e.1) :
    e ∈ (getOrCreateNode d c now rnd).1.nodes ∧
    isBusy (getOrCreateNode d c now rnd).1.heap e.2 = true ∧
    (getOrCreateNode d c now rnd).1.heap[e.2]? = d.heap[e.2]? := by
  obtain ⟨w, hw, hs⟩ := (isBusy_iff _ _).mp hb
  have hheap : ∀ x : WorkerNode, (d.heap ++ [x])[e.2]? = d.heap[e.2]? := by
    intro x
    rw [getElem?_append_singleton_of_some _ _ _ _ hw, hw]
  have hbusy' : ∀ x : WorkerNode, isBusy (d.heap ++ [x]) e.2 = true := by
    intro x
    exact (isBusy_iff _ _).mpr ⟨w, getElem?_append_singleton_of_some _ _ _ _ hw, hs⟩
  rcases getOrCreateNode_cases d c now rnd with h1 | h2 | h3 | h4
  · obtain ⟨_, _, _, heq⟩ := h1
    rw [heq]; exact ⟨he, hb, rfl⟩
  · obtain ⟨_, _, heq⟩ := h2
    rw [heq]
    exact ⟨mem_mapSet_of_ne _ _ _ _ he (fun h => hfresh h.symm), hbusy' _, hheap _⟩
  · obtain ⟨_, _, e0, he0, hi0, _, heq⟩ := h3
    rw [heq]
    have hne : e ≠ e0 := by
      intro h
      subst h
      exact not_idle_and_busy _ _ hi0 hb
    have hk : e.1 ≠ e0.1 := by
      intro hk
      have hnd := hwf.1
      have := List.inj_on_of_nodup_map hnd he he0 hk
      exact hne this
    refine ⟨mem_mapSet_of_ne _ _ _ _ ((mem_mapDelete _ _ _).mpr ⟨he, hk⟩)
      (fun h => hfresh h.symm), hbusy' _, hheap _⟩
  · obtain ⟨_, _, heq⟩ := h4
    rw [heq]; exact ⟨he, hb, rfl⟩

/-- Witness for C6: in the full pool, acquiring class `fetch` evicts the idle
worker and keeps the busy one. -/
theorem getOrCreateNode_keeps_busy_witness :
    ("analyze-1700000000123-k3f9", 1) ∈
      (getOrCreateNode poolFull "fetch" 1700000000200 "c8wt").1.nodes ∧
    isBusy (getOrCreateNode poolFull "fetch" 1700000000200 "c8wt").1.heap 1 = true ∧
    (getOrCreateNode poolFull "fetch" 1700000000200 "c8wt").1.heap[1]? = poolFull.heap[1]? :=
  getOrCreateNode_keeps_busy poolFull "fetch" 1700000000200 "c8wt" (by decide)
    ("analyze-1700000000123-k3f9", 1) (by decide) (by decide) (by decide)

/-- Counterexample to C6 as stated: the only worker of the pool is busy and has
id `analyze-1700000000123-k3f9`; a call that generates the same id replaces its
registry entry by a new idle worker, so the busy worker is no longer
registered. -/
theorem getOrCreateNode_keeps_busy_collision :
    poolBusy.WF ∧ ("analyze-1700000000123-k3f9", 0) ∈ poolBusy.nodes ∧
    isBusy poolBusy.heap 0 = true ∧
    (getOrCreateNode poolBusy "analyze" 1700000000123 "k3f9").2 = Except.ok 1 ∧
    (getOrCreateNode poolBusy "analyze" 1700000000123 "k3f9").1.nodes =
      [("analyze-1700000000123-k3f9", 1)] ∧
    ("analyze-1700000000123-k3f9", 0) ∉
      (getOrCreateNode poolBusy "analyze" 1700000000123 "k3f9").1.nodes ∧
    isIdle (getOrCreateNode poolBusy "analyze" 1700000000123 "k3f9").1.heap 1 = true := by
  decide

/-! ## The capacity invariant -/

theorem getOrCreateNode_maxNodes (d : Dispatcher) (c : String) (now : Nat) (rnd : String) :
    (getOrCreateNode d c now rnd).1.maxNodes = d.maxNodes := by
  rcases getOrCreateNode_cases d c now rnd with h1 | h2 | h3 | h4
  · obtain ⟨_, _, _, heq⟩ := h1; rw [heq]
  · obtain ⟨_, _, heq⟩ := h2; rw [heq]; rfl
  · obtain ⟨_, _, _, _, _, _, heq⟩ := h3; rw [heq]; rfl
  · obtain ⟨_, _, heq⟩ := h4; rw [heq]

theorem getOrCreateNode_length_le (d : Dispatcher) (c : String) (now : Nat) (rnd : String)
    (h : d.nodes.length ≤ d.maxNodes) :
    (getOrCreateNode d c now rnd).1.nodes.length ≤ d.maxNodes := by
  rcases getOrCreateNode_cases d c now rnd with h1 | h2 | h3 | h4
  · obtain ⟨_, _, _, heq⟩ := h1; rw [heq]; exact h
  · obtain ⟨_, hlt, heq⟩ := h2
    rw [heq]
    have := length_mapSet_le d.nodes (mkId c now rnd) d.heap.length
    simp only [Dispatcher.register]
    omega
  · obtain ⟨_, _, e, he, _, _, heq⟩ := h3
    rw [heq]
    have h1 := length_mapSet_le (mapDelete d.nodes e.1) (mkId c now rnd) d.heap.length
    have h2 := length_mapDelete_lt d.nodes e he
    simp only [Dispatcher.register]
    omega
  · obtain ⟨_, _, heq⟩ := h4; rw [heq]; exact h

theorem apply_maxNodes (d : Dispatcher) (ev : PoolEvent) :
    (d.apply ev).maxNodes = d.maxNodes := by
  cases ev with
  | acquire c now rnd => exact getOrCreateNode_maxNodes d c now rnd
  | start node task => rfl
  | finish node task startTime now outcome => rfl

theorem apply_length_le (d : Dispatcher) (ev : PoolEvent) (h : d.nodes.length ≤ d.maxNodes) :
    (d.apply ev).nodes.length ≤ d.maxNodes := by
  cases ev with
  | acquire c now rnd => exact getOrCreateNode_length_le d c now rnd h
  | start node task => exact h
  | finish node task startTime now outcome => exact h

theorem applyAll_invariant (evs : List PoolEvent) (d : Dispatcher)
    (h : d.nodes.length ≤ d.maxNodes) :
    (d.applyAll evs).maxNodes = d.maxNodes ∧ (d.applyAll evs).nodes.length ≤ d.maxNodes := by
  induction evs generalizing d with
  | nil => exact ⟨rfl, h⟩
  | cons ev rest ih =>
    have hm := apply_maxNodes d ev
    have hl := apply_length_le d ev h
    have := ih (d.apply ev) (by rw [hm]; exact hl)
    simp only [Dispatcher.applyAll, List.foldl_cons] at this ⊢
    rw [hm] at this
    exact this

/-- C1 (as amended). Capacity invariant: if the registry starts with at most
`maxNodes` workers, then after every sequence of `getOrCreateNode` calls
interleaved with task starts and completions the number of registered workers
is at most `maxNodes`, and so is the number of registered workers whose status
is busy (the `busy` count of `getStatus`). -/
theorem capacity_invariant (d : Dispatcher) (evs : List PoolEvent)
    (h : d.nodes.length ≤ d.maxNodes) :
    (d.applyAll evs).nodes.length ≤ d.maxNodes ∧
    (getStatus (d.applyAll evs)).totalNodes ≤ (getStatus (d.applyAll evs)).maxNodes ∧
    (getStatus (d.applyAll evs)).busy ≤ d.maxNodes := by
  obtain ⟨hm, hl⟩ := applyAll_invariant evs d h
  refine ⟨hl, ?_, ?_⟩
  · simp only [getStatus]; rw [hm]; exact hl
  · simp only [getStatus]
    exact Nat.le_trans (List.length_filter_le _ _) hl

/-- Witness for C1: starting from the empty registry of a new dispatcher with
`maxNodes = 1`, two acquisitions separated by the start of a task leave one
registered worker, which is busy. -/
theorem capacity_invariant_witness :
    (getStatus ((Dispatcher.new 1).applyAll saturatingEvents)).busy = 1 ∧
    (((Dispatcher.new 1).applyAll saturatingEvents).nodes.length ≤ (Dispatcher.new 1).maxNodes ∧
      (getStatus ((Dispatcher.new 1).applyAll saturatingEvents)).totalNodes ≤
        (getStatus ((Dispatcher.new 1).applyAll saturatingEvents)).maxNodes ∧
      (getStatus ((Dispatcher.new 1).applyAll saturatingEvents)).busy ≤
        (Dispatcher.new 1).maxNodes) :=
  ⟨by decide, capacity_invariant (Dispatcher.new 1) saturatingEvents (by decide)⟩

/-- Counterexample to C1 as stated: on a new dispatcher with `maxNodes = 1`, a
`search` worker is acquired, then an `analyze` worker is acquired, which evicts
the idle `search` worker from the registry, and then a task is started on each
of the two workers. The registry holds one worker and `getStatus` counts one
busy worker, but two workers have status busy, which is more than `maxNodes`. -/
theorem capacity_invariant_evicted_busy :
    (Dispatcher.new 1).nodes.length ≤ (Dispatcher.new 1).maxNodes ∧
    ((Dispatcher.new 1).applyAll evictingEvents).nodes = [("analyze-1700000000123-k3f9", 1)] ∧
    (getStatus ((Dispatcher.new 1).applyAll evictingEvents)).busy = 1 ∧
    ((Dispatcher.new 1).applyAll evictingEvents).heap.map (fun w => (w.id, w.status)) =
      [("search-1700000000101-x7qa", Status.busy),
       ("analyze-1700000000123-k3f9", Status.busy)] ∧
    busyWorkers ((Dispatcher.new 1).applyAll evictingEvents) = 2 ∧
    ¬ busyWorkers ((Dispatcher.new 1).applyAll evictingEvents) ≤ (Dispatcher.new 1).maxNodes := by
  decide

/-! ## WorkerNode.execute -/

theorem executeEnd_result (w : WorkerNode) (task : Task) (startTime now : Nat)
    (outcome : Except String Payload) :
    (w.executeEnd task startTime now outcome).2 =
      { nodeId := w.id, nodeType := w.nodeType, taskId := task.id,
        success := (payloadOf outcome).isSome, result := payloadOf outcome,
        error := messageOf outcome, durationMs := (now : Int) - (startTime : Int) } := by
  cases outcome <;> rfl

theorem executeEnd_worker (w : WorkerNode) (task : Task) (startTime now : Nat)
    (outcome : Except String Payload) :
    (w.executeEnd task startTime now outcome).1.status = Status.idle ∧
    (w.executeEnd task startTime now outcome).1.currentTask = none ∧
    (w.executeEnd task startTime now outcome).1.nodeType = w.nodeType ∧
    (w.executeEnd task startTime now outcome).1.tools = w.tools ∧
    (w.executeEnd task startTime now outcome).1.id = w.id := by
  cases outcome <;> exact ⟨rfl, rfl, rfl, rfl, rfl⟩

/-- C10. `execute` never propagates a collaborator failure: whenever the call
it makes (the tool invocation when the task names a tool the worker exposes, the
completion call otherwise) fails with message `msg`, `execute` returns a
Task Result with `success = false` that carries `msg`, the worker's id and
class and the task's id. -/
theorem execute_contains_failure (env : Env) (w : WorkerNode) (task : Task)
    (startTime now : Nat) (msg : String)
    (hfail : (w.hasTool task = true ∧
        env.invokeTool (task.tool.getD "") task = Except.error msg) ∨
      (w.hasTool task = false ∧
        env.complete task (executeLLMPrompt (env.systemPrompt w.nodeType) task)
          = Except.error msg)) :
    (w.execute env task startTime now).2 =
      { nodeId := w.id, nodeType := w.nodeType, taskId := task.id, success := false,
        result := none, error := some msg,
        durationMs := (now : Int) - (startTime : Int) } := by
  have hcol : (w.executeBegin task).collaborate env task = Except.error msg := by
    rcases hfail with ⟨ht, he⟩ | ⟨ht, he⟩
    · have hl : w.toolsLookup (task.tool.getD "") = true := by
        unfold WorkerNode.hasTool at ht
        cases htool : task.tool with
        | none => simp [htool] at ht
        | some name => simp [htool] at ht; simpa using ht.2
      have ht' : (w.executeBegin task).hasTool task = true := ht
      have hl' : (w.executeBegin task).toolsLookup (task.tool.getD "") = true := hl
      simp [WorkerNode.collaborate, ht', WorkerNode.executeTool, hl', he]
    · have ht' : (w.executeBegin task).hasTool task = false := ht
      have he' : env.complete task
          (executeLLMPrompt (env.systemPrompt (w.executeBegin task).nodeType) task)
            = Except.error msg := he
      simp [WorkerNode.collaborate, ht', WorkerNode.executeLLM, he']
  simp only [WorkerNode.execute, hcol, executeEnd_result]
  rfl

/-- Witness for C10: an `analyze` worker given the instruction `bad`, whose
completion call fails with `boom`. -/
theorem execute_contains_failure_witness :
    ((WorkerNode.new "analyze-1700000000123-k3f9" "analyze").execute envBoom
        (Task.simple "analyze" "bad") 10 25).2 =
      { nodeId := "analyze-1700000000123-k3f9", nodeType := "analyze", taskId := none,
        success := false, result := none, error := some "boom", durationMs := 15 } :=
  execute_contains_failure envBoom (WorkerNode.new "analyze-1700000000123-k3f9" "analyze")
    (Task.simple "analyze" "bad") 10 25 "boom" (Or.inr ⟨by decide, by decide⟩)

/-! ## executeParallel: bounded concurrency -/

theorem waitForNode_fst (d : Dispatcher) (c : String) (start now : Nat) (rnd : String) :
    (waitForNode d c start now rnd).1 = d ∨
    (waitForNode d c start now rnd).1 = (getOrCreateNode d c now rnd).1 := by
  unfold waitForNode
  by_cases h : now - start < 30000
  · right
    simp only [h, if_true]
    cases (getOrCreateNode d c now rnd).2 <;> rfl
  · left
    simp only [h, if_false]

theorem waitForNode_maxNodes (d : Dispatcher) (c : String) (start now : Nat) (rnd : String) :
    (waitForNode d c start now rnd).1.maxNodes = d.maxNodes := by
  rcases waitForNode_fst d c start now rnd with h | h
  · rw [h]
  · rw [h, getOrCreateNode_maxNodes]

theorem head_bounded (b : Batch) (now : Nat) (rnd : String)
    (h : b.executing.length ≤ b.disp.maxNodes) : (b.head now rnd).Bounded := by
  unfold Batch.head Batch.Bounded
  cases hp : b.pending with
  | nil =>
    by_cases he : b.executing.isEmpty = true
    · rw [if_pos he]
      exact ⟨h, fun _ _ hc => (by cases hc), fun _ _ hc => (by cases hc)⟩
    · rw [if_neg he]
      exact ⟨h, fun _ _ hc => (by cases hc), fun _ _ hc => (by cases hc)⟩
  | cons task rest =>
    by_cases hlt : b.executing.length < b.disp.maxNodes
    · simp only [hlt, if_true]
      refine ⟨?_, fun _ _ _ => ?_, fun _ _ _ => ?_⟩
      all_goals simp only [waitForNode_maxNodes]
      · exact h
      · exact hlt
      · exact hlt
    · simp only [hlt, if_false]
      exact ⟨h, fun _ _ hc => (by cases hc), fun _ _ hc => (by cases hc)⟩

theorem executeNext_bounded (b : Batch) (now : Nat) (rnd : String) (h : b.Bounded) :
    (b.executeNext now rnd).Bounded := by
  unfold Batch.executeNext
  cases hc : b.ctl with
  | ready => exact head_bounded b now rnd h.1
  | acquired task node =>
    apply head_bounded
    have := h.2.1 task node hc
    simp only [Batch.startExecute, List.length_append, List.length_singleton]
    omega
  | waiting task start =>
    have hlt := h.2.2 task start hc
    unfold Batch.Bounded
    refine ⟨?_, fun _ _ _ => ?_, fun _ _ _ => ?_⟩
    all_goals simp only [waitForNode_maxNodes]
    · exact h.1
    · exact hlt
    · exact hlt
  | done => exact h
  | raised msg task => exact h

/-- The two ways `settle` can go. -/
theorem settle_cases (env : Env) (b : Batch) (i : Nat) (now : Nat) :
    b.settle env i now = b ∨
    ∃ fl w, b.executing[i]? = some fl ∧ fl.settled = none ∧ b.disp.heap[fl.node]? = some w ∧
      b.settle env i now =
        b.settleWith i fl (w.executeEnd fl.task fl.startTime now (w.collaborate env fl.task)) := by
  unfold Batch.settle
  cases hfl : b.executing[i]? with
  | none => left; rfl
  | some fl =>
    cases hs : fl.settled with
    | some r => left; simp only [hs]
    | none =>
      cases hw : b.disp.heap[fl.node]? with
      | none => left; simp only [hs, hw]
      | some w => right; exact ⟨fl, w, rfl, hs, hw, by simp only [hs, hw]⟩

/-- The two ways `deliver` can go. -/
theorem deliver_cases (b : Batch) (i : Nat) :
    b.deliver i = b ∨
    ∃ fl res, b.executing[i]? = some fl ∧ fl.settled = some res ∧
      ((∃ idx, fl.task.originalIndex = some idx ∧
          b.deliver i = { b with results := arraySet b.results idx res,
                                 executing := b.executing.eraseIdx i }) ∨
        (fl.task.originalIndex = none ∧
          b.deliver i = { b with executing := b.executing.eraseIdx i })) := by
  unfold Batch.deliver
  cases hfl : b.executing[i]? with
  | none => left; rfl
  | some fl =>
    cases hs : fl.settled with
    | none => left; simp only [hs]
    | some res =>
      right
      refine ⟨fl, res, rfl, hs, ?_⟩
      cases hi : fl.task.originalIndex with
      | none => right; exact ⟨rfl, by simp only [hs, hi]⟩
      | some idx => left; exact ⟨idx, rfl, by simp only [hs, hi]⟩

theorem settle_shape (env : Env) (b : Batch) (i : Nat) (now : Nat) :
    (b.settle env i now).ctl = b.ctl ∧ (b.settle env i now).pending = b.pending ∧
    (b.settle env i now).results = b.results ∧
    (b.settle env i now).executing.length = b.executing.length ∧
    (b.settle env i now).disp.maxNodes = b.disp.maxNodes ∧
    (b.settle env i now).disp.nodes = b.disp.nodes ∧
    (b.settle env i now).disp.heap.length = b.disp.heap.length := by
  rcases settle_cases env b i now with h | ⟨fl, w, _, _, _, h⟩
  · rw [h]; exact ⟨rfl, rfl, rfl, rfl, rfl, rfl, rfl⟩
  · rw [h]
    exact ⟨rfl, rfl, rfl, by simp [Batch.settleWith], rfl, rfl, by simp [Batch.settleWith]⟩

theorem deliver_shape (b : Batch) (i : Nat) :
    (b.deliver i).ctl = b.ctl ∧ (b.deliver i).pending = b.pending ∧
    (b.deliver i).disp = b.disp ∧
    (b.deliver i).executing.length ≤ b.executing.length := by
  rcases deliver_cases b i with h | ⟨fl, res, _, _, ⟨idx, _, h⟩ | ⟨_, h⟩⟩
  · rw [h]; exact ⟨rfl, rfl, rfl, Nat.le_refl _⟩
  · rw [h]; exact ⟨rfl, rfl, rfl, List.length_eraseIdx_le _ _⟩
  · rw [h]; exact ⟨rfl, rfl, rfl, List.length_eraseIdx_le _ _⟩

theorem step_bounded (env : Env) (b : Batch) (ev : BatchEvent) (h : b.Bounded) :
    (b.step env ev).Bounded := by
  cases ev with
  | next now rnd => exact executeNext_bounded b now rnd h
  | settle i now =>
    obtain ⟨hc, _, _, hl, hm, _, _⟩ := settle_shape env b i now
    unfold Batch.Bounded at h ⊢
    simp only [Batch.step, hc, hl, hm]
    exact h
  | deliver i =>
    obtain ⟨hc, _, hd, hl⟩ := deliver_shape b i
    unfold Batch.Bounded at h ⊢
    simp only [Batch.step, hc, hd]
    exact ⟨Nat.le_trans hl h.1, fun t n hc' => Nat.lt_of_le_of_lt hl (h.2.1 t n hc'),
      fun t n hc' => Nat.lt_of_le_of_lt hl (h.2.2 t n hc')⟩

theorem step_maxNodes (env : Env) (b : Batch) (ev : BatchEvent) :
    (b.step env ev).disp.maxNodes = b.disp.maxNodes := by
  cases ev with
  | next now rnd =>
    simp only [Batch.step, Batch.executeNext]
    have hhead : ∀ b' : Batch, (b'.head now rnd).disp.maxNodes = b'.disp.maxNodes := by
      intro b'
      unfold Batch.head
      cases hp : b'.pending with
      | nil =>
        by_cases he : b'.executing.isEmpty = true
        · rw [if_pos he]
        · rw [if_neg he]
      | cons task rest =>
        by_cases hlt : b'.executing.length < b'.disp.maxNodes
        · simp only [hlt, if_true, waitForNode_maxNodes]
        · simp only [hlt, if_false]
    cases hc : b.ctl with
    | ready => exact hhead b
    | acquired task node => simp only [hhead]; rfl
    | waiting task start => simp only [waitForNode_maxNodes]
    | done => rfl
    | raised msg task => rfl
  | settle i now => exact (settle_shape env b i now).2.2.2.2.1
  | deliver i => rw [Batch.step, (deliver_shape b i).2.2.1]

theorem run_bounded (env : Env) (evs : List BatchEvent) (b : Batch) (h : b.Bounded) :
    (b.run env evs).Bounded ∧ (b.run env evs).disp.maxNodes = b.disp.maxNodes := by
  induction evs generalizing b with
  | nil => exact ⟨h, rfl⟩
  | cons ev rest ih =>
    have := ih (b.step env ev) (step_bounded env b ev h)
    simp only [Batch.run, List.foldl_cons] at this ⊢
    rw [step_maxNodes] at this
    exact this

theorem init_bounded (d : Dispatcher) (tasks : List Task) (now : Nat) :
    (Batch.init d tasks now).Bounded :=
  ⟨Nat.zero_le _, fun _ _ hc => (by cases hc), fun _ _ hc => (by cases hc)⟩

/-- C3. Bounded concurrency: in every state an `executeParallel` run can
reach, whatever the task list, the collaborators and the interleaving of
completions, the `executing` set holds at most `maxNodes` calls. -/
theorem executeParallel_bounded (env : Env) (d : Dispatcher) (tasks : List Task) (now : Nat)
    (evs : List BatchEvent) :
    ((Batch.init d tasks now).run env evs).executing.length ≤ d.maxNodes := by
  obtain ⟨hb, hm⟩ := run_bounded env evs (Batch.init d tasks now) (init_bounded d tasks now)
  have := hb.1
  rw [hm] at this
  exact this

/-! ## Acquisition inside a run -/

theorem keys_mapSet (m : List (String × Nat)) (k : String) (v : Nat) (x : String)
    (hx : x ∈ (mapSet m k v).map Prod.fst) : x = k ∨ x ∈ m.map Prod.fst := by
  obtain ⟨e, he, rfl⟩ := List.mem_map.mp hx
  rcases mem_mapSet m k v e he with h | h
  · left; rw [h]
  · right; exact List.mem_map_of_mem Prod.fst h

theorem vals_mapSet (m : List (String × Nat)) (k : String) (v : Nat) (x : Nat)
    (hx : x ∈ (mapSet m k v).map Prod.snd) : x = v ∨ x ∈ m.map Prod.snd := by
  obtain ⟨e, he, rfl⟩ := List.mem_map.mp hx
  rcases mem_mapSet m k v e he with h | h
  · left; rw [h]
  · right; exact List.mem_map_of_mem Prod.snd h

theorem mapSet_keys_nodup (m : List (String × Nat)) (k : String) (v : Nat)
    (h : (m.map Prod.fst).Nodup) : ((mapSet m k v).map Prod.fst).Nodup := by
  induction m with
  | nil => simp [mapSet]
  | cons e rest ih =>
    obtain ⟨k', v'⟩ := e
    simp only [List.map_cons, List.nodup_cons] at h
    by_cases hk : k' = k
    · subst hk
      simp only [mapSet, if_true, List.map_cons, List.nodup_cons]
      exact h
    · simp only [mapSet, hk, if_false, List.map_cons, List.nodup_cons]
      refine ⟨fun hm => ?_, ih h.2⟩
      rcases keys_mapSet rest k v k' hm with h1 | h1
      · exact hk h1
      · exact h.1 h1

theorem mapSet_vals_nodup (m : List (String × Nat)) (k : String) (v : Nat)
    (h : (m.map Prod.snd).Nodup) (hv : v ∉ m.map Prod.snd) :
    ((mapSet m k v).map Prod.snd).Nodup := by
  induction m with
  | nil => simp [mapSet]
  | cons e rest ih =>
    obtain ⟨k', v'⟩ := e
    simp only [List.map_cons, List.nodup_cons] at h
    simp only [List.map_cons, List.mem_cons, not_or] at hv
    by_cases hk : k' = k
    · simp only [mapSet, hk, if_true, List.map_cons, List.nodup_cons]
      exact ⟨hv.2, h.2⟩
    · simp only [mapSet, hk, if_false, List.map_cons, List.nodup_cons]
      refine ⟨fun hm => ?_, ih h.2 hv.2⟩
      rcases vals_mapSet rest k v v' hm with h1 | h1
      · exact hv.1 h1.symm
      · exact h.1 h1

theorem register_heap_some (d : Dispatcher) (m : List (String × Nat)) (id c : String)
    (r : Nat) (w : WorkerNode) (hw : d.heap[r]? = some w) :
    (d.register m id c).heap[r]? = some w :=
  getElem?_append_singleton_of_some _ _ _ _ hw

theorem register_heap_new (d : Dispatcher) (m : List (String × Nat)) (id c : String) :
    (d.register m id c).heap[d.heap.length]? = some (WorkerNode.new id c) := by
  simp [Dispatcher.register]

theorem register_wf (d : Dispatcher) (m : List (String × Nat)) (id c : String)
    (hwf : d.WF) (hsub : m.Sublist d.nodes) : (d.register m id c).WF := by
  obtain ⟨hk, hv, hr, ht⟩ := hwf
  have hmk : (m.map Prod.fst).Nodup := List.Nodup.sublist (hsub.map Prod.fst) hk
  have hmv : (m.map Prod.snd).Nodup := List.Nodup.sublist (hsub.map Prod.snd) hv
  have hfresh : d.heap.length ∉ m.map Prod.snd := by
    intro hm
    obtain ⟨e, he, hev⟩ := List.mem_map.mp hm
    have := hr e (hsub.subset he)
    omega
  refine ⟨mapSet_keys_nodup _ _ _ hmk, mapSet_vals_nodup _ _ _ hmv hfresh, ?_, ?_⟩
  · intro e he
    simp only [Dispatcher.register, List.length_append, List.length_singleton]
    rcases mem_mapSet _ _ _ _ he with h | h
    · rw [h]; exact Nat.lt_succ_self _
    · exact Nat.lt_succ_of_lt (hr e (hsub.subset h))
  · intro w hw
    simp only [Dispatcher.register, List.mem_append, List.mem_singleton] at hw
    rcases hw with h | h
    · exact ht w h
    · rw [h]; rfl

theorem register_busy (d : Dispatcher) (m : List (String × Nat)) (id c : String)
    (hwf : d.WF) (hsub : m.Sublist d.nodes) (e : String × Nat)
    (he : e ∈ (d.register m id c).nodes) (hb : isBusy (d.register m id c).heap e.2 = true) :
    e ∈ d.nodes ∧ isBusy d.heap e.2 = true := by
  rcases mem_mapSet _ _ _ _ he with h | h
  · exfalso
    rw [h] at hb
    obtain ⟨w, hw, hs⟩ := (isBusy_iff _ _).mp hb
    rw [register_heap_new] at hw
    cases hw
    cases hs
  · have hmem := hsub.subset h
    have hlt := hwf.2.2.1 e hmem
    obtain ⟨w, hw, hs⟩ := (isBusy_iff _ _).mp hb
    have hold : d.heap[e.2]? = some (d.heap[e.2]) := List.getElem?_eq_getElem hlt
    have := register_heap_some d m id c e.2 _ hold
    rw [this] at hw
    cases hw
    exact ⟨hmem, (isBusy_iff _ _).mpr ⟨_, hold, hs⟩⟩

/-- The outcomes of `getOrCreateNode`: reuse, registration of a new worker on
a part of the registry, or failure. -/
theorem getOrCreateNode_shape (d : Dispatcher) (c : String) (now : Nat) (rnd : String) :
    (∃ e ∈ d.nodes, isIdleOfType d.heap c e.2 = true ∧
        getOrCreateNode d c now rnd = (d, Except.ok e.2)) ∨
    (∃ m, m.Sublist d.nodes ∧
        getOrCreateNode d c now rnd =
          (d.register m (mkId c now rnd) c, Except.ok d.heap.length)) ∨
    ((∀ e ∈ d.nodes, isIdle d.heap e.2 = false) ∧ d.maxNodes ≤ d.nodes.length ∧
        getOrCreateNode d c now rnd = (d, Except.error (noAvailableNodes d.maxNodes))) := by
  rcases getOrCreateNode_cases d c now rnd with h1 | h2 | h3 | h4
  · exact Or.inl h1
  · exact Or.inr (Or.inl ⟨d.nodes, List.Sublist.refl _, h2.2.2⟩)
  · obtain ⟨_, _, e, _, _, _, heq⟩ := h3
    exact Or.inr (Or.inl ⟨mapDelete d.nodes e.1, List.filter_sublist _, heq⟩)
  · exact Or.inr (Or.inr h4)

theorem getOrCreateNode_wf (d : Dispatcher) (c : String) (now : Nat) (rnd : String)
    (hwf : d.WF) : (getOrCreateNode d c now rnd).1.WF := by
  rcases getOrCreateNode_shape d c now rnd with ⟨_, _, _, h⟩ | ⟨m, hsub, h⟩ | ⟨_, _, h⟩
  · rw [h]; exact hwf
  · rw [h]; exact register_wf d m _ c hwf hsub
  · rw [h]; exact hwf

theorem getOrCreateNode_heap_some (d : Dispatcher) (c : String) (now : Nat) (rnd : String)
    (r : Nat) (w : WorkerNode) (hw : d.heap[r]? = some w) :
    (getOrCreateNode d c now rnd).1.heap[r]? = some w := by
  rcases getOrCreateNode_shape d c now rnd with ⟨_, _, _, h⟩ | ⟨m, hsub, h⟩ | ⟨_, _, h⟩
  · rw [h]; exact hw
  · rw [h]; exact register_heap_some d m _ c r w hw
  · rw [h]; exact hw

theorem getOrCreateNode_busy (d : Dispatcher) (c : String) (now : Nat) (rnd : String)
    (hwf : d.WF) (e : String × Nat) (he : e ∈ (getOrCreateNode d c now rnd).1.nodes)
    (hb : isBusy (getOrCreateNode d c now rnd).1.heap e.2 = true) :
    e ∈ d.nodes ∧ isBusy d.heap e.2 = true := by
  rcases getOrCreateNode_shape d c now rnd with ⟨_, _, _, h⟩ | ⟨m, hsub, h⟩ | ⟨_, _, h⟩
  · rw [h] at he hb; exact ⟨he, hb⟩
  · rw [h] at he hb; exact register_busy d m _ c hwf hsub e he hb
  · rw [h] at he hb; exact ⟨he, hb⟩

theorem getOrCreateNode_ok_typed (d : Dispatcher) (c : String) (now : Nat) (rnd : String)
    (node : Nat) (hok : (getOrCreateNode d c now rnd).2 = Except.ok node) :
    ∃ w, (getOrCreateNode d c now rnd).1.heap[node]? = some w ∧ w.nodeType = c ∧
      w.status = Status.idle := by
  rcases getOrCreateNode_shape d c now rnd with ⟨e, _, hi, h⟩ | ⟨m, hsub, h⟩ | ⟨_, _, h⟩
  · rw [h] at hok ⊢
    simp only [Except.ok.injEq] at hok
    subst hok
    obtain ⟨w, hw, hs, ht⟩ := (isIdleOfType_iff _ _ _).mp hi
    exact ⟨w, hw, ht, hs⟩
  · rw [h] at hok ⊢
    simp only [Except.ok.injEq] at hok
    subst hok
    exact ⟨_, register_heap_new d m _ c, rfl, rfl⟩
  · rw [h] at hok; cases hok

/-- Acquisition cannot fail when every busy registered worker is held by one
of fewer than `maxNodes` in-flight calls. -/
theorem getOrCreateNode_ok_of_held (d : Dispatcher) (c : String) (now : Nat) (rnd : String)
    (executing : List InFlight) (hwf : d.WF)
    (held : ∀ e ∈ d.nodes, isBusy d.heap e.2 = true →
      ∃ fl ∈ executing, fl.node = e.2 ∧ fl.settled = none)
    (hlt : executing.length < d.maxNodes) :
    ∃ node, (getOrCreateNode d c now rnd).2 = Except.ok node := by
  rcases getOrCreateNode_shape d c now rnd with ⟨e, _, _, h⟩ | ⟨m, _, h⟩ | ⟨hall, hge, _⟩
  · exact ⟨e.2, by rw [h]⟩
  · exact ⟨d.heap.length, by rw [h]⟩
  · exfalso
    have hsub : d.nodes.map Prod.snd ⊆ executing.map InFlight.node := by
      intro r hr
      obtain ⟨e, he, rfl⟩ := List.mem_map.mp hr
      have hlt' := hwf.2.2.1 e he
      have hold : d.heap[e.2]? = some (d.heap[e.2]) := List.getElem?_eq_getElem hlt'
      have hbusy : isBusy d.heap e.2 = true := by
        apply (isBusy_iff _ _).mpr
        refine ⟨_, hold, ?_⟩
        cases hs : (d.heap[e.2]).status with
        | busy => rfl
        | idle =>
          have := (isIdle_iff d.heap e.2).mpr ⟨_, hold, hs⟩
          rw [hall e he] at this
          cases this
      obtain ⟨fl, hfl, hn, _⟩ := held e he hbusy
      exact List.mem_map.mpr ⟨fl, hfl, hn⟩
    have hle := (List.subperm_of_subset hwf.2.1 hsub).length_le
    simp only [List.length_map] at hle
    omega

/-! ## The invariant of a run -/

theorem mem_set_of_ne {α : Type} (l : List α) (i : Nat) (x y z : α) (hx : x ∈ l)
    (hy : l[i]? = some y) (hne : x ≠ y) : x ∈ l.set i z := by
  obtain ⟨j, hj⟩ := List.mem_iff_getElem?.mp hx
  have hji : i ≠ j := by
    intro h
    subst h
    rw [hy] at hj
    exact hne (Option.some.inj hj).symm
  apply List.mem_iff_getElem?.mpr
  exact ⟨j, by rw [List.getElem?_set_ne hji]; exact hj⟩

theorem mem_eraseIdx_of_ne {α : Type} (l : List α) (i : Nat) (x y : α) (hx : x ∈ l)
    (hy : l[i]? = some y) (hne : x ≠ y) : x ∈ l.eraseIdx i := by
  obtain ⟨j, hj⟩ := List.mem_iff_getElem?.mp hx
  have hji : j ≠ i := by
    intro h
    subst h
    rw [hy] at hj
    exact hne (Option.some.inj hj).symm
  exact List.mem_eraseIdx_iff_getElem?.mpr ⟨j, hji, hj⟩

theorem mem_set_self_of_getElem? {α : Type} (l : List α) (i : Nat) (y z : α)
    (hy : l[i]? = some y) : z ∈ l.set i z := by
  have hi : i < l.length := (List.getElem?_eq_some.mp hy).1
  exact List.mem_set l i hi z

theorem length_tagTasks (tasks : List Task) (i id : Nat) :
    (tagTasks tasks i id).length = tasks.length := by
  induction tasks generalizing i id with
  | nil => rfl
  | cons t ts ih => simp [tagTasks, ih]

theorem getElem?_tagTasks (tasks : List Task) (i id j : Nat) :
    (tagTasks tasks i id)[j]? = (tasks[j]?).map (fun t => t.tag (i + j) (id + j)) := by
  induction tasks generalizing i id j with
  | nil => simp [tagTasks]
  | cons t ts ih =>
    cases j with
    | zero => simp [tagTasks]
    | succ j =>
      simp only [tagTasks, List.getElem?_cons_succ, ih]
      have h1 : i + 1 + j = i + (j + 1) := by omega
      have h2 : id + 1 + j = id + (j + 1) := by omega
      rw [h1, h2]

theorem indexed_tagTasks (tasks : List Task) (id : Nat) : Indexed (tagTasks tasks 0 id) := by
  intro j t ht
  rw [getElem?_tagTasks] at ht
  cases hj : tasks[j]? with
  | none => simp [hj] at ht
  | some t0 =>
    simp only [hj, Option.map_some', Option.some.injEq] at ht
    rw [← ht]
    simp [Task.tag]

theorem Indexed.getElem?_of_mem {tagged : List Task} (h : Indexed tagged) (t : Task)
    (ht : t ∈ tagged) (i : Nat) (hi : t.originalIndex = some i) : tagged[i]? = some t := by
  obtain ⟨j, hj⟩ := List.mem_iff_getElem?.mp ht
  have := h j t hj
  rw [hi] at this
  cases this
  exact hj

theorem wf_set_heap (d : Dispatcher) (node : Nat) (w x : WorkerNode)
    (hw : d.heap[node]? = some w) (hty : x.nodeType = w.nodeType) (htl : x.tools = w.tools)
    (hwf : d.WF) : ({ d with heap := d.heap.set node x } : Dispatcher).WF := by
  obtain ⟨hk, hv, hr, ht⟩ := hwf
  refine ⟨hk, hv, ?_, ?_⟩
  · intro e he
    simp only [List.length_set]
    exact hr e he
  · intro w' hw'
    rcases List.mem_or_eq_of_mem_set hw' with h | h
    · exact ht w' h
    · rw [h, hty, htl]
      exact ht w (List.getElem?_mem hw)

theorem typed_set_heap (heap : List WorkerNode) (node : Nat) (w x : WorkerNode)
    (hw : heap[node]? = some w) (hty : x.nodeType = w.nodeType) (r : Nat) (w' : WorkerNode)
    (hw' : heap[r]? = some w') :
    ∃ w'', (heap.set node x)[r]? = some w'' ∧ w''.nodeType = w'.nodeType := by
  by_cases hr : node = r
  · subst hr
    rw [hw] at hw'
    cases hw'
    have hlt : node < heap.length := (List.getElem?_eq_some.mp hw).1
    exact ⟨x, List.getElem?_set_self hlt, hty⟩
  · exact ⟨w', by rw [List.getElem?_set_ne hr]; exact hw', rfl⟩

theorem isBusy_set_ne (heap : List WorkerNode) (node r : Nat) (x : WorkerNode) (hr : node ≠ r) :
    isBusy (heap.set node x) r = isBusy heap r := by
  unfold isBusy
  rw [List.getElem?_set_ne hr]

theorem heapUpdate_of_some (heap : List WorkerNode) (node : Nat) (w : WorkerNode)
    (f : WorkerNode → WorkerNode) (hw : heap[node]? = some w) :
    heapUpdate heap node f = heap.set node (f w) := by
  simp [heapUpdate, hw]

theorem waitForNode_cases (d : Dispatcher) (c : String) (start now : Nat) (rnd : String) :
    (∃ node, (getOrCreateNode d c now rnd).2 = Except.ok node ∧
      waitForNode d c start now rnd = ((getOrCreateNode d c now rnd).1, Waited.resolved node)) ∨
    (waitForNode d c start now rnd = ((getOrCreateNode d c now rnd).1, Waited.sleeping)) ∨
    (∃ msg, waitForNode d c start now rnd = (d, Waited.timedOut msg)) := by
  unfold waitForNode
  by_cases h : now - start < 30000
  · simp only [h, if_true]
    cases hg : (getOrCreateNode d c now rnd).2 with
    | ok node => exact Or.inl ⟨node, rfl, rfl⟩
    | error msg => exact Or.inr (Or.inl rfl)
  · simp only [h, if_false]
    exact Or.inr (Or.inr ⟨_, rfl⟩)

/-- What a pass of `waitForNode` leaves of a well-formed pool: it is still
well formed, no existing object has changed, and a resolved node is an object
of the requested class. -/
theorem waitForNode_keeps (d : Dispatcher) (c : String) (start now : Nat) (rnd : String)
    (hwf : d.WF) :
    (waitForNode d c start now rnd).1.WF ∧
    (∀ (r : Nat) (w : WorkerNode), d.heap[r]? = some w →
      (waitForNode d c start now rnd).1.heap[r]? = some w) ∧
    (∀ node, (waitForNode d c start now rnd).2 = Waited.resolved node →
      ∃ w, (waitForNode d c start now rnd).1.heap[node]? = some w ∧ w.nodeType = c) := by
  rcases waitForNode_cases d c start now rnd with ⟨node, hok, h⟩ | h | ⟨msg, h⟩
  · rw [h]
    refine ⟨getOrCreateNode_wf d c now rnd hwf,
      fun r w hw => getOrCreateNode_heap_some d c now rnd r w hw, fun n hn => ?_⟩
    simp only [Waited.resolved.injEq] at hn
    subst hn
    obtain ⟨w, hw, hty, _⟩ := getOrCreateNode_ok_typed d c now rnd node hok
    exact ⟨w, hw, hty⟩
  · rw [h]
    exact ⟨getOrCreateNode_wf d c now rnd hwf,
      fun r w hw => getOrCreateNode_heap_some d c now rnd r w hw, fun n hn => by cases hn⟩
  · rw [h]
    exact ⟨hwf, fun r w hw => hw, fun n hn => by cases hn⟩

theorem held_toCtl (task : Task) (start : Nat) (r : Waited) :
    (r.toCtl task start).held = some task := by
  cases r <;> rfl

theorem toCtl_ne_done (task : Task) (start : Nat) (r : Waited) :
    r.toCtl task start ≠ Ctl.done := by
  cases r <;> exact fun h => Ctl.noConfusion h

theorem toCtl_acquired (task : Task) (start : Nat) (r : Waited) (t : Task) (n : Nat)
    (h : r.toCtl task start = Ctl.acquired t n) : t = task ∧ r = Waited.resolved n := by
  cases r with
  | resolved node =>
    simp only [Waited.toCtl, Ctl.acquired.injEq] at h
    exact ⟨h.1.symm, by rw [h.2]⟩
  | sleeping => cases h
  | timedOut msg => cases h

theorem map_set_same {α β : Type} (f : α → β) (l : List α) (i : Nat) (a x : α)
    (ha : l[i]? = some a) (hf : f x = f a) : (l.set i x).map f = l.map f := by
  induction l generalizing i with
  | nil => rfl
  | cons y ys ih =>
    cases i with
    | zero =>
      simp only [List.getElem?_cons_zero, Option.some.injEq] at ha
      subst ha
      simp [hf]
    | succ i =>
      simp only [List.getElem?_cons_succ] at ha
      simp [ih i ha]

theorem nodup_getElem?_inj {α : Type} (l : List α) (h : l.Nodup) (p q : Nat) (x : α)
    (hp : l[p]? = some x) (hq : l[q]? = some x) : p = q := by
  have hpl : p < l.length := (List.getElem?_eq_some.mp hp).1
  have hql : q < l.length := (List.getElem?_eq_some.mp hq).1
  have hne := List.nodup_iff_getElem?_ne_getElem?.mp h
  rcases Nat.lt_trichotomy p q with hlt | heq | hgt
  · exact absurd (hp.trans hq.symm) (hne p q hlt hql)
  · exact heq
  · exact absurd (hq.trans hp.symm) (hne q p hgt hpl)

theorem ne_of_mem_eraseIdx {α β : Type} (f : α → β) (l : List α) (i : Nat) (a x : α)
    (hnd : (l.map f).Nodup) (ha : l[i]? = some a) (hx : x ∈ l.eraseIdx i) : f x ≠ f a := by
  intro hf
  obtain ⟨p, hpi, hp⟩ := List.mem_eraseIdx_iff_getElem?.mp hx
  have h1 : (l.map f)[p]? = some (f a) := by rw [List.getElem?_map, hp, ← hf]; rfl
  have h2 : (l.map f)[i]? = some (f a) := by rw [List.getElem?_map, ha]; rfl
  exact hpi (nodup_getElem?_inj _ hnd p i _ h1 h2)

theorem filled_set_iff (b : List (Option TaskResult)) (j : Nat) (res : TaskResult) (i : Nat)
    (h : ∃ r, (b.set j (some res))[i]? = some (some r)) :
    i = j ∨ ∃ r, b[i]? = some (some r) := by
  by_cases hij : j = i
  · exact Or.inl hij.symm
  · obtain ⟨r, hr⟩ := h
    rw [List.getElem?_set_ne hij] at hr
    exact Or.inr ⟨r, hr⟩

theorem startExecute_core (env : Env) (tagged : List Task) (b : Batch) (task : Task)
    (node now : Nat) (h : b.Core env tagged) (hc : b.ctl = Ctl.acquired task node) :
    (b.startExecute task node now).Core env tagged := by
  obtain ⟨w, hw, hty⟩ := h.acquiredTyped task node hc
  have hheld : b.ctl.held = some task := by rw [hc]; rfl
  have htag : task ∈ tagged := h.heldTagged task hheld
  have hheap : (b.startExecute task node now).disp.heap =
      b.disp.heap.set node (w.executeBegin task) := by
    simp only [Batch.startExecute]
    exact heapUpdate_of_some _ _ _ _ hw
  have hex : (b.startExecute task node now).executing =
      b.executing ++ [{ task := task, node := node, startTime := now, settled := none }] := rfl
  have hctl : (b.startExecute task node now).ctl = Ctl.ready := rfl
  have hres : (b.startExecute task node now).results = b.results := rfl
  have hpen : (b.startExecute task node now).pending = b.pending := rfl
  have hdisp : (b.startExecute task node now).disp =
      { b.disp with heap := b.disp.heap.set node (w.executeBegin task) } := by
    simp only [Batch.startExecute]
    rw [heapUpdate_of_some _ _ _ _ hw]
  have hnoheld : ∀ t, (b.startExecute task node now).ctl.held ≠ some t := by
    intro t ht
    rw [hctl] at ht
    cases ht
  have hfilled : ∀ i, (b.startExecute task node now).filled i ↔ b.filled i := fun i => Iff.rfl
  refine ⟨?_, ?_, ?_, ?_, ?_, ?_, ?_, ?_, ?_, ?_, ?_, ?_, ?_, ?_⟩
  · rw [hdisp]
    exact wf_set_heap b.disp node w _ hw rfl rfl h.wf
  · intro fl hfl
    rw [hex] at hfl
    rw [hheap]
    rcases List.mem_append.mp hfl with hm | hm
    · obtain ⟨w', hw', hty'⟩ := h.typed fl hm
      obtain ⟨w'', h1, h2⟩ := typed_set_heap _ node w (w.executeBegin task) hw rfl _ _ hw'
      exact ⟨w'', h1, h2.trans hty'⟩
    · rw [List.mem_singleton.mp hm]
      obtain ⟨w'', h1, h2⟩ := typed_set_heap _ node w (w.executeBegin task) hw rfl _ _ hw
      exact ⟨w'', h1, h2.trans hty⟩
  · intro t n hc'
    rw [hctl] at hc'
    cases hc'
  · intro hc'
    rw [hctl] at hc'
    cases hc'
  · rw [hres]; exact h.len
  · intro fl hfl
    rw [hex] at hfl
    rcases List.mem_append.mp hfl with hm | hm
    · exact h.inTagged fl hm
    · rw [List.mem_singleton.mp hm]; exact htag
  · intro t ht
    exact absurd ht (hnoheld t)
  · intro i r hr
    rw [hres] at hr
    exact h.stored i r hr
  · intro fl hfl r hr
    rw [hex] at hfl
    rcases List.mem_append.mp hfl with hm | hm
    · exact h.settledFor fl hm r hr
    · rw [List.mem_singleton.mp hm] at hr
      cases hr
  · obtain ⟨k, hk, hp, hin, hhe, hfree⟩ := h.admitted
    refine ⟨k, hk, by rw [hpen]; exact hp, ?_, ?_, ?_⟩
    · intro fl hfl i hi
      rw [hex] at hfl
      rcases List.mem_append.mp hfl with hm | hm
      · exact hin fl hm i hi
      · rw [List.mem_singleton.mp hm] at hi
        exact hhe task i hheld hi
    · intro t i ht
      exact absurd ht (hnoheld t)
    · intro i hi
      exact hfree i hi
  · rw [hex]
    simp only [List.map_append, List.map_cons, List.map_nil]
    apply List.Nodup.append h.distinct (List.nodup_singleton _)
    intro x hx hx'
    rw [List.mem_singleton] at hx'
    obtain ⟨fl, hfl, hfx⟩ := List.mem_map.mp hx
    exact h.heldFresh task hheld fl hfl (hfx.trans hx')
  · intro t ht
    exact absurd ht (hnoheld t)
  · intro fl hfl i hi
    rw [hex] at hfl
    rcases List.mem_append.mp hfl with hm | hm
    · exact h.inflightFree fl hm i hi
    · rw [List.mem_singleton.mp hm] at hi
      exact h.heldFree task i hheld hi
  · intro t i ht
    exact absurd ht (hnoheld t)

theorem waitForNode_now (d : Dispatcher) (c : String) (now : Nat) (rnd : String) (node : Nat)
    (hok : (getOrCreateNode d c now rnd).2 = Except.ok node) :
    waitForNode d c now now rnd = ((getOrCreateNode d c now rnd).1, Waited.resolved node) := by
  unfold waitForNode
  have h0 : now - now < 30000 := by omega
  simp only [h0, if_true, hok]

/-- The three ways the loop head can go. -/
theorem head_cases (b : Batch) (now : Nat) (rnd : String) :
    (b.pending = [] ∧ b.executing = [] ∧ b.head now rnd = { b with ctl := Ctl.done }) ∨
    (b.head now rnd = { b with ctl := Ctl.ready } ∧
      ((b.pending = [] ∧ b.executing ≠ []) ∨
        (b.pending ≠ [] ∧ b.disp.maxNodes ≤ b.executing.length))) ∨
    (∃ task rest, b.pending = task :: rest ∧ b.executing.length < b.disp.maxNodes ∧
      b.head now rnd =
        { b with disp := (waitForNode b.disp task.nodeTypeOr now now rnd).1, pending := rest,
                 ctl := (waitForNode b.disp task.nodeTypeOr now now rnd).2.toCtl task now }) := by
  unfold Batch.head
  cases hp : b.pending with
  | nil =>
    by_cases he : b.executing.isEmpty = true
    · left
      rw [if_pos he]
      exact ⟨rfl, List.isEmpty_iff.mp he, rfl⟩
    · right; left
      rw [if_neg he]
      exact ⟨rfl, Or.inl ⟨rfl, fun h => he (List.isEmpty_iff.mpr h)⟩⟩
  | cons task rest =>
    by_cases hlt : b.executing.length < b.disp.maxNodes
    · right; right
      exact ⟨task, rest, rfl, hlt, by simp only [hlt, if_true]⟩
    · right; left
      refine ⟨?_, Or.inr ⟨by simp, Nat.le_of_not_lt hlt⟩⟩
      show (if b.executing.length < b.disp.maxNodes then _ else _) = _
      rw [if_neg hlt]

theorem acquire_core (env : Env) (tagged : List Task) (b : Batch) (task : Task)
    (pending : List Task) (start now : Nat) (rnd : String) (k : Nat) (i : Nat)
    (h : b.Core env tagged) (htag : task ∈ tagged) (hi : task.originalIndex = some i)
    (hk : k ≤ tagged.length) (hp : pending = tagged.drop k) (hik : i < k)
    (hin : ∀ fl ∈ b.executing, ∀ j, fl.task.originalIndex = some j → j < k)
    (hfree : ∀ j, k ≤ j → ¬ b.filled j)
    (hfresh : ∀ fl ∈ b.executing, fl.task.originalIndex ≠ task.originalIndex)
    (hifree : ¬ b.filled i) :
    Batch.Core env tagged
      { b with disp := (waitForNode b.disp task.nodeTypeOr start now rnd).1,
               pending := pending,
               ctl := (waitForNode b.disp task.nodeTypeOr start now rnd).2.toCtl task start } := by
  obtain ⟨hwf, hheap, hres⟩ := waitForNode_keeps b.disp task.nodeTypeOr start now rnd h.wf
  have hheld : ∀ t, ((waitForNode b.disp task.nodeTypeOr start now rnd).2.toCtl task start).held
      = some t → t = task := by
    intro t ht
    rw [held_toCtl] at ht
    exact (Option.some.inj ht).symm
  refine ⟨hwf, ?_, ?_, ?_, h.len, h.inTagged, ?_, h.stored, h.settledFor, ?_, h.distinct,
    ?_, h.inflightFree, ?_⟩
  · intro fl hfl
    obtain ⟨w, hw, hty⟩ := h.typed fl hfl
    exact ⟨w, hheap _ _ hw, hty⟩
  · intro t n hc
    obtain ⟨rfl, hr⟩ := toCtl_acquired _ _ _ _ _ hc
    exact hres n hr
  · intro hc
    exact absurd hc (toCtl_ne_done _ _ _)
  · intro t ht
    rw [hheld t ht]
    exact htag
  · refine ⟨k, hk, hp, hin, ?_, hfree⟩
    intro t j ht hj
    rw [hheld t ht, hi] at hj
    cases hj
    exact hik
  · intro t ht fl hfl
    rw [hheld t ht]
    exact hfresh fl hfl
  · intro t j ht hj
    rw [hheld t ht, hi] at hj
    cases hj
    exact hifree

theorem head_core (env : Env) (tagged : List Task) (b : Batch) (now : Nat) (rnd : String)
    (hidx : Indexed tagged) (h : b.Core env tagged) (hc : b.ctl = Ctl.ready) :
    (b.head now rnd).Core env tagged := by
  have hnoheld : ∀ t, b.ctl.held ≠ some t := by
    intro t ht
    rw [hc] at ht
    cases ht
  rcases head_cases b now rnd with ⟨hp, he, heq⟩ | ⟨heq, _⟩ | ⟨task, rest, hp, hlt, heq⟩
  · rw [heq]
    obtain ⟨k, hk, hpk, hin, _, hfree⟩ := h.admitted
    exact
      { wf := h.wf, typed := h.typed,
        acquiredTyped := fun _ _ hc' => (by cases hc'),
        finished := fun _ => ⟨hp, he⟩,
        len := h.len, inTagged := h.inTagged,
        heldTagged := fun _ ht => (by cases ht),
        stored := h.stored, settledFor := h.settledFor,
        admitted := ⟨k, hk, hpk, hin, fun _ _ ht => (by cases ht), hfree⟩,
        distinct := h.distinct,
        heldFresh := fun _ ht => (by cases ht),
        inflightFree := h.inflightFree,
        heldFree := fun _ _ ht => (by cases ht) }
  · rw [heq]
    obtain ⟨k, hk, hpk, hin, _, hfree⟩ := h.admitted
    exact
      { wf := h.wf, typed := h.typed,
        acquiredTyped := fun _ _ hc' => (by cases hc'),
        finished := fun hc' => (by cases hc'),
        len := h.len, inTagged := h.inTagged,
        heldTagged := fun _ ht => (by cases ht),
        stored := h.stored, settledFor := h.settledFor,
        admitted := ⟨k, hk, hpk, hin, fun _ _ ht => (by cases ht), hfree⟩,
        distinct := h.distinct,
        heldFresh := fun _ ht => (by cases ht),
        inflightFree := h.inflightFree,
        heldFree := fun _ _ ht => (by cases ht) }
  · rw [heq]
    obtain ⟨k, hk, hpk, hin, _, hfree⟩ := h.admitted
    have hklt : k < tagged.length := by
      by_contra hge
      rw [List.drop_eq_nil_of_le (Nat.le_of_not_lt hge), hp] at hpk
      cases hpk
    have hdrop := List.drop_eq_getElem_cons hklt
    rw [hp, hdrop] at hpk
    have htask : tagged[k] = task := (List.cons.inj hpk).1.symm
    have hrest : rest = tagged.drop (k + 1) := (List.cons.inj hpk).2
    have hget : tagged[k]? = some task := by
      rw [List.getElem?_eq_getElem hklt, htask]
    have hmem : task ∈ tagged := List.getElem?_mem hget
    have hik : task.originalIndex = some k := hidx k task hget
    apply acquire_core env tagged b task rest now now rnd (k + 1) k h hmem hik hklt hrest
      (Nat.lt_succ_self k)
    · intro fl hfl j hj
      exact Nat.lt_succ_of_lt (hin fl hfl j hj)
    · intro j hj
      exact hfree j (by omega)
    · intro fl hfl hfe
      rw [hik] at hfe
      exact absurd (hin fl hfl k hfe) (Nat.lt_irrefl k)
    · exact hfree k (Nat.le_refl k)

theorem executeNext_core (env : Env) (tagged : List Task) (b : Batch) (now : Nat)
    (rnd : String) (hidx : Indexed tagged) (h : b.Core env tagged) :
    (b.executeNext now rnd).Core env tagged := by
  unfold Batch.executeNext
  cases hc : b.ctl with
  | ready => exact head_core env tagged b now rnd hidx h hc
  | acquired task node =>
    exact head_core env tagged _ now rnd hidx (startExecute_core env tagged b task node now h hc)
      rfl
  | waiting task start =>
    have hheld : b.ctl.held = some task := by rw [hc]; rfl
    obtain ⟨k, hk, hpk, hin, hhe, hfree⟩ := h.admitted
    have htag := h.heldTagged task hheld
    obtain ⟨i, hi⟩ := List.mem_iff_getElem?.mp htag
    have hoi := hidx i task hi
    exact acquire_core env tagged b task b.pending start now rnd k i h htag hoi hk hpk
      (hhe task i hheld hoi) hin hfree (h.heldFresh task hheld) (h.heldFree task i hheld hoi)
  | done => exact h
  | raised msg task => exact h

theorem collaborate_eq_taskOutcome (env : Env) (w : WorkerNode) (task : Task)
    (hty : w.nodeType = task.nodeTypeOr) (htl : w.tools = initializeTools w.nodeType) :
    w.collaborate env task = taskOutcome env task := by
  rw [hty] at htl
  simp only [WorkerNode.collaborate, WorkerNode.hasTool, WorkerNode.toolsLookup,
    WorkerNode.executeTool, WorkerNode.executeLLM, taskOutcome, WorkerNode.new, htl, hty]

theorem payloadOf_isSome (env : Env) (task : Task) :
    (payloadOf (taskOutcome env task)).isSome = !taskFails env task := by
  unfold taskFails
  cases taskOutcome env task <;> rfl

theorem executeEnd_isFor (env : Env) (w : WorkerNode) (task : Task) (startTime now : Nat)
    (hty : w.nodeType = task.nodeTypeOr) (htl : w.tools = initializeTools w.nodeType) :
    (w.executeEnd task startTime now (w.collaborate env task)).2.isFor env task := by
  rw [executeEnd_result, collaborate_eq_taskOutcome env w task hty htl]
  exact ⟨rfl, hty, payloadOf_isSome env task, rfl, rfl⟩

theorem settle_core (env : Env) (tagged : List Task) (b : Batch) (i now : Nat)
    (h : b.Core env tagged) : (b.settle env i now).Core env tagged := by
  rcases settle_cases env b i now with heq | ⟨fl, w, hfl, hs, hw, heq⟩
  · rw [heq]; exact h
  have hmem : fl ∈ b.executing := List.getElem?_mem hfl
  obtain ⟨w0, hw0, hty⟩ := h.typed fl hmem
  rw [hw] at hw0
  cases hw0
  have htl : w.tools = initializeTools w.nodeType := h.wf.2.2.2 w (List.getElem?_mem hw)
  obtain ⟨_, _, hnt, htools, _⟩ :=
    executeEnd_worker w fl.task fl.startTime now (w.collaborate env fl.task)
  have hfor := executeEnd_isFor env w fl.task fl.startTime now hty htl
  rw [heq]
  generalize w.executeEnd fl.task fl.startTime now (w.collaborate env fl.task) = out
    at hnt htools hfor
  have hnotdone : b.ctl ≠ Ctl.done := by
    intro hd
    have := (h.finished hd).2
    rw [this] at hmem
    cases hmem
  have hfrom : ∀ y ∈ b.executing.set i { fl with settled := some out.2 },
      ∃ x ∈ b.executing, y.task = x.task ∧ y.node = x.node ∧
        (y = x ∨ y = { fl with settled := some out.2 }) := by
    intro y hy
    rcases List.mem_or_eq_of_mem_set hy with hm | hm
    · exact ⟨y, hm, rfl, rfl, Or.inl rfl⟩
    · exact ⟨fl, hmem, by rw [hm], by rw [hm], Or.inr hm⟩
  refine ⟨?_, ?_, ?_, ?_, h.len, ?_, h.heldTagged, h.stored, ?_, ?_, ?_, ?_, ?_, h.heldFree⟩
  · exact wf_set_heap b.disp fl.node w out.1 hw hnt htools h.wf
  · intro y hy
    obtain ⟨x, hx, ht, hn, _⟩ := hfrom y hy
    obtain ⟨w', hw', hty'⟩ := h.typed x hx
    obtain ⟨w'', h1, h2⟩ := typed_set_heap _ fl.node w out.1 hw hnt _ _ hw'
    exact ⟨w'', by rw [hn]; exact h1, by rw [ht]; exact h2.trans hty'⟩
  · intro t n hc
    obtain ⟨w', hw', hty'⟩ := h.acquiredTyped t n hc
    obtain ⟨w'', h1, h2⟩ := typed_set_heap _ fl.node w out.1 hw hnt _ _ hw'
    exact ⟨w'', h1, h2.trans hty'⟩
  · intro hd
    exact absurd hd hnotdone
  · intro y hy
    obtain ⟨x, hx, ht, _, _⟩ := hfrom y hy
    rw [ht]
    exact h.inTagged x hx
  · intro y hy r hr
    obtain ⟨x, hx, _, _, hcase⟩ := hfrom y hy
    rcases hcase with hm | hm
    · rw [hm] at hr ⊢
      exact h.settledFor x hx r hr
    · rw [hm] at hr ⊢
      simp only [Option.some.injEq] at hr
      rw [← hr]
      exact hfor
  · obtain ⟨k, hk, hp, hin, hhe, hfree⟩ := h.admitted
    refine ⟨k, hk, hp, ?_, hhe, hfree⟩
    intro y hy j hj
    obtain ⟨x, hx, ht, _, _⟩ := hfrom y hy
    rw [ht] at hj
    exact hin x hx j hj
  · have : (b.settleWith i fl out).executing.map (fun fl => fl.task.originalIndex) =
        b.executing.map (fun fl => fl.task.originalIndex) :=
      map_set_same (fun fl : InFlight => fl.task.originalIndex) b.executing i fl _ hfl rfl
    rw [this]
    exact h.distinct
  · intro t ht y hy
    obtain ⟨x, hx, htk, _, _⟩ := hfrom y hy
    rw [htk]
    exact h.heldFresh t ht x hx
  · intro y hy j hj
    obtain ⟨x, hx, htk, _, _⟩ := hfrom y hy
    rw [htk] at hj
    exact h.inflightFree x hx j hj

theorem arraySet_of_lt (a : List (Option TaskResult)) (i : Nat) (v : TaskResult)
    (h : i < a.length) : arraySet a i v = a.set i (some v) := by
  simp [arraySet, h]

/-- The one way `deliver` changes a state of the invariant. -/
theorem deliver_eq (env : Env) (tagged : List Task) (b : Batch) (i : Nat)
    (hidx : Indexed tagged) (h : b.Core env tagged) :
    b.deliver i = b ∨
    ∃ fl res j, b.executing[i]? = some fl ∧ fl.settled = some res ∧
      fl.task.originalIndex = some j ∧ tagged[j]? = some fl.task ∧ j < b.results.length ∧
      b.deliver i =
        { b with results := b.results.set j (some res), executing := b.executing.eraseIdx i } := by
  rcases deliver_cases b i with heq | ⟨fl, res, hfl, hs, hcase⟩
  · exact Or.inl heq
  right
  have hmem : fl ∈ b.executing := List.getElem?_mem hfl
  have htag : fl.task ∈ tagged := h.inTagged fl hmem
  obtain ⟨j, hj⟩ := List.mem_iff_getElem?.mp htag
  have hoi : fl.task.originalIndex = some j := hidx j fl.task hj
  have hjlt : j < b.results.length := by
    rw [h.len]
    exact (List.getElem?_eq_some.mp hj).1
  refine ⟨fl, res, j, hfl, hs, hoi, hj, hjlt, ?_⟩
  rcases hcase with ⟨idx, hi, he⟩ | ⟨hi, _⟩
  · rw [hoi] at hi
    cases hi
    rw [he, arraySet_of_lt _ _ _ hjlt]
  · rw [hoi] at hi
    cases hi

theorem deliver_core (env : Env) (tagged : List Task) (b : Batch) (i : Nat)
    (hidx : Indexed tagged) (h : b.Core env tagged) : (b.deliver i).Core env tagged := by
  rcases deliver_eq env tagged b i hidx h with heq | ⟨fl, res, j, hfl, hs, hoi, hj, hjlt, heq⟩
  · rw [heq]; exact h
  have hmem : fl ∈ b.executing := List.getElem?_mem hfl
  rw [heq]
  have hnotdone : b.ctl ≠ Ctl.done := by
    intro hd
    have := (h.finished hd).2
    rw [this] at hmem
    cases hmem
  have hsub : ∀ y ∈ b.executing.eraseIdx i, y ∈ b.executing :=
    fun y hy => List.mem_of_mem_eraseIdx hy
  have hother : ∀ y ∈ b.executing.eraseIdx i, y.task.originalIndex ≠ some j := by
    intro y hy
    have hne : y.task.originalIndex ≠ fl.task.originalIndex :=
      ne_of_mem_eraseIdx (fun fl : InFlight => fl.task.originalIndex) b.executing i fl y
        h.distinct hfl hy
    rw [hoi] at hne
    exact hne
  have hfilled : ∀ m, (∃ r, (b.results.set j (some res))[m]? = some (some r)) →
      m = j ∨ b.filled m := fun m hm => filled_set_iff b.results j res m hm
  obtain ⟨k, hk, hp, hin, hhe, hfree⟩ := h.admitted
  have hjk : j < k := hin fl hmem j hoi
  refine ⟨h.wf, ?_, h.acquiredTyped, ?_, ?_, ?_, h.heldTagged, ?_, ?_, ?_, ?_, ?_, ?_, ?_⟩
  · intro y hy
    exact h.typed y (hsub y hy)
  · intro hd
    exact absurd hd hnotdone
  · simp only [List.length_set]
    exact h.len
  · intro y hy
    exact h.inTagged y (hsub y hy)
  · intro m r hr
    by_cases hm : j = m
    · subst hm
      simp only [List.getElem?_set_self hjlt, Option.some.injEq] at hr
      rw [← hr]
      exact ⟨fl.task, hj, h.settledFor fl hmem res hs⟩
    · simp only [List.getElem?_set_ne hm] at hr
      exact h.stored m r hr
  · intro y hy r hr
    exact h.settledFor y (hsub y hy) r hr
  · refine ⟨k, hk, hp, fun y hy => hin y (hsub y hy), hhe, ?_⟩
    intro m hm hf
    rcases hfilled m hf with h1 | h1
    · omega
    · exact hfree m hm h1
  · have hsl : (b.executing.eraseIdx i).Sublist b.executing := List.eraseIdx_sublist _ _
    exact List.Nodup.sublist (hsl.map _) h.distinct
  · intro t ht y hy
    exact h.heldFresh t ht y (hsub y hy)
  · intro y hy m hm hf
    rcases hfilled m hf with h1 | h1
    · rw [h1] at hm
      exact hother y hy hm
    · exact h.inflightFree y (hsub y hy) m hm h1
  · intro t m ht hm hf
    rcases hfilled m hf with h1 | h1
    · rw [h1] at hm
      exact h.heldFresh t ht fl hmem (hoi.trans hm.symm)
    · exact h.heldFree t m ht hm h1

theorem step_core (env : Env) (tagged : List Task) (b : Batch) (ev : BatchEvent)
    (hidx : Indexed tagged) (h : b.Core env tagged) : (b.step env ev).Core env tagged := by
  cases ev with
  | next now rnd => exact executeNext_core env tagged b now rnd hidx h
  | settle i now => exact settle_core env tagged b i now h
  | deliver i => exact deliver_core env tagged b i hidx h

theorem run_core (env : Env) (tagged : List Task) (evs : List BatchEvent) (b : Batch)
    (hidx : Indexed tagged) (h : b.Core env tagged) : (b.run env evs).Core env tagged := by
  induction evs generalizing b with
  | nil => exact h
  | cons ev rest ih => exact ih (b.step env ev) (step_core env tagged b ev hidx h)

theorem init_core (env : Env) (d : Dispatcher) (tasks : List Task) (now : Nat) (hwf : d.WF) :
    (Batch.init d tasks now).Core env (tagTasks tasks 0 d.nextTaskId) := by
  have hnofill : ∀ i, ¬ (Batch.init d tasks now).filled i := by
    intro i ⟨r, hr⟩
    simp only [Batch.init, List.getElem?_replicate] at hr
    split at hr <;> cases hr
  refine ⟨hwf, ?_, ?_, ?_, ?_, ?_, ?_, ?_, ?_, ?_, ?_, ?_, ?_, ?_⟩
  · intro fl hfl
    cases hfl
  · intro t n hc
    cases hc
  · intro hc
    cases hc
  · simp [Batch.init, length_tagTasks]
  · intro fl hfl
    cases hfl
  · intro t ht
    cases ht
  · intro i r hr
    exact absurd ⟨r, hr⟩ (hnofill i)
  · intro fl hfl
    cases hfl
  · exact ⟨0, Nat.zero_le _, rfl, fun fl hfl => (by cases hfl), fun _ _ ht => (by cases ht),
      fun i _ => hnofill i⟩
  · exact List.nodup_nil
  · intro t ht
    cases ht
  · intro fl hfl
    cases hfl
  · intro t i ht
    cases ht

/-! ## The invariant of a run on a pool of its own -/

theorem accounted_of_ctl (b b' : Batch) (hr : b'.results = b.results)
    (he : b'.executing = b.executing) (hc : ∀ t n, b.ctl ≠ Ctl.acquired t n) (i : Nat)
    (h : b.accounted i) : b'.accounted i := by
  rcases h with ⟨r, h1⟩ | ⟨fl, hfl, hidx⟩ | ⟨t, n, hc', _⟩
  · exact Or.inl ⟨r, by rw [hr]; exact h1⟩
  · exact Or.inr (Or.inl ⟨fl, by rw [he]; exact hfl, hidx⟩)
  · exact absurd hc' (hc t n)

theorem startExecute_inv (env : Env) (tagged : List Task) (b : Batch) (task : Task)
    (node now : Nat) (h : b.Inv env tagged) (hc : b.ctl = Ctl.acquired task node) :
    (b.startExecute task node now).Inv env tagged := by
  obtain ⟨w, hw, _⟩ := h.core.acquiredTyped task node hc
  have hlt := h.acquired task node hc
  have hheap : (b.startExecute task node now).disp.heap =
      b.disp.heap.set node (w.executeBegin task) := by
    simp only [Batch.startExecute]
    exact heapUpdate_of_some _ _ _ _ hw
  have hnodes : (b.startExecute task node now).disp.nodes = b.disp.nodes := rfl
  have hmax : (b.startExecute task node now).disp.maxNodes = b.disp.maxNodes := rfl
  have hex : (b.startExecute task node now).executing =
      b.executing ++ [{ task := task, node := node, startTime := now, settled := none }] := rfl
  have hctl : (b.startExecute task node now).ctl = Ctl.ready := rfl
  have hpen : (b.startExecute task node now).pending = b.pending := rfl
  refine ⟨startExecute_core env tagged b task node now h.core hc, ?_, ?_, ?_, ?_, ?_, ?_⟩
  · intro e he hb
    rw [hnodes] at he
    rw [hheap] at hb
    rw [hex]
    by_cases hn : node = e.2
    · exact ⟨_, List.mem_append_right _ (List.mem_singleton_self _), hn, rfl⟩
    · rw [isBusy_set_ne _ _ _ _ hn] at hb
      obtain ⟨fl, hfl, h1, h2⟩ := h.held e he hb
      exact ⟨fl, List.mem_append_left _ hfl, h1, h2⟩
  · rw [hex, hmax]
    simp only [List.length_append, List.length_singleton]
    omega
  · intro t n hc'
    rw [hctl] at hc'
    cases hc'
  · intro t n hc'
    rw [hctl] at hc'
    cases hc'
  · intro m t hc'
    rw [hctl] at hc'
    cases hc'
  · obtain ⟨k, hk, hp, hacc⟩ := h.split
    refine ⟨k, hk, by rw [hpen]; exact hp, fun i hi => ?_⟩
    rcases hacc i hi with ⟨r, hr⟩ | ⟨fl, hfl, hidx⟩ | ⟨t, n, hc', hidx⟩
    · exact Or.inl ⟨r, hr⟩
    · exact Or.inr (Or.inl ⟨fl, by rw [hex]; exact List.mem_append_left _ hfl, hidx⟩)
    · rw [hc] at hc'
      cases hc'
      have hmem : ({ task := task, node := node, startTime := now, settled := none } : InFlight) ∈
          (b.startExecute task node now).executing := by
        rw [hex]; exact List.mem_append_right _ (List.mem_singleton_self _)
      exact Or.inr (Or.inl ⟨_, hmem, hidx⟩)

theorem head_inv (env : Env) (tagged : List Task) (b : Batch) (now : Nat) (rnd : String)
    (hidx : Indexed tagged) (h : b.Inv env tagged) (hc : b.ctl = Ctl.ready) :
    (b.head now rnd).Inv env tagged := by
  have hcore := head_core env tagged b now rnd hidx h.core hc
  have hnoacq : ∀ t n, b.ctl ≠ Ctl.acquired t n := by
    intro t n hc'
    rw [hc] at hc'
    cases hc'
  rcases head_cases b now rnd with ⟨hp, he, heq⟩ | ⟨heq, _⟩ | ⟨task, rest, hp, hlt, heq⟩
  · rw [heq] at hcore ⊢
    obtain ⟨k, hk, hpk, hacc⟩ := h.split
    exact
      { core := hcore, held := h.held, bound := h.bound,
        acquired := fun _ _ hc' => (by cases hc'),
        notWaiting := fun _ _ hc' => (by cases hc'),
        notRaised := fun _ _ hc' => (by cases hc'),
        split := ⟨k, hk, hpk, fun i hi =>
          accounted_of_ctl b { b with ctl := Ctl.done } rfl rfl hnoacq i (hacc i hi)⟩ }
  · rw [heq] at hcore ⊢
    obtain ⟨k, hk, hpk, hacc⟩ := h.split
    exact
      { core := hcore, held := h.held, bound := h.bound,
        acquired := fun _ _ hc' => (by cases hc'),
        notWaiting := fun _ _ hc' => (by cases hc'),
        notRaised := fun _ _ hc' => (by cases hc'),
        split := ⟨k, hk, hpk, fun i hi =>
          accounted_of_ctl b { b with ctl := Ctl.ready } rfl rfl hnoacq i (hacc i hi)⟩ }
  · obtain ⟨node, hok⟩ := getOrCreateNode_ok_of_held b.disp task.nodeTypeOr now rnd b.executing
      h.core.wf h.held hlt
    rw [waitForNode_now _ _ _ _ node hok] at heq
    rw [heq] at hcore ⊢
    obtain ⟨k, hk, hpk, hacc⟩ := h.split
    have hklt : k < tagged.length := by
      by_contra hge
      rw [List.drop_eq_nil_of_le (Nat.le_of_not_lt hge), hp] at hpk
      cases hpk
    have hdrop := List.drop_eq_getElem_cons hklt
    rw [hp, hdrop] at hpk
    have htask : tagged[k] = task := (List.cons.inj hpk).1.symm
    have hrest : rest = tagged.drop (k + 1) := (List.cons.inj hpk).2
    have hget : tagged[k]? = some task := by
      rw [List.getElem?_eq_getElem hklt, htask]
    exact
      { core := hcore
        held := fun e he hb =>
          let ⟨he', hb'⟩ := getOrCreateNode_busy _ _ _ _ h.core.wf e he hb
          h.held e he' hb'
        bound := by
          simp only [getOrCreateNode_maxNodes]
          exact h.bound
        acquired := fun t n _ => by
          simp only [getOrCreateNode_maxNodes]
          exact hlt
        notWaiting := fun _ _ hc' => (by cases hc')
        notRaised := fun _ _ hc' => (by cases hc')
        split := ⟨k + 1, hklt, hrest, fun i hi => by
          by_cases hik : i < k
          · rcases hacc i hik with ⟨r, h1⟩ | ⟨fl, hfl, hfi⟩ | ⟨t, n, hc', _⟩
            · exact Or.inl ⟨r, h1⟩
            · exact Or.inr (Or.inl ⟨fl, hfl, hfi⟩)
            · exact absurd hc' (hnoacq t n)
          · have hik' : i = k := by omega
            subst hik'
            exact Or.inr (Or.inr ⟨task, node, rfl, hidx i task hget⟩)⟩ }

theorem settle_inv (env : Env) (tagged : List Task) (b : Batch) (i now : Nat)
    (h : b.Inv env tagged) : (b.settle env i now).Inv env tagged := by
  have hcore := settle_core env tagged b i now h.core
  rcases settle_cases env b i now with heq | ⟨fl, w, hfl, hs, hw, heq⟩
  · rw [heq]; exact h
  obtain ⟨hst, _, _, _, _⟩ :=
    executeEnd_worker w fl.task fl.startTime now (w.collaborate env fl.task)
  rw [heq] at hcore ⊢
  generalize w.executeEnd fl.task fl.startTime now (w.collaborate env fl.task) = out
    at hst hcore
  refine ⟨hcore, ?_, ?_, ?_, h.notWaiting, h.notRaised, ?_⟩
  · intro e he hb
    have hne : fl.node ≠ e.2 := by
      intro hn
      obtain ⟨w', hw', hs'⟩ := (isBusy_iff _ _).mp hb
      have hlt : fl.node < b.disp.heap.length := (List.getElem?_eq_some.mp hw).1
      simp only [Batch.settleWith] at hw'
      rw [← hn, List.getElem?_set_self hlt] at hw'
      cases hw'
      rw [hst] at hs'
      cases hs'
    simp only [Batch.settleWith] at hb
    rw [isBusy_set_ne _ _ _ _ hne] at hb
    obtain ⟨fl', hfl', h1, h2⟩ := h.held e he hb
    have hne' : fl' ≠ fl := by
      intro hx
      rw [hx] at h1
      exact hne h1
    exact ⟨fl', mem_set_of_ne _ _ _ _ _ hfl' hfl hne', h1, h2⟩
  · simp only [Batch.settleWith, List.length_set]
    exact h.bound
  · intro t n hc
    simp only [Batch.settleWith, List.length_set]
    exact h.acquired t n hc
  · obtain ⟨k, hk, hp, hacc⟩ := h.split
    refine ⟨k, hk, hp, fun j hj => ?_⟩
    rcases hacc j hj with ⟨r, hr⟩ | ⟨x, hx, hidx⟩ | ⟨t, n, hc', hidx⟩
    · exact Or.inl ⟨r, hr⟩
    · by_cases hxe : x = fl
      · refine Or.inr (Or.inl ⟨_, mem_set_self_of_getElem? _ _ _ _ hfl, ?_⟩)
        rw [hxe] at hidx
        exact hidx
      · exact Or.inr (Or.inl ⟨x, mem_set_of_ne _ _ _ _ _ hx hfl hxe, hidx⟩)
    · exact Or.inr (Or.inr ⟨t, n, hc', hidx⟩)

theorem deliver_inv (env : Env) (tagged : List Task) (b : Batch) (i : Nat)
    (hidx : Indexed tagged) (h : b.Inv env tagged) : (b.deliver i).Inv env tagged := by
  have hcore := deliver_core env tagged b i hidx h.core
  rcases deliver_eq env tagged b i hidx h.core with
    heq | ⟨fl, res, j, hfl, hs, hoi, hj, hjlt, heq⟩
  · rw [heq]; exact h
  rw [heq] at hcore ⊢
  have hlen : (b.executing.eraseIdx i).length ≤ b.executing.length :=
    List.length_eraseIdx_le _ _
  refine ⟨hcore, ?_, ?_, ?_, h.notWaiting, h.notRaised, ?_⟩
  · intro e he hb
    obtain ⟨fl', hfl', h1, h2⟩ := h.held e he hb
    have hne : fl' ≠ fl := by
      intro hx
      rw [hx, hs] at h2
      cases h2
    exact ⟨fl', mem_eraseIdx_of_ne _ _ _ _ hfl' hfl hne, h1, h2⟩
  · exact Nat.le_trans hlen h.bound
  · intro t n hc
    exact Nat.lt_of_le_of_lt hlen (h.acquired t n hc)
  · obtain ⟨k, hk, hp, hacc⟩ := h.split
    refine ⟨k, hk, hp, fun m hm => ?_⟩
    have hstored : ∀ r, b.results[m]? = some (some r) →
        ∃ r', (b.results.set j (some res))[m]? = some (some r') := by
      intro r hr
      by_cases hjm : j = m
      · subst hjm
        exact ⟨res, List.getElem?_set_self hjlt⟩
      · exact ⟨r, by rw [List.getElem?_set_ne hjm]; exact hr⟩
    rcases hacc m hm with ⟨r, hr⟩ | ⟨x, hx, hxi⟩ | ⟨t, n, hc', hti⟩
    · exact Or.inl (hstored r hr)
    · by_cases hxe : x = fl
      · rw [hxe, hoi] at hxi
        cases hxi
        exact Or.inl ⟨res, List.getElem?_set_self hjlt⟩
      · exact Or.inr (Or.inl ⟨x, mem_eraseIdx_of_ne _ _ _ _ hx hfl hxe, hxi⟩)
    · exact Or.inr (Or.inr ⟨t, n, hc', hti⟩)

theorem executeNext_inv (env : Env) (tagged : List Task) (b : Batch) (now : Nat) (rnd : String)
    (hidx : Indexed tagged) (h : b.Inv env tagged) : (b.executeNext now rnd).Inv env tagged := by
  unfold Batch.executeNext
  cases hc : b.ctl with
  | ready => exact head_inv env tagged b now rnd hidx h hc
  | acquired task node =>
    exact head_inv env tagged _ now rnd hidx (startExecute_inv env tagged b task node now h hc) rfl
  | waiting task start => exact absurd hc (h.notWaiting task start)
  | done => exact h
  | raised msg task => exact h

theorem step_inv (env : Env) (tagged : List Task) (b : Batch) (ev : BatchEvent)
    (hidx : Indexed tagged) (h : b.Inv env tagged) : (b.step env ev).Inv env tagged := by
  cases ev with
  | next now rnd => exact executeNext_inv env tagged b now rnd hidx h
  | settle i now => exact settle_inv env tagged b i now h
  | deliver i => exact deliver_inv env tagged b i hidx h

theorem run_inv (env : Env) (tagged : List Task) (evs : List BatchEvent) (b : Batch)
    (hidx : Indexed tagged) (h : b.Inv env tagged) : (b.run env evs).Inv env tagged := by
  induction evs generalizing b with
  | nil => exact h
  | cons ev rest ih => exact ih (b.step env ev) (step_inv env tagged b ev hidx h)

theorem init_inv (env : Env) (d : Dispatcher) (tasks : List Task) (now : Nat) (hwf : d.WF)
    (hidle : ∀ e ∈ d.nodes, isBusy d.heap e.2 = false) :
    (Batch.init d tasks now).Inv env (tagTasks tasks 0 d.nextTaskId) := by
  refine ⟨init_core env d tasks now hwf, ?_, Nat.zero_le _, ?_, ?_, ?_, ?_⟩
  · intro e he hb
    have := hidle e he
    simp only [Batch.init] at hb
    rw [this] at hb
    cases hb
  · intro t n hc
    cases hc
  · intro t n hc
    cases hc
  · intro m t hc
    cases hc
  · exact ⟨0, Nat.zero_le _, rfl, fun i hi => absurd hi (Nat.not_lt_zero i)⟩

/-! ## Termination of a run -/

theorem sum_weight_set (l : List InFlight) (i : Nat) (a x : InFlight) (h : l[i]? = some a) :
    ((l.set i x).map InFlight.weight).sum + a.weight = (l.map InFlight.weight).sum + x.weight := by
  induction l generalizing i with
  | nil => simp at h
  | cons y ys ih =>
    cases i with
    | zero =>
      simp only [List.getElem?_cons_zero, Option.some.injEq] at h
      subst h
      simp only [List.set_cons_zero, List.map_cons, List.sum_cons]
      omega
    | succ i =>
      simp only [List.getElem?_cons_succ] at h
      have := ih i h
      simp only [List.set_cons_succ, List.map_cons, List.sum_cons]
      omega

theorem sum_weight_eraseIdx (l : List InFlight) (i : Nat) (a : InFlight) (h : l[i]? = some a) :
    ((l.eraseIdx i).map InFlight.weight).sum + a.weight = (l.map InFlight.weight).sum := by
  induction l generalizing i with
  | nil => simp at h
  | cons y ys ih =>
    cases i with
    | zero =>
      simp only [List.getElem?_cons_zero, Option.some.injEq] at h
      subst h
      simp only [List.eraseIdx_cons_zero, List.map_cons, List.sum_cons]
      omega
    | succ i =>
      simp only [List.getElem?_cons_succ] at h
      have := ih i h
      simp only [List.eraseIdx_cons_succ, List.map_cons, List.sum_cons]
      omega

theorem weight_pos (fl : InFlight) : 1 ≤ fl.weight := by
  unfold InFlight.weight
  split <;> omega

theorem toCtl_weight_le (task : Task) (start : Nat) (r : Waited) :
    (r.toCtl task start).weight ≤ 4 := by
  cases r <;> simp [Waited.toCtl, Ctl.weight]

theorem head_measure (b : Batch) (now : Nat) (rnd : String) (hmax : 0 < b.disp.maxNodes)
    (hen : ¬ ((b.pending = [] ∨ b.disp.maxNodes ≤ b.executing.length) ∧ b.executing ≠ [])) :
    (b.head now rnd).measure + 1 ≤
      4 * b.pending.length + 1 + (b.executing.map InFlight.weight).sum := by
  rcases head_cases b now rnd with ⟨hp, he, heq⟩ | ⟨heq, hcase⟩ | ⟨task, rest, hp, hlt, heq⟩
  · rw [heq]
    simp [Batch.measure, Ctl.weight, hp, he]
  · exfalso
    rcases hcase with ⟨hp, he⟩ | ⟨hp, hge⟩
    · exact hen ⟨Or.inl hp, he⟩
    · apply hen
      refine ⟨Or.inr hge, fun he => ?_⟩
      rw [he] at hge
      simp only [List.length_nil, Nat.le_zero_eq] at hge
      omega
  · rw [heq]
    have := toCtl_weight_le task now (waitForNode b.disp task.nodeTypeOr now now rnd).2
    simp only [Batch.measure, hp, List.length_cons]
    omega

theorem head_measure_le (b : Batch) (now : Nat) (rnd : String) :
    (b.head now rnd).measure ≤
      4 * b.pending.length + 1 + (b.executing.map InFlight.weight).sum := by
  rcases head_cases b now rnd with ⟨hp, he, heq⟩ | ⟨heq, _⟩ | ⟨task, rest, hp, hlt, heq⟩
  · rw [heq]
    simp [Batch.measure, Ctl.weight, hp, he]
  · rw [heq]
    simp [Batch.measure, Ctl.weight]
  · rw [heq]
    have := toCtl_weight_le task now (waitForNode b.disp task.nodeTypeOr now now rnd).2
    simp only [Batch.measure, hp, List.length_cons]
    omega

theorem nextEnabled_ready (b : Batch) (hc : b.ctl = Ctl.ready) (hen : b.nextEnabled = true) :
    ¬ ((b.pending = [] ∨ b.disp.maxNodes ≤ b.executing.length) ∧ b.executing ≠ []) := by
  unfold Batch.nextEnabled at hen
  rw [hc] at hen
  simp only [Bool.not_eq_true', Bool.and_eq_false_imp, Bool.or_eq_true, List.isEmpty_iff,
    decide_eq_true_eq, Bool.not_eq_false'] at hen
  intro ⟨h1, h2⟩
  exact h2 (hen h1)

theorem executeNext_ready (b : Batch) (now : Nat) (rnd : String) (hc : b.ctl = Ctl.ready) :
    b.executeNext now rnd = b.head now rnd := by
  simp only [Batch.executeNext, hc]

theorem executeNext_acquired (b : Batch) (now : Nat) (rnd : String) (task : Task) (node : Nat)
    (hc : b.ctl = Ctl.acquired task node) :
    b.executeNext now rnd = (b.startExecute task node now).head now rnd := by
  simp only [Batch.executeNext, hc]

theorem executeNext_measure (env : Env) (tagged : List Task) (b : Batch) (now : Nat)
    (rnd : String) (h : b.Inv env tagged) (hmax : 0 < b.disp.maxNodes)
    (hen : b.nextEnabled = true) : (b.executeNext now rnd).measure < b.measure := by
  cases hc : b.ctl with
  | ready =>
    rw [executeNext_ready b now rnd hc]
    have := head_measure b now rnd hmax (nextEnabled_ready b hc hen)
    have hb : b.measure = 4 * b.pending.length + 1 + (b.executing.map InFlight.weight).sum := by
      simp only [Batch.measure, hc, Ctl.weight]
    omega
  | acquired task node =>
    rw [executeNext_acquired b now rnd task node hc]
    have := head_measure_le (b.startExecute task node now) now rnd
    have hp : (b.startExecute task node now).pending = b.pending := rfl
    have he : ((b.startExecute task node now).executing.map InFlight.weight).sum =
        (b.executing.map InFlight.weight).sum + 2 := by
      simp [Batch.startExecute, InFlight.weight]
    rw [hp, he] at this
    have hb : b.measure = 4 * b.pending.length + 4 + (b.executing.map InFlight.weight).sum := by
      simp only [Batch.measure, hc, Ctl.weight]
    omega
  | waiting task start => exact absurd hc (h.notWaiting task start)
  | done => simp [Batch.nextEnabled, hc] at hen
  | raised msg task => simp [Batch.nextEnabled, hc] at hen

theorem settle_measure (env : Env) (b : Batch) (i now : Nat) (hen : b.canSettle i = true) :
    (b.settle env i now).measure < b.measure := by
  rcases settle_cases env b i now with heq | ⟨fl, w, hfl, hs, hw, heq⟩
  · exfalso
    unfold Batch.canSettle at hen
    unfold Batch.settle at heq
    cases hfl : b.executing[i]? with
    | none => simp [hfl] at hen
    | some fl =>
      simp only [hfl, Bool.and_eq_true, Option.isNone_iff_eq_none,
        Option.isSome_iff_exists] at hen
      obtain ⟨hs, w, hw⟩ := hen
      simp only [hfl, hs, hw] at heq
      have hlen := congrArg (fun x : Batch => x.executing[i]?) heq
      simp only [Batch.settleWith] at hlen
      have hi : i < b.executing.length := (List.getElem?_eq_some.mp hfl).1
      rw [List.getElem?_set_self hi, hfl] at hlen
      have := congrArg (fun x : Option InFlight => x.bind InFlight.settled) hlen
      simp [hs] at this
  · rw [heq]
    generalize w.executeEnd fl.task fl.startTime now (w.collaborate env fl.task) = out
    have := sum_weight_set b.executing i fl { fl with settled := some out.2 } hfl
    have h1 : fl.weight = 2 := by simp [InFlight.weight, hs]
    have h2 : ({ fl with settled := some out.2 } : InFlight).weight = 1 := by
      simp [InFlight.weight]
    rw [h1, h2] at this
    simp only [Batch.measure, Batch.settleWith]
    omega

theorem deliver_measure (b : Batch) (i : Nat) (hen : b.canDeliver i = true) :
    (b.deliver i).measure < b.measure := by
  unfold Batch.canDeliver at hen
  cases hfl : b.executing[i]? with
  | none => simp [hfl] at hen
  | some fl =>
    simp only [hfl, Option.isSome_iff_exists] at hen
    obtain ⟨res, hs⟩ := hen
    have hsum := sum_weight_eraseIdx b.executing i fl hfl
    have hpos := weight_pos fl
    unfold Batch.deliver
    simp only [hfl, hs, Batch.measure]
    omega

theorem mem_moves (b : Batch) (mv : Move) (h : mv ∈ b.moves) :
    (mv = Move.next ∧ b.nextEnabled = true) ∨
    (∃ i, mv = Move.settle i ∧ b.canSettle i = true) ∨
    (∃ i, mv = Move.deliver i ∧ b.canDeliver i = true) := by
  unfold Batch.moves at h
  simp only [List.mem_append, List.mem_map, List.mem_filter, List.mem_range] at h
  rcases h with (h | ⟨i, ⟨_, hi⟩, rfl⟩) | ⟨i, ⟨_, hi⟩, rfl⟩
  · by_cases hen : b.nextEnabled = true
    · simp only [hen, if_true, List.mem_singleton] at h
      exact Or.inl ⟨h, hen⟩
    · simp [hen] at h
  · exact Or.inr (Or.inl ⟨i, rfl, hi⟩)
  · exact Or.inr (Or.inr ⟨i, rfl, hi⟩)

theorem step_measure (env : Env) (tagged : List Task) (b : Batch) (mv : Move) (now : Nat)
    (rnd : String) (h : b.Inv env tagged) (hmax : 0 < b.disp.maxNodes) (hmv : mv ∈ b.moves) :
    (b.step env (mv.toEvent now rnd)).measure < b.measure := by
  rcases mem_moves b mv hmv with ⟨rfl, hen⟩ | ⟨i, rfl, hen⟩ | ⟨i, rfl, hen⟩
  · exact executeNext_measure env tagged b now rnd h hmax hen
  · exact settle_measure env b i now hen
  · exact deliver_measure b i hen

/-- Progress: in a state of the invariant where no event can occur,
`executeNext` has returned. -/
theorem done_of_no_moves (env : Env) (tagged : List Task) (b : Batch) (h : b.Inv env tagged)
    (hm : b.moves = []) : b.ctl = Ctl.done := by
  have hex : b.executing = [] := by
    cases hx : b.executing with
    | nil => rfl
    | cons fl rest =>
      exfalso
      have h0 : b.executing[0]? = some fl := by rw [hx]; simp
      have hlen : 0 < b.executing.length := by rw [hx]; simp
      have hmem : fl ∈ b.executing := List.getElem?_mem h0
      cases hs : fl.settled with
      | none =>
        obtain ⟨w, hw, _⟩ := h.core.typed fl hmem
        have hcan : b.canSettle 0 = true := by
          simp [Batch.canSettle, h0, hs, hw]
        have : Move.settle 0 ∈ b.moves := by
          unfold Batch.moves
          simp only [List.mem_append, List.mem_map, List.mem_filter, List.mem_range]
          exact Or.inl (Or.inr ⟨0, ⟨hlen, hcan⟩, rfl⟩)
        rw [hm] at this
        cases this
      | some r =>
        have hcan : b.canDeliver 0 = true := by
          simp [Batch.canDeliver, h0, hs]
        have : Move.deliver 0 ∈ b.moves := by
          unfold Batch.moves
          simp only [List.mem_append, List.mem_map, List.mem_filter, List.mem_range]
          exact Or.inr ⟨0, ⟨hlen, hcan⟩, rfl⟩
        rw [hm] at this
        cases this
  have hnext : b.nextEnabled = false := by
    cases hen : b.nextEnabled with
    | false => rfl
    | true =>
      exfalso
      have : Move.next ∈ b.moves := by
        unfold Batch.moves
        simp [hen]
      rw [hm] at this
      cases this
  cases hc : b.ctl with
  | ready => simp [Batch.nextEnabled, hc, hex] at hnext
  | acquired task node => simp [Batch.nextEnabled, hc] at hnext
  | waiting task start => exact absurd hc (h.notWaiting task start)
  | done => rfl
  | raised msg task => exact absurd hc (h.notRaised msg task)

theorem done_of_measure_zero (env : Env) (tagged : List Task) (b : Batch)
    (h : b.Inv env tagged) (hm : b.measure = 0) : b.ctl = Ctl.done := by
  cases hc : b.ctl with
  | ready => simp [Batch.measure, hc, Ctl.weight] at hm
  | acquired task node => simp [Batch.measure, hc, Ctl.weight] at hm
  | waiting task start => exact absurd hc (h.notWaiting task start)
  | done => rfl
  | raised msg task => exact absurd hc (h.notRaised msg task)

theorem getD_mem_cons {α : Type} (m : α) (ms : List α) (i : Nat) :
    (m :: ms).getD i m ∈ m :: ms := by
  rw [List.getD_eq_getElem?_getD]
  cases h : (m :: ms)[i]? with
  | none => simp
  | some x => simpa using List.getElem?_mem h

/-- Under any schedule, a run that starts in the invariant with at least
as much fuel as its measure ends with `executeNext` returned, still in the
invariant. -/
theorem drive_done (env : Env) (s : Schedule) (tagged : List Task) (hidx : Indexed tagged)
    (fuel n : Nat) (b : Batch) (h : b.Inv env tagged) (hmax : 0 < b.disp.maxNodes)
    (hfuel : b.measure ≤ fuel) :
    (Batch.drive env s fuel n b).Inv env tagged ∧
      (Batch.drive env s fuel n b).ctl = Ctl.done := by
  induction fuel generalizing n b with
  | zero =>
    simp only [Batch.drive]
    exact ⟨h, done_of_measure_zero env tagged b h (Nat.le_zero.mp hfuel)⟩
  | succ fuel ih =>
    unfold Batch.drive
    cases hm : b.moves with
    | nil => exact ⟨h, done_of_no_moves env tagged b h hm⟩
    | cons m ms =>
      simp only
      have hmem : (m :: ms).getD (s.pick n % (ms.length + 1)) m ∈ b.moves := by
        rw [hm]; exact getD_mem_cons m ms _
      have hdec := step_measure env tagged b _ (s.clock n) (s.random n) h hmax hmem
      apply ih
      · exact step_inv env tagged b _ hidx h
      · rw [step_maxNodes]; exact hmax
      · omega

/-! ## What executeParallel returns -/

theorem results_of_done (env : Env) (tagged : List Task) (b : Batch) (h : b.Inv env tagged)
    (hd : b.ctl = Ctl.done) :
    b.results.length = tagged.length ∧
    ∀ (i : Nat) (t : Task), tagged[i]? = some t →
      ∃ r, b.results[i]? = some (some r) ∧ r.isFor env t := by
  refine ⟨h.core.len, fun i t ht => ?_⟩
  obtain ⟨hp, he⟩ := h.core.finished hd
  obtain ⟨k, hk, hpk, hacc⟩ := h.split
  have hik : i < k := by
    have hlt : i < tagged.length := (List.getElem?_eq_some.mp ht).1
    rw [hp] at hpk
    have := List.drop_eq_nil_iff.mp hpk.symm
    omega
  rcases hacc i hik with ⟨r, hr⟩ | ⟨fl, hfl, _⟩ | ⟨t', n, hc, _⟩
  · obtain ⟨t', ht', hfor⟩ := h.core.stored i r hr
    rw [ht] at ht'
    cases ht'
    exact ⟨r, hr, hfor⟩
  · rw [he] at hfl
    cases hfl
  · rw [hd] at hc
    cases hc

theorem init_measure (d : Dispatcher) (tasks : List Task) (now : Nat) :
    (Batch.init d tasks now).measure = 4 * tasks.length + 1 := by
  simp [Batch.measure, Batch.init, length_tagTasks, Ctl.weight]

/-- On a well-formed pool with no busy worker and `maxNodes ≥ 1`, under every
schedule `executeParallel` returns within `4 * N + 1` events, with one Task
Result per task, the i-th being that of the i-th task. -/
theorem executeParallel_returns (env : Env) (s : Schedule) (fuel finish : Nat) (d : Dispatcher)
    (tasks : List Task) (hwf : d.WF) (hidle : ∀ e ∈ d.nodes, isBusy d.heap e.2 = false)
    (hmax : 0 < d.maxNodes) (hfuel : 4 * tasks.length + 1 ≤ fuel) :
    ∃ d' r, executeParallel env s fuel finish d tasks = Outcome.returned d' r ∧
      r.results.length = tasks.length ∧
      ∀ (i : Nat) (t : Task), tasks[i]? = some t →
        ∃ tr, r.results[i]? = some (some tr) ∧ tr.isFor env (t.tag i (d.nextTaskId + i)) := by
  have hinit := init_inv env d tasks (s.clock 0) hwf hidle
  have hdone := drive_done env s _ (indexed_tagTasks tasks d.nextTaskId) fuel 1 _ hinit hmax
    (by rw [init_measure]; exact hfuel)
  obtain ⟨hinv, hctl⟩ := hdone
  obtain ⟨hlen, hres⟩ := results_of_done env _ _ hinv hctl
  generalize hb : Batch.drive env s fuel 1 (Batch.init d tasks (s.clock 0)) = b at hctl hlen hres
  refine ⟨b.disp, b.summary finish, ?_, ?_, ?_⟩
  · simp only [executeParallel, hb, hctl]
  · simp only [Batch.summary]
    rw [hlen, length_tagTasks]
  · intro i t ht
    have htag : (tagTasks tasks 0 d.nextTaskId)[i]? = some (t.tag i (d.nextTaskId + i)) := by
      rw [getElem?_tagTasks, ht]
      simp
    exact hres i _ htag

/-! ## Runs in which every execution completes -/

theorem drive_core (env : Env) (s : Schedule) (tagged : List Task) (hidx : Indexed tagged)
    (fuel n : Nat) (b : Batch) (h : b.Core env tagged) :
    (Batch.drive env s fuel n b).Core env tagged := by
  induction fuel generalizing n b with
  | zero => exact h
  | succ fuel ih =>
    unfold Batch.drive
    cases hm : b.moves with
    | nil => exact h
    | cons m ms => exact ih _ _ (step_core env tagged b _ hidx h)

theorem drive_add (env : Env) (s : Schedule) (f1 f2 n : Nat) (b : Batch) :
    Batch.drive env s (f1 + f2) n b = Batch.drive env s f2 (n + f1) (Batch.drive env s f1 n b) := by
  induction f1 generalizing n b with
  | zero => simp [Batch.drive]
  | succ f1 ih =>
    have hadd : f1 + 1 + f2 = (f1 + f2) + 1 := by omega
    rw [hadd]
    cases hm : b.moves with
    | nil =>
      have h1 : Batch.drive env s (f1 + f2 + 1) n b = b := by
        unfold Batch.drive
        simp only [hm]
      have h2 : Batch.drive env s (f1 + 1) n b = b := by
        unfold Batch.drive
        simp only [hm]
      rw [h1, h2]
      cases f2 with
      | zero => rfl
      | succ f2 =>
        unfold Batch.drive
        simp only [hm]
    | cons m ms =>
      have h1 : Batch.drive env s (f1 + f2 + 1) n b =
          Batch.drive env s (f1 + f2) (n + 1)
            (b.step env (((m :: ms).getD (s.pick n % (ms.length + 1)) m).toEvent
              (s.clock n) (s.random n))) := by
        conv => lhs; unfold Batch.drive
        simp only [hm]
      have h2 : Batch.drive env s (f1 + 1) n b =
          Batch.drive env s f1 (n + 1)
            (b.step env (((m :: ms).getD (s.pick n % (ms.length + 1)) m).toEvent
              (s.clock n) (s.random n))) := by
        conv => lhs; unfold Batch.drive
        simp only [hm]
      rw [h1, h2, ih]
      have hn : n + 1 + f1 = n + (f1 + 1) := by omega
      rw [hn]

theorem inflight_index (env : Env) (tagged : List Task) (b : Batch) (hidx : Indexed tagged)
    (h : b.Core env tagged) (fl : InFlight) (hfl : fl ∈ b.executing) :
    ∃ j, j < tagged.length ∧ fl.task.originalIndex = some j := by
  obtain ⟨j, hj⟩ := List.mem_iff_getElem?.mp (h.inTagged fl hfl)
  exact ⟨j, (List.getElem?_eq_some.mp hj).1, hidx j _ hj⟩

theorem executing_length_le (env : Env) (tagged : List Task) (b : Batch) (hidx : Indexed tagged)
    (h : b.Core env tagged) : b.executing.length ≤ tagged.length := by
  have hsub : b.executing.map (fun fl => fl.task.originalIndex) ⊆
      (List.range tagged.length).map some := by
    intro x hx
    obtain ⟨fl, hfl, rfl⟩ := List.mem_map.mp hx
    obtain ⟨j, hj, hoi⟩ := inflight_index env tagged b hidx h fl hfl
    rw [hoi]
    exact List.mem_map.mpr ⟨j, List.mem_range.mpr hj, rfl⟩
  have hle := (List.Nodup.subperm h.distinct hsub).length_le
  simpa using hle

theorem sum_weight_settled (l : List InFlight) (h : ∀ fl ∈ l, ∃ r, fl.settled = some r) :
    (l.map InFlight.weight).sum = l.length := by
  induction l with
  | nil => rfl
  | cons fl rest ih =>
    obtain ⟨r, hr⟩ := h fl (List.mem_cons_self _ _)
    have hw : fl.weight = 1 := by simp [InFlight.weight, hr]
    simp only [List.map_cons, List.sum_cons, List.length_cons, hw]
    rw [ih (fun x hx => h x (List.mem_cons_of_mem _ hx))]
    omega

/-- Once every task execution has completed, nothing is pending, every
in-flight call has returned and `executeNext` holds no task. -/
theorem finishing_of_completed (env : Env) (tagged : List Task) (b : Batch)
    (hidx : Indexed tagged) (h : b.Core env tagged)
    (hall : ∀ i, i < tagged.length → b.completed i) : b.Finishing env tagged := by
  have hnoheld : b.ctl.held = none := by
    cases hh : b.ctl.held with
    | none => rfl
    | some t =>
      exfalso
      obtain ⟨j, hj⟩ := List.mem_iff_getElem?.mp (h.heldTagged t hh)
      have hoi := hidx j t hj
      rcases hall j (List.getElem?_eq_some.mp hj).1 with hf | ⟨fl, hfl, hfi, _⟩
      · exact h.heldFree t j hh hoi hf
      · exact h.heldFresh t hh fl hfl (by rw [hfi, hoi])
  refine ⟨h, ?_, ?_, ?_, hall⟩
  · obtain ⟨k, hk, hp, hex, _, hnf⟩ := h.admitted
    have hkn : tagged.length ≤ k := by
      by_contra hlt
      rcases hall k (Nat.lt_of_not_le hlt) with hf | ⟨fl, hfl, hfi, _⟩
      · exact hnf k (Nat.le_refl k) hf
      · exact absurd (hex fl hfl k hfi) (Nat.lt_irrefl k)
    rw [hp]
    exact List.drop_eq_nil_of_le hkn
  · intro fl hfl
    obtain ⟨j, hj, hoi⟩ := inflight_index env tagged b hidx h fl hfl
    rcases hall j hj with hf | ⟨fl', hfl', hfi, hs⟩
    · exact absurd hf (h.inflightFree fl hfl j hoi)
    · have heq : fl' = fl := by
        have hinj := List.inj_on_of_nodup_map h.distinct
        exact hinj hfl' hfl (by rw [hfi, hoi])
      rw [← heq]
      exact hs
  · cases hc : b.ctl with
    | ready => exact Or.inl rfl
    | done => exact Or.inr rfl
    | acquired task node => rw [hc] at hnoheld; cases hnoheld
    | waiting task start => rw [hc] at hnoheld; cases hnoheld
    | raised msg task => rw [hc] at hnoheld; cases hnoheld

theorem completed_deliver (b : Batch) (i j : Nat) (fl : InFlight) (res : TaskResult)
    (hfl : b.executing[i]? = some fl) (hoi : fl.task.originalIndex = some j)
    (hj : j < b.results.length) (m : Nat) (h : b.completed m) :
    Batch.completed
      { b with results := b.results.set j (some res), executing := b.executing.eraseIdx i } m := by
  have hself : ∀ q : Nat, q = j →
      Batch.filled { b with results := b.results.set j (some res),
                            executing := b.executing.eraseIdx i } q := by
    intro q hq
    subst hq
    exact ⟨res, List.getElem?_set_self hj⟩
  rcases h with ⟨r, hr⟩ | ⟨x, hx, hxi, hxs⟩
  · by_cases hjm : j = m
    · exact Or.inl (hself m hjm.symm)
    · exact Or.inl ⟨r, by
        show (b.results.set j (some res))[m]? = some (some r)
        rw [List.getElem?_set_ne hjm]; exact hr⟩
  · by_cases hxe : x = fl
    · rw [hxe, hoi] at hxi
      cases hxi
      exact Or.inl (hself j rfl)
    · exact Or.inr ⟨x, mem_eraseIdx_of_ne _ _ _ _ hx hfl hxe, hxi, hxs⟩

theorem step_finishing (env : Env) (tagged : List Task) (b : Batch) (ev : BatchEvent)
    (hidx : Indexed tagged) (h : b.Finishing env tagged) :
    (b.step env ev).Finishing env tagged := by
  have hcore := step_core env tagged b ev hidx h.core
  cases ev with
  | next now rnd =>
    have hstep : (b.step env (BatchEvent.next now rnd) = { b with ctl := Ctl.done }) ∨
        (b.step env (BatchEvent.next now rnd) = { b with ctl := Ctl.ready }) ∨
        b.step env (BatchEvent.next now rnd) = b := by
      rcases h.ctl with hc | hc
      · simp only [Batch.step, Batch.executeNext, hc, Batch.head, h.noPending]
        by_cases he : b.executing.isEmpty = true
        · simp [he]
        · simp [he]
      · refine Or.inr (Or.inr ?_)
        simp only [Batch.step, Batch.executeNext, hc]
    rcases hstep with heq | heq | heq
    · rw [heq] at hcore ⊢
      exact ⟨hcore, h.noPending, h.settled, Or.inr rfl, h.all⟩
    · rw [heq] at hcore ⊢
      exact ⟨hcore, h.noPending, h.settled, Or.inl rfl, h.all⟩
    · rw [heq]; exact h
  | settle i now =>
    rcases settle_cases env b i now with heq | ⟨fl, w, hfl, hs, _, _⟩
    · show (b.settle env i now).Finishing env tagged
      rw [heq]; exact h
    · obtain ⟨r, hr⟩ := h.settled fl (List.getElem?_mem hfl)
      rw [hs] at hr
      cases hr
  | deliver i =>
    rcases deliver_eq env tagged b i hidx h.core with
      heq | ⟨fl, res, j, hfl, hs, hoi, _, hjlt, heq⟩
    · show (b.deliver i).Finishing env tagged
      rw [heq]; exact h
    · have hcore' : (b.deliver i).Core env tagged := hcore
      show (b.deliver i).Finishing env tagged
      rw [heq] at hcore' ⊢
      refine ⟨hcore', h.noPending, ?_, h.ctl, ?_⟩
      · intro x hx
        exact h.settled x (List.mem_of_mem_eraseIdx hx)
      · intro m hm
        exact completed_deliver b i j fl res hfl hoi hjlt m (h.all m hm)

theorem finishing_measure (env : Env) (tagged : List Task) (b : Batch) (hidx : Indexed tagged)
    (h : b.Finishing env tagged) : b.measure ≤ tagged.length + 1 := by
  have hlen := executing_length_le env tagged b hidx h.core
  have hsum := sum_weight_settled b.executing h.settled
  have hw : b.ctl.weight ≤ 1 := by
    rcases h.ctl with hc | hc <;> simp [hc, Ctl.weight]
  simp only [Batch.measure, h.noPending, hsum, List.length_nil]
  omega

theorem finishing_step_measure (env : Env) (tagged : List Task) (b : Batch) (mv : Move)
    (now : Nat) (rnd : String) (h : b.Finishing env tagged) (hmv : mv ∈ b.moves) :
    (b.step env (mv.toEvent now rnd)).measure < b.measure := by
  rcases mem_moves b mv hmv with ⟨rfl, hen⟩ | ⟨i, rfl, hen⟩ | ⟨i, rfl, hen⟩
  · rcases h.ctl with hc | hc
    · have hne := nextEnabled_ready b hc hen
      have hex : b.executing = [] := by
        by_contra hx
        exact hne ⟨Or.inl h.noPending, hx⟩
      simp [Move.toEvent, Batch.step, Batch.executeNext, hc, Batch.head, h.noPending, hex,
        Batch.measure, Ctl.weight]
    · simp [Batch.nextEnabled, hc] at hen
  · exact settle_measure env b i now hen
  · exact deliver_measure b i hen

theorem finishing_done_of_no_moves (env : Env) (tagged : List Task) (b : Batch)
    (h : b.Finishing env tagged) (hm : b.moves = []) : b.ctl = Ctl.done := by
  have hex : b.executing = [] := by
    cases hx : b.executing with
    | nil => rfl
    | cons fl rest =>
      exfalso
      have h0 : b.executing[0]? = some fl := by rw [hx]; simp
      have hlen : 0 < b.executing.length := by rw [hx]; simp
      obtain ⟨r, hs⟩ := h.settled fl (List.getElem?_mem h0)
      have hcan : b.canDeliver 0 = true := by
        simp [Batch.canDeliver, h0, hs]
      have : Move.deliver 0 ∈ b.moves := by
        unfold Batch.moves
        simp only [List.mem_append, List.mem_map, List.mem_filter, List.mem_range]
        exact Or.inr ⟨0, ⟨hlen, hcan⟩, rfl⟩
      rw [hm] at this
      cases this
  rcases h.ctl with hc | hc
  · exfalso
    have hen : b.nextEnabled = true := by
      simp [Batch.nextEnabled, hc, hex]
    have : Move.next ∈ b.moves := by
      unfold Batch.moves
      simp [hen]
    rw [hm] at this
    cases this
  · exact hc

/-- Once every task execution has completed, the run ends with `executeNext`
returned under any schedule, within as many events as its measure. -/
theorem drive_finishing (env : Env) (s : Schedule) (tagged : List Task) (hidx : Indexed tagged)
    (fuel n : Nat) (b : Batch) (h : b.Finishing env tagged) (hfuel : b.measure ≤ fuel) :
    (Batch.drive env s fuel n b).Finishing env tagged ∧
      (Batch.drive env s fuel n b).ctl = Ctl.done := by
  induction fuel generalizing n b with
  | zero =>
    simp only [Batch.drive]
    refine ⟨h, ?_⟩
    rcases h.ctl with hc | hc
    · simp [Batch.measure, hc, Ctl.weight] at hfuel
    · exact hc
  | succ fuel ih =>
    unfold Batch.drive
    cases hm : b.moves with
    | nil => exact ⟨h, finishing_done_of_no_moves env tagged b h hm⟩
    | cons m ms =>
      simp only
      have hmem : (m :: ms).getD (s.pick n % (ms.length + 1)) m ∈ b.moves := by
        rw [hm]; exact getD_mem_cons m ms _
      have hdec := finishing_step_measure env tagged b _ (s.clock n) (s.random n) h hmem
      apply ih
      · exact step_finishing env tagged b _ hidx h
      · omega

theorem results_of_finished (env : Env) (tagged : List Task) (b : Batch)
    (h : b.Finishing env tagged) (hd : b.ctl = Ctl.done) :
    b.results.length = tagged.length ∧
    ∀ (i : Nat) (t : Task), tagged[i]? = some t →
      ∃ r, b.results[i]? = some (some r) ∧ r.isFor env t := by
  refine ⟨h.core.len, fun i t ht => ?_⟩
  obtain ⟨_, he⟩ := h.core.finished hd
  rcases h.all i (List.getElem?_eq_some.mp ht).1 with ⟨r, hr⟩ | ⟨fl, hfl, _, _⟩
  · obtain ⟨t', ht', hfor⟩ := h.core.stored i r hr
    rw [ht] at ht'
    cases ht'
    exact ⟨r, hr, hfor⟩
  · rw [he] at hfl
    cases hfl

/-- On any well-formed pool and under any schedule: if after `fuel` events every
task execution has completed, then `executeParallel` has returned at most
`N + 1` events later, with one Task Result per task, the i-th being that of the
i-th task. -/
theorem executeParallel_returns_of_completed (env : Env) (s : Schedule) (fuel finish : Nat)
    (d : Dispatcher) (tasks : List Task) (hwf : d.WF)
    (hall : ∀ i, i < tasks.length →
      (Batch.drive env s fuel 1 (Batch.init d tasks (s.clock 0))).completed i) :
    ∃ d' r, executeParallel env s (fuel + (tasks.length + 1)) finish d tasks
        = Outcome.returned d' r ∧
      r.results.length = tasks.length ∧
      ∀ (i : Nat) (t : Task), tasks[i]? = some t →
        ∃ tr, r.results[i]? = some (some tr) ∧ tr.isFor env (t.tag i (d.nextTaskId + i)) := by
  have hidx := indexed_tagTasks tasks d.nextTaskId
  have hcore := drive_core env s _ hidx fuel 1 _ (init_core env d tasks (s.clock 0) hwf)
  have hfin := finishing_of_completed env _ _ hidx hcore
    (by rw [length_tagTasks]; exact hall)
  have hmeas := finishing_measure env _ _ hidx hfin
  rw [length_tagTasks] at hmeas
  obtain ⟨hfin', hctl⟩ := drive_finishing env s _ hidx (tasks.length + 1) (1 + fuel) _ hfin hmeas
  rw [← drive_add] at hfin' hctl
  obtain ⟨hlen, hres⟩ := results_of_finished env _ _ hfin' hctl
  generalize hb : Batch.drive env s (fuel + (tasks.length + 1)) 1
    (Batch.init d tasks (s.clock 0)) = b at hctl hlen hres
  refine ⟨b.disp, b.summary finish, ?_, ?_, ?_⟩
  · simp only [executeParallel, hb, hctl]
  · simp only [Batch.summary]
    rw [hlen, length_tagTasks]
  · intro i t ht
    have htag : (tagTasks tasks 0 d.nextTaskId)[i]? = some (t.tag i (d.nextTaskId + i)) := by
      rw [getElem?_tagTasks, ht]
      simp
    exact hres i _ htag

/-! ## No task is lost -/

theorem tracked_of_ctl (b b' : Batch) (hr : b'.results = b.results)
    (he : b'.executing = b.executing) (hc : b.ctl.held = none) (i : Nat)
    (h : b.tracked i) : b'.tracked i := by
  rcases h with ⟨r, h1⟩ | ⟨fl, hfl, hidx⟩ | ⟨t, hh, _⟩
  · exact Or.inl ⟨r, by rw [hr]; exact h1⟩
  · exact Or.inr (Or.inl ⟨fl, by rw [he]; exact hfl, hidx⟩)
  · rw [hc] at hh
    cases hh

theorem startExecute_tracked (tagged : List Task) (b : Batch) (task : Task) (node now : Nat)
    (h : b.Tracked tagged) (hc : b.ctl = Ctl.acquired task node) :
    (b.startExecute task node now).Tracked tagged := by
  obtain ⟨k, hk, hp, htr⟩ := h
  have hex : (b.startExecute task node now).executing =
      b.executing ++ [{ task := task, node := node, startTime := now, settled := none }] := rfl
  refine ⟨k, hk, hp, fun i hi => ?_⟩
  rcases htr i hi with ⟨r, hr⟩ | ⟨fl, hfl, hidx⟩ | ⟨t, hh, hidx⟩
  · exact Or.inl ⟨r, hr⟩
  · exact Or.inr (Or.inl ⟨fl, by rw [hex]; exact List.mem_append_left _ hfl, hidx⟩)
  · rw [hc] at hh
    simp only [Ctl.held, Option.some.injEq] at hh
    rw [← hh] at hidx
    have hmem : ({ task := task, node := node, startTime := now, settled := none } : InFlight) ∈
        (b.startExecute task node now).executing := by
      rw [hex]; exact List.mem_append_right _ (List.mem_singleton_self _)
    exact Or.inr (Or.inl ⟨_, hmem, hidx⟩)

theorem head_tracked (tagged : List Task) (b : Batch) (now : Nat) (rnd : String)
    (hidx : Indexed tagged) (h : b.Tracked tagged) (hc : b.ctl = Ctl.ready) :
    (b.head now rnd).Tracked tagged := by
  have hheld : b.ctl.held = none := by rw [hc]; rfl
  obtain ⟨k, hk, hpk, htr⟩ := h
  rcases head_cases b now rnd with ⟨_, _, heq⟩ | ⟨heq, _⟩ | ⟨task, rest, hp, _, heq⟩
  · rw [heq]
    exact ⟨k, hk, hpk, fun i hi =>
      tracked_of_ctl b { b with ctl := Ctl.done } rfl rfl hheld i (htr i hi)⟩
  · rw [heq]
    exact ⟨k, hk, hpk, fun i hi =>
      tracked_of_ctl b { b with ctl := Ctl.ready } rfl rfl hheld i (htr i hi)⟩
  · rw [heq]
    have hklt : k < tagged.length := by
      by_contra hge
      rw [List.drop_eq_nil_of_le (Nat.le_of_not_lt hge), hp] at hpk
      cases hpk
    have hdrop := List.drop_eq_getElem_cons hklt
    rw [hp, hdrop] at hpk
    have htask : tagged[k] = task := (List.cons.inj hpk).1.symm
    have hrest : rest = tagged.drop (k + 1) := (List.cons.inj hpk).2
    have hget : tagged[k]? = some task := by
      rw [List.getElem?_eq_getElem hklt, htask]
    refine ⟨k + 1, hklt, hrest, fun i hi => ?_⟩
    by_cases hik : i < k
    · rcases htr i hik with ⟨r, h1⟩ | ⟨fl, hfl, hfi⟩ | ⟨t, hh, _⟩
      · exact Or.inl ⟨r, h1⟩
      · exact Or.inr (Or.inl ⟨fl, hfl, hfi⟩)
      · rw [hheld] at hh
        cases hh
    · have hik' : i = k := by omega
      subst hik'
      exact Or.inr (Or.inr ⟨task, held_toCtl task now _, hidx i task hget⟩)

theorem executeNext_tracked (tagged : List Task) (b : Batch) (now : Nat) (rnd : String)
    (hidx : Indexed tagged) (h : b.Tracked tagged) : (b.executeNext now rnd).Tracked tagged := by
  unfold Batch.executeNext
  cases hc : b.ctl with
  | ready => exact head_tracked tagged b now rnd hidx h hc
  | acquired task node =>
    exact head_tracked tagged _ now rnd hidx (startExecute_tracked tagged b task node now h hc) rfl
  | waiting task start =>
    obtain ⟨k, hk, hp, htr⟩ := h
    refine ⟨k, hk, hp, fun i hi => ?_⟩
    rcases htr i hi with ⟨r, hr⟩ | ⟨fl, hfl, hfi⟩ | ⟨t, hh, hti⟩
    · exact Or.inl ⟨r, hr⟩
    · exact Or.inr (Or.inl ⟨fl, hfl, hfi⟩)
    · rw [hc] at hh
      simp only [Ctl.held, Option.some.injEq] at hh
      rw [← hh] at hti
      exact Or.inr (Or.inr ⟨task, held_toCtl task start _, hti⟩)
  | done => exact h
  | raised msg task => exact h

theorem settle_tracked (env : Env) (tagged : List Task) (b : Batch) (i now : Nat)
    (h : b.Tracked tagged) : (b.settle env i now).Tracked tagged := by
  rcases settle_cases env b i now with heq | ⟨fl, w, hfl, hs, hw, heq⟩
  · rw [heq]; exact h
  rw [heq]
  obtain ⟨k, hk, hp, htr⟩ := h
  refine ⟨k, hk, hp, fun j hj => ?_⟩
  rcases htr j hj with ⟨r, hr⟩ | ⟨x, hx, hxi⟩ | ⟨t, hh, hti⟩
  · exact Or.inl ⟨r, hr⟩
  · by_cases hxe : x = fl
    · refine Or.inr (Or.inl ⟨_, mem_set_self_of_getElem? _ _ _ _ hfl, ?_⟩)
      rw [hxe] at hxi
      exact hxi
    · exact Or.inr (Or.inl ⟨x, mem_set_of_ne _ _ _ _ _ hx hfl hxe, hxi⟩)
  · exact Or.inr (Or.inr ⟨t, hh, hti⟩)

theorem deliver_tracked (env : Env) (tagged : List Task) (b : Batch) (i : Nat)
    (hidx : Indexed tagged) (hcore : b.Core env tagged) (h : b.Tracked tagged) :
    (b.deliver i).Tracked tagged := by
  rcases deliver_eq env tagged b i hidx hcore with
    heq | ⟨fl, res, j, hfl, hs, hoi, _, hjlt, heq⟩
  · rw [heq]; exact h
  rw [heq]
  obtain ⟨k, hk, hp, htr⟩ := h
  refine ⟨k, hk, hp, fun m hm => ?_⟩
  rcases htr m hm with ⟨r, hr⟩ | ⟨x, hx, hxi⟩ | ⟨t, hh, hti⟩
  · by_cases hjm : j = m
    · subst hjm
      exact Or.inl ⟨res, List.getElem?_set_self hjlt⟩
    · exact Or.inl ⟨r, by
        show (b.results.set j (some res))[m]? = some (some r)
        rw [List.getElem?_set_ne hjm]; exact hr⟩
  · by_cases hxe : x = fl
    · rw [hxe, hoi] at hxi
      cases hxi
      exact Or.inl ⟨res, List.getElem?_set_self hjlt⟩
    · exact Or.inr (Or.inl ⟨x, mem_eraseIdx_of_ne _ _ _ _ hx hfl hxe, hxi⟩)
  · exact Or.inr (Or.inr ⟨t, hh, hti⟩)

theorem step_tracked (env : Env) (tagged : List Task) (b : Batch) (ev : BatchEvent)
    (hidx : Indexed tagged) (hcore : b.Core env tagged) (h : b.Tracked tagged) :
    (b.step env ev).Tracked tagged := by
  cases ev with
  | next now rnd => exact executeNext_tracked tagged b now rnd hidx h
  | settle i now => exact settle_tracked env tagged b i now h
  | deliver i => exact deliver_tracked env tagged b i hidx hcore h

theorem drive_tracked (env : Env) (s : Schedule) (tagged : List Task) (hidx : Indexed tagged)
    (fuel n : Nat) (b : Batch) (hcore : b.Core env tagged) (h : b.Tracked tagged) :
    (Batch.drive env s fuel n b).Tracked tagged := by
  induction fuel generalizing n b with
  | zero => exact h
  | succ fuel ih =>
    unfold Batch.drive
    cases hm : b.moves with
    | nil => exact h
    | cons m ms =>
      exact ih _ _ (step_core env tagged b _ hidx hcore) (step_tracked env tagged b _ hidx hcore h)

theorem init_tracked (d : Dispatcher) (tasks : List Task) (now : Nat) :
    (Batch.init d tasks now).Tracked (tagTasks tasks 0 d.nextTaskId) :=
  ⟨0, Nat.zero_le _, rfl, fun i hi => absurd hi (Nat.not_lt_zero i)⟩

/-- When `executeNext` has returned, every slot of the results array is
filled, slot `i` with the Task Result of the i-th task. -/
theorem results_of_returned (env : Env) (tagged : List Task) (b : Batch)
    (hcore : b.Core env tagged) (h : b.Tracked tagged) (hd : b.ctl = Ctl.done) :
    b.results.length = tagged.length ∧
    ∀ (i : Nat) (t : Task), tagged[i]? = some t →
      ∃ r, b.results[i]? = some (some r) ∧ r.isFor env t := by
  refine ⟨hcore.len, fun i t ht => ?_⟩
  obtain ⟨hp, he⟩ := hcore.finished hd
  obtain ⟨k, hk, hpk, htr⟩ := h
  have hik : i < k := by
    have hlt : i < tagged.length := (List.getElem?_eq_some.mp ht).1
    rw [hp] at hpk
    have := List.drop_eq_nil_iff.mp hpk.symm
    omega
  rcases htr i hik with ⟨r, hr⟩ | ⟨fl, hfl, _⟩ | ⟨t', hh, _⟩
  · obtain ⟨t', ht', hfor⟩ := hcore.stored i r hr
    rw [ht] at ht'
    cases ht'
    exact ⟨r, hr, hfor⟩
  · rw [he] at hfl
    cases hfl
  · rw [hd] at hh
    cases hh

/-- On any well-formed pool, whenever `executeParallel` has returned, it has
returned one Task Result per task, the i-th being that of the i-th task. -/
theorem executeParallel_returned (env : Env) (s : Schedule) (fuel finish : Nat)
    (d : Dispatcher) (tasks : List Task) (hwf : d.WF) (d' : Dispatcher) (r : BatchResult)
    (hret : executeParallel env s fuel finish d tasks = Outcome.returned d' r) :
    r.results.length = tasks.length ∧
      ∀ (i : Nat) (t : Task), tasks[i]? = some t →
        ∃ tr, r.results[i]? = some (some tr) ∧ tr.isFor env (t.tag i (d.nextTaskId + i)) := by
  have hidx := indexed_tagTasks tasks d.nextTaskId
  have hcore := drive_core env s _ hidx fuel 1 _ (init_core env d tasks (s.clock 0) hwf)
  have htr := drive_tracked env s _ hidx fuel 1 _ (init_core env d tasks (s.clock 0) hwf)
    (init_tracked d tasks (s.clock 0))
  unfold executeParallel at hret
  generalize hb : Batch.drive env s fuel 1 (Batch.init d tasks (s.clock 0)) = b
    at hret hcore htr
  cases hc : b.ctl with
  | done =>
    simp only [hc, Outcome.returned.injEq] at hret
    obtain ⟨hlen, hres⟩ := results_of_returned env _ b hcore htr hc
    rw [← hret.2]
    refine ⟨by simp only [Batch.summary]; rw [hlen, length_tagTasks], fun i t ht => ?_⟩
    have htag : (tagTasks tasks 0 d.nextTaskId)[i]? = some (t.tag i (d.nextTaskId + i)) := by
      rw [getElem?_tagTasks, ht]
      simp
    exact hres i _ htag
  | ready => simp [hc] at hret
  | acquired task node => simp [hc] at hret
  | waiting task start => simp [hc] at hret
  | raised msg task => simp [hc] at hret

/-! ## The only error a run raises -/

theorem waitForNode_timedOut (d : Dispatcher) (c : String) (start now : Nat) (rnd : String)
    (msg : String) (h : (waitForNode d c start now rnd).2 = Waited.timedOut msg) :
    msg = "Timeout waiting for " ++ c ++ " node" := by
  rcases waitForNode_cases d c start now rnd with ⟨node, _, heq⟩ | heq | _
  · rw [heq] at h
    cases h
  · rw [heq] at h
    cases h
  · unfold waitForNode at h
    by_cases hlt : now - start < 30000
    · simp only [hlt, if_true] at h
      cases hg : (getOrCreateNode d c now rnd).2 with
      | ok node => rw [hg] at h; cases h
      | error m => rw [hg] at h; cases h
    · simp only [hlt, if_false, Waited.timedOut.injEq] at h
      exact h.symm

theorem toCtl_raised (task : Task) (start : Nat) (r : Waited) (msg : String) (t : Task)
    (h : r.toCtl task start = Ctl.raised msg t) : r = Waited.timedOut msg ∧ t = task := by
  cases r with
  | resolved node => cases h
  | sleeping => cases h
  | timedOut m =>
    simp only [Waited.toCtl, Ctl.raised.injEq] at h
    exact ⟨by rw [h.1], h.2.symm⟩

theorem head_raisedByTimeout (b : Batch) (now : Nat) (rnd : String) :
    (b.head now rnd).RaisedByTimeout := by
  intro msg t hc
  rcases head_cases b now rnd with ⟨_, _, heq⟩ | ⟨heq, _⟩ | ⟨task, rest, _, _, heq⟩
  · rw [heq] at hc
    cases hc
  · rw [heq] at hc
    cases hc
  · rw [heq] at hc
    obtain ⟨hr, ht⟩ := toCtl_raised task now _ msg t hc
    rw [ht]
    exact waitForNode_timedOut _ _ _ _ _ msg hr

theorem executeNext_raisedByTimeout (b : Batch) (now : Nat) (rnd : String)
    (h : b.RaisedByTimeout) : (b.executeNext now rnd).RaisedByTimeout := by
  unfold Batch.executeNext
  cases hc : b.ctl with
  | ready => exact head_raisedByTimeout b now rnd
  | acquired task node => exact head_raisedByTimeout _ now rnd
  | waiting task start =>
    intro msg t hc'
    obtain ⟨hr, ht⟩ := toCtl_raised task start _ msg t hc'
    rw [ht]
    exact waitForNode_timedOut _ _ _ _ _ msg hr
  | done =>
    intro msg t hc'
    rw [hc] at hc'
    cases hc'
  | raised m t0 =>
    intro msg t hc'
    exact h msg t hc'

theorem step_raisedByTimeout (env : Env) (b : Batch) (ev : BatchEvent)
    (h : b.RaisedByTimeout) : (b.step env ev).RaisedByTimeout := by
  cases ev with
  | next now rnd => exact executeNext_raisedByTimeout b now rnd h
  | settle i now =>
    intro msg t hc
    have hctl : (b.settle env i now).ctl = b.ctl := (settle_shape env b i now).1
    exact h msg t (by rw [← hctl]; exact hc)
  | deliver i =>
    intro msg t hc
    have hctl : (b.deliver i).ctl = b.ctl := (deliver_shape b i).1
    exact h msg t (by rw [← hctl]; exact hc)

theorem drive_raisedByTimeout (env : Env) (s : Schedule) (fuel n : Nat) (b : Batch)
    (h : b.RaisedByTimeout) : (Batch.drive env s fuel n b).RaisedByTimeout := by
  induction fuel generalizing n b with
  | zero => exact h
  | succ fuel ih =>
    unfold Batch.drive
    cases hm : b.moves with
    | nil => exact h
    | cons m ms => exact ih _ _ (step_raisedByTimeout env b _ h)

/-- Whatever the pool and the schedule, the only error `executeParallel`
throws is the timeout of `waitForNode`. -/
theorem executeParallel_threw (env : Env) (s : Schedule) (fuel finish : Nat) (d : Dispatcher)
    (tasks : List Task) (msg : String)
    (hthrew : executeParallel env s fuel finish d tasks = Outcome.threw msg) :
    ∃ c, msg = "Timeout waiting for " ++ c ++ " node" := by
  have hinit : (Batch.init d tasks (s.clock 0)).RaisedByTimeout := by
    intro m t hc
    cases hc
  have h := drive_raisedByTimeout env s fuel 1 _ hinit
  unfold executeParallel at hthrew
  generalize Batch.drive env s fuel 1 (Batch.init d tasks (s.clock 0)) = b at hthrew h
  cases hc : b.ctl with
  | raised m t =>
    simp only [hc, Outcome.threw.injEq] at hthrew
    rw [← hthrew]
    exact ⟨t.nodeTypeOr, h m t hc⟩
  | ready => simp [hc] at hthrew
  | acquired task node => simp [hc] at hthrew
  | waiting task start => simp [hc] at hthrew
  | done => simp [hc] at hthrew

theorem contained_of_isFor (env : Env) (d : Dispatcher) (tasks : List Task)
    (results : List (Option TaskResult)) (hlen : results.length = tasks.length)
    (hres : ∀ (i : Nat) (t : Task), tasks[i]? = some t →
      ∃ tr, results[i]? = some (some tr) ∧ tr.isFor env (t.tag i (d.nextTaskId + i))) :
    Contained env d tasks results := by
  refine ⟨hlen, fun i t ht => ?_⟩
  obtain ⟨tr, htr, _, _, hsucc, _, herr⟩ := hres i t ht
  refine ⟨tr, htr, ?_, ?_, herr⟩
  · rw [hsucc]; cases taskFails env (t.tag i (d.nextTaskId + i)) <;> simp
  · rw [hsucc]; cases taskFails env (t.tag i (d.nextTaskId + i)) <;> simp

/-- C2. Order preservation. For every well-formed pool, every task list of
length `N` and every schedule, that is every order in which the task executions
complete: (1) in every state the run can reach, the results array has length
`N` and a filled slot `i` holds the Task Result of the i-th task, whose `taskId`
is the id assigned to that task; (2) whenever `executeParallel` has returned,
it has returned a results array of length `N` whose i-th element is the Task
Result produced for the i-th task; (3) once every task execution has completed,
`executeParallel` returns such an array at most `N + 1` events later; (4) on a
pool with `maxNodes ≥ 1` none of whose workers is busy for another caller, every
execution completes and `executeParallel` returns such an array within
`4 * N + 1` events. -/
theorem executeParallel_preserves_order (env : Env) (d : Dispatcher) (tasks : List Task)
    (hwf : d.WF) :
    (∀ (now : Nat) (evs : List BatchEvent),
      ((Batch.init d tasks now).run env evs).results.length = tasks.length ∧
      ∀ (i : Nat) (tr : TaskResult),
        ((Batch.init d tasks now).run env evs).results[i]? = some (some tr) →
          ∃ t, tasks[i]? = some t ∧ tr.isFor env (t.tag i (d.nextTaskId + i)) ∧
            tr.taskId = some (d.nextTaskId + i)) ∧
    (∀ (s : Schedule) (fuel finish : Nat) (d' : Dispatcher) (r : BatchResult),
      executeParallel env s fuel finish d tasks = Outcome.returned d' r →
        InOrder env d tasks r.results) ∧
    (∀ (s : Schedule) (fuel finish : Nat),
      (∀ i, i < tasks.length →
        (Batch.drive env s fuel 1 (Batch.init d tasks (s.clock 0))).completed i) →
      ∃ d' r, executeParallel env s (fuel + (tasks.length + 1)) finish d tasks
          = Outcome.returned d' r ∧ InOrder env d tasks r.results) ∧
    ((∀ e ∈ d.nodes, isBusy d.heap e.2 = false) → 0 < d.maxNodes →
      ∀ (s : Schedule) (fuel finish : Nat), 4 * tasks.length + 1 ≤ fuel →
        ∃ d' r, executeParallel env s fuel finish d tasks = Outcome.returned d' r ∧
          InOrder env d tasks r.results) := by
  refine ⟨?_, ?_, ?_, ?_⟩
  · intro now evs
    have hcore := run_core env _ evs _ (indexed_tagTasks tasks d.nextTaskId)
      (init_core env d tasks now hwf)
    refine ⟨by rw [hcore.len, length_tagTasks], fun i tr htr => ?_⟩
    obtain ⟨t', ht', hfor⟩ := hcore.stored i tr htr
    rw [getElem?_tagTasks] at ht'
    cases ht : tasks[i]? with
    | none => simp [ht] at ht'
    | some t =>
      simp only [ht, Option.map_some', Option.some.injEq, Nat.zero_add] at ht'
      rw [← ht'] at hfor
      exact ⟨t, rfl, hfor, hfor.1⟩
  · intro s fuel finish d' r hret
    obtain ⟨hlen, hres⟩ := executeParallel_returned env s fuel finish d tasks hwf d' r hret
    refine ⟨hlen, fun i t ht => ?_⟩
    obtain ⟨tr, htr, hfor⟩ := hres i t ht
    exact ⟨tr, htr, hfor, hfor.1⟩
  · intro s fuel finish hall
    obtain ⟨d', r, heq, hlen, hres⟩ :=
      executeParallel_returns_of_completed env s fuel finish d tasks hwf hall
    refine ⟨d', r, heq, hlen, fun i t ht => ?_⟩
    obtain ⟨tr, htr, hfor⟩ := hres i t ht
    exact ⟨tr, htr, hfor, hfor.1⟩
  · intro hidle hmax s fuel finish hfuel
    obtain ⟨d', r, heq, hlen, hres⟩ :=
      executeParallel_returns env s fuel finish d tasks hwf hidle hmax hfuel
    refine ⟨d', r, heq, hlen, fun i t ht => ?_⟩
    obtain ⟨tr, htr, hfor⟩ := hres i t ht
    exact ⟨tr, htr, hfor, hfor.1⟩

/-- Witness for C2. Five tasks on a new dispatcher with `maxNodes = 3` under a
mixed schedule: the call returns the five results in input order. Two tasks on
a pool with `maxNodes = 2` one of whose workers is busy for another caller:
after 8 events both executions have completed (the first result is stored, the
second waits in its wrapper), and the call returns both in input order. -/
theorem executeParallel_preserves_order_witness :
    (∃ d' r, executeParallel envBoom mixedSchedule 21 1700000009000 (Dispatcher.new 3) tasks5
        = Outcome.returned d' r ∧ InOrder envBoom (Dispatcher.new 3) tasks5 r.results) ∧
    (∃ d' r, executeParallel envBoom mixedSchedule (8 + (tasksBadGood.length + 1)) 1700000009000
        poolBusy tasksBadGood = Outcome.returned d' r ∧
      InOrder envBoom poolBusy tasksBadGood r.results) :=
  ⟨(executeParallel_preserves_order envBoom (Dispatcher.new 3) tasks5 (by decide)).2.2.2
      (by decide) (by decide) mixedSchedule 21 1700000009000 (by decide),
   (executeParallel_preserves_order envBoom poolBusy tasksBadGood (by decide)).2.2.1
      mixedSchedule 8 1700000009000 (by decide)⟩

/-- C9 (as amended). Failure containment: for every well-formed pool, every
batch of tasks, whichever of them fail, and every schedule: (1) whenever
`executeParallel` returns, it returns one Task Result per task, with
`success = false` exactly at the indices of the tasks whose collaborator call
fails, where the result carries the error message, and `success = true`
elsewhere; (2) the only error `executeParallel` raises is the timeout of
`waitForNode`, never the failure of a task; (3) on a pool with `maxNodes ≥ 1`
none of whose workers is busy for another caller, `executeParallel` returns
(it does not raise) such results within `4 * N + 1` events. -/
theorem executeParallel_contains_failures (env : Env) (d : Dispatcher) (tasks : List Task)
    (hwf : d.WF) :
    (∀ (s : Schedule) (fuel finish : Nat) (d' : Dispatcher) (r : BatchResult),
      executeParallel env s fuel finish d tasks = Outcome.returned d' r →
        Contained env d tasks r.results) ∧
    (∀ (s : Schedule) (fuel finish : Nat) (msg : String),
      executeParallel env s fuel finish d tasks = Outcome.threw msg →
        ∃ c, msg = "Timeout waiting for " ++ c ++ " node") ∧
    ((∀ e ∈ d.nodes, isBusy d.heap e.2 = false) → 0 < d.maxNodes →
      ∀ (s : Schedule) (fuel finish : Nat), 4 * tasks.length + 1 ≤ fuel →
        ∃ d' r, executeParallel env s fuel finish d tasks = Outcome.returned d' r ∧
          Contained env d tasks r.results) := by
  refine ⟨?_, ?_, ?_⟩
  · intro s fuel finish d' r hret
    obtain ⟨hlen, hres⟩ := executeParallel_returned env s fuel finish d tasks hwf d' r hret
    exact contained_of_isFor env d tasks r.results hlen hres
  · intro s fuel finish msg hthrew
    exact executeParallel_threw env s fuel finish d tasks msg hthrew
  · intro hidle hmax s fuel finish hfuel
    obtain ⟨d', r, heq, hlen, hres⟩ :=
      executeParallel_returns env s fuel finish d tasks hwf hidle hmax hfuel
    exact ⟨d', r, heq, contained_of_isFor env d tasks r.results hlen hres⟩

/-- Witness for C9: five tasks of which the third always fails, on a new
dispatcher with `maxNodes = 3`: the call returns five results, four successes
and one failure at index 2. -/
theorem executeParallel_contains_failures_witness :
    (∃ d' r, executeParallel envBoom mixedSchedule 21 1700000009000 (Dispatcher.new 3) tasks5
        = Outcome.returned d' r ∧ Contained envBoom (Dispatcher.new 3) tasks5 r.results) ∧
    (tagTasks tasks5 0 1).map (taskFails envBoom) = [false, false, true, false, false] ∧
    successFlags
        (executeParallel envBoom mixedSchedule 21 1700000009000 (Dispatcher.new 3) tasks5) =
      [some true, some true, some false, some true, some true] :=
  ⟨(executeParallel_contains_failures envBoom (Dispatcher.new 3) tasks5 (by decide)).2.2
    (by decide) (by decide) mixedSchedule 21 1700000009000 (by decide), by decide, by decide⟩

/-- Counterexample to C9 as stated: the pool has `maxNodes = 2` and holds one
worker that is busy for another caller throughout. In a batch of two tasks the
first is started on a new worker and the second finds no worker, so
`executeNext` sleeps in `waitForNode` from clock `T + 2`. The first task's
completion call fails 29.99 s after the call was made and its failed Task Result
is stored; the next retry of `waitForNode`, at `T + 30002`, is past the 30 s
deadline, and `executeParallel` throws instead of returning two Task Results. -/
theorem executeParallel_failures_timeout :
    poolBusy.WF ∧ 0 < poolBusy.maxNodes ∧
    taskFails envBoom ((Task.simple "analyze" "bad").tag 0 1) = true ∧
    flagsOf (Batch.drive envBoom slowSchedule 6 1
        (Batch.init poolBusy tasksBadGood 1700000001000)).results = [some false, none] ∧
    executeParallel envBoom slowSchedule 7 1700000031002 poolBusy tasksBadGood
      = Outcome.threw "Timeout waiting for analyze node" ∧
    executeParallel envBoom slowSchedule 12 1700000031002 poolBusy tasksBadGood
      = Outcome.threw "Timeout waiting for analyze node" := by
  decide

/-- A pool whose only worker stays busy for another caller: a batch of one
task finds no worker, sleeps in `waitForNode` and, once the clock has passed the
30 s deadline, `executeParallel` throws `Timeout waiting for analyze node`. No
task execution is ever started. -/
theorem executeParallel_saturated_timeout :
    poolSaturated.WF ∧
    executeParallel envBoom lateSchedule 2 1700000040001 poolSaturated
      [Task.simple "analyze" "good"] = Outcome.running ∧
    (Batch.drive envBoom lateSchedule 9 1
      (Batch.init poolSaturated [Task.simple "analyze" "good"] 1700000001000)).executing = [] ∧
    ∀ extra, extra < 20 →
      executeParallel envBoom lateSchedule (5 + extra) 1700000040001 poolSaturated
        [Task.simple "analyze" "good"] = Outcome.threw "Timeout waiting for analyze node" := by
  decide

/-! ## The worker state machine -/

/-- C11. Worker state machine: for every worker and task, while `execute` runs
(from its first statement until the collaborator it awaits settles) the worker's
status is busy and its `currentTask` is that task; when `execute` returns,
whether the collaborator succeeded or failed, the status is idle and
`currentTask` is null. -/
theorem execute_state_machine (env : Env) (w : WorkerNode) (task : Task) (startTime now : Nat) :
    ((w.executeBegin task).status = Status.busy ∧
      (w.executeBegin task).currentTask = some task) ∧
    (∀ result : Payload,
      ((w.executeBegin task).executeEnd task startTime now (Except.ok result)).1.status
          = Status.idle ∧
      ((w.executeBegin task).executeEnd task startTime now (Except.ok result)).1.currentTask
          = none) ∧
    (∀ message : String,
      ((w.executeBegin task).executeEnd task startTime now (Except.error message)).1.status
          = Status.idle ∧
      ((w.executeBegin task).executeEnd task startTime now (Except.error message)).1.currentTask
          = none) ∧
    ((w.execute env task startTime now).1.status = Status.idle ∧
      (w.execute env task startTime now).1.currentTask = none) := by
  refine ⟨⟨rfl, rfl⟩, fun _ => ⟨rfl, rfl⟩, fun _ => ⟨rfl, rfl⟩, ?_⟩
  have h := executeEnd_worker (w.executeBegin task) task startTime now
    ((w.executeBegin task).collaborate env task)
  exact ⟨h.1, h.2.1⟩

/-! ## One task per worker -/

theorem length_filter_set_le {α : Type} (p : α → Bool) (l : List α) (i : Nat) (x : α)
    (hx : p x = false) : ((l.set i x).filter p).length ≤ (l.filter p).length := by
  have hnx : ¬ p x = true := by rw [hx]; exact Bool.false_ne_true
  induction l generalizing i with
  | nil => simp
  | cons a l ih =>
    cases i with
    | zero =>
      rw [List.set_cons_zero, List.filter_cons_of_neg hnx]
      by_cases ha : p a = true
      · rw [List.filter_cons_of_pos ha, List.length_cons]
        exact Nat.le_succ _
      · rw [List.filter_cons_of_neg ha]
    | succ i =>
      rw [List.set_cons_succ]
      by_cases ha : p a = true
      · rw [List.filter_cons_of_pos ha, List.filter_cons_of_pos ha, List.length_cons,
          List.length_cons]
        exact Nat.succ_le_succ (ih i)
      · rw [List.filter_cons_of_neg ha, List.filter_cons_of_neg ha]
        exact ih i

theorem one_le_filter {α : Type} (p : α → Bool) (l : List α) (a : α) (ha : a ∈ l)
    (hp : p a = true) : 1 ≤ (l.filter p).length :=
  List.length_pos_of_mem (List.mem_filter.mpr ⟨ha, hp⟩)

theorem two_le_filter {α : Type} (p : α → Bool) (l : List α) (i j : Nat) (a b : α)
    (hij : i ≠ j) (ha : l[i]? = some a) (hb : l[j]? = some b) (hpa : p a = true)
    (hpb : p b = true) : 2 ≤ (l.filter p).length := by
  induction l generalizing i j with
  | nil => simp at ha
  | cons c l ih =>
    cases i with
    | zero =>
      cases j with
      | zero => exact absurd rfl hij
      | succ j =>
        simp only [List.getElem?_cons_zero, Option.some.injEq] at ha
        simp only [List.getElem?_cons_succ] at hb
        subst ha
        have := one_le_filter p l b (List.getElem?_mem hb) hpb
        rw [List.filter_cons_of_pos hpa, List.length_cons]
        omega
    | succ i =>
      cases j with
      | zero =>
        simp only [List.getElem?_cons_zero, Option.some.injEq] at hb
        simp only [List.getElem?_cons_succ] at ha
        subst hb
        have := one_le_filter p l a (List.getElem?_mem ha) hpa
        rw [List.filter_cons_of_pos hpb, List.length_cons]
        omega
      | succ j =>
        simp only [List.getElem?_cons_succ] at ha hb
        have := ih i j (fun h => hij (by rw [h])) ha hb
        by_cases hc : p c = true
        · rw [List.filter_cons_of_pos hc, List.length_cons]
          omega
        · rw [List.filter_cons_of_neg hc]
          exact this

theorem waitForNode_heap_some (d : Dispatcher) (c : String) (start now : Nat) (rnd : String)
    (r : Nat) (w : WorkerNode) (hw : d.heap[r]? = some w) :
    (waitForNode d c start now rnd).1.heap[r]? = some w := by
  rcases waitForNode_fst d c start now rnd with h | h
  · rw [h]; exact hw
  · rw [h]; exact getOrCreateNode_heap_some d c now rnd r w hw

theorem waitForNode_resolved_idle (d : Dispatcher) (c : String) (start now : Nat) (rnd : String)
    (node : Nat) (h : (waitForNode d c start now rnd).2 = Waited.resolved node) :
    isIdle (waitForNode d c start now rnd).1.heap node = true := by
  rcases waitForNode_cases d c start now rnd with ⟨n, hok, heq⟩ | heq | ⟨msg, heq⟩
  · rw [heq] at h ⊢
    simp only [Waited.resolved.injEq] at h
    subst h
    obtain ⟨w, hw, _, hs⟩ := getOrCreateNode_ok_typed d c now rnd n hok
    exact (isIdle_iff _ _).mpr ⟨w, hw, hs⟩
  · rw [heq] at h
    cases h
  · rw [heq] at h
    cases h

theorem runsOn_of (fl : InFlight) (h : fl.settled = none) : fl.runsOn fl.node = true := by
  simp [InFlight.runsOn, h]

theorem startExecute_exclusive (b : Batch) (task : Task) (node now : Nat) (h : b.Exclusive)
    (hc : b.ctl = Ctl.acquired task node) : (b.startExecute task node now).Exclusive := by
  obtain ⟨w, hw, hidle⟩ := (isIdle_iff _ _).mp (h.idle task node hc)
  have hlt : node < b.disp.heap.length := (List.getElem?_eq_some.mp hw).1
  have hheap : (b.startExecute task node now).disp.heap =
      b.disp.heap.set node (w.executeBegin task) := by
    simp only [Batch.startExecute]
    exact heapUpdate_of_some _ _ _ _ hw
  have hex : (b.startExecute task node now).executing =
      b.executing ++ [{ task := task, node := node, startTime := now, settled := none }] := rfl
  have hfree : ∀ fl ∈ b.executing, fl.settled = none → fl.node ≠ node := by
    intro fl hfl hs hn
    obtain ⟨w', hw', hb, _⟩ := h.busy fl hfl hs
    rw [hn, hw] at hw'
    cases hw'
    rw [hidle] at hb
    cases hb
  refine ⟨?_, ?_, ?_⟩
  · intro n
    unfold Batch.running
    rw [hex, List.filter_append]
    by_cases hn : node = n
    · have hnone : b.executing.filter (InFlight.runsOn n) = [] := by
        rw [List.filter_eq_nil_iff]
        intro fl hfl hr
        simp only [InFlight.runsOn, Bool.and_eq_true, Option.isNone_iff_eq_none,
          decide_eq_true_eq] at hr
        exact hfree fl hfl hr.1 (by rw [hr.2, hn])
      rw [hnone]
      simp only [List.nil_append]
      exact Nat.le_trans (List.length_filter_le _ _) (by simp)
    · have hnew : [({ task := task, node := node, startTime := now, settled := none } :
          InFlight)].filter (InFlight.runsOn n) = [] := by
        simp [InFlight.runsOn, hn]
      rw [hnew, List.append_nil]
      exact h.single n
  · intro fl hfl hs
    rw [hex] at hfl
    rw [hheap]
    rcases List.mem_append.mp hfl with hold | hnew
    · obtain ⟨w', hw', hb, hct⟩ := h.busy fl hold hs
      refine ⟨w', ?_, hb, hct⟩
      rw [List.getElem?_set_ne (fun hn => hfree fl hold hs hn.symm)]
      exact hw'
    · rw [List.mem_singleton.mp hnew]
      exact ⟨w.executeBegin task, List.getElem?_set_self hlt, rfl, rfl⟩
  · intro t n hc'
    cases hc'

theorem wait_exclusive (b : Batch) (task : Task) (start now : Nat) (rnd : String)
    (pending : List Task) (h : b.Exclusive) :
    Batch.Exclusive
      { b with disp := (waitForNode b.disp task.nodeTypeOr start now rnd).1, pending := pending,
               ctl := (waitForNode b.disp task.nodeTypeOr start now rnd).2.toCtl task start } := by
  refine ⟨h.single, ?_, ?_⟩
  · intro fl hfl hs
    obtain ⟨w, hw, hb, hct⟩ := h.busy fl hfl hs
    exact ⟨w, waitForNode_heap_some _ _ _ _ _ _ w hw, hb, hct⟩
  · intro t n hc
    obtain ⟨_, hr⟩ := toCtl_acquired task start _ t n hc
    exact waitForNode_resolved_idle _ _ _ _ _ n (by rw [hr])

theorem head_exclusive (b : Batch) (now : Nat) (rnd : String) (h : b.Exclusive) :
    (b.head now rnd).Exclusive := by
  rcases head_cases b now rnd with ⟨_, _, heq⟩ | ⟨heq, _⟩ | ⟨task, rest, _, _, heq⟩
  · rw [heq]
    exact ⟨h.single, h.busy, fun _ _ hc => (by cases hc)⟩
  · rw [heq]
    exact ⟨h.single, h.busy, fun _ _ hc => (by cases hc)⟩
  · rw [heq]
    exact wait_exclusive b task now now rnd rest h

theorem executeNext_exclusive (b : Batch) (now : Nat) (rnd : String) (h : b.Exclusive) :
    (b.executeNext now rnd).Exclusive := by
  unfold Batch.executeNext
  cases hc : b.ctl with
  | ready => exact head_exclusive b now rnd h
  | acquired task node =>
    exact head_exclusive _ now rnd (startExecute_exclusive b task node now h hc)
  | waiting task start => exact wait_exclusive b task start now rnd b.pending h
  | done => exact h
  | raised msg task => exact h

theorem settle_exclusive (env : Env) (b : Batch) (i now : Nat) (h : b.Exclusive) :
    (b.settle env i now).Exclusive := by
  rcases settle_cases env b i now with heq | ⟨fl, w, hfl, hs, hw, heq⟩
  · rw [heq]; exact h
  rw [heq]
  have hlt : fl.node < b.disp.heap.length := (List.getElem?_eq_some.mp hw).1
  obtain ⟨hst, _, _, _, _⟩ :=
    executeEnd_worker w fl.task fl.startTime now (w.collaborate env fl.task)
  generalize w.executeEnd fl.task fl.startTime now (w.collaborate env fl.task) = out at hst
  refine ⟨?_, ?_, ?_⟩
  · intro n
    exact Nat.le_trans
      (length_filter_set_le (InFlight.runsOn n) b.executing i _ (by simp [InFlight.runsOn]))
      (h.single n)
  · intro y hy hys
    obtain ⟨j, hj⟩ := List.mem_iff_getElem?.mp hy
    have hji : i ≠ j := by
      intro hij
      subst hij
      have hlen : i < b.executing.length := (List.getElem?_eq_some.mp hfl).1
      simp only [Batch.settleWith] at hj
      rw [List.getElem?_set_self hlen] at hj
      cases hj
      cases hys
    simp only [Batch.settleWith] at hj
    rw [List.getElem?_set_ne hji] at hj
    have hne : fl.node ≠ y.node := by
      intro hn
      have h2 := two_le_filter (InFlight.runsOn fl.node) b.executing i j fl y hji hfl hj
        (runsOn_of fl hs) (by rw [hn]; exact runsOn_of y hys)
      have h1 := h.single fl.node
      unfold Batch.running at h1
      omega
    obtain ⟨w', hw', hb, hct⟩ := h.busy y (List.getElem?_mem hj) hys
    refine ⟨w', ?_, hb, hct⟩
    simp only [Batch.settleWith]
    rw [List.getElem?_set_ne hne]
    exact hw'
  · intro t n hc
    obtain ⟨w', hw', hi⟩ := (isIdle_iff _ _).mp (h.idle t n hc)
    refine (isIdle_iff _ _).mpr ?_
    simp only [Batch.settleWith]
    by_cases hn : fl.node = n
    · subst hn
      exact ⟨out.1, List.getElem?_set_self hlt, hst⟩
    · exact ⟨w', by rw [List.getElem?_set_ne hn]; exact hw', hi⟩

theorem deliver_exclusive (b : Batch) (i : Nat) (h : b.Exclusive) : (b.deliver i).Exclusive := by
  have hsub : ∀ n, ((b.executing.eraseIdx i).filter (InFlight.runsOn n)).length ≤
      (b.executing.filter (InFlight.runsOn n)).length :=
    fun n => ((List.eraseIdx_sublist b.executing i).filter _).length_le
  rcases deliver_cases b i with heq | ⟨fl, res, _, _, ⟨idx, _, heq⟩ | ⟨_, heq⟩⟩
  · rw [heq]; exact h
  · rw [heq]
    exact ⟨fun n => Nat.le_trans (hsub n) (h.single n),
      fun y hy hys => h.busy y (List.mem_of_mem_eraseIdx hy) hys, h.idle⟩
  · rw [heq]
    exact ⟨fun n => Nat.le_trans (hsub n) (h.single n),
      fun y hy hys => h.busy y (List.mem_of_mem_eraseIdx hy) hys, h.idle⟩

theorem step_exclusive (env : Env) (b : Batch) (ev : BatchEvent) (h : b.Exclusive) :
    (b.step env ev).Exclusive := by
  cases ev with
  | next now rnd => exact executeNext_exclusive b now rnd h
  | settle i now => exact settle_exclusive env b i now h
  | deliver i => exact deliver_exclusive b i h

theorem run_exclusive (env : Env) (evs : List BatchEvent) (b : Batch) (h : b.Exclusive) :
    (b.run env evs).Exclusive := by
  induction evs generalizing b with
  | nil => exact h
  | cons ev rest ih => exact ih (b.step env ev) (step_exclusive env b ev h)

theorem init_exclusive (d : Dispatcher) (tasks : List Task) (now : Nat) :
    (Batch.init d tasks now).Exclusive :=
  ⟨fun _ => Nat.zero_le _, fun _ hfl _ => (by cases hfl), fun _ _ hc => (by cases hc)⟩

/-- C12. At most one task executes on a given worker at any instant: in every
state an `executeParallel` run can reach, whatever the pool, the task list, the
collaborators and the interleaving of events, (1) at most one unreturned
`execute` call runs on any worker object; (2) the worker of every unreturned
`execute` is busy and its `currentTask` is that call's task; (3) the worker
that `executeNext` has acquired is idle until `execute` begins on it. -/
theorem executeParallel_one_task_per_worker (env : Env) (d : Dispatcher) (tasks : List Task)
    (now : Nat) (evs : List BatchEvent) :
    (∀ node, (((Batch.init d tasks now).run env evs).running node).length ≤ 1) ∧
    (∀ fl ∈ ((Batch.init d tasks now).run env evs).executing, fl.settled = none →
      ∃ w, ((Batch.init d tasks now).run env evs).disp.heap[fl.node]? = some w ∧
        w.status = Status.busy ∧ w.currentTask = some fl.task) ∧
    (∀ task node, ((Batch.init d tasks now).run env evs).ctl = Ctl.acquired task node →
      isIdle ((Batch.init d tasks now).run env evs).disp.heap node = true) := by
  have h := run_exclusive env evs _ (init_exclusive d tasks now)
  exact ⟨h.single, h.busy, h.idle⟩

/-! ## The aggregate success flag of a batch -/

theorem executeParallel_returned_summary (env : Env) (s : Schedule) (fuel finish : Nat)
    (d : Dispatcher) (tasks : List Task) (d' : Dispatcher) (r : BatchResult)
    (hret : executeParallel env s fuel finish d tasks = Outcome.returned d' r) :
    r.success = r.results.all succeeded := by
  unfold executeParallel at hret
  generalize Batch.drive env s fuel 1 (Batch.init d tasks (s.clock 0)) = b at hret
  cases hc : b.ctl with
  | done =>
    simp only [hc, Outcome.returned.injEq] at hret
    rw [← hret.2]
    rfl
  | ready => simp [hc] at hret
  | acquired task node => simp [hc] at hret
  | waiting task start => simp [hc] at hret
  | raised msg task => simp [hc] at hret

theorem all_succeeded_iff (results : List (Option TaskResult)) :
    results.all succeeded = true ↔ ∀ tr, some tr ∈ results → tr.success = true := by
  rw [List.all_eq_true]
  constructor
  · intro h tr htr
    exact h (some tr) htr
  · intro h x hx
    cases x with
    | none => rfl
    | some tr => exact h tr hx

/-- C17. Aggregate batch success: whenever `executeParallel` returns, its
`success` flag is true if and only if every Task Result in the returned results
array has `success = true`; and on a well-formed pool the array holds a Task
Result for each of the tasks, so that the flag is true if and only if none of
the tasks' collaborator calls failed. -/
theorem executeParallel_success_iff (env : Env) (s : Schedule) (fuel finish : Nat)
    (d : Dispatcher) (tasks : List Task) (d' : Dispatcher) (r : BatchResult)
    (hret : executeParallel env s fuel finish d tasks = Outcome.returned d' r) :
    (r.success = true ↔ ∀ tr, some tr ∈ r.results → tr.success = true) ∧
    (d.WF →
      r.results.length = tasks.length ∧
      (∀ i, i < tasks.length → ∃ tr, r.results[i]? = some (some tr)) ∧
      (r.success = true ↔
        ∀ (i : Nat) (t : Task), tasks[i]? = some t →
          taskFails env (t.tag i (d.nextTaskId + i)) = false)) := by
  have hsum := executeParallel_returned_summary env s fuel finish d tasks d' r hret
  have hiff : r.success = true ↔ ∀ tr, some tr ∈ r.results → tr.success = true := by
    rw [hsum]
    exact all_succeeded_iff r.results
  refine ⟨hiff, fun hwf => ?_⟩
  obtain ⟨hlen, hres⟩ := executeParallel_returned env s fuel finish d tasks hwf d' r hret
  refine ⟨hlen, ?_, ?_⟩
  · intro i hi
    obtain ⟨tr, htr, _⟩ := hres i tasks[i] (List.getElem?_eq_getElem hi)
    exact ⟨tr, htr⟩
  · rw [hiff]
    constructor
    · intro h i t ht
      obtain ⟨tr, htr, _, _, hsucc, _, _⟩ := hres i t ht
      have := h tr (List.getElem?_mem htr)
      rw [hsucc] at this
      simpa using this
    · intro h tr htr
      obtain ⟨j, hj⟩ := List.mem_iff_getElem?.mp htr
      have hjlt : j < tasks.length := by
        rw [← hlen]
        exact (List.getElem?_eq_some.mp hj).1
      obtain ⟨tr', htr', _, _, hsucc, _, _⟩ := hres j tasks[j] (List.getElem?_eq_getElem hjlt)
      rw [hj] at htr'
      cases htr'
      rw [hsucc, h j tasks[j] (List.getElem?_eq_getElem hjlt)]
      rfl

/-- Witness for C17: the batch of five tasks on a new dispatcher with
`maxNodes = 3` returns, and the equivalences hold of what it returns. -/
theorem executeParallel_success_iff_witness :
    ∃ d' r, executeParallel envBoom mixedSchedule 21 1700000009000 (Dispatcher.new 3) tasks5
        = Outcome.returned d' r ∧
      (r.success = true ↔ ∀ tr, some tr ∈ r.results → tr.success = true) ∧
      ((Dispatcher.new 3).WF →
        r.results.length = tasks5.length ∧
        (∀ i, i < tasks5.length → ∃ tr, r.results[i]? = some (some tr)) ∧
        (r.success = true ↔
          ∀ (i : Nat) (t : Task), tasks5[i]? = some t →
            taskFails envBoom (t.tag i ((Dispatcher.new 3).nextTaskId + i)) = false)) :=
  (executeParallel_returns envBoom mixedSchedule 21 1700000009000 (Dispatcher.new 3) tasks5
    (by decide) (by decide) (by decide) (by decide)).elim
    (fun d' h => h.elim (fun r hr =>
      ⟨d', r, hr.1,
        executeParallel_success_iff envBoom mixedSchedule 21 1700000009000 (Dispatcher.new 3)
          tasks5 d' r hr.1⟩))

/-! ## What a tool call makes of the Task Result -/

theorem initializeTools_ne_empty (c name : String) (h : name ∈ initializeTools c) :
    name ≠ "" := by
  unfold initializeTools at h
  split_ifs at h <;> simp at h <;> rw [h] <;> decide

theorem collaborate_tool (env : Env) (w : WorkerNode) (task : Task) (name : String)
    (htool : task.tool = some name) (hexp : name ∈ initializeTools w.nodeType)
    (hw : w.tools = initializeTools w.nodeType) :
    (w.executeBegin task).collaborate env task =
      match env.invokeTool name task with
      | Except.ok v => Except.ok (Payload.tool v)
      | Except.error msg => Except.error msg := by
  have hne := initializeTools_ne_empty _ _ hexp
  have hmem : name ∈ (w.executeBegin task).tools := by
    show name ∈ w.tools
    rw [hw]; exact hexp
  have hl : (w.executeBegin task).toolsLookup name = true := by
    simp [WorkerNode.toolsLookup, hmem]
  have ht : (w.executeBegin task).hasTool task = true := by
    simp [WorkerNode.hasTool, htool, hne, hl]
  simp only [WorkerNode.collaborate, ht, if_true, htool, Option.getD_some,
    WorkerNode.executeTool, hl]

/-- C19 (as amended). When the task names a tool that the worker's class
exposes, `execute` invokes that tool: if the call returns a value `v`, whatever
success `v` itself reports, the Task Result has `success = true` and carries `v`
unchanged as its `result`; the Task Result has `success = false` exactly when
the call throws, and then carries the error message. -/
theorem execute_tool_outcome (env : Env) (w : WorkerNode) (task : Task) (name : String)
    (startTime now : Nat) (htool : task.tool = some name)
    (hexp : name ∈ initializeTools w.nodeType) (hw : w.tools = initializeTools w.nodeType) :
    (∀ v, env.invokeTool name task = Except.ok v →
      (w.execute env task startTime now).2.success = true ∧
      (w.execute env task startTime now).2.result = some (Payload.tool v) ∧
      (w.execute env task startTime now).2.error = none) ∧
    (∀ msg, env.invokeTool name task = Except.error msg →
      (w.execute env task startTime now).2.success = false ∧
      (w.execute env task startTime now).2.result = none ∧
      (w.execute env task startTime now).2.error = some msg) ∧
    ((w.execute env task startTime now).2.success = false ↔
      ∃ msg, env.invokeTool name task = Except.error msg) := by
  have hcol := collaborate_tool env w task name htool hexp hw
  have hres : (w.execute env task startTime now).2 =
      ((w.executeBegin task).executeEnd task startTime now
        ((w.executeBegin task).collaborate env task)).2 := rfl
  rw [hres, hcol, executeEnd_result]
  cases hinv : env.invokeTool name task with
  | ok v =>
    refine ⟨fun v' hv' => ?_, fun msg hmsg => (by cases hmsg), ?_⟩
    · cases hv'
      exact ⟨rfl, rfl, rfl⟩
    · constructor
      · intro h
        simp [payloadOf] at h
      · intro ⟨msg, hmsg⟩
        cases hmsg
  | error m =>
    refine ⟨fun v hv => (by cases hv), fun msg hmsg => ?_, ?_⟩
    · cases hmsg
      exact ⟨rfl, rfl, rfl⟩
    · exact ⟨fun _ => ⟨m, rfl⟩, fun _ => rfl⟩

/-- Witness for C19: a `search` worker given a task that names `web_search`. -/
theorem execute_tool_outcome_witness :
    (∀ v, envToolFails.invokeTool "web_search" searchTask = Except.ok v →
      ((WorkerNode.new "search-1700000000101-x7qa" "search").execute envToolFails searchTask
        100 150).2.success = true ∧
      ((WorkerNode.new "search-1700000000101-x7qa" "search").execute envToolFails searchTask
        100 150).2.result = some (Payload.tool v) ∧
      ((WorkerNode.new "search-1700000000101-x7qa" "search").execute envToolFails searchTask
        100 150).2.error = none) ∧
    (∀ msg, envToolFails.invokeTool "web_search" searchTask = Except.error msg →
      ((WorkerNode.new "search-1700000000101-x7qa" "search").execute envToolFails searchTask
        100 150).2.success = false ∧
      ((WorkerNode.new "search-1700000000101-x7qa" "search").execute envToolFails searchTask
        100 150).2.result = none ∧
      ((WorkerNode.new "search-1700000000101-x7qa" "search").execute envToolFails searchTask
        100 150).2.error = some msg) ∧
    (((WorkerNode.new "search-1700000000101-x7qa" "search").execute envToolFails searchTask
        100 150).2.success = false ↔
      ∃ msg, envToolFails.invokeTool "web_search" searchTask = Except.error msg) :=
  execute_tool_outcome envToolFails (WorkerNode.new "search-1700000000101-x7qa" "search")
    searchTask "web_search" 100 150 rfl (by decide) (by decide)

/-- Counterexample to C19 as stated: the task names `web_search`, which the
class `search` exposes; the tool returns, without throwing, an object that
reports `success: false`; the Task Result has `success = true` and carries that
object as its `result`. -/
theorem execute_ignores_tool_success :
    searchTask.tool = some "web_search" ∧
    "web_search" ∈ initializeTools "search" ∧
    envToolFails.invokeTool "web_search" searchTask
      = Except.ok { success := some false, data := "no results" } ∧
    ((WorkerNode.new "search-1700000000101-x7qa" "search").execute envToolFails searchTask
      100 150).2.success = true ∧
    ((WorkerNode.new "search-1700000000101-x7qa" "search").execute envToolFails searchTask
      100 150).2.result
      = some (Payload.tool { success := some false, data := "no results" }) := by
  decide

/-! ## Task identifiers -/

theorem getOrCreateNode_nextTaskId (d : Dispatcher) (c : String) (now : Nat) (rnd : String) :
    (getOrCreateNode d c now rnd).1.nextTaskId = d.nextTaskId := by
  rcases getOrCreateNode_cases d c now rnd with h1 | h2 | h3 | h4
  · obtain ⟨_, _, _, heq⟩ := h1; rw [heq]
  · obtain ⟨_, _, heq⟩ := h2; rw [heq]; rfl
  · obtain ⟨_, _, _, _, _, _, heq⟩ := h3; rw [heq]; rfl
  · obtain ⟨_, _, heq⟩ := h4; rw [heq]

theorem waitForNode_nextTaskId (d : Dispatcher) (c : String) (start now : Nat) (rnd : String) :
    (waitForNode d c start now rnd).1.nextTaskId = d.nextTaskId := by
  rcases waitForNode_fst d c start now rnd with h | h
  · rw [h]
  · rw [h, getOrCreateNode_nextTaskId]

theorem waitLoop_nextTaskId (d : Dispatcher) (c : String) (start : Nat)
    (passes : List (Nat × String)) : (waitLoop d c start passes).1.nextTaskId = d.nextTaskId := by
  induction passes generalizing d with
  | nil => rfl
  | cons p rest ih =>
    obtain ⟨now, rnd⟩ := p
    have h1 := waitForNode_nextTaskId d c start now rnd
    unfold waitLoop
    cases hw : waitForNode d c start now rnd with
    | mk d1 r =>
      rw [hw] at h1
      cases r with
      | resolved node => exact h1
      | sleeping =>
        simp only
        rw [ih d1]
        exact h1
      | timedOut msg => exact h1

/-- The sibling path: `executeTask` keeps an identifier that is present (and
not `0`) and gives a task without identifier the next fresh id. -/
theorem executeTask_task_id (env : Env) (d : Dispatcher) (task : Task) (start : Nat)
    (passes : List (Nat × String)) (began ended : Nat) (d' : Dispatcher) (task' : Task)
    (r : TaskResult)
    (hret : executeTask env d task start passes began ended = TaskOutcome.returned d' task' r) :
    (∀ n, task.id = some n → n ≠ 0 → r.taskId = some n ∧ d'.nextTaskId = d.nextTaskId) ∧
    (task.id = none → r.taskId = some d.nextTaskId ∧ d'.nextTaskId = d.nextTaskId + 1) := by
  have hnext := waitLoop_nextTaskId d task.nodeTypeOr start passes
  unfold executeTask at hret
  cases hw : waitLoop d task.nodeTypeOr start passes with
  | mk d1 wr =>
    rw [hw] at hret hnext
    simp only at hnext
    cases wr with
    | sleeping => cases hret
    | timedOut msg => cases hret
    | resolved node =>
      simp only at hret
      cases hh : d1.heap[node]? with
      | none => rw [hh] at hret; cases hret
      | some w =>
        rw [hh] at hret
        simp only [TaskOutcome.returned.injEq] at hret
        obtain ⟨hd, _, hr⟩ := hret
        have htid : r.taskId = some (idOr task.id d1.nextTaskId) := by
          rw [← hr]
          simp only [WorkerNode.execute, executeEnd_result]
        have hcnt : d'.nextTaskId = idCounter task.id d1.nextTaskId := by
          rw [← hd]
        rw [hnext] at htid hcnt
        constructor
        · intro n hn hn0
          rw [htid, hcnt, hn]
          simp [idOr, idCounter, hn0]
        · intro hn
          rw [htid, hcnt, hn]
          simp [idOr, idCounter]

/-- The batch path: on a well-formed pool, whenever `executeParallel` returns,
the Task Result of the i-th task carries `nextTaskId + i`, whatever identifier
the task was submitted with. -/
theorem executeParallel_task_ids (env : Env) (s : Schedule) (fuel finish : Nat)
    (d : Dispatcher) (tasks : List Task) (hwf : d.WF) (d' : Dispatcher) (r : BatchResult)
    (hret : executeParallel env s fuel finish d tasks = Outcome.returned d' r) :
    ∀ (i : Nat) (t : Task), tasks[i]? = some t →
      ∃ tr, r.results[i]? = some (some tr) ∧ tr.taskId = some (d.nextTaskId + i) := by
  intro i t ht
  obtain ⟨_, hres⟩ := executeParallel_returned env s fuel finish d tasks hwf d' r hret
  obtain ⟨tr, htr, hid, _⟩ := hres i t ht
  exact ⟨tr, htr, hid⟩

/-- C20, at the failing input: a task submitted with the identifier 42 to a new
dispatcher. Through `executeTask` its Task Result carries `taskId = 42`; through
`executeParallel` the identifier is overwritten and the Task Result carries the
fresh id 1. -/
theorem executeParallel_overwrites_id :
    taskWithId.id = some 42 ∧
    taskIdOf (executeTask envBoom (Dispatcher.new 3) taskWithId 1700000000000
      [(1700000000000, "k3f9")] 1700000000001 1700000000050) = some (some 42) ∧
    taskIdsOf (executeParallel envBoom mixedSchedule 5 1700000009000 (Dispatcher.new 3)
      [taskWithId]) = [some (some 1)] := by
  decide

/-! ## The loop of orchestrate -/

theorem pushedOf_append (l1 l2 : List OrchEvent) :
    pushedOf (l1 ++ l2) = pushedOf l1 ++ pushedOf l2 := by
  induction l1 with
  | nil => rfl
  | cons e rest ih =>
    cases e with
    | built i prior => simpa [pushedOf] using ih
    | batch i tasks => simpa [pushedOf] using ih
    | pushed i r => simp [pushedOf, ih]

theorem pushedOf_phaseEvents (i : Nat) (phase : Phase) (prior rs : List PhaseResult) :
    pushedOf (phaseEvents i phase prior rs) = rs := by
  have h1 : pushedOf (phase.tasks.buildEvents i prior) = [] := by
    cases phase.tasks <;> rfl
  have h2 : pushedOf (batchEvents i (phase.tasks.resolve prior)) = [] := by
    unfold batchEvents
    split <;> rfl
  have h3 : pushedOf (rs.map (OrchEvent.pushed i)) = rs := by
    induction rs with
    | nil => rfl
    | cons r rest ih => simp [pushedOf, ih]
  unfold phaseEvents
  rw [pushedOf_append, pushedOf_append, h1, h2, h3]
  rfl

theorem noTasks_false (tasks : Option (List Task)) (h : noTasks tasks = false) :
    ∃ l, tasks = some l ∧ l ≠ [] := by
  cases tasks with
  | none => cases h
  | some l =>
    refine ⟨l, rfl, ?_⟩
    intro hl
    rw [hl] at h
    cases h

/-- The entries of one iteration: which of them are builder invocations and
which are calls of `executeParallel`. -/
theorem mem_phaseEvents (i : Nat) (phase : Phase) (prior rs : List PhaseResult) :
    (∀ j p, OrchEvent.built j p ∈ phaseEvents i phase prior rs ↔
      (j = i ∧ p = prior ∧ phase.tasks.isBuilder = true)) ∧
    (∀ j tasks, OrchEvent.batch j tasks ∈ phaseEvents i phase prior rs ↔
      (j = i ∧ noTasks (phase.tasks.resolve prior) = false ∧
        phase.tasks.resolve prior = some tasks)) := by
  have hpush : ∀ e ∈ rs.map (OrchEvent.pushed i), ∃ r, e = OrchEvent.pushed i r := by
    intro e he
    obtain ⟨r, _, hr⟩ := List.mem_map.mp he
    exact ⟨r, hr.symm⟩
  constructor
  · intro j p
    unfold phaseEvents batchEvents
    simp only [List.mem_append]
    constructor
    · rintro ((h | h) | h)
      · cases ht : phase.tasks with
        | absent => rw [ht] at h; cases h
        | static l => rw [ht] at h; cases h
        | builder f =>
          rw [ht] at h
          simp only [PhaseTasks.buildEvents, List.mem_singleton, OrchEvent.built.injEq] at h
          exact ⟨h.1, h.2, rfl⟩
      · split at h
        · cases h
        · simp at h
      · obtain ⟨r, hr⟩ := hpush _ h
        cases hr
    · rintro ⟨rfl, rfl, hb⟩
      cases ht : phase.tasks with
      | absent => rw [ht] at hb; cases hb
      | static l => rw [ht] at hb; cases hb
      | builder f => exact Or.inl (Or.inl (List.mem_singleton_self _))
  · intro j tasks
    unfold phaseEvents batchEvents
    simp only [List.mem_append]
    constructor
    · rintro ((h | h) | h)
      · cases ht : phase.tasks with
        | absent => rw [ht] at h; cases h
        | static l => rw [ht] at h; cases h
        | builder f =>
          rw [ht] at h
          simp [PhaseTasks.buildEvents] at h
      · by_cases hn : noTasks (phase.tasks.resolve prior) = true
        · rw [if_pos hn] at h
          cases h
        · rw [if_neg hn] at h
          simp only [List.mem_singleton, OrchEvent.batch.injEq] at h
          have hn' : noTasks (phase.tasks.resolve prior) = false := by
            simpa using hn
          obtain ⟨l, hl, _⟩ := noTasks_false _ hn'
          refine ⟨h.1, hn', ?_⟩
          rw [h.2, hl]
          rfl
      · obtain ⟨r, hr⟩ := hpush _ h
        cases hr
    · rintro ⟨rfl, hn, hres⟩
      refine Or.inl (Or.inr ?_)
      rw [hn, hres]
      simp

theorem countP_phaseEvents (i j : Nat) (phase : Phase) (prior rs : List PhaseResult) :
    (phaseEvents i phase prior rs).countP (OrchEvent.isBuilt j) =
      if j = i ∧ phase.tasks.isBuilder = true then 1 else 0 := by
  have h2 : (batchEvents i (phase.tasks.resolve prior)).countP (OrchEvent.isBuilt j) = 0 := by
    unfold batchEvents
    split <;> simp [OrchEvent.isBuilt]
  have h3 : (rs.map (OrchEvent.pushed i)).countP (OrchEvent.isBuilt j) = 0 := by
    rw [List.countP_eq_zero]
    intro e he
    obtain ⟨r, _, hr⟩ := List.mem_map.mp he
    rw [← hr]
    simp [OrchEvent.isBuilt]
  unfold phaseEvents
  rw [List.countP_append, List.countP_append, h2, h3]
  cases ht : phase.tasks with
  | absent => simp [PhaseTasks.buildEvents, PhaseTasks.isBuilder]
  | static l => simp [PhaseTasks.buildEvents, PhaseTasks.isBuilder]
  | builder f =>
    by_cases hji : i = j
    · subst hji
      simp [PhaseTasks.buildEvents, PhaseTasks.isBuilder, OrchEvent.isBuilt]
    · have hji' : ¬ j = i := fun h => hji h.symm
      simp [PhaseTasks.buildEvents, PhaseTasks.isBuilder, OrchEvent.isBuilt, hji, hji']

/-- A builder invocation among the entries of one iteration is its first
entry. -/
theorem getElem?_phaseEvents_built (i : Nat) (phase : Phase) (prior rs : List PhaseResult)
    (n j : Nat) (p : List PhaseResult)
    (h : (phaseEvents i phase prior rs)[n]? = some (OrchEvent.built j p)) : n = 0 := by
  cases n with
  | zero => rfl
  | succ n =>
    exfalso
    have hmem := List.getElem?_mem h
    obtain ⟨_, _, hb⟩ := ((mem_phaseEvents i phase prior rs).1 j p).mp hmem
    cases ht : phase.tasks with
    | absent => rw [ht] at hb; cases hb
    | static l => rw [ht] at hb; cases hb
    | builder f =>
      unfold phaseEvents at h
      rw [ht] at h
      simp only [PhaseTasks.buildEvents, List.singleton_append, List.cons_append,
        List.nil_append, List.getElem?_cons_succ] at h
      have hmem2 := List.getElem?_mem h
      rcases List.mem_append.mp hmem2 with h2 | h2
      · unfold batchEvents at h2
        split at h2
        · cases h2
        · simp at h2
      · obtain ⟨r, _, hr⟩ := List.mem_map.mp h2
        cases hr

theorem take_append_pushed (prs rs : List PhaseResult) (j : Nat) (hj : j ≤ prs.length) :
    (prs ++ rs).take j = prs.take j :=
  List.take_append_of_le_length hj

/-- One iteration of the loop keeps the state sound: the iteration for the
phase `ph` at index `k` appends its trace entries and the Phase Result it
pushed, if any. -/
theorem sound_step (phases : List Phase) (o : Orch) (ph : Phase)
    (h : o.Sound phases o.phaseResults.length)
    (hph : phases[o.phaseResults.length]? = some ph) (rs : List PhaseResult) (d' : Dispatcher)
    (hrs : rs.length ≤ 1)
    (hr : ∀ r ∈ rs, r.phase = ph.name ∧ r.success = r.results.all succeeded)
    (hempty : noTasks (ph.tasks.resolve o.phaseResults) = true →
      rs = [emptyPhaseResult ph.name]) :
    Orch.Sound phases
      { disp := d', phaseResults := o.phaseResults ++ rs,
        trace := o.trace ++ phaseEvents o.phaseResults.length ph o.phaseResults rs }
      (o.phaseResults.length + 1) := by
  have hklt : o.phaseResults.length < phases.length := (List.getElem?_eq_some.mp hph).1
  have htake : ∀ j, j ≤ o.phaseResults.length →
      (o.phaseResults ++ rs).take j = o.phaseResults.take j :=
    fun j hj => take_append_pushed _ _ j hj
  have htakek : (o.phaseResults ++ rs).take o.phaseResults.length = o.phaseResults := by
    rw [htake _ (Nat.le_refl _), List.take_length]
  have hsame : ∀ (j : Nat) (ph' : Phase), phases[j]? = some ph' → j = o.phaseResults.length →
      ph' = ph := by
    intro j ph' hj hjk
    rw [hjk, hph] at hj
    cases hj
    rfl
  refine
    { started := ?_, pushed := ?_, named := ?_, flags := ?_, empties := ?_, builds := ?_,
      order := ?_, builtOnce := ?_, batched := ?_, batches := ?_ }
  · simp only [List.length_append]
    omega
  · show pushedOf (o.trace ++ phaseEvents _ ph o.phaseResults rs) = o.phaseResults ++ rs
    rw [pushedOf_append, h.pushed, pushedOf_phaseEvents]
  · show (o.phaseResults ++ rs).map _ = (phases.take (o.phaseResults ++ rs).length).map _
    cases rs with
    | nil =>
      simp only [List.append_nil]
      exact h.named
    | cons r rest =>
      have hrest : rest = [] := by
        cases rest with
        | nil => rfl
        | cons x xs => simp at hrs
      subst hrest
      have hname := (hr r (List.mem_singleton_self r)).1
      simp only [List.map_append, List.length_append, List.length_singleton, List.map_cons,
        List.map_nil]
      rw [List.take_succ, hph, List.map_append, ← h.named, hname]
      rfl
  · intro p hp
    rcases List.mem_append.mp hp with h1 | h1
    · exact h.flags p h1
    · exact (hr p h1).2
  · intro j ph' hj hjm hn
    show (o.phaseResults ++ rs)[j]? = some (emptyPhaseResult ph'.name)
    by_cases hjk : j < o.phaseResults.length
    · have hn' : noTasks (ph'.tasks.resolve (o.phaseResults.take j)) = true := by
        rw [← htake j (Nat.le_of_lt hjk)]; exact hn
      rw [List.getElem?_append_left hjk]
      exact h.empties j ph' hj hjk hn'
    · have hjeq : j = o.phaseResults.length := by omega
      have hp := hsame j ph' hj hjeq
      subst hp
      have hn' : noTasks (ph'.tasks.resolve o.phaseResults) = true := by
        have := hn
        simp only at this
        rw [hjeq, htakek] at this
        exact this
      rw [hempty hn', hjeq]
      simp
  · intro j prior hmem
    rcases List.mem_append.mp hmem with h1 | h1
    · obtain ⟨hjk, hprior, hex⟩ := h.builds j prior h1
      refine ⟨Nat.lt_succ_of_lt hjk, ?_, hex⟩
      show prior = (o.phaseResults ++ rs).take j
      rw [htake j (Nat.le_of_lt hjk)]
      exact hprior
    · obtain ⟨hj, hp, hb⟩ := ((mem_phaseEvents _ ph o.phaseResults rs).1 j prior).mp h1
      refine ⟨by omega, ?_, ?_⟩
      · show prior = (o.phaseResults ++ rs).take j
        rw [hj, htakek]
        exact hp
      · cases ht : ph.tasks with
        | absent => rw [ht] at hb; cases hb
        | static l => rw [ht] at hb; cases hb
        | builder f =>
          rw [hj]
          exact ⟨ph, f, hph, ht⟩
  · intro n j prior hn
    show pushedOf ((o.trace ++ phaseEvents _ ph o.phaseResults rs).take n) = prior
    by_cases hlt : n < o.trace.length
    · have hn' : o.trace[n]? = some (OrchEvent.built j prior) := by
        have := hn
        simp only at this
        rw [List.getElem?_append_left hlt] at this
        exact this
      rw [List.take_append_of_le_length (Nat.le_of_lt hlt)]
      exact h.order n j prior hn'
    · have hge : o.trace.length ≤ n := Nat.le_of_not_lt hlt
      have hn' : (phaseEvents o.phaseResults.length ph o.phaseResults rs)[n - o.trace.length]?
          = some (OrchEvent.built j prior) := by
        have := hn
        simp only at this
        rw [List.getElem?_append_right hge] at this
        exact this
      have h0 := getElem?_phaseEvents_built _ ph o.phaseResults rs _ j prior hn'
      have hneq : n = o.trace.length := by omega
      obtain ⟨_, hp, _⟩ := ((mem_phaseEvents _ ph o.phaseResults rs).1 j prior).mp
        (List.getElem?_mem hn')
      rw [hneq, List.take_append_of_le_length (Nat.le_refl _), List.take_length, h.pushed, hp]
  · intro j ph' hj
    show (o.trace ++ phaseEvents _ ph o.phaseResults rs).countP (OrchEvent.isBuilt j) = _
    rw [List.countP_append, h.builtOnce j ph' hj, countP_phaseEvents]
    by_cases hjk : j < o.phaseResults.length
    · have hne : ¬ j = o.phaseResults.length := by omega
      have hlt : j < o.phaseResults.length + 1 := by omega
      simp [hjk, hne, hlt]
    · by_cases hjeq : j = o.phaseResults.length
      · have hp := hsame j ph' hj hjeq
        subst hp
        have hlt : j < o.phaseResults.length + 1 := by omega
        simp [hjk, hjeq]
      · have hlt : ¬ j < o.phaseResults.length + 1 := by omega
        simp [hjk, hjeq, hlt]
  · intro j tasks hmem
    rcases List.mem_append.mp hmem with h1 | h1
    · obtain ⟨hjk, ph', hj, hn, hres⟩ := h.batched j tasks h1
      refine ⟨Nat.lt_succ_of_lt hjk, ph', hj, ?_, ?_⟩
      · show noTasks (ph'.tasks.resolve ((o.phaseResults ++ rs).take j)) = false
        rw [htake j (Nat.le_of_lt hjk)]; exact hn
      · show ph'.tasks.resolve ((o.phaseResults ++ rs).take j) = some tasks
        rw [htake j (Nat.le_of_lt hjk)]; exact hres
    · obtain ⟨hj, hn, hres⟩ := ((mem_phaseEvents _ ph o.phaseResults rs).2 j tasks).mp h1
      refine ⟨by omega, ph, by rw [hj]; exact hph, ?_, ?_⟩
      · show noTasks (ph.tasks.resolve ((o.phaseResults ++ rs).take j)) = false
        rw [hj, htakek]; exact hn
      · show ph.tasks.resolve ((o.phaseResults ++ rs).take j) = some tasks
        rw [hj, htakek]; exact hres
  · intro j ph' tasks hj hjm hn hres
    show OrchEvent.batch j tasks ∈ o.trace ++ phaseEvents _ ph o.phaseResults rs
    by_cases hjk : j < o.phaseResults.length
    · have e := htake j (Nat.le_of_lt hjk)
      refine List.mem_append_left _ (h.batches j ph' tasks hj hjk ?_ ?_)
      · rw [← e]; exact hn
      · rw [← e]; exact hres
    · have hjeq : j = o.phaseResults.length := by omega
      have hp := hsame j ph' hj hjeq
      subst hp
      refine List.mem_append_right _
        (((mem_phaseEvents _ ph' o.phaseResults rs).2 j tasks).mpr ⟨hjeq, ?_, ?_⟩)
      · have := hn
        simp only at this
        rw [hjeq, htakek] at this
        exact this
      · have := hres
        simp only at this
        rw [hjeq, htakek] at this
        exact this

theorem orchestrateLoop_cons (env : Env) (runs : Nat → Run) (ph : Phase) (rest : List Phase)
    (i : Nat) (o : Orch) :
    orchestrateLoop env runs (ph :: rest) i o =
      if noTasks (ph.tasks.resolve o.phaseResults) then
        orchestrateLoop env runs rest (i + 1)
          { disp := o.disp, phaseResults := o.phaseResults ++ [emptyPhaseResult ph.name],
            trace := o.trace ++ phaseEvents i ph o.phaseResults [emptyPhaseResult ph.name] }
      else
        match executeParallel env (runs i).schedule (runs i).fuel (runs i).finish o.disp
            ((ph.tasks.resolve o.phaseResults).getD []) with
        | Outcome.returned d r =>
          orchestrateLoop env runs rest (i + 1)
            { disp := d, phaseResults := o.phaseResults ++ [PhaseResult.ofBatch ph.name r],
              trace := o.trace ++ phaseEvents i ph o.phaseResults [PhaseResult.ofBatch ph.name r] }
        | Outcome.threw msg =>
          ({ disp := o.disp, phaseResults := o.phaseResults,
             trace := o.trace ++ phaseEvents i ph o.phaseResults [] }, OrchStatus.threw msg)
        | Outcome.running =>
          ({ disp := o.disp, phaseResults := o.phaseResults,
             trace := o.trace ++ phaseEvents i ph o.phaseResults [] }, OrchStatus.running) := by
  by_cases hn : noTasks (ph.tasks.resolve o.phaseResults) = true
  · rw [if_pos hn]
    rw [orchestrateLoop]
    simp only [hn, if_true, Orch.push, phaseEvents, batchEvents, List.append_assoc,
      List.nil_append, List.map_cons, List.map_nil]
  · rw [if_neg hn]
    rw [orchestrateLoop]
    simp only [hn, Orch.push, phaseEvents, batchEvents, List.append_assoc,
      List.map_cons, List.map_nil, List.append_nil]
    cases executeParallel env (runs i).schedule (runs i).fuel (runs i).finish o.disp
        ((ph.tasks.resolve o.phaseResults).getD []) <;> simp

theorem init_sound (phases : List Phase) (d : Dispatcher) : (Orch.init d).Sound phases 0 :=
  { started := ⟨Nat.le_refl _, Nat.zero_le _, Nat.zero_le _⟩
    pushed := rfl
    named := rfl
    flags := fun _ hp => (by cases hp)
    empties := fun _ _ _ hj _ => absurd hj (Nat.not_lt_zero _)
    builds := fun _ _ hm => (by cases hm)
    order := fun _ _ _ hn => (by cases hn)
    builtOnce := fun j ph _ => by simp [Orch.init]
    batched := fun _ _ hm => (by cases hm)
    batches := fun _ _ _ _ hj _ _ => absurd hj (Nat.not_lt_zero _) }

theorem ofBatch_flags (env : Env) (s : Schedule) (fuel finish : Nat) (d : Dispatcher)
    (tasks : List Task) (d' : Dispatcher) (r : BatchResult) (name : String)
    (hret : executeParallel env s fuel finish d tasks = Outcome.returned d' r) :
    ∀ p ∈ [PhaseResult.ofBatch name r],
      p.phase = name ∧ p.success = p.results.all succeeded := by
  intro p hp
  rw [List.mem_singleton.mp hp]
  exact ⟨rfl, executeParallel_returned_summary env s fuel finish d tasks d' r hret⟩

/-- The loop of `orchestrate` keeps its state sound, pushes a Phase Result for
every phase when it ends, stops early only at a phase whose batch threw or is
still running, and throws only what a batch threw. -/
theorem orchestrateLoop_sound (env : Env) (runs : Nat → Run) (phases : List Phase)
    (phs : List Phase) (i : Nat) (o : Orch) (hi : o.phaseResults.length = i)
    (hdrop : phases.drop i = phs) (h : o.Sound phases i) :
    (orchestrateLoop env runs phs i o).1.Sound phases
      (startedPhases (orchestrateLoop env runs phs i o).1 (orchestrateLoop env runs phs i o).2) ∧
    ((orchestrateLoop env runs phs i o).2 = OrchStatus.finished →
      (orchestrateLoop env runs phs i o).1.phaseResults.length = phases.length) ∧
    ((orchestrateLoop env runs phs i o).2 ≠ OrchStatus.finished →
      (orchestrateLoop env runs phs i o).1.phaseResults.length < phases.length) ∧
    (∀ msg, (orchestrateLoop env runs phs i o).2 = OrchStatus.threw msg →
      ∃ c, msg = "Timeout waiting for " ++ c ++ " node") := by
  induction phs generalizing i o with
  | nil =>
    have hlen : phases.length ≤ i := List.drop_eq_nil_iff.mp hdrop
    have hle := h.started.2.2
    simp only [orchestrateLoop, startedPhases]
    rw [hi]
    exact ⟨h, fun _ => by omega, fun hne => absurd rfl hne, fun msg hm => (by cases hm)⟩
  | cons ph rest ih =>
    have hilt : i < phases.length := by
      by_contra hge
      rw [List.drop_eq_nil_of_le (Nat.le_of_not_lt hge)] at hdrop
      cases hdrop
    have hdrop' := List.drop_eq_getElem_cons hilt
    rw [hdrop] at hdrop'
    have hph : phases[i]? = some ph := by
      rw [List.getElem?_eq_getElem hilt, (List.cons.inj hdrop').1]
    have hrest : phases.drop (i + 1) = rest := (List.cons.inj hdrop').2.symm
    subst hi
    rw [orchestrateLoop_cons]
    by_cases hn : noTasks (ph.tasks.resolve o.phaseResults) = true
    · rw [if_pos hn]
      have hs := sound_step phases o ph h hph [emptyPhaseResult ph.name] o.disp (by simp)
        (fun p hp => by rw [List.mem_singleton.mp hp]; exact ⟨rfl, rfl⟩) (fun _ => rfl)
      exact ih (o.phaseResults.length + 1) _ (by simp) hrest hs
    · rw [if_neg hn]
      have hn' : noTasks (ph.tasks.resolve o.phaseResults) = true →
          ([] : List PhaseResult) = [emptyPhaseResult ph.name] := fun hx => absurd hx hn
      have hprog := sound_step phases o ph h hph [] o.disp (by simp)
        (fun p hp => (by cases hp)) hn'
      cases hexec : executeParallel env (runs o.phaseResults.length).schedule
          (runs o.phaseResults.length).fuel (runs o.phaseResults.length).finish o.disp
          ((ph.tasks.resolve o.phaseResults).getD []) with
      | returned d' r =>
        simp only
        have hs := sound_step phases o ph h hph [PhaseResult.ofBatch ph.name r] d' (by simp)
          (ofBatch_flags env _ _ _ _ _ d' r ph.name hexec) (fun hx => absurd hx hn)
        exact ih (o.phaseResults.length + 1) _ (by simp) hrest hs
      | threw msg =>
        simp only [startedPhases]
        refine ⟨?_, fun hx => (by cases hx), fun _ => hilt, fun m hm => ?_⟩
        · simpa using hprog
        · simp only [OrchStatus.threw.injEq] at hm
          rw [← hm]
          exact executeParallel_threw env _ _ _ _ _ msg hexec
      | running =>
        simp only [startedPhases]
        refine ⟨?_, fun hx => (by cases hx), fun _ => hilt, fun m hm => (by cases hm)⟩
        simpa using hprog

/-- The facts of `orchestrateLoop_sound` for a whole `orchestrate` call. -/
theorem orchestrate_sound (env : Env) (runs : Nat → Run) (d : Dispatcher)
    (phases : List Phase) :
    (orchestrateRun env runs d phases).1.Sound phases
      (startedPhases (orchestrateRun env runs d phases).1
        (orchestrateRun env runs d phases).2) ∧
    ((orchestrateRun env runs d phases).2 = OrchStatus.finished →
      (orchestrateRun env runs d phases).1.phaseResults.length = phases.length) ∧
    ((orchestrateRun env runs d phases).2 ≠ OrchStatus.finished →
      (orchestrateRun env runs d phases).1.phaseResults.length < phases.length) ∧
    (∀ msg, (orchestrateRun env runs d phases).2 = OrchStatus.threw msg →
      ∃ c, msg = "Timeout waiting for " ++ c ++ " node") :=
  orchestrateLoop_sound env runs phases phases 0 (Orch.init d) rfl rfl (init_sound phases d)

/-! ### When orchestrate returns -/

theorem drive_maxNodes (env : Env) (s : Schedule) (fuel n : Nat) (b : Batch) :
    (Batch.drive env s fuel n b).disp.maxNodes = b.disp.maxNodes := by
  induction fuel generalizing n b with
  | zero => rfl
  | succ fuel ih =>
    unfold Batch.drive
    cases hm : b.moves with
    | nil => rfl
    | cons m ms =>
      simp only
      rw [ih, step_maxNodes]

/-- On a well-formed pool with no busy worker and `maxNodes ≥ 1`,
`executeParallel` returns and leaves such a pool. -/
theorem executeParallel_returns_clean (env : Env) (s : Schedule) (fuel finish : Nat)
    (d : Dispatcher) (tasks : List Task) (hwf : d.WF)
    (hidle : ∀ e ∈ d.nodes, isBusy d.heap e.2 = false) (hmax : 0 < d.maxNodes)
    (hfuel : 4 * tasks.length + 1 ≤ fuel) :
    ∃ d' r, executeParallel env s fuel finish d tasks = Outcome.returned d' r ∧
      d'.WF ∧ (∀ e ∈ d'.nodes, isBusy d'.heap e.2 = false) ∧ d'.maxNodes = d.maxNodes := by
  have hinit := init_inv env d tasks (s.clock 0) hwf hidle
  have hdone := drive_done env s _ (indexed_tagTasks tasks d.nextTaskId) fuel 1 _ hinit hmax
    (by rw [init_measure]; exact hfuel)
  obtain ⟨hinv, hctl⟩ := hdone
  have hmaxeq := drive_maxNodes env s fuel 1 (Batch.init d tasks (s.clock 0))
  generalize hb : Batch.drive env s fuel 1 (Batch.init d tasks (s.clock 0)) = b
    at hctl hinv hmaxeq
  refine ⟨b.disp, b.summary finish, ?_, hinv.core.wf, ?_, hmaxeq⟩
  · simp only [executeParallel, hb, hctl]
  · intro e he
    cases hbusy : isBusy b.disp.heap e.2 with
    | false => rfl
    | true =>
      exfalso
      obtain ⟨fl, hfl, _, _⟩ := hinv.held e he hbusy
      rw [(hinv.core.finished hctl).2] at hfl
      cases hfl

/-- On a well-formed pool with no busy worker and `maxNodes ≥ 1`, with every
batch observed long enough, the loop of `orchestrate` ends. -/
theorem orchestrateLoop_finishes (env : Env) (runs : Nat → Run) (phs : List Phase) (i : Nat)
    (o : Orch) (hwf : o.disp.WF) (hidle : ∀ e ∈ o.disp.nodes, isBusy o.disp.heap e.2 = false)
    (hmax : 0 < o.disp.maxNodes)
    (hfuel : ∀ (j : Nat) (ph : Phase) (prior : List PhaseResult) (tasks : List Task),
      phs[j]? = some ph → ph.tasks.resolve prior = some tasks →
        4 * tasks.length + 1 ≤ (runs (i + j)).fuel) :
    (orchestrateLoop env runs phs i o).2 = OrchStatus.finished := by
  induction phs generalizing i o with
  | nil => rfl
  | cons ph rest ih =>
    have hfuel' : ∀ (j : Nat) (ph' : Phase) (prior : List PhaseResult) (tasks : List Task),
        rest[j]? = some ph' → ph'.tasks.resolve prior = some tasks →
          4 * tasks.length + 1 ≤ (runs (i + 1 + j)).fuel := by
      intro j ph' prior tasks hj hres
      have := hfuel (j + 1) ph' prior tasks (by simpa using hj) hres
      have e : i + (j + 1) = i + 1 + j := by omega
      rw [e] at this
      exact this
    rw [orchestrateLoop_cons]
    by_cases hn : noTasks (ph.tasks.resolve o.phaseResults) = true
    · rw [if_pos hn]
      exact ih (i + 1) _ hwf hidle hmax hfuel'
    · rw [if_neg hn]
      obtain ⟨l, hl, _⟩ := noTasks_false _ (by simpa using hn)
      have hf := hfuel 0 ph o.phaseResults l (by simp) hl
      have hgetD : (ph.tasks.resolve o.phaseResults).getD [] = l := by rw [hl]; rfl
      rw [hgetD]
      obtain ⟨d', r, heq, hwf', hidle', hmax'⟩ :=
        executeParallel_returns_clean env (runs i).schedule (runs i).fuel (runs i).finish o.disp l
          hwf hidle hmax (by simpa using hf)
      rw [heq]
      exact ih (i + 1) _ hwf' hidle' (by rw [hmax']; exact hmax) hfuel'

/-! ### What orchestrate returns -/

theorem orchestrate_returned (env : Env) (runs : Nat → Run) (start finish : Nat)
    (d : Dispatcher) (phases : List Phase) (d' : Dispatcher) (r : OrchResult)
    (h : orchestrate env runs start finish d phases = OrchOutcome.returned d' r) :
    (orchestrateRun env runs d phases).2 = OrchStatus.finished ∧
    r.phases = (orchestrateRun env runs d phases).1.phaseResults ∧
    r.success = r.phases.all phaseOk := by
  unfold orchestrate at h
  generalize orchestrateRun env runs d phases = R at h
  obtain ⟨o, st⟩ := R
  cases st with
  | finished =>
    simp only [OrchOutcome.returned.injEq] at h
    rw [← h.2]
    exact ⟨rfl, rfl, rfl⟩
  | threw msg => cases h
  | running => cases h

theorem orchestrate_of_finished (env : Env) (runs : Nat → Run) (start finish : Nat)
    (d : Dispatcher) (phases : List Phase)
    (h : (orchestrateRun env runs d phases).2 = OrchStatus.finished) :
    ∃ d' r, orchestrate env runs start finish d phases = OrchOutcome.returned d' r := by
  unfold orchestrate
  generalize orchestrateRun env runs d phases = R at h
  obtain ⟨o, st⟩ := R
  cases st with
  | finished => exact ⟨_, _, rfl⟩
  | threw msg => cases h
  | running => cases h

theorem orchestrate_threw (env : Env) (runs : Nat → Run) (start finish : Nat)
    (d : Dispatcher) (phases : List Phase) (msg : String)
    (h : orchestrate env runs start finish d phases = OrchOutcome.threw msg) :
    (orchestrateRun env runs d phases).2 = OrchStatus.threw msg := by
  unfold orchestrate at h
  generalize orchestrateRun env runs d phases = R at h
  obtain ⟨o, st⟩ := R
  cases st with
  | finished => cases h
  | threw m =>
    simp only [OrchOutcome.threw.injEq] at h
    rw [h]
  | running => cases h

/-- The builder of a started phase was invoked with the Phase Results pushed
before the phase. -/
theorem built_mem_of_started (phases : List Phase) (o : Orch) (m : Nat) (h : o.Sound phases m)
    (j : Nat) (ph : Phase) (hj : phases[j]? = some ph) (hjm : j < m)
    (hb : ph.tasks.isBuilder = true) :
    OrchEvent.built j (o.phaseResults.take j) ∈ o.trace := by
  have hcount := h.builtOnce j ph hj
  rw [if_pos ⟨hjm, hb⟩] at hcount
  have hpos : 0 < o.trace.countP (OrchEvent.isBuilt j) := by omega
  obtain ⟨e, he, hp⟩ := List.countP_pos_iff.mp hpos
  cases e with
  | batch i tasks => cases hp
  | pushed i r => cases hp
  | built i prior =>
    simp only [OrchEvent.isBuilt, decide_eq_true_eq] at hp
    subst hp
    obtain ⟨_, hprior, _⟩ := h.builds i prior he
    rw [← hprior]
    exact he

/-- The phase after one whose result was pushed has been started, if there is
one. -/
theorem started_succ (env : Env) (runs : Nat → Run) (d : Dispatcher) (phases : List Phase)
    (i : Nat) (hi : i < (orchestrateRun env runs d phases).1.phaseResults.length)
    (hnext : i + 1 < phases.length) :
    i + 1 < startedPhases (orchestrateRun env runs d phases).1
      (orchestrateRun env runs d phases).2 := by
  obtain ⟨_, hfin, hnot, _⟩ := orchestrate_sound env runs d phases
  have hfin' : (orchestrateRun env runs d phases).2 = OrchStatus.finished →
      (orchestrateRun env runs d phases).1.phaseResults.length = phases.length := hfin
  cases hst : (orchestrateRun env runs d phases).2 with
  | finished =>
    have := hfin' hst
    simp only [startedPhases]
    omega
  | threw msg =>
    simp only [startedPhases]
    omega
  | running =>
    simp only [startedPhases]
    omega

/-- C13. Graceful empty phase: in every `orchestrate` call, a phase that has
been started and whose task list resolves to an empty list or to nothing (the
builder returned it, or the static list is empty or absent) has the Phase Result
`{phase: name, success: true, results: [], totalDurationMs: 0}` at its position;
no `executeParallel` call is made for it, so no worker is acquired and the pool
is passed on as it was; every invocation of the next phase's builder receives
that Phase Result at that position, and the next phase's builder, if it has one,
is invoked. -/
theorem orchestrate_empty_phase (env : Env) (runs : Nat → Run) (d : Dispatcher)
    (phases : List Phase) (i : Nat) (phase : Phase) (hi : phases[i]? = some phase)
    (hstart : i < startedPhases (orchestrateRun env runs d phases).1
      (orchestrateRun env runs d phases).2)
    (hempty : noTasks (phase.tasks.resolve
      ((orchestrateRun env runs d phases).1.phaseResults.take i)) = true) :
    (orchestrateRun env runs d phases).1.phaseResults[i]? = some (emptyPhaseResult phase.name) ∧
    (∀ tasks, OrchEvent.batch i tasks ∉ (orchestrateRun env runs d phases).1.trace) ∧
    (∀ prior, OrchEvent.built (i + 1) prior ∈ (orchestrateRun env runs d phases).1.trace →
      prior[i]? = some (emptyPhaseResult phase.name)) ∧
    (∀ next, phases[i + 1]? = some next → next.tasks.isBuilder = true →
      OrchEvent.built (i + 1) ((orchestrateRun env runs d phases).1.phaseResults.take (i + 1))
        ∈ (orchestrateRun env runs d phases).1.trace) ∧
    (∀ (rest : List Phase) (j : Nat) (o : Orch),
      noTasks (phase.tasks.resolve o.phaseResults) = true →
        ∃ o', orchestrateLoop env runs (phase :: rest) j o
            = orchestrateLoop env runs rest (j + 1) o' ∧
          o'.disp = o.disp ∧
          o'.phaseResults = o.phaseResults ++ [emptyPhaseResult phase.name]) := by
  have hs := (orchestrate_sound env runs d phases).1
  have hres := hs.empties i phase hi hstart hempty
  have hik : i < (orchestrateRun env runs d phases).1.phaseResults.length :=
    (List.getElem?_eq_some.mp hres).1
  refine ⟨hres, ?_, ?_, ?_, ?_⟩
  · intro tasks hmem
    obtain ⟨_, ph', hj, hn, _⟩ := hs.batched i tasks hmem
    rw [hi] at hj
    cases hj
    rw [hempty] at hn
    cases hn
  · intro prior hmem
    obtain ⟨_, hprior, _⟩ := hs.builds (i + 1) prior hmem
    rw [hprior, List.getElem?_take_of_lt (Nat.lt_succ_self i)]
    exact hres
  · intro next hnext hb
    have hlt : i + 1 < phases.length := (List.getElem?_eq_some.mp hnext).1
    exact built_mem_of_started phases _ _ hs (i + 1) next hnext
      (started_succ env runs d phases i hik hlt) hb
  · intro rest j o hn
    refine ⟨{ disp := o.disp, phaseResults := o.phaseResults ++ [emptyPhaseResult phase.name],
              trace := o.trace ++ phaseEvents j phase o.phaseResults
                [emptyPhaseResult phase.name] }, ?_, rfl, rfl⟩
    rw [orchestrateLoop_cons, if_pos hn]

/-- Witness for C13: in the three-phase pipeline on a new dispatcher with
`maxNodes = 3`, the builder of the second phase returns no task. -/
theorem orchestrate_empty_phase_witness :
    (orchestrateRun envBoom mixedRuns (Dispatcher.new 3) phases3).1.phaseResults[1]?
      = some (emptyPhaseResult "filter") ∧
    (∀ tasks, OrchEvent.batch 1 tasks ∉
      (orchestrateRun envBoom mixedRuns (Dispatcher.new 3) phases3).1.trace) ∧
    (∀ prior, OrchEvent.built (1 + 1) prior ∈
        (orchestrateRun envBoom mixedRuns (Dispatcher.new 3) phases3).1.trace →
      prior[1]? = some (emptyPhaseResult "filter")) ∧
    (∀ next, phases3[1 + 1]? = some next → next.tasks.isBuilder = true →
      OrchEvent.built (1 + 1)
        ((orchestrateRun envBoom mixedRuns (Dispatcher.new 3) phases3).1.phaseResults.take (1 + 1))
        ∈ (orchestrateRun envBoom mixedRuns (Dispatcher.new 3) phases3).1.trace) ∧
    (∀ (rest : List Phase) (j : Nat) (o : Orch),
      noTasks ((PhaseTasks.builder (fun _ => some [])).resolve o.phaseResults) = true →
        ∃ o', orchestrateLoop envBoom mixedRuns
            ({ name := "filter", tasks := PhaseTasks.builder (fun _ => some []),
               required := none } :: rest) j o
            = orchestrateLoop envBoom mixedRuns rest (j + 1) o' ∧
          o'.disp = o.disp ∧
          o'.phaseResults = o.phaseResults ++ [emptyPhaseResult "filter"]) :=
  orchestrate_empty_phase envBoom mixedRuns (Dispatcher.new 3) phases3 1
    { name := "filter", tasks := PhaseTasks.builder (fun _ => some []), required := none }
    rfl (by decide) rfl

/-- C14. Inter-phase data flow: in every `orchestrate` call, (1) a builder is
invoked only for a started phase whose `tasks` is a function, with the Phase
Results of the phases before it, `j` of them for phase `j`; (2) when it is
invoked, the Phase Results pushed so far are exactly its argument, so every
earlier phase's batch has resolved; (3) the builder of a phase is invoked
exactly once if the phase is started and its `tasks` is a function, and never
otherwise; (4) the task list handed to `executeParallel` for a phase is the
static list unchanged, or what the builder returned; (5) `executeParallel` is
called for every started phase whose task list is not empty, on that list;
(6) when the loop ends every phase has been started. -/
theorem orchestrate_data_flow (env : Env) (runs : Nat → Run) (d : Dispatcher)
    (phases : List Phase) :
    (∀ (j : Nat) (prior : List PhaseResult),
      OrchEvent.built j prior ∈ (orchestrateRun env runs d phases).1.trace →
        j < startedPhases (orchestrateRun env runs d phases).1
          (orchestrateRun env runs d phases).2 ∧
        prior = (orchestrateRun env runs d phases).1.phaseResults.take j ∧
        prior.length = j ∧
        ∃ ph f, phases[j]? = some ph ∧ ph.tasks = PhaseTasks.builder f) ∧
    (∀ (n j : Nat) (prior : List PhaseResult),
      (orchestrateRun env runs d phases).1.trace[n]? = some (OrchEvent.built j prior) →
        pushedOf ((orchestrateRun env runs d phases).1.trace.take n) = prior) ∧
    (∀ (j : Nat) (ph : Phase), phases[j]? = some ph →
      (orchestrateRun env runs d phases).1.trace.countP (OrchEvent.isBuilt j) =
        if j < startedPhases (orchestrateRun env runs d phases).1
            (orchestrateRun env runs d phases).2 ∧ ph.tasks.isBuilder = true
        then 1 else 0) ∧
    (∀ (j : Nat) (tasks : List Task),
      OrchEvent.batch j tasks ∈ (orchestrateRun env runs d phases).1.trace →
        ∃ ph, phases[j]? = some ph ∧
          ph.tasks.resolve ((orchestrateRun env runs d phases).1.phaseResults.take j)
            = some tasks ∧
          (∀ l, ph.tasks = PhaseTasks.static l → tasks = l) ∧
          (∀ f, ph.tasks = PhaseTasks.builder f →
            f ((orchestrateRun env runs d phases).1.phaseResults.take j) = some tasks)) ∧
    (∀ (j : Nat) (ph : Phase) (tasks : List Task), phases[j]? = some ph →
      j < startedPhases (orchestrateRun env runs d phases).1
        (orchestrateRun env runs d phases).2 →
      ph.tasks.resolve ((orchestrateRun env runs d phases).1.phaseResults.take j)
        = some tasks →
      tasks ≠ [] → OrchEvent.batch j tasks ∈ (orchestrateRun env runs d phases).1.trace) ∧
    ((orchestrateRun env runs d phases).2 = OrchStatus.finished →
      startedPhases (orchestrateRun env runs d phases).1 (orchestrateRun env runs d phases).2
        = phases.length) := by
  obtain ⟨hs, hfin, _, _⟩ := orchestrate_sound env runs d phases
  refine ⟨?_, hs.order, hs.builtOnce, ?_, ?_, ?_⟩
  · intro j prior hmem
    obtain ⟨hjm, hprior, hex⟩ := hs.builds j prior hmem
    refine ⟨hjm, hprior, ?_, hex⟩
    rw [hprior, List.length_take_of_le]
    have := hs.started.2.1
    omega
  · intro j tasks hmem
    obtain ⟨_, ph, hj, _, hres⟩ := hs.batched j tasks hmem
    refine ⟨ph, hj, hres, ?_, ?_⟩
    · intro l hl
      rw [hl] at hres
      simp only [PhaseTasks.resolve, Option.some.injEq] at hres
      exact hres.symm
    · intro f hf
      rw [hf] at hres
      exact hres
  · intro j ph tasks hj hjm hres hne
    refine hs.batches j ph tasks hj hjm ?_ hres
    rw [hres]
    cases tasks with
    | nil => exact absurd rfl hne
    | cons t ts => rfl
  · intro hst
    have := hfin hst
    rw [hst]
    exact this

/-- Witness for C14: in the three-phase pipeline on a new dispatcher with
`maxNodes = 3` the static first phase has no builder invocation and the builders
of the second and third phases are invoked once each. -/
theorem orchestrate_data_flow_witness :
    ((orchestrateRun envBoom mixedRuns (Dispatcher.new 3) phases3).2 = OrchStatus.finished →
      startedPhases (orchestrateRun envBoom mixedRuns (Dispatcher.new 3) phases3).1
        (orchestrateRun envBoom mixedRuns (Dispatcher.new 3) phases3).2 = phases3.length) ∧
    (orchestrateRun envBoom mixedRuns (Dispatcher.new 3) phases3).2 = OrchStatus.finished ∧
    (orchestrateRun envBoom mixedRuns (Dispatcher.new 3) phases3).1.trace.countP
      (OrchEvent.isBuilt 0) = 0 ∧
    (orchestrateRun envBoom mixedRuns (Dispatcher.new 3) phases3).1.trace.countP
      (OrchEvent.isBuilt 1) = 1 ∧
    (orchestrateRun envBoom mixedRuns (Dispatcher.new 3) phases3).1.trace.countP
      (OrchEvent.isBuilt 2) = 1 ∧
    OrchEvent.batch 0 tasksBadGood ∈
      (orchestrateRun envBoom mixedRuns (Dispatcher.new 3) phases3).1.trace :=
  ⟨(orchestrate_data_flow envBoom mixedRuns (Dispatcher.new 3) phases3).2.2.2.2.2,
    by decide, by decide, by decide, by decide, by decide⟩

/-- C15. Soft failure, keep going: in every `orchestrate` call, (1) the Phase
Results pushed are one per phase processed, in phase order, each carrying its
phase's name; (2) when `orchestrate` returns, it returns exactly one Phase
Result per input phase, in input order and with that phase's name; (3) failed
tasks never stop the loop: the only error `orchestrate` raises is the timeout of
`waitForNode`; (4) on a pool with `maxNodes ≥ 1` none of whose workers is busy,
with every batch observed long enough, `orchestrate` returns, whichever tasks
fail. -/
theorem orchestrate_keeps_going (env : Env) (runs : Nat → Run) (d : Dispatcher)
    (phases : List Phase) :
    ((orchestrateRun env runs d phases).1.phaseResults.map (fun p => p.phase) =
      (phases.take (orchestrateRun env runs d phases).1.phaseResults.length).map
        (fun ph => ph.name)) ∧
    (∀ (start finish : Nat) (d' : Dispatcher) (r : OrchResult),
      orchestrate env runs start finish d phases = OrchOutcome.returned d' r →
        r.phases.length = phases.length ∧
        r.phases.map (fun p => p.phase) = phases.map (fun ph => ph.name)) ∧
    (∀ (start finish : Nat) (msg : String),
      orchestrate env runs start finish d phases = OrchOutcome.threw msg →
        ∃ c, msg = "Timeout waiting for " ++ c ++ " node") ∧
    (d.WF → (∀ e ∈ d.nodes, isBusy d.heap e.2 = false) → 0 < d.maxNodes →
      (∀ (j : Nat) (ph : Phase) (prior : List PhaseResult) (tasks : List Task),
        phases[j]? = some ph → ph.tasks.resolve prior = some tasks →
          4 * tasks.length + 1 ≤ (runs j).fuel) →
      ∀ (start finish : Nat), ∃ d' r,
        orchestrate env runs start finish d phases = OrchOutcome.returned d' r ∧
        r.phases.length = phases.length ∧
        r.phases.map (fun p => p.phase) = phases.map (fun ph => ph.name)) := by
  obtain ⟨hs, hfin, _, hthrew⟩ := orchestrate_sound env runs d phases
  have hret : ∀ (start finish : Nat) (d' : Dispatcher) (r : OrchResult),
      orchestrate env runs start finish d phases = OrchOutcome.returned d' r →
        r.phases.length = phases.length ∧
        r.phases.map (fun p => p.phase) = phases.map (fun ph => ph.name) := by
    intro start finish d' r h
    obtain ⟨hst, hph, _⟩ := orchestrate_returned env runs start finish d phases d' r h
    have hlen := hfin hst
    rw [hph]
    refine ⟨hlen, ?_⟩
    have hn := hs.named
    rw [hlen, List.take_length] at hn
    exact hn
  refine ⟨hs.named, hret, ?_, ?_⟩
  · intro start finish msg h
    exact hthrew msg (orchestrate_threw env runs start finish d phases msg h)
  · intro hwf hidle hmax hfuel start finish
    have hdone : (orchestrateRun env runs d phases).2 = OrchStatus.finished :=
      orchestrateLoop_finishes env runs phases 0 (Orch.init d) hwf hidle hmax
        (fun j ph prior tasks hj hres => by
          have := hfuel j ph prior tasks hj hres
          simpa using this)
    obtain ⟨d', r, heq⟩ := orchestrate_of_finished env runs start finish d phases hdone
    exact ⟨d', r, heq, hret start finish d' r heq⟩

/-- Witness for C15: the three-phase pipeline, whose first phase has a failed
task, on a new dispatcher with `maxNodes = 3`. -/
theorem orchestrate_keeps_going_witness :
    (∃ d' r, orchestrate envBoom mixedRuns 1700000000000 1700000030000 (Dispatcher.new 3) phases3
        = OrchOutcome.returned d' r ∧
      r.phases.length = phases3.length ∧
      r.phases.map (fun p => p.phase) = phases3.map (fun ph => ph.name)) ∧
    phaseFlags (orchestrate envBoom mixedRuns 1700000000000 1700000030000 (Dispatcher.new 3)
        phases3) =
      [("gather", false, [some false, some true]), ("filter", true, []),
       ("report", true, [some true])] :=
  ⟨(orchestrate_keeps_going envBoom mixedRuns (Dispatcher.new 3) phases3).2.2.2
      (by decide) (by decide) (by decide)
      (fun j ph prior tasks hj hres => by
        have h21 : (mixedRuns j).fuel = 21 := rfl
        rw [h21]
        match j, hj with
        | 0, hj =>
          simp only [phases3, List.getElem?_cons_zero, Option.some.injEq] at hj
          rw [← hj] at hres
          simp only [PhaseTasks.resolve, Option.some.injEq] at hres
          rw [← hres]
          decide
        | 1, hj =>
          simp only [phases3, List.getElem?_cons_succ, List.getElem?_cons_zero,
            Option.some.injEq] at hj
          rw [← hj] at hres
          simp only [PhaseTasks.resolve, Option.some.injEq] at hres
          rw [← hres]
          decide
        | 2, hj =>
          simp only [phases3, List.getElem?_cons_succ, List.getElem?_cons_zero,
            Option.some.injEq] at hj
          rw [← hj] at hres
          simp only [PhaseTasks.resolve] at hres
          split at hres
          · simp only [Option.some.injEq] at hres
            rw [← hres]
            decide
          · cases hres
        | j + 3, hj =>
          simp [phases3] at hj)
      1700000000000 1700000030000,
    by decide⟩

theorem phaseOk_iff (p : PhaseResult) :
    phaseOk p = true ↔
      (p.success = true ∨ ∃ tr, some tr ∈ p.results ∧ tr.success = true) := by
  unfold phaseOk
  rw [Bool.or_eq_true, List.any_eq_true]
  constructor
  · rintro (h | ⟨x, hx, hp⟩)
    · exact Or.inl h
    · cases x with
      | none => cases hp
      | some tr => exact Or.inr ⟨tr, hx, hp⟩
  · rintro (h | ⟨tr, htr, hp⟩)
    · exact Or.inl h
    · exact Or.inr ⟨some tr, htr, hp⟩

/-- C16. Terminal result of `orchestrate`: whenever `orchestrate` returns, its
`success` flag is true if and only if every Phase Result it returns either has
`success = true` itself or holds at least one Task Result with
`success = true`; and for an empty phase list `orchestrate` returns
`success = true`. -/
theorem orchestrate_success_iff (env : Env) (runs : Nat → Run) (start finish : Nat)
    (d : Dispatcher) (phases : List Phase) :
    (∀ (d' : Dispatcher) (r : OrchResult),
      orchestrate env runs start finish d phases = OrchOutcome.returned d' r →
        (r.success = true ↔
          ∀ p ∈ r.phases,
            p.success = true ∨ ∃ tr, some tr ∈ p.results ∧ tr.success = true)) ∧
    orchestrate env runs start finish d [] =
      OrchOutcome.returned d
        { success := true, phases := [], totalDurationMs := (finish : Int) - (start : Int) } := by
  refine ⟨?_, rfl⟩
  intro d' r h
  obtain ⟨_, _, hsucc⟩ := orchestrate_returned env runs start finish d phases d' r h
  rw [hsucc, List.all_eq_true]
  constructor
  · intro hall p hp
    exact (phaseOk_iff p).mp (hall p hp)
  · intro hall p hp
    exact (phaseOk_iff p).mpr (hall p hp)

/-- Witness for C16: the three-phase pipeline returns `success = true`: its
first phase has `success = false` and holds a successful Task Result. -/
theorem orchestrate_success_iff_witness :
    (∃ d' r, orchestrate envBoom mixedRuns 1700000000000 1700000030000 (Dispatcher.new 3) phases3
        = OrchOutcome.returned d' r ∧
      (r.success = true ↔
        ∀ p ∈ r.phases,
          p.success = true ∨ ∃ tr, some tr ∈ p.results ∧ tr.success = true)) ∧
    overallSuccess (orchestrate envBoom mixedRuns 1700000000000 1700000030000 (Dispatcher.new 3)
      phases3) = some true :=
  ⟨(orchestrate_of_finished envBoom mixedRuns 1700000000000 1700000030000 (Dispatcher.new 3)
      phases3 (by decide)).elim
      (fun d' h => h.elim (fun r hr =>
        ⟨d', r, hr,
          (orchestrate_success_iff envBoom mixedRuns 1700000000000 1700000030000
            (Dispatcher.new 3) phases3).1 d' r hr⟩)),
    by decide⟩

/-! ### The `required` flag -/

theorem orchestrateLoop_required (env : Env) (runs : Nat → Run) (req : Phase → Option Bool)
    (phs : List Phase) (i : Nat) (o : Orch) :
    orchestrateLoop env runs (phs.map (fun ph => { ph with required := req ph })) i o =
      orchestrateLoop env runs phs i o := by
  induction phs generalizing i o with
  | nil => rfl
  | cons ph rest ih =>
    rw [List.map_cons, orchestrateLoop_cons, orchestrateLoop_cons]
    simp only [ih]
    rfl

/-- C18 (as amended). Phase policy: in every `orchestrate` call, (1) the Phase
Result recorded for a phase has `success = true` exactly when every Task Result
of the phase has `success = true`, whether or not the phase is marked
non-required; (2) the `required` flags do not enter the run at all: changing
them changes neither the Phase Results nor anything else; (3) a phase in which
at least one task succeeded counts as successful in the overall `success` flag
that `orchestrate` returns, even if other tasks of the phase failed. -/
theorem orchestrate_phase_success (env : Env) (runs : Nat → Run) (d : Dispatcher)
    (phases : List Phase) :
    (∀ p ∈ (orchestrateRun env runs d phases).1.phaseResults,
      (p.success = true ↔ ∀ tr, some tr ∈ p.results → tr.success = true)) ∧
    (∀ req : Phase → Option Bool,
      orchestrateRun env runs d (phases.map (fun ph => { ph with required := req ph })) =
        orchestrateRun env runs d phases) ∧
    (∀ (start finish : Nat) (d' : Dispatcher) (r : OrchResult),
      orchestrate env runs start finish d phases = OrchOutcome.returned d' r →
        r.success = r.phases.all phaseOk ∧
        ∀ p ∈ r.phases,
          (∃ tr, some tr ∈ p.results ∧ tr.success = true) → phaseOk p = true) := by
  obtain ⟨hs, _, _, _⟩ := orchestrate_sound env runs d phases
  refine ⟨?_, ?_, ?_⟩
  · intro p hp
    rw [hs.flags p hp]
    exact all_succeeded_iff p.results
  · intro req
    exact orchestrateLoop_required env runs req phases 0 (Orch.init d)
  · intro start finish d' r h
    obtain ⟨_, _, hsucc⟩ := orchestrate_returned env runs start finish d phases d' r h
    exact ⟨hsucc, fun p _ hex => (phaseOk_iff p).mpr (Or.inr hex)⟩

/-- Witness for C18: the three-phase pipeline on a new dispatcher with
`maxNodes = 3`; its first phase is marked non-required and has one failed and
one successful task, and the call returns `success = true`. -/
theorem orchestrate_phase_success_witness :
    (∃ d' r, orchestrate envBoom mixedRuns 1700000000000 1700000030000 (Dispatcher.new 3) phases3
        = OrchOutcome.returned d' r ∧
      r.success = r.phases.all phaseOk ∧
      ∀ p ∈ r.phases, (∃ tr, some tr ∈ p.results ∧ tr.success = true) → phaseOk p = true) ∧
    overallSuccess (orchestrate envBoom mixedRuns 1700000000000 1700000030000 (Dispatcher.new 3)
      phases3) = some true :=
  ⟨(orchestrate_of_finished envBoom mixedRuns 1700000000000 1700000030000 (Dispatcher.new 3)
      phases3 (by decide)).elim
      (fun d' h => h.elim (fun r hr =>
        ⟨d', r, hr,
          (orchestrate_phase_success envBoom mixedRuns (Dispatcher.new 3) phases3).2.2
            1700000000000 1700000030000 d' r hr⟩)),
    by decide⟩

/-- Counterexample to C18 as stated: the first phase of the pipeline is marked
non-required (`required: false`) and one of its two tasks succeeds; the Phase
Result recorded for it has `success = false`. -/
theorem orchestrate_nonrequired_phase_fails :
    (phases3[0]?).map (fun ph => ph.required) = some (some false) ∧
    (phaseFlags (orchestrate envBoom mixedRuns 1700000000000 1700000030000 (Dispatcher.new 3)
        phases3))[0]? = some ("gather", false, [some false, some true]) := by
  decide

/-! ## Completed-task accounting -/

theorem executeEnd_counters (w : WorkerNode) (task : Task) (startTime now : Nat)
    (outcome : Except String Payload) :
    (w.executeEnd task startTime now outcome).1.completedTasks =
      w.completedTasks + (if (w.executeEnd task startTime now outcome).2.success then 1 else 0) ∧
    (w.executeEnd task startTime now outcome).1.totalDuration =
      w.totalDuration + (if (w.executeEnd task startTime now outcome).2.success
        then (w.executeEnd task startTime now outcome).2.durationMs else 0) ∧
    (w.executeEnd task startTime now outcome).1.id = w.id ∧
    (w.executeEnd task startTime now outcome).1.nodeType = w.nodeType := by
  cases outcome with
  | ok result => exact ⟨rfl, rfl, rfl, rfl⟩
  | error message =>
    refine ⟨rfl, ?_, rfl, rfl⟩
    simp [WorkerNode.executeEnd]

theorem successes_cons (r : TaskResult) (rs : List TaskResult) :
    successes (r :: rs) = (if r.success then 1 else 0) + successes rs := by
  unfold successes
  cases h : r.success
  · simp [List.filter_cons, h]
  · simp [List.filter_cons, h]
    omega

theorem steps_accounting (w : WorkerNode) (steps : List WorkerStep) :
    (w.steps steps).1.completedTasks = w.completedTasks + successes (w.steps steps).2 ∧
    (w.steps steps).1.id = w.id ∧ (w.steps steps).1.nodeType = w.nodeType := by
  induction steps generalizing w with
  | nil => exact ⟨rfl, rfl, rfl⟩
  | cons st rest ih =>
    cases st with
    | begin task =>
      obtain ⟨h1, h2, h3⟩ := ih (w.executeBegin task)
      exact ⟨h1, h2, h3⟩
    | finish task startTime now outcome =>
      obtain ⟨h1, h2, h3⟩ := ih (w.executeEnd task startTime now outcome).1
      obtain ⟨c1, _, c3, c4⟩ := executeEnd_counters w task startTime now outcome
      refine ⟨?_, h2.trans c3, h3.trans c4⟩
      show ((w.executeEnd task startTime now outcome).1.steps rest).1.completedTasks =
        w.completedTasks + successes
          ((w.executeEnd task startTime now outcome).2 ::
            ((w.executeEnd task startTime now outcome).1.steps rest).2)
      rw [h1, c1, successes_cons]
      omega

theorem executeAll_accounting (env : Env) (w : WorkerNode) (calls : List (Task × Nat × Nat)) :
    (w.executeAll env calls).1.completedTasks =
      w.completedTasks + successes (w.executeAll env calls).2 ∧
    (w.executeAll env calls).1.id = w.id ∧ (w.executeAll env calls).1.nodeType = w.nodeType ∧
    (w.executeAll env calls).2.length = calls.length := by
  induction calls generalizing w with
  | nil => exact ⟨rfl, rfl, rfl, rfl⟩
  | cons call rest ih =>
    obtain ⟨task, startTime, now⟩ := call
    obtain ⟨h1, h2, h3, h4⟩ := ih (w.execute env task startTime now).1
    obtain ⟨c1, _, c3, c4⟩ := executeEnd_counters (w.executeBegin task) task startTime now
      ((w.executeBegin task).collaborate env task)
    have e1 : (w.execute env task startTime now).1.completedTasks =
        w.completedTasks + (if (w.execute env task startTime now).2.success then 1 else 0) := c1
    refine ⟨?_, h2.trans c3, h3.trans c4, ?_⟩
    · show ((w.execute env task startTime now).1.executeAll env rest).1.completedTasks =
        w.completedTasks + successes
          ((w.execute env task startTime now).2 ::
            ((w.execute env task startTime now).1.executeAll env rest).2)
      rw [h1, e1, successes_cons]
      omega
    · show (((w.execute env task startTime now).1.executeAll env rest).2.length + 1) = _
      rw [h4]
      rfl

/-- C21. Completed-task accounting: for every worker and every sequence of
`execute` calls on it (awaited one after the other, or overlapping: any sequence
of starts and returns), the final `completedTasks` is the initial count plus the
number of calls that returned `success = true`, so that on a worker as its
constructor leaves it `completedTasks` is that number; an execution that fails
leaves `completedTasks` and `totalDuration` as they were; and no execution
changes the worker's id or class. -/
theorem execute_accounting (env : Env) (w : WorkerNode) :
    (∀ steps : List WorkerStep,
      (w.steps steps).1.completedTasks = w.completedTasks + successes (w.steps steps).2 ∧
      (w.steps steps).1.id = w.id ∧ (w.steps steps).1.nodeType = w.nodeType) ∧
    (∀ calls : List (Task × Nat × Nat),
      (w.executeAll env calls).1.completedTasks =
        w.completedTasks + successes (w.executeAll env calls).2 ∧
      (w.executeAll env calls).1.id = w.id ∧
      (w.executeAll env calls).1.nodeType = w.nodeType ∧
      (w.executeAll env calls).2.length = calls.length) ∧
    (∀ (id nodeType : String) (calls : List (Task × Nat × Nat)),
      ((WorkerNode.new id nodeType).executeAll env calls).1.completedTasks =
        successes ((WorkerNode.new id nodeType).executeAll env calls).2) ∧
    (∀ (task : Task) (startTime now : Nat),
      (w.execute env task startTime now).2.success = false →
        (w.execute env task startTime now).1.completedTasks = w.completedTasks ∧
        (w.execute env task startTime now).1.totalDuration = w.totalDuration) ∧
    (∀ (task : Task) (startTime now : Nat),
      (w.execute env task startTime now).2.success = true →
        (w.execute env task startTime now).1.completedTasks = w.completedTasks + 1 ∧
        (w.execute env task startTime now).1.totalDuration =
          w.totalDuration + ((now : Int) - (startTime : Int))) := by
  refine ⟨steps_accounting w, executeAll_accounting env w, ?_, ?_, ?_⟩
  · intro id nodeType calls
    have h := (executeAll_accounting env (WorkerNode.new id nodeType) calls).1
    rw [h]
    simp [WorkerNode.new]
  · intro task startTime now hf
    obtain ⟨c1, c2, _, _⟩ := executeEnd_counters (w.executeBegin task) task startTime now
      ((w.executeBegin task).collaborate env task)
    have hf' : ((w.executeBegin task).executeEnd task startTime now
        ((w.executeBegin task).collaborate env task)).2.success = false := hf
    rw [hf'] at c1 c2
    exact ⟨by simpa using c1, by simpa using c2⟩
  · intro task startTime now hs
    obtain ⟨c1, c2, _, _⟩ := executeEnd_counters (w.executeBegin task) task startTime now
      ((w.executeBegin task).collaborate env task)
    have hs' : ((w.executeBegin task).executeEnd task startTime now
        ((w.executeBegin task).collaborate env task)).2.success = true := hs
    have hd : ((w.executeBegin task).executeEnd task startTime now
        ((w.executeBegin task).collaborate env task)).2.durationMs
          = (now : Int) - (startTime : Int) := by
      rw [executeEnd_result]
    rw [hs'] at c1 c2
    rw [hd] at c2
    exact ⟨by simpa using c1, by simpa using c2⟩

/-- Witness for C21: a failed call followed by a successful one on a new
`analyze` worker leaves `completedTasks = 1`. -/
theorem execute_accounting_witness :
    ((WorkerNode.new "analyze-1700000000007-k3f9" "analyze").executeAll envBoom
        [(Task.simple "analyze" "bad", 1, 5), (Task.simple "analyze" "good", 6, 9)]).1.completedTasks
      = successes ((WorkerNode.new "analyze-1700000000007-k3f9" "analyze").executeAll envBoom
        [(Task.simple "analyze" "bad", 1, 5), (Task.simple "analyze" "good", 6, 9)]).2 ∧
    successes ((WorkerNode.new "analyze-1700000000007-k3f9" "analyze").executeAll envBoom
        [(Task.simple "analyze" "bad", 1, 5), (Task.simple "analyze" "good", 6, 9)]).2 = 1 :=
  ⟨(execute_accounting envBoom (WorkerNode.new "analyze-1700000000007-k3f9" "analyze")).2.2.1
    "analyze-1700000000007-k3f9" "analyze"
    [(Task.simple "analyze" "bad", 1, 5), (Task.simple "analyze" "good", 6, 9)], by decide⟩

/-! ## SwarmClient._injectContext -/

/-- C24. `_injectContext` prepends the context block to each prompt: for a
non-empty context the result has the length of the prompt list and its i-th
element is `context + "\n\n" + prompts[i]`; for a null or empty context the
result is the prompt list itself. -/
theorem injectContext_spec (prompts : List String) :
    (∀ context : String, context ≠ "" →
      (injectContext prompts (some context)).length = prompts.length ∧
      ∀ (i : Nat) (p : String), prompts[i]? = some p →
        (injectContext prompts (some context))[i]? = some (context ++ "\n\n" ++ p)) ∧
    injectContext prompts none = prompts ∧
    injectContext prompts (some "") = prompts := by
  refine ⟨?_, rfl, rfl⟩
  intro context hne
  have ht : truthy (some context) = true := by simp [truthy, hne]
  have heq : injectContext prompts (some context) =
      prompts.map (fun p => context ++ "\n\n" ++ p) := by
    unfold injectContext
    rw [if_pos ht]
    rfl
  rw [heq]
  refine ⟨List.length_map _ _, fun i p hp => ?_⟩
  rw [List.getElem?_map, hp]
  rfl

/-- Witness for C24: two prompts and the context `ctx`. -/
theorem injectContext_spec_witness :
    (injectContext ["a", "b"] (some "ctx")).length = ["a", "b"].length ∧
    (∀ (i : Nat) (p : String), ["a", "b"][i]? = some p →
      (injectContext ["a", "b"] (some "ctx"))[i]? = some ("ctx" ++ "\n\n" ++ p)) ∧
    injectContext ["a", "b"] (some "ctx") = ["ctx\n\na", "ctx\n\nb"] :=
  ⟨((injectContext_spec ["a", "b"]).1 "ctx" (by decide)).1,
    ((injectContext_spec ["a", "b"]).1 "ctx" (by decide)).2, by decide⟩

/-! ## SwarmDaemon.warmUp -/

theorem mem_mapSet_self (m : List (String × Nat)) (k : String) (v : Nat) :
    (k, v) ∈ mapSet m k v := by
  induction m with
  | nil => simp [mapSet]
  | cons e rest ih =>
    obtain ⟨k', v'⟩ := e
    by_cases hk : k' = k
    · simp [mapSet, hk]
    · simp only [mapSet, hk, if_false]
      exact List.mem_cons_of_mem _ ih

/-- Once an idle worker of the type is registered, the remaining iterations of
the inner loop of `warmUp` get that worker back and create nothing. -/
theorem warmLoop_idle (d : Dispatcher) (type : String) (readings : Nat → Nat × String)
    (i n : Nat) (h : ∃ e ∈ d.nodes, isIdleOfType d.heap type e.2 = true) :
    warmLoop d type readings i n = d := by
  induction n generalizing i with
  | zero => rfl
  | succ n ih =>
    obtain ⟨e, he, hid⟩ := h
    unfold warmLoop
    rcases getOrCreateNode_cases d type (readings i).1 (readings i).2 with
      ⟨e', _, _, heq⟩ | ⟨hnone, _, _⟩ | ⟨hnone, _, _⟩ | ⟨hnone, _, _⟩
    · rw [heq]
      exact ih (i + 1)
    · rw [hnone e he] at hid; cases hid
    · rw [hnone e he] at hid; cases hid
    · have hi := isIdle_of_isIdleOfType _ _ _ hid
      rw [hnone e he] at hi; cases hi

/-- The inner loop of `warmUp` on a pool with room and without an idle worker
of the type creates one worker, whatever the number of its iterations. -/
theorem warmLoop_create (d : Dispatcher) (type : String) (readings : Nat → Nat × String)
    (n : Nat) (hnone : ∀ e ∈ d.nodes, isIdleOfType d.heap type e.2 = false)
    (hlt : d.nodes.length < d.maxNodes) :
    warmLoop d type readings 0 (n + 1) =
      d.register d.nodes (mkId type (readings 0).1 (readings 0).2) type := by
  unfold warmLoop
  rcases getOrCreateNode_cases d type (readings 0).1 (readings 0).2 with
    ⟨e, he, hid, _⟩ | ⟨_, _, heq⟩ | ⟨_, hge, _⟩ | ⟨_, hge, _⟩
  · rw [hnone e he] at hid; cases hid
  · rw [heq]
    simp only
    refine warmLoop_idle _ type readings 1 n
      ⟨(mkId type (readings 0).1 (readings 0).2, d.heap.length), ?_, ?_⟩
    · exact mem_mapSet_self _ _ _
    · exact (isIdleOfType_iff _ _ _).mpr
        ⟨WorkerNode.new (mkId type (readings 0).1 (readings 0).2) type,
          register_heap_new d d.nodes _ type, rfl, rfl⟩
  · omega
  · omega

theorem mkId_search_ne_fetch (a a' : Nat) (b b' : String) :
    mkId "search" a b ≠ mkId "fetch" a' b' := by
  intro h
  have := congrArg String.data h
  simp [mkId] at this

theorem mkId_search_ne_analyze (a a' : Nat) (b b' : String) :
    mkId "search" a b ≠ mkId "analyze" a' b' := by
  intro h
  have := congrArg String.data h
  simp [mkId] at this

theorem mkId_fetch_ne_analyze (a a' : Nat) (b b' : String) :
    mkId "fetch" a b ≠ mkId "analyze" a' b' := by
  intro h
  have := congrArg String.data h
  simp [mkId] at this

/-- Whatever number of workers is asked for, and whatever the clock and random
readings, on a dispatcher with `maxNodes ≥ 3` the pre-creation loops of `warmUp`
leave three workers: one `search`, one `fetch` and one `analyze` worker. -/
theorem warmUp_one_per_class (maxNodes warmWorkers : Nat)
    (readings : String → Nat → Nat × String) (hmax : 3 ≤ maxNodes) (hw : 1 ≤ warmWorkers) :
    (warmUp maxNodes warmWorkers readings).nodes =
      [(mkId "search" (readings "search" 0).1 (readings "search" 0).2, 0),
       (mkId "fetch" (readings "fetch" 0).1 (readings "fetch" 0).2, 1),
       (mkId "analyze" (readings "analyze" 0).1 (readings "analyze" 0).2, 2)] ∧
    (warmUp maxNodes warmWorkers readings).heap =
      [WorkerNode.new (mkId "search" (readings "search" 0).1 (readings "search" 0).2) "search",
       WorkerNode.new (mkId "fetch" (readings "fetch" 0).1 (readings "fetch" 0).2) "fetch",
       WorkerNode.new (mkId "analyze" (readings "analyze" 0).1 (readings "analyze" 0).2)
         "analyze"] := by
  obtain ⟨k, hk⟩ : ∃ k, workersPerType warmWorkers = k + 1 := by
    refine ⟨workersPerType warmWorkers - 1, ?_⟩
    have : 1 ≤ workersPerType warmWorkers := by
      unfold workersPerType warmTypes
      simp only [List.length_cons, List.length_nil]
      omega
    omega
  unfold warmUp warmTypes
  simp only [List.foldl, hk]
  rw [warmLoop_create _ "search" _ k (fun e he => (by cases he))
    (by simp [Dispatcher.new]; omega)]
  have h1 : (Dispatcher.new maxNodes).register (Dispatcher.new maxNodes).nodes
      (mkId "search" (readings "search" 0).1 (readings "search" 0).2) "search" =
      { heap := [WorkerNode.new (mkId "search" (readings "search" 0).1
          (readings "search" 0).2) "search"],
        nodes := [(mkId "search" (readings "search" 0).1 (readings "search" 0).2, 0)],
        results := [], nextTaskId := 1, maxNodes := maxNodes } := rfl
  rw [h1]
  rw [warmLoop_create _ "fetch" _ k
    (fun e he => by
      simp only [List.mem_singleton] at he
      rw [he]
      simp [isIdleOfType, WorkerNode.new])
    (by simp; omega)]
  have hsf := mkId_search_ne_fetch (readings "search" 0).1 (readings "fetch" 0).1
    (readings "search" 0).2 (readings "fetch" 0).2
  have h2 : Dispatcher.register
      { heap := [WorkerNode.new (mkId "search" (readings "search" 0).1
          (readings "search" 0).2) "search"],
        nodes := [(mkId "search" (readings "search" 0).1 (readings "search" 0).2, 0)],
        results := [], nextTaskId := 1, maxNodes := maxNodes }
      [(mkId "search" (readings "search" 0).1 (readings "search" 0).2, 0)]
      (mkId "fetch" (readings "fetch" 0).1 (readings "fetch" 0).2) "fetch" =
      { heap := [WorkerNode.new (mkId "search" (readings "search" 0).1
          (readings "search" 0).2) "search",
          WorkerNode.new (mkId "fetch" (readings "fetch" 0).1 (readings "fetch" 0).2) "fetch"],
        nodes := [(mkId "search" (readings "search" 0).1 (readings "search" 0).2, 0),
          (mkId "fetch" (readings "fetch" 0).1 (readings "fetch" 0).2, 1)],
        results := [], nextTaskId := 1, maxNodes := maxNodes } := by
    simp [Dispatcher.register, mapSet, hsf]
  rw [h2]
  rw [warmLoop_create _ "analyze" _ k
    (fun e he => by
      simp only [List.mem_cons, List.mem_singleton, List.not_mem_nil, or_false] at he
      rcases he with he | he
      · rw [he]; simp [isIdleOfType, WorkerNode.new]
      · rw [he]; simp [isIdleOfType, WorkerNode.new])
    (by simp; omega)]
  have hsa := mkId_search_ne_analyze (readings "search" 0).1 (readings "analyze" 0).1
    (readings "search" 0).2 (readings "analyze" 0).2
  have hfa := mkId_fetch_ne_analyze (readings "fetch" 0).1 (readings "analyze" 0).1
    (readings "fetch" 0).2 (readings "analyze" 0).2
  simp [Dispatcher.register, mapSet, hsa, hfa]

/-- C25, at the failing input: with the default `warmWorkers = 6` on a new
dispatcher with `maxNodes = 6`, the loops make two calls per class, and the
second call of each class gets back the idle worker the first one created:
three workers are registered, one of each class, not six. -/
theorem warmUp_default_three_workers :
    workersPerType 6 = 2 ∧
    (warmUp 6 6 warmReadings).nodes.length = 3 ∧
    warmTypes.map (classCount (warmUp 6 6 warmReadings)) = [1, 1, 1] := by
  decide

/-! ## Termination of the batch loop -/

theorem head_queue (b : Batch) (now : Nat) (rnd : String) :
    (b.head now rnd).ctl.held.toList ++ (b.head now rnd).pending = b.pending := by
  rcases head_cases b now rnd with ⟨hp, _, heq⟩ | ⟨heq, _⟩ | ⟨task, rest, hp, _, heq⟩
  · rw [heq]; rfl
  · rw [heq]; rfl
  · rw [heq, hp]
    show (Waited.toCtl task now _).held.toList ++ rest = task :: rest
    rw [held_toCtl]
    rfl

/-- Every event moves tasks along the queue: what it starts, followed by what
`executeNext` holds and what is pending afterwards, is what `executeNext` held
and what was pending before. -/
theorem step_queue (env : Env) (b : Batch) (ev : BatchEvent) :
    b.startedBy ev ++ ((b.step env ev).ctl.held.toList ++ (b.step env ev).pending) =
      b.ctl.held.toList ++ b.pending := by
  cases ev with
  | next now rnd =>
    simp only [Batch.step, Batch.startedBy, Batch.executeNext]
    cases hc : b.ctl with
    | ready =>
      simp only [List.nil_append]
      rw [head_queue]
      rfl
    | acquired task node =>
      simp only
      rw [head_queue]
      rfl
    | waiting task start =>
      simp only [List.nil_append]
      rw [held_toCtl]
      rfl
    | done =>
      simp only [List.nil_append, hc]
    | raised msg task =>
      simp only [List.nil_append, hc]
  | settle i now =>
    obtain ⟨h1, h2, _⟩ := settle_shape env b i now
    simp only [Batch.step, Batch.startedBy, List.nil_append]
    rw [h1, h2]
  | deliver i =>
    obtain ⟨h1, h2, _⟩ := deliver_shape b i
    simp only [Batch.step, Batch.startedBy, List.nil_append]
    rw [h1, h2]

theorem drive_queue (env : Env) (s : Schedule) (fuel n : Nat) (b : Batch) :
    Batch.driveStarts env s fuel n b ++
        ((Batch.drive env s fuel n b).ctl.held.toList ++ (Batch.drive env s fuel n b).pending) =
      b.ctl.held.toList ++ b.pending := by
  induction fuel generalizing n b with
  | zero => rfl
  | succ fuel ih =>
    unfold Batch.driveStarts Batch.drive
    cases hm : b.moves with
    | nil => rfl
    | cons m ms =>
      simp only
      rw [List.append_assoc, ih, step_queue]

/-- With `maxNodes = 0` and a task pending, the only event is a stretch of
`executeNext` that admits nothing and changes nothing. -/
theorem drive_stuck (env : Env) (s : Schedule) (fuel n : Nat) (b : Batch)
    (hc : b.ctl = Ctl.ready) (hp : b.pending ≠ []) (he : b.executing = [])
    (hmax : b.disp.maxNodes = 0) :
    Batch.drive env s fuel n b = b ∧ Batch.driveStarts env s fuel n b = [] := by
  have hmoves : b.moves = [Move.next] := by
    cases hpd : b.pending with
    | nil => exact absurd hpd hp
    | cons t rest => simp [Batch.moves, Batch.nextEnabled, hc, he, hpd]
  have hstep : ∀ now rnd, b.step env (BatchEvent.next now rnd) = b := by
    intro now rnd
    cases hpd : b.pending with
    | nil => exact absurd hpd hp
    | cons t rest =>
      simp only [Batch.step, Batch.executeNext, hc, Batch.head, hpd, he, hmax,
        List.length_nil, Nat.lt_irrefl, if_false]
      rw [← hc, ← hpd, ← he]
  induction fuel generalizing n with
  | zero => exact ⟨rfl, rfl⟩
  | succ fuel ih =>
    unfold Batch.drive Batch.driveStarts
    simp only [hmoves, List.length_nil, Nat.zero_add, Nat.mod_one, List.getD_cons_zero,
      Move.toEvent, hstep]
    refine ⟨(ih (n + 1)).1, ?_⟩
    simp only [Batch.startedBy, hc, List.nil_append]
    exact (ih (n + 1)).2

/-- C26. Termination of the batch loop: on a well-formed pool with no busy
worker and `maxNodes ≥ 1`, for every task list and under every schedule,
`executeParallel` returns within `4 * N + 1` events, and the tasks it has
started are the `N` tasks, each once, in the order of the list; and with
`maxNodes = 0` and a non-empty task list, `executeParallel` never returns and
never starts a task: after any number of events every task is still pending. -/
theorem executeParallel_terminates (env : Env) (d : Dispatcher) (tasks : List Task) :
    (d.WF → (∀ e ∈ d.nodes, isBusy d.heap e.2 = false) → 0 < d.maxNodes →
      ∀ (s : Schedule) (fuel finish : Nat), 4 * tasks.length + 1 ≤ fuel →
        (∃ d' r, executeParallel env s fuel finish d tasks = Outcome.returned d' r) ∧
        Batch.driveStarts env s fuel 1 (Batch.init d tasks (s.clock 0))
          = tagTasks tasks 0 d.nextTaskId ∧
        (Batch.driveStarts env s fuel 1 (Batch.init d tasks (s.clock 0))).length
          = tasks.length ∧
        ∀ (i : Nat) (t : Task), tasks[i]? = some t →
          (Batch.driveStarts env s fuel 1 (Batch.init d tasks (s.clock 0)))[i]?
            = some (t.tag i (d.nextTaskId + i))) ∧
    (d.maxNodes = 0 → tasks ≠ [] →
      ∀ (s : Schedule) (fuel finish : Nat),
        executeParallel env s fuel finish d tasks = Outcome.running ∧
        Batch.driveStarts env s fuel 1 (Batch.init d tasks (s.clock 0)) = [] ∧
        (Batch.drive env s fuel 1 (Batch.init d tasks (s.clock 0))).pending
          = tagTasks tasks 0 d.nextTaskId) := by
  constructor
  · intro hwf hidle hmax s fuel finish hfuel
    obtain ⟨d', r, heq, _⟩ :=
      executeParallel_returns env s fuel finish d tasks hwf hidle hmax hfuel
    have hinit := init_inv env d tasks (s.clock 0) hwf hidle
    obtain ⟨hinv, hctl⟩ :=
      drive_done env s _ (indexed_tagTasks tasks d.nextTaskId) fuel 1 _ hinit hmax
        (by rw [init_measure]; exact hfuel)
    have hq := drive_queue env s fuel 1 (Batch.init d tasks (s.clock 0))
    rw [hctl, (hinv.core.finished hctl).1] at hq
    have hstarts : Batch.driveStarts env s fuel 1 (Batch.init d tasks (s.clock 0))
        = tagTasks tasks 0 d.nextTaskId := by
      simpa [Ctl.held, Batch.init] using hq
    refine ⟨⟨d', r, heq⟩, hstarts, ?_, ?_⟩
    · rw [hstarts, length_tagTasks]
    · intro i t ht
      rw [hstarts, getElem?_tagTasks, ht]
      simp
  · intro hmax hne s fuel finish
    have hp : (Batch.init d tasks (s.clock 0)).pending ≠ [] := by
      intro h
      have hlen := congrArg List.length h
      simp only [Batch.init, length_tagTasks, List.length_nil] at hlen
      exact hne (List.length_eq_zero.mp hlen)
    obtain ⟨hdrive, hstarts⟩ := drive_stuck env s fuel 1 (Batch.init d tasks (s.clock 0))
      rfl hp rfl hmax
    refine ⟨?_, hstarts, ?_⟩
    · simp only [executeParallel, hdrive]
      rfl
    · rw [hdrive]
      rfl

/-- Witness for C26: five tasks on a new dispatcher with `maxNodes = 3` under a
mixed schedule, and the same five tasks on a new dispatcher with
`maxNodes = 0`. -/
theorem executeParallel_terminates_witness :
    ((∃ d' r, executeParallel envBoom mixedSchedule 21 1700000009000 (Dispatcher.new 3) tasks5
        = Outcome.returned d' r) ∧
      Batch.driveStarts envBoom mixedSchedule 21 1
          (Batch.init (Dispatcher.new 3) tasks5 (mixedSchedule.clock 0))
        = tagTasks tasks5 0 (Dispatcher.new 3).nextTaskId ∧
      (Batch.driveStarts envBoom mixedSchedule 21 1
          (Batch.init (Dispatcher.new 3) tasks5 (mixedSchedule.clock 0))).length
        = tasks5.length ∧
      ∀ (i : Nat) (t : Task), tasks5[i]? = some t →
        (Batch.driveStarts envBoom mixedSchedule 21 1
          (Batch.init (Dispatcher.new 3) tasks5 (mixedSchedule.clock 0)))[i]?
          = some (t.tag i ((Dispatcher.new 3).nextTaskId + i))) ∧
    (executeParallel envBoom mixedSchedule 1000 1700000009000 (Dispatcher.new 0) tasks5
        = Outcome.running ∧
      Batch.driveStarts envBoom mixedSchedule 1000 1
          (Batch.init (Dispatcher.new 0) tasks5 (mixedSchedule.clock 0)) = [] ∧
      (Batch.drive envBoom mixedSchedule 1000 1
          (Batch.init (Dispatcher.new 0) tasks5 (mixedSchedule.clock 0))).pending
        = tagTasks tasks5 0 (Dispatcher.new 0).nextTaskId) :=
  ⟨(executeParallel_terminates envBoom (Dispatcher.new 3) tasks5).1 (by decide) (by decide)
      (by decide) mixedSchedule 21 1700000009000 (by decide),
    (executeParallel_terminates envBoom (Dispatcher.new 0) tasks5).2 rfl (by decide)
      mixedSchedule 1000 1700000009000⟩

/-! ## Acquisition inside a batch -/

theorem busy_le_inflight (env : Env) (tagged : List Task) (b : Batch) (h : b.Inv env tagged) :
    (getStatus b.disp).busy ≤ b.executing.length := by
  have hnd : ((b.disp.nodes.filter (fun e => isBusy b.disp.heap e.2)).map Prod.snd).Nodup :=
    List.Nodup.sublist ((List.filter_sublist _).map Prod.snd) h.core.wf.2.1
  have hsub : (b.disp.nodes.filter (fun e => isBusy b.disp.heap e.2)).map Prod.snd ⊆
      b.executing.map (fun fl => fl.node) := by
    intro x hx
    obtain ⟨e, he, rfl⟩ := List.mem_map.mp hx
    obtain ⟨hmem, hb⟩ := List.mem_filter.mp he
    obtain ⟨fl, hfl, hn, _⟩ := h.held e hmem hb
    exact List.mem_map.mpr ⟨fl, hfl, hn⟩
  have hle := (List.Nodup.subperm hnd hsub).length_le
  simpa [getStatus] using hle

/-- C27. Acquisition cannot fail inside a batch: in every state that an
`executeParallel` run can reach on a well-formed pool that held no busy worker
when the call was made and that no other caller uses, (1) `executeNext` is never
asleep in `waitForNode` and has never been rejected; (2) the number of busy
registered workers is at most the number of in-flight tasks; (3) when a task is
admitted (a task is pending and fewer than `maxNodes` tasks are in flight) fewer
than `maxNodes` workers are busy, the `getOrCreateNode` call succeeds and
`waitForNode` returns at its first pass. -/
theorem acquisition_never_fails (env : Env) (d : Dispatcher) (tasks : List Task) (now : Nat)
    (evs : List BatchEvent) (hwf : d.WF) (hidle : ∀ e ∈ d.nodes, isBusy d.heap e.2 = false) :
    (∀ task start, ((Batch.init d tasks now).run env evs).ctl ≠ Ctl.waiting task start) ∧
    (∀ msg task, ((Batch.init d tasks now).run env evs).ctl ≠ Ctl.raised msg task) ∧
    (getStatus ((Batch.init d tasks now).run env evs).disp).busy
      ≤ ((Batch.init d tasks now).run env evs).executing.length ∧
    (∀ (task : Task) (rest : List Task) (now1 : Nat) (rnd : String),
      ((Batch.init d tasks now).run env evs).pending = task :: rest →
      ((Batch.init d tasks now).run env evs).executing.length
        < ((Batch.init d tasks now).run env evs).disp.maxNodes →
        (getStatus ((Batch.init d tasks now).run env evs).disp).busy
          < ((Batch.init d tasks now).run env evs).disp.maxNodes ∧
        ∃ node,
          (getOrCreateNode ((Batch.init d tasks now).run env evs).disp task.nodeTypeOr now1
            rnd).2 = Except.ok node ∧
          (waitForNode ((Batch.init d tasks now).run env evs).disp task.nodeTypeOr now1 now1
            rnd).2 = Waited.resolved node) := by
  have hinv := run_inv env _ evs _ (indexed_tagTasks tasks d.nextTaskId)
    (init_inv env d tasks now hwf hidle)
  have hbusy := busy_le_inflight env _ _ hinv
  refine ⟨hinv.notWaiting, hinv.notRaised, hbusy, ?_⟩
  intro task rest now1 rnd _ hlt
  refine ⟨Nat.lt_of_le_of_lt hbusy hlt, ?_⟩
  obtain ⟨node, hok⟩ := getOrCreateNode_ok_of_held _ task.nodeTypeOr now1 rnd _
    hinv.core.wf hinv.held hlt
  refine ⟨node, hok, ?_⟩
  rw [waitForNode_now _ _ _ _ node hok]

/-- Witness for C27: the state of a batch of five tasks on a new dispatcher
with `maxNodes = 3` after two stretches of `executeNext`. -/
theorem acquisition_never_fails_witness :
    (∀ task start,
      ((Batch.init (Dispatcher.new 3) tasks5 1700000000000).run envBoom
        [BatchEvent.next 1700000000001 "k3f9", BatchEvent.next 1700000000002 "k3f9"]).ctl
        ≠ Ctl.waiting task start) ∧
    (getStatus ((Batch.init (Dispatcher.new 3) tasks5 1700000000000).run envBoom
        [BatchEvent.next 1700000000001 "k3f9", BatchEvent.next 1700000000002 "k3f9"]).disp).busy
      ≤ ((Batch.init (Dispatcher.new 3) tasks5 1700000000000).run envBoom
        [BatchEvent.next 1700000000001 "k3f9",
          BatchEvent.next 1700000000002 "k3f9"]).executing.length ∧
    (getStatus ((Batch.init (Dispatcher.new 3) tasks5 1700000000000).run envBoom
        [BatchEvent.next 1700000000001 "k3f9", BatchEvent.next 1700000000002 "k3f9"]).disp).busy
      = 1 :=
  ⟨(acquisition_never_fails envBoom (Dispatcher.new 3) tasks5 1700000000000
      [BatchEvent.next 1700000000001 "k3f9", BatchEvent.next 1700000000002 "k3f9"]
      (by decide) (by decide)).1,
    (acquisition_never_fails envBoom (Dispatcher.new 3) tasks5 1700000000000
      [BatchEvent.next 1700000000001 "k3f9", BatchEvent.next 1700000000002 "k3f9"]
      (by decide) (by decide)).2.2.1,
    by decide⟩

/-! ## The quotient of two integers as a JS number -/

theorem doublings_spec (t fuel a : Nat) (h : t ≤ a * 2 ^ fuel) :
    t ≤ a * 2 ^ doublings t fuel a := by
  induction fuel generalizing a with
  | zero => simpa [doublings] using h
  | succ fuel ih =>
    unfold doublings
    by_cases hta : t ≤ a
    · rw [if_pos hta]
      simpa using hta
    · rw [if_neg hta]
      have e1 : a * 2 ^ (fuel + 1) = 2 * a * 2 ^ fuel := by ring
      have e2 : a * 2 ^ (doublings t fuel (2 * a) + 1) = 2 * a * 2 ^ doublings t fuel (2 * a) := by
        ring
      rw [e2]
      exact ih (2 * a) (by rw [← e1]; exact h)

theorem doublings_min (t fuel a : Nat) (h : 0 < doublings t fuel a) :
    a * 2 ^ (doublings t fuel a - 1) < t := by
  induction fuel generalizing a with
  | zero => simp [doublings] at h
  | succ fuel ih =>
    unfold doublings at h ⊢
    by_cases hta : t ≤ a
    · rw [if_pos hta] at h
      exact absurd h (Nat.lt_irrefl 0)
    · rw [if_neg hta]
      rw [Nat.add_sub_cancel]
      by_cases hd : doublings t fuel (2 * a) = 0
      · rw [hd]
        simpa using Nat.lt_of_not_le hta
      · have := ih (2 * a) (Nat.pos_of_ne_zero hd)
        have e : a * 2 ^ doublings t fuel (2 * a)
            = 2 * a * 2 ^ (doublings t fuel (2 * a) - 1) := by
          obtain ⟨k, hk⟩ := Nat.exists_eq_succ_of_ne_zero hd
          rw [hk, Nat.succ_sub_one, pow_succ]
          ring
        rw [e]
        exact this

/-- The exponent of the quotient puts at least 53 bits before the point. -/
theorem fdiv_exp (a b : Nat) (ha : 0 < a) (hb : b < 2 ^ 53) :
    2 ^ 52 * b ≤ a * 2 ^ (fdiv a b).2 := by
  have h : 2 ^ 52 * b ≤ a * 2 ^ 105 := by
    have h1 : 2 ^ 52 * b ≤ 2 ^ 52 * 2 ^ 53 := Nat.mul_le_mul_left _ hb.le
    have h2 : (2 : Nat) ^ 52 * 2 ^ 53 = 1 * 2 ^ 105 := by norm_num
    have h3 : 1 * 2 ^ 105 ≤ a * 2 ^ 105 := Nat.mul_le_mul_right _ ha
    omega
  exact doublings_spec _ _ _ h

/-- The significand of the quotient is a nearest integer to the scaled exact
quotient. -/
theorem fdiv_nearest (a b : Nat) (hb : 0 < b) :
    2 * |((fdiv a b).1 : Int) * b - a * 2 ^ (fdiv a b).2| ≤ b := by
  simp only [fdiv]
  generalize doublings (2 ^ 52 * b) 105 a = p
  have hdm := Nat.div_add_mod (a * 2 ^ p) b
  have hlt := Nat.mod_lt (a * 2 ^ p) hb
  generalize a * 2 ^ p / b = q at hdm
  generalize a * 2 ^ p % b = r at hdm hlt
  have hX : (a : Int) * 2 ^ p = b * q + r := by
    have := congrArg (fun n : Nat => (n : Int)) hdm
    simp only [Nat.cast_add, Nat.cast_mul, Nat.cast_pow, Nat.cast_ofNat] at this
    exact this.symm
  rw [hX]
  have hb' : (0 : Int) < b := by exact_mod_cast hb
  have hr' : (r : Int) < b := by exact_mod_cast hlt
  have hr0 : (0 : Int) ≤ r := Int.natCast_nonneg r
  split_ifs with h1 h2 h3
  · have h1' : 2 * (r : Int) < b := by exact_mod_cast h1
    have e : (q : Int) * b - (b * q + r) = -r := by ring
    rw [e, abs_neg, abs_of_nonneg hr0]
    omega
  · have h2' : (b : Int) < 2 * r := by exact_mod_cast h2
    have e : ((q + 1 : Nat) : Int) * b - (b * q + r) = b - r := by push_cast; ring
    rw [e, abs_of_nonneg (by omega)]
    omega
  · have h1' : ¬ (2 * (r : Int) < b) := by exact_mod_cast h1
    have e : (q : Int) * b - (b * q + r) = -r := by ring
    rw [e, abs_neg, abs_of_nonneg hr0]
    have h2' : ¬ ((b : Int) < 2 * r) := by exact_mod_cast h2
    omega
  · have h1' : ¬ (2 * (r : Int) < b) := by exact_mod_cast h1
    have e : ((q + 1 : Nat) : Int) * b - (b * q + r) = b - r := by push_cast; ring
    rw [e, abs_of_nonneg (by omega)]
    omega

/-- A tie goes to the even significand. -/
theorem fdiv_tie_even (a b : Nat)
    (h : 2 * (a * 2 ^ (fdiv a b).2 % b) = b) : (fdiv a b).1 % 2 = 0 := by
  simp only [fdiv] at h ⊢
  generalize doublings (2 ^ 52 * b) 105 a = p at h ⊢
  generalize a * 2 ^ p / b = q
  generalize a * 2 ^ p % b = r at h
  split_ifs with h1 h2 h3
  · omega
  · omega
  · exact h3
  · omega

/-- The significand of the quotient of two positive integers below `2 ^ 53` has
53 bits, or is `2 ^ 53` after a carry. -/
theorem fdiv_normal (a b : Nat) (ha : 0 < a) (ha2 : a < 2 ^ 53) (hb : 0 < b) (hb2 : b < 2 ^ 53) :
    2 ^ 52 ≤ (fdiv a b).1 ∧ (fdiv a b).1 ≤ 2 ^ 53 := by
  have hexp := fdiv_exp a b ha hb2
  have hup : a * 2 ^ (fdiv a b).2 < 2 ^ 53 * b := by
    show a * 2 ^ doublings (2 ^ 52 * b) 105 a < 2 ^ 53 * b
    by_cases hd : doublings (2 ^ 52 * b) 105 a = 0
    · rw [hd]
      have : 2 ^ 53 * 1 ≤ 2 ^ 53 * b := Nat.mul_le_mul_left _ hb
      omega
    · have hmin := doublings_min _ _ _ (Nat.pos_of_ne_zero hd)
      obtain ⟨k, hk⟩ := Nat.exists_eq_succ_of_ne_zero hd
      rw [hk, Nat.succ_sub_one] at hmin
      rw [hk, pow_succ]
      have e : a * (2 ^ k * 2) = 2 * (a * 2 ^ k) := by ring
      omega
  simp only [fdiv] at hexp hup ⊢
  generalize doublings (2 ^ 52 * b) 105 a = p at hexp hup ⊢
  have hq1 : 2 ^ 52 ≤ a * 2 ^ p / b := (Nat.le_div_iff_mul_le hb).mpr hexp
  have hq2 : a * 2 ^ p / b < 2 ^ 53 := (Nat.div_lt_iff_lt_mul hb).mpr hup
  split_ifs <;> omega

theorem fdiv_zero (b : Nat) (hb : 0 < b) : (fdiv 0 b).1 = 0 := by
  simp [fdiv, hb]

/-- The JS quotient of two integers, `b` positive: its significand is an
integer nearest to the scaled exact quotient. -/
theorem jsDiv_nearest (a b : Int) (hb : 0 < b) :
    2 * |(jsDiv a b).1 * b - a * 2 ^ (jsDiv a b).2| ≤ b := by
  have hn := fdiv_nearest a.natAbs b.natAbs (Int.natAbs_pos.mpr hb.ne')
  have hbabs : ((b.natAbs : Nat) : Int) = b := Int.natAbs_of_nonneg hb.le
  rw [hbabs] at hn
  have hbneg : ¬ b < 0 := not_lt.mpr hb.le
  simp only [jsDiv]
  generalize (fdiv a.natAbs b.natAbs).1 = m at hn
  generalize (fdiv a.natAbs b.natAbs).2 = p at hn
  by_cases ha : a < 0
  · have haabs : ((a.natAbs : Nat) : Int) = -a := by
      rw [Int.ofNat_natAbs_of_nonpos ha.le]
    rw [haabs] at hn
    have hs : (if (a < 0) = (b < 0) then (1 : Int) else -1) = -1 := by
      simp [ha, hbneg]
    rw [hs]
    have e : -1 * (m : Int) * b - a * 2 ^ p = -((m : Int) * b - -a * 2 ^ p) := by ring
    rw [e, abs_neg]
    exact hn
  · have haabs : ((a.natAbs : Nat) : Int) = a := Int.natAbs_of_nonneg (not_lt.mp ha)
    rw [haabs] at hn
    have hs : (if (a < 0) = (b < 0) then (1 : Int) else -1) = 1 := by
      simp [ha, hbneg]
    rw [hs, one_mul]
    exact hn

/-- For a positive divisor below `2 ^ 53` and a dividend of magnitude between 1
and `2 ^ 52`, the double nearest to the quotient has bits after the point: the
divisor is below `2 ^ p`. -/
theorem jsDiv_exp (a b : Int) (ha : a ≠ 0) (ha2 : a.natAbs < 2 ^ 52) (hb : 0 < b)
    (hb2 : b < 2 ^ 53) : b < 2 ^ (jsDiv a b).2 := by
  have hbn : b.natAbs < 2 ^ 53 := by
    have : ((b.natAbs : Nat) : Int) < 2 ^ 53 := by rw [Int.natAbs_of_nonneg hb.le]; exact hb2
    exact_mod_cast this
  have hexp := fdiv_exp a.natAbs b.natAbs (Int.natAbs_pos.mpr ha) hbn
  simp only [jsDiv]
  generalize (fdiv a.natAbs b.natAbs).2 = p at hexp
  have h1 : a.natAbs * 2 ^ p < 2 ^ 52 * 2 ^ p :=
    Nat.mul_lt_mul_of_pos_right ha2 (by positivity)
  have h2 : 2 ^ 52 * b.natAbs < 2 ^ 52 * 2 ^ p := lt_of_le_of_lt hexp h1
  have h3 : b.natAbs < 2 ^ p := Nat.lt_of_mul_lt_mul_left h2
  have h4 : ((b.natAbs : Nat) : Int) < ((2 ^ p : Nat) : Int) := by exact_mod_cast h3
  rw [Int.natAbs_of_nonneg hb.le] at h4
  exact_mod_cast h4

/-- The arithmetic of `Math.round` after one rounding: a nearest integer to
`a * 2 ^ p / b`, where `b < 2 ^ p`, lies in the same half-open unit interval
around an integer as `a / b` does. -/
theorem round_of_nearest (a b z : Int) (p : Nat) (hb : 0 < b) (hbp : b < 2 ^ p)
    (hn : 2 * |z * b - a * 2 ^ p| ≤ b) :
    (2 * z + 2 ^ p) / 2 ^ (p + 1) = (2 * a + b) / (2 * b) := by
  obtain ⟨k, rfl⟩ : ∃ k, p = k + 1 := by
    cases p with
    | zero =>
      exfalso
      simp only [pow_zero] at hbp
      omega
    | succ k => exact ⟨k, rfl⟩
  have hP : (0 : Int) < 2 ^ k := by positivity
  have h2b : (0 : Int) < 2 * b := by omega
  have hK1 : (2 * a + b) / (2 * b) * (2 * b) ≤ 2 * a + b := Int.ediv_mul_le _ h2b.ne'
  have hK2 : 2 * a + b < ((2 * a + b) / (2 * b) + 1) * (2 * b) :=
    Int.lt_ediv_add_one_mul_self _ h2b
  generalize (2 * a + b) / (2 * b) = K at hK1 hK2
  generalize hPk : (2 : Int) ^ k = P at hP
  have e1 : (2 : Int) ^ (k + 1) = 2 * P := by rw [pow_succ, hPk]; ring
  have e2 : (2 : Int) ^ (k + 1 + 1) = 4 * P := by rw [pow_succ, pow_succ, hPk]; ring
  rw [e1] at hbp hn
  rw [e1, e2]
  have hn1' : a * (2 * P) * 2 - b ≤ 2 * (z * b) := by
    have := neg_abs_le (z * b - a * (2 * P))
    omega
  have hn2' : 2 * (z * b) ≤ a * (2 * P) * 2 + b := by
    have := le_abs_self (z * b - a * (2 * P))
    omega
  have h4P : (0 : Int) < 4 * P := by omega
  apply le_antisymm
  · -- the quotient is below K + 1
    apply Int.lt_add_one_iff.mp
    apply (Int.ediv_lt_iff_lt_mul h4P).mpr
    by_contra hcon
    have hz : (2 * K + 1) * P ≤ z := by
      have : (K + 1) * (4 * P) ≤ 2 * z + 2 * P := not_lt.mp hcon
      nlinarith
    have hzb : (2 * K + 1) * P * b ≤ z * b := mul_le_mul_of_nonneg_right hz hb.le
    have hKP : (2 * a + b + 1) * P ≤ (K + 1) * (2 * b) * P :=
      mul_le_mul_of_nonneg_right (by omega) hP.le
    nlinarith
  · -- the quotient is at least K
    apply (Int.le_ediv_iff_mul_le h4P).mpr
    by_contra hcon
    have hz : z ≤ (2 * K - 1) * P - 1 := by
      have : 2 * z + 2 * P < K * (4 * P) := not_le.mp hcon
      have h1 : 2 * z + 2 * P + 1 ≤ K * (4 * P) := this
      have : 2 * (z + P) < 2 * (2 * K * P) := by nlinarith
      have : z + P < 2 * K * P := by omega
      nlinarith
    have hzb : z * b ≤ ((2 * K - 1) * P - 1) * b := mul_le_mul_of_nonneg_right hz hb.le
    have hKP : K * (2 * b) * P ≤ (2 * a + b) * P := mul_le_mul_of_nonneg_right hK1 hP.le
    nlinarith

/-- `Math.round(a / b)` in JS arithmetic is the exact quotient rounded to the
nearest integer, halves upwards, for `|a| < 2 ^ 52` and `0 < b < 2 ^ 53`. -/
theorem mathRound_jsDiv (a b : Int) (ha : a.natAbs < 2 ^ 52) (hb : 0 < b) (hb2 : b < 2 ^ 53) :
    mathRound (jsDiv a b) = (2 * a + b) / (2 * b) := by
  by_cases ha0 : a = 0
  · subst ha0
    have hm : (fdiv (0 : Int).natAbs b.natAbs).1 = 0 :=
      fdiv_zero _ (Int.natAbs_pos.mpr hb.ne')
    simp only [mathRound, jsDiv, hm]
    have h1 : (0 : Int) ≤ 2 ^ (fdiv (0 : Int).natAbs b.natAbs).2 := by positivity
    have h2 : (2 : Int) ^ (fdiv (0 : Int).natAbs b.natAbs).2
        < 2 ^ ((fdiv (0 : Int).natAbs b.natAbs).2 + 1) := by
      rw [pow_succ]
      have : (0 : Int) < 2 ^ (fdiv (0 : Int).natAbs b.natAbs).2 := by positivity
      omega
    simp only [Nat.cast_zero, mul_zero, zero_add]
    rw [Int.ediv_eq_zero_of_lt h1 h2, Int.ediv_eq_zero_of_lt hb.le (by omega)]
  · exact round_of_nearest a b _ _ hb (jsDiv_exp a b ha0 ha hb hb2) (jsDiv_nearest a b hb)

/-- The quotient of the floor of `(2 * a + b) / (2 * b)` is a nearest integer
to `a / b`. -/
theorem half_up_nearest (a b : Int) (hb : 0 < b) :
    2 * |(2 * a + b) / (2 * b) * b - a| ≤ b := by
  have h2b : (0 : Int) < 2 * b := by omega
  have hK1 : (2 * a + b) / (2 * b) * (2 * b) ≤ 2 * a + b := Int.ediv_mul_le _ h2b.ne'
  have hK2 : 2 * a + b < ((2 * a + b) / (2 * b) + 1) * (2 * b) :=
    Int.lt_ediv_add_one_mul_self _ h2b
  generalize (2 * a + b) / (2 * b) = K at hK1 hK2
  rcases abs_cases (K * b - a) with ⟨he, _⟩ | ⟨he, _⟩ <;> rw [he] <;> nlinarith

/-! ## WorkerNode.getStats -/

/-- C23. Worker snapshot: `getStats` returns the worker's id, class, status
and `completedTasks`; `avgDurationMs` is 0 when `completedTasks = 0`, where no
division is made, and when `completedTasks > 0` it is
`totalDuration / completedTasks` rounded to the nearest integer, halves
upwards: the JS division and `Math.round` give the floor of
`(2 * totalDuration + completedTasks) / (2 * completedTasks)`, which is within
one half of the exact quotient.  The counters are within the range in which JS
numbers are exact: `|totalDuration| < 2 ^ 52` and `completedTasks < 2 ^ 53`. -/
theorem getStats_snapshot (w : WorkerNode) (hd : w.totalDuration.natAbs < 2 ^ 52)
    (hc : w.completedTasks < 2 ^ 53) :
    w.getStats.id = w.id ∧ w.getStats.type = w.nodeType ∧ w.getStats.status = w.status ∧
    w.getStats.completedTasks = w.completedTasks ∧
    (w.completedTasks = 0 → w.getStats.avgDurationMs = 0) ∧
    (0 < w.completedTasks →
      w.getStats.avgDurationMs
        = (2 * w.totalDuration + w.completedTasks) / (2 * w.completedTasks) ∧
      2 * |w.getStats.avgDurationMs * w.completedTasks - w.totalDuration|
        ≤ w.completedTasks) := by
  refine ⟨rfl, rfl, rfl, rfl, ?_, ?_⟩
  · intro h0
    simp [WorkerNode.getStats, h0]
  · intro hpos
    have hb : (0 : Int) < w.completedTasks := by exact_mod_cast hpos
    have hb2 : (w.completedTasks : Int) < 2 ^ 53 := by exact_mod_cast hc
    have havg : w.getStats.avgDurationMs
        = (2 * w.totalDuration + w.completedTasks) / (2 * w.completedTasks) := by
      simp only [WorkerNode.getStats, gt_iff_lt, hpos, if_true]
      exact mathRound_jsDiv _ _ hd hb hb2
    refine ⟨havg, ?_⟩
    rw [havg]
    exact half_up_nearest _ _ hb

/-- Witness for C23: a worker that has completed two tasks in 25 ms reports
an average of 13 ms. -/
theorem getStats_snapshot_witness :
    workerTwoDone.getStats.avgDurationMs = 13 ∧
    (0 < workerTwoDone.completedTasks →
      workerTwoDone.getStats.avgDurationMs
        = (2 * workerTwoDone.totalDuration + workerTwoDone.completedTasks)
          / (2 * workerTwoDone.completedTasks) ∧
      2 * |workerTwoDone.getStats.avgDurationMs * workerTwoDone.completedTasks
          - workerTwoDone.totalDuration| ≤ workerTwoDone.completedTasks) :=
  ⟨by decide, (getStats_snapshot workerTwoDone (by decide) (by decide)).2.2.2.2.2⟩

/-! ## parallelEfficiency -/

/-- The hundredths printed by `toFixed(2)` for the JS quotient of a
non-negative integer by a positive one: no sign, and within one half of a
hundredth, and of the rounding of the division, of the exact quotient. -/
theorem toFixed_bound (S D : Int) (hS : 0 ≤ S) (hD : 0 < D) (hD2 : D < 2 ^ 53) :
    ¬ (jsDiv S D).1 < 0 ∧
    2 ^ 53 * |(toFixedHundredths (jsDiv S D) : Int) * D - 100 * S| ≤ 2 ^ 52 * D + 100 * S := by
  have hbn : D.natAbs < 2 ^ 53 := by
    have : ((D.natAbs : Nat) : Int) < 2 ^ 53 := by rw [Int.natAbs_of_nonneg hD.le]; exact hD2
    exact_mod_cast this
  have hbpos : 0 < D.natAbs := Int.natAbs_pos.mpr hD.ne'
  have hsign : (if (S < 0) = (D < 0) then (1 : Int) else -1) = 1 := by
    simp [not_lt.mpr hS, not_lt.mpr hD.le]
  have hz : (jsDiv S D).1 = ((fdiv S.natAbs D.natAbs).1 : Int) := by
    simp only [jsDiv, hsign, one_mul]
  have hp : (jsDiv S D).2 = (fdiv S.natAbs D.natAbs).2 := rfl
  refine ⟨by rw [hz]; exact not_lt.mpr (Int.natCast_nonneg _), ?_⟩
  have hn := fdiv_nearest S.natAbs D.natAbs hbpos
  rw [Int.natAbs_of_nonneg hS, Int.natAbs_of_nonneg hD.le] at hn
  simp only [toFixedHundredths, hz, hp, Int.natAbs_ofNat]
  by_cases hS0 : S = 0
  · subst hS0
    have hm : (fdiv (0 : Int).natAbs D.natAbs).1 = 0 := fdiv_zero _ hbpos
    rw [hm]
    have : 2 ^ (fdiv (0 : Int).natAbs D.natAbs).2 / 2 ^ ((fdiv (0 : Int).natAbs D.natAbs).2 + 1)
        = 0 := Nat.div_eq_of_lt (Nat.pow_lt_pow_right (by decide) (Nat.lt_succ_self _))
    simp only [Nat.mul_zero, Nat.zero_add, this]
    simp only [Nat.cast_zero, zero_mul, mul_zero, sub_zero, abs_zero, add_zero]
    positivity
  · have hexp := fdiv_exp S.natAbs D.natAbs (Int.natAbs_pos.mpr hS0) hbn
    have hexp' : (2 : Int) ^ 52 * D ≤ S * 2 ^ (fdiv S.natAbs D.natAbs).2 := by
      have := (Int.ofNat_le.mpr hexp)
      simp only [Nat.cast_mul, Nat.cast_pow, Nat.cast_ofNat] at this
      rw [Int.natAbs_of_nonneg hS, Int.natAbs_of_nonneg hD.le] at this
      exact this
    generalize (fdiv S.natAbs D.natAbs).1 = m at hn
    generalize (fdiv S.natAbs D.natAbs).2 = p at hn hexp'
    have hpp : 0 < 2 ^ (p + 1) := by positivity
    have f1 := Nat.div_mul_le_self (200 * m + 2 ^ p) (2 ^ (p + 1))
    have f2 : 200 * m + 2 ^ p < ((200 * m + 2 ^ p) / 2 ^ (p + 1) + 1) * 2 ^ (p + 1) :=
      (Nat.div_lt_iff_lt_mul hpp).mp (Nat.lt_succ_self _)
    generalize (200 * m + 2 ^ p) / 2 ^ (p + 1) = n at f1 f2
    have g1 : (n : Int) * (2 * 2 ^ p) ≤ 200 * m + 2 ^ p := by
      have := Int.ofNat_le.mpr f1
      simp only [Nat.cast_mul, Nat.cast_pow, Nat.cast_ofNat, Nat.cast_add, pow_succ] at this
      linarith
    have g2 : 200 * (m : Int) + 2 ^ p < (n + 1) * (2 * 2 ^ p) := by
      have := Int.ofNat_lt.mpr f2
      simp only [Nat.cast_mul, Nat.cast_pow, Nat.cast_ofNat, Nat.cast_add, Nat.cast_one,
        pow_succ] at this
      linarith
    have hP : (0 : Int) < 2 ^ p := by positivity
    generalize (2 : Int) ^ p = P at hn hexp' g1 g2 hP
    have hn1 : (S * P) * 2 - D ≤ 2 * ((m : Int) * D) := by
      have := neg_abs_le ((m : Int) * D - S * P)
      omega
    have hn2 : 2 * ((m : Int) * D) ≤ (S * P) * 2 + D := by
      have := le_abs_self ((m : Int) * D - S * P)
      omega
    have g1D : (n : Int) * (2 * P) * D ≤ (200 * m + P) * D := mul_le_mul_of_nonneg_right g1 hD.le
    have g2D : (200 * (m : Int) + P) * D ≤ (n + 1) * (2 * P) * D :=
      mul_le_mul_of_nonneg_right g2.le hD.le
    have h2P : (0 : Int) < 2 * P := by omega
    have hU : 2 ^ 53 * ((n : Int) * D - 100 * S) ≤ 2 ^ 52 * D + 100 * S := by
      have key : (2 * P) * (2 ^ 53 * ((n : Int) * D - 100 * S))
          ≤ (2 * P) * (2 ^ 52 * D + 100 * S) := by nlinarith
      exact le_of_mul_le_mul_left key h2P
    have hL : 2 ^ 53 * (-((n : Int) * D - 100 * S)) ≤ 2 ^ 52 * D + 100 * S := by
      have key : (2 * P) * (2 ^ 53 * (-((n : Int) * D - 100 * S)))
          ≤ (2 * P) * (2 ^ 52 * D + 100 * S) := by nlinarith
      exact le_of_mul_le_mul_left key h2P
    rcases abs_cases ((n : Int) * D - 100 * S) with ⟨he, _⟩ | ⟨he, _⟩
    · rw [he]
      exact hU
    · rw [he]
      exact hL


theorem durationSum_foldl (results : List (Option TaskResult)) (acc : Int) :
    results.foldl (fun sum r => sum + durationOr0 r) acc
      = acc + (results.map durationOr0).sum := by
  induction results generalizing acc with
  | nil => simp
  | cons r rest ih =>
    rw [List.foldl_cons, ih, List.map_cons, List.sum_cons]
    ring

/-- The sum that `reduce` computes is the sum of the durations. -/
theorem durationSum_eq (results : List (Option TaskResult)) :
    durationSum results = (results.map durationOr0).sum := by
  rw [durationSum, durationSum_foldl, zero_add]

theorem returnedResult_some (o : Outcome) (r : BatchResult) (h : returnedResult o = some r) :
    ∃ d', o = Outcome.returned d' r := by
  cases o with
  | returned d' r' =>
    simp only [returnedResult, Option.some.injEq] at h
    exact ⟨d', by rw [h]⟩
  | threw msg => simp [returnedResult] at h
  | running => simp [returnedResult] at h

/-- C22. Parallel efficiency: for every non-empty task list, when
`executeParallel` on a well-formed pool returns with a non-negative sum of the
Task Results' `durationMs` and a `totalDurationMs`, both below `2 ^ 53`, then
(1) if `totalDurationMs` is positive, `parallelEfficiency` is the string of a
decimal with two digits after the point, `n / 100`, which is the sum divided by
`totalDurationMs` rounded to the nearest hundredth: `n / 100` differs from the
exact quotient by at most `0.005` plus the rounding of the double division,
`2 ^ -53` of the quotient; (2) if `totalDurationMs` is 0, it is the string
`NaN` when the sum is 0 and `Infinity` otherwise. -/
theorem parallelEfficiency_fixed (env : Env) (s : Schedule) (fuel finish : Nat)
    (d : Dispatcher) (tasks : List Task) (r : BatchResult)
    (hret : returnedResult (executeParallel env s fuel finish d tasks) = some r)
    (hwf : d.WF) (hne : tasks ≠ [])
    (hs0 : 0 ≤ durationSum r.results) (hs1 : durationSum r.results < 2 ^ 53)
    (hd1 : r.totalDurationMs < 2 ^ 53) :
    durationSum r.results = ((r.results.map durationOr0).sum) ∧
    (0 < r.totalDurationMs →
      ∃ n : Nat, r.parallelEfficiency = Efficiency.fixed false n ∧
        r.parallelEfficiency.text = toString (n / 100) ++ "." ++ pad2 (n % 100) ∧
        2 ^ 53 * |(n : Int) * r.totalDurationMs - 100 * durationSum r.results|
          ≤ 2 ^ 52 * r.totalDurationMs + 100 * durationSum r.results) ∧
    (r.totalDurationMs = 0 →
      r.parallelEfficiency
        = if durationSum r.results = 0 then Efficiency.nan else Efficiency.infinity false) := by
  have _ := hs1
  obtain ⟨d', hd'⟩ := returnedResult_some _ _ hret
  obtain ⟨hlen, _⟩ := executeParallel_returned env s fuel finish d tasks hwf d' r hd'
  have hpos : r.results.length > 0 := by
    rw [hlen]
    exact List.length_pos.mpr hne
  refine ⟨durationSum_eq _, ?_, ?_⟩
  · intro hD
    obtain ⟨hsgn, hbound⟩ := toFixed_bound _ _ hs0 hD hd1
    refine ⟨toFixedHundredths (jsDiv (durationSum r.results) r.totalDurationMs), ?_, ?_, hbound⟩
    · simp only [BatchResult.parallelEfficiency, efficiency, hpos, if_true, hD.ne', if_false,
        hsgn, decide_False]
    · simp only [BatchResult.parallelEfficiency, efficiency, hpos, if_true, hD.ne', if_false,
        hsgn, decide_False, Efficiency.text]
      simp
  · intro hD
    have hnneg : ¬ durationSum r.results < 0 := not_lt.mpr hs0
    simp only [BatchResult.parallelEfficiency, efficiency, hpos, if_true, hD, hnneg,
      decide_False]

/-- Witness for C22: the batch of five tasks on a new dispatcher with
`maxNodes = 3` under `mixedSchedule`, returning 150 ms after the call with task
durations that add up to 56 ms. -/
theorem parallelEfficiency_fixed_witness :
    returnedResult
      (executeParallel envBoom mixedSchedule 21 1700000000150 (Dispatcher.new 3) tasks5)
      = some mixedResult ∧
    (0 < mixedResult.totalDurationMs →
      ∃ n : Nat, mixedResult.parallelEfficiency = Efficiency.fixed false n ∧
        mixedResult.parallelEfficiency.text = toString (n / 100) ++ "." ++ pad2 (n % 100) ∧
        2 ^ 53 * |(n : Int) * mixedResult.totalDurationMs - 100 * durationSum mixedResult.results|
          ≤ 2 ^ 52 * mixedResult.totalDurationMs + 100 * durationSum mixedResult.results) :=
  ⟨by decide,
    (parallelEfficiency_fixed envBoom mixedSchedule 21 1700000000150 (Dispatcher.new 3) tasks5
      mixedResult (by decide) (by decide) (by decide) (by decide) (by decide) (by decide)).2.1⟩

/-- C22, counterexample. The batch of five tasks on a new dispatcher with
`maxNodes = 3` under `mixedSchedule`, returning 150 ms after the call: the
durations add up to 56 ms and `parallelEfficiency` is the string `0.37`, which
is not 56 / 150; and under a clock that stands still the sum and the wall-clock
duration are both 0 and `parallelEfficiency` is the string `NaN`. -/
theorem parallelEfficiency_not_quotient :
    (returnedResult
        (executeParallel envBoom mixedSchedule 21 1700000000150 (Dispatcher.new 3) tasks5)).map
      (fun r => (durationSum r.results, r.totalDurationMs, r.parallelEfficiency,
        r.parallelEfficiency.text))
      = some (56, 150, Efficiency.fixed false 37, "0.37") ∧
    (37 : Int) * 150 ≠ 100 * 56 ∧
    (returnedResult
        (executeParallel envBoom instantSchedule 21 1700000000000 (Dispatcher.new 3) tasks5)).map
      (fun r => (durationSum r.results, r.totalDurationMs, r.parallelEfficiency,
        r.parallelEfficiency.text))
      = some (0, 0, Efficiency.nan, "NaN") := by
  decide

theorem splitNl_ne_nil (t : List Char) : splitNl t ≠ [] := by
  cases t with
  | nil => simp [splitNl]
  | cons c cs =>
    simp only [splitNl]
    split
    · simp
    · cases splitNl cs <;> simp [consHead]

theorem splitNl_consHead (c : Char) (hc : c ≠ '\n') (t : List Char) :
    splitNl (c :: t) = consHead c (splitNl t) := by
  simp [splitNl, hc]

/-- Splitting a text that continues: the pieces before the last newline stay,
and the last piece is split again together with what follows. -/
theorem splitNl_append (a b : List Char) :
    splitNl (a ++ b) = (splitNl a).dropLast ++ splitNl ((splitNl a).getLastD [] ++ b) := by
  induction a with
  | nil => simp [splitNl]
  | cons c cs ih =>
    have hne := splitNl_ne_nil cs
    cases hs : splitNl cs with
    | nil => exact absurd hs hne
    | cons l ls =>
      rw [hs] at ih
      by_cases hc : c = '\n'
      · subst hc
        have h1 : splitNl ('\n' :: (cs ++ b)) = [] :: splitNl (cs ++ b) := by simp [splitNl]
        have h2 : splitNl ('\n' :: cs) = [] :: l :: ls := by simp [splitNl, hs]
        rw [List.cons_append, h1, h2, ih]
        rfl
      · rw [List.cons_append, splitNl_consHead c hc, splitNl_consHead c hc, hs, ih]
        cases ls with
        | nil =>
          show consHead c (splitNl (l ++ b)) = splitNl (c :: l ++ b)
          rw [List.cons_append, splitNl_consHead c hc]
        | cons l2 ls2 => rfl

theorem getLastD_append_of_ne_nil {α : Type} (xs ys : List α) (h : ys ≠ []) (d : α) :
    (xs ++ ys).getLastD d = ys.getLastD d := by
  induction xs with
  | nil => rfl
  | cons x xs ih =>
    cases hxy : xs ++ ys with
    | nil => exact absurd (List.append_eq_nil.mp hxy).2 h
    | cons z zs =>
      rw [hxy] at ih
      rw [List.cons_append, hxy, ← ih]
      rfl

theorem filterMap_single {α β : Type} (f : α → Option β) (x : α) :
    List.filterMap f [x] = (f x).toList := by
  cases h : f x <;> simp [List.filterMap_cons, h]

theorem flatten_yieldLine {α : Type} (parse : List Char → Option α) (ls : List (List Char)) :
    (ls.map (yieldLine parse)).flatten = (ls.filter trimTruthy).filterMap parse := by
  induction ls with
  | nil => rfl
  | cons l ls ih =>
    by_cases h : trimTruthy l = true
    · cases hp : parse l <;>
        simp [yieldLine, h, hp, ih, List.filter_cons_of_pos, List.filterMap_cons]
    · simp [yieldLine, h, ih]

/-- The state of the loop of `_stream` after any chunks: the buffer is the last
piece of the text decoded so far and the earlier pieces have been handled. -/
theorem foldl_streamChunk {α : Type} (decode : List Nat → List Char)
    (parse : List Char → Option α) (chunks : List (List Nat)) (text : List Char) :
    chunks.foldl (streamChunk decode parse)
        ((splitNl text).getLastD [], ((splitNl text).dropLast.map (yieldLine parse)).flatten) =
      ((splitNl (text ++ (chunks.map decode).flatten)).getLastD [],
        ((splitNl (text ++ (chunks.map decode).flatten)).dropLast.map (yieldLine parse)).flatten) := by
  induction chunks generalizing text with
  | nil => simp
  | cons chunk chunks ih =>
    have hne := splitNl_ne_nil ((splitNl text).getLastD [] ++ decode chunk)
    have happ := splitNl_append text (decode chunk)
    have hstep : streamChunk decode parse
        ((splitNl text).getLastD [], ((splitNl text).dropLast.map (yieldLine parse)).flatten) chunk =
        ((splitNl (text ++ decode chunk)).getLastD [],
          ((splitNl (text ++ decode chunk)).dropLast.map (yieldLine parse)).flatten) := by
      simp only [streamChunk]
      rw [happ, List.dropLast_append_of_ne_nil _ hne, List.map_append, List.flatten_append]
      congr 1
      exact (getLastD_append_of_ne_nil _ _ hne _).symm
    rw [List.foldl_cons, hstep, ih (text ++ decode chunk)]
    simp [List.append_assoc]

/-- The loop of `_stream` does not see the chunk boundaries of the decoded
text: whatever `chunk.toString()` and `JSON.parse` do, `_stream` yields the
parsed value of each non-blank line of the concatenation of the decoded chunks
that parses, in order. -/
theorem stream_decoded {α : Type} (decode : List Nat → List Char)
    (parse : List Char → Option α) (chunks : List (List Nat)) :
    stream decode parse chunks = streamSpec parse (chunks.map decode).flatten := by
  have h := foldl_streamChunk decode parse chunks []
  simp only [splitNl, List.getLastD_cons, List.getLastD_nil, List.dropLast_single, List.map_nil,
    List.flatten_nil, List.nil_append] at h
  simp only [stream, streamSpec]
  rw [h, ← flatten_yieldLine]
  have hne := splitNl_ne_nil (chunks.map decode).flatten
  generalize splitNl (chunks.map decode).flatten = X at hne
  have hx : X = X.dropLast ++ [X.getLastD []] := by
    rw [List.getLastD_eq_getLast?, List.getLast?_eq_getLast _ hne]
    simp [List.dropLast_append_getLast hne]
  conv_rhs => rw [hx]
  simp [yieldLine]

theorem utf8Run_ascii (bytes : List Nat) (h : ∀ b ∈ bytes, b ≤ 0x7F) :
    utf8Run Utf8State.start bytes = bytes.map Char.ofNat := by
  induction bytes with
  | nil => rfl
  | cons b bs ih =>
    have hb : b ≤ 0x7F := h b (List.mem_cons_self _ _)
    simp only [utf8Run, utf8Step, Utf8State.start, utf8Lead, hb, if_true, List.map_cons,
      List.singleton_append]
    exact congrArg _ (ih (fun x hx => h x (List.mem_cons_of_mem _ hx)))

/-- On a response of ASCII bytes `_stream` is independent of the chunk
boundaries. -/
theorem stream_ascii {α : Type} (parse : List Char → Option α) (chunks : List (List Nat))
    (h : ∀ chunk ∈ chunks, ∀ b ∈ chunk, b ≤ 0x7F) :
    stream bufferToString parse chunks = streamSpec parse (bufferToString chunks.flatten) := by
  rw [stream_decoded]
  congr 1
  have hall : ∀ b ∈ chunks.flatten, b ≤ 0x7F := by
    intro b hb
    obtain ⟨chunk, hc, hbc⟩ := List.mem_flatten.mp hb
    exact h chunk hc b hbc
  rw [bufferToString, utf8Run_ascii _ hall, List.map_flatten]
  congr 1
  apply List.map_congr_left
  intro chunk hc
  rw [bufferToString, utf8Run_ascii _ (h chunk hc)]

/-- C28. A chunk boundary inside a multi-byte character changes what `_stream`
yields. The response body of the bytes 22 C3 A9 22 0A is the text made of a
quote, `é`, a quote and a newline; its one non-blank line is the JSON string
with the one character `é`, and `_stream` yields the parsed value of that line
when the body arrives in one chunk. When the same bytes arrive in the chunks
22 C3 and A9 22 0A, `_stream` yields the parsed value of another line, the JSON
string with the character U+FFFD twice. -/
theorem stream_splits_character :
    accentChunks.flatten = accentBody ∧
    bufferToString accentBody = [quote, 'é', quote, '\n'] ∧
    (∀ (α : Type) (parse : List Char → Option α),
      streamSpec parse (bufferToString accentBody) = (parse [quote, 'é', quote]).toList ∧
      stream bufferToString parse [accentBody] = (parse [quote, 'é', quote]).toList ∧
      stream bufferToString parse accentChunks
        = (parse [quote, replacementChar, replacementChar, quote]).toList) ∧
    [quote, replacementChar, replacementChar, quote] ≠ [quote, 'é', quote] := by
  refine ⟨by decide, by decide, ?_, by decide⟩
  intro α parse
  refine ⟨?_, ?_, ?_⟩
  · rw [show bufferToString accentBody = [quote, 'é', quote, '\n'] by decide]
    simp [streamSpec, splitNl, consHead, quote, trimTruthy, isJsSpace, filterMap_single]
  · rw [stream_decoded]
    rw [show ([accentBody].map bufferToString).flatten = [quote, 'é', quote, '\n'] by decide]
    simp [streamSpec, splitNl, consHead, quote, trimTruthy, isJsSpace, filterMap_single]
  · rw [stream_decoded]
    rw [show (accentChunks.map bufferToString).flatten
      = [quote, replacementChar, replacementChar, quote, '\n'] by decide]
    simp [streamSpec, splitNl, consHead, quote, replacementChar, trimTruthy, isJsSpace,
      filterMap_single]

/-- C29. The Fetch builder numbers the Search results that passed its filter,
not the Search tasks: with the subjects `A` and `B`, the search for `A` failed
and the search for `B` succeeded, the Search task with `B` as subject is the
one at index 1 and its result carries the URL, and the one Fetch task fetches
that URL with `A` as `metadata.subject` and `label`. -/
theorem fetchTasks_shifts_subjects :
    (searchTasks ["A", "B"] "pricing").map (fun t => t.subject) = [some "A", some "B"] ∧
    searchAB.map (fun r => r.firstUrl) = [none, some "https://b.example/page"] ∧
    fetchTasks ["A", "B"] searchAB =
      [{ nodeType := "fetch", tool := "web_fetch", input := "https://b.example/page",
         subject := some "A", label := some "A" }] := by
  decide

/-- Where every search passed the filter of the Fetch builder, the Fetch tasks
are aligned with the subjects. -/
theorem fetchTasks_aligned (subjects : List String) (searchResults : List SearchOutcome)
    (h : ∀ r ∈ searchResults, hasFirstHit r = true) (i : Nat) (r : SearchOutcome)
    (hr : searchResults[i]? = some r) :
    (fetchTasks subjects searchResults)[i]? = some (fetchTask subjects i r) := by
  have hf : searchResults.filter hasFirstHit = searchResults := List.filter_eq_self.mpr h
  simp [fetchTasks, hf, List.getElem?_map, List.getElem?_enum, hr]

theorem newlineCount_append (a b : String) :
    newlineCount (a ++ b) = newlineCount a + newlineCount b := by
  simp [newlineCount, String.toList]

theorem toDigitsCore_no_newline (fuel n : Nat) (acc : List Char)
    (h : ∀ c ∈ acc, c ≠ '\n') : ∀ c ∈ Nat.toDigitsCore 10 fuel n acc, c ≠ '\n' := by
  induction fuel generalizing n acc with
  | zero => simpa [Nat.toDigitsCore] using h
  | succ fuel ih =>
    have hd : (n % 10).digitChar ≠ '\n' := by
      have hlt : n % 10 < 10 := Nat.mod_lt _ (by decide)
      generalize n % 10 = k at hlt
      interval_cases k <;> decide
    have hacc : ∀ c ∈ (n % 10).digitChar :: acc, c ≠ '\n' := by
      intro c hc
      rcases List.mem_cons.mp hc with rfl | hc
      · exact hd
      · exact h c hc
    unfold Nat.toDigitsCore
    simp only
    by_cases h0 : n / 10 = 0
    · rw [if_pos h0]
      exact hacc
    · rw [if_neg h0]
      exact ih _ _ hacc

theorem newlineCount_toString (n : Nat) : newlineCount (toString n) = 0 := by
  have h : ∀ c ∈ Nat.toDigits 10 n, c ≠ '\n' :=
    toDigitsCore_no_newline _ _ [] (by simp)
  show List.count '\n' (Nat.toDigits 10 n) = 0
  exact List.count_eq_zero.mpr (fun hc => h _ hc rfl)

/-- The newlines that the fields of a memory carry. -/
theorem newlineCount_formatMemory (i : Nat) (m : Memory) :
    newlineCount (formatMemory i m) =
      newlineCount m.type + newlineCount m.trigger + newlineCount m.content := by
  simp only [formatMemory, newlineCount_append, newlineCount_toString]
  have h1 : newlineCount ". [" = 0 := by decide
  have h2 : newlineCount "] " = 0 := by decide
  have h3 : newlineCount ": " = 0 := by decide
  omega

theorem newlineCount_joinNl (lines : List String) (h : lines ≠ []) :
    newlineCount (joinNl lines) + 1 = lines.length + (lines.map newlineCount).sum := by
  induction lines with
  | nil => exact absurd rfl h
  | cons a rest ih =>
    cases rest with
    | nil =>
      simp only [joinNl, List.length_singleton, List.map_cons, List.map_nil, List.sum_cons,
        List.sum_nil]
      omega
    | cons b rest =>
      have := ih (by simp)
      have h1 : newlineCount "\n" = 1 := by decide
      simp only [joinNl, newlineCount_append, h1, List.length_cons, List.map_cons,
        List.sum_cons] at this ⊢
      omega


theorem newlineCount_enum_formatMemory (ms : List Memory) (k : Nat) :
    (((ms.enumFrom k).map (fun p => formatMemory p.1 p.2)).map newlineCount).sum =
      (ms.map (fun m =>
        newlineCount m.type + newlineCount m.trigger + newlineCount m.content)).sum := by
  induction ms generalizing k with
  | nil => rfl
  | cons m ms ih =>
    simp only [List.enumFrom_cons, List.map_cons, List.sum_cons, newlineCount_formatMemory, ih]

/-- The count reported for a recall with at least one memory: the number of
memories plus the number of newlines inside their fields. -/
theorem contextEvent_value (ms : List Memory) (h : ms ≠ []) :
    contextEvent { ok := true, results := some ms } =
      some ((ms.length : Int) + ((ms.map (fun m =>
        newlineCount m.type + newlineCount m.trigger + newlineCount m.content)).sum : Nat)) := by
  have hlen : ms.length ≠ 0 := fun h0 => h (List.length_eq_zero.mp h0)
  have hlines : (ms.enum.map (fun p => formatMemory p.1 p.2)) ≠ [] := by
    intro h0
    have := congrArg List.length h0
    simp at this
    exact h this
  have hj := newlineCount_joinNl _ hlines
  rw [List.enum, newlineCount_enum_formatMemory, List.length_map, List.enumFrom_length] at hj
  have h1 : newlineCount "<context source=\"braindb\" count=\"" = 0 := by decide
  have h2 : newlineCount "\">\nRelevant memories from knowledge graph:\n" = 2 := by decide
  have h3 : newlineCount "\n</context>" = 1 := by decide
  have hne : ∀ a : String, a ++ "\n</context>" ≠ "" := by
    intro a hab
    have := congrArg newlineCount hab
    rw [newlineCount_append, h3] at this
    have h4 : newlineCount "" = 0 := by decide
    omega
  simp only [contextEvent, recallContext, Bool.not_true, Bool.false_or, decide_eq_true_eq, hlen,
    if_false]
  rw [if_pos (hne _)]
  simp only [memoryCount, newlineCount_append, newlineCount_toString, h1, h2, h3, List.enum]
  congr 1
  omega

/-- C30. A newline inside a recalled memory is counted as a memory: for the
recall result with the one memory whose content is `step one`, a newline and
`step two`, the context block has four newlines and the context event carries
`memoryCount` 2, while one memory was recalled. -/
theorem memoryCount_counts_lines :
    recallTwoLines.results.map List.length = some 1 ∧
    recallContext recallTwoLines =
      some ("<context source=\"braindb\" count=\"1\">\nRelevant memories from knowledge graph:\n" ++
        "1. [note] deploy: step one\nstep two\n</context>") ∧
    (recallContext recallTwoLines).map newlineCount = some 4 ∧
    contextEvent recallTwoLines = some 2 := by
  decide

end NodeScaling
